import Mathlib

/-! Linear-recurrence solver (`correct_doubling.cpp`): embedding and verification.

The definitions below follow
`src/math/consecutive_terms_of_linear_recurrent_sequence/sol/correct_doubling.cpp`
function by function.

* A field element (`static_modint`) is its stored representative `_v`, a natural number.
* `unsigned int` / `unsigned long long` expressions are reduced modulo `2^32` / `2^64`
  explicitly (`u32`, `u64`, `sub32`, `sub64`).
* `std::vector<mint>` is `List Nat`; reading `a[i]` is `a.getD i 0`, writing is `a.set i v`.
* A failed `assert` is the result `none`; a function that contains an assertion (directly or
  through a callee) returns an `Option`.
* `for` loops are `forUp` / `forDown`; `while` loops are structural recursions on a bound of
  the loop variant (the bound is shown to be sufficient in the theorem part).
* `int` index arithmetic (sizes, offsets, shifts) is done in `Nat`; the source is only defined
  while these stay below `2^31`.
* The twiddle tables of `fft_info` cover transforms of length up to `2^23`; a longer transform
  indexes past them in the source (here such a read yields `0`). The theorems about values
  therefore state bounds on the sizes under which every product stays within `2^23`.
-/

namespace atcoder

/-! ## Machine words and loops -/

/-- Value of an expression of type `unsigned int`. -/
def u32 (x : Nat) : Nat := x % 2 ^ 32

/-- Value of an expression of type `unsigned long long`. -/
def u64 (x : Nat) : Nat := x % 2 ^ 64

/-- Subtraction `a - b` of two `unsigned int` values. -/
def sub32 (a b : Nat) : Nat := (a + (2 ^ 32 - b % 2 ^ 32)) % 2 ^ 32

/-- Subtraction `a - b` of two `unsigned long long` values. -/
def sub64 (a b : Nat) : Nat := (a + (2 ^ 64 - b % 2 ^ 64)) % 2 ^ 64

/-- Bitwise complement `~x` of an `unsigned int`. -/
def not32 (x : Nat) : Nat := 2 ^ 32 - 1 - x % 2 ^ 32

/-- Loop `for (i = 0; i < n; i++) s = body i s`. -/
def forUp {σ : Type} : Nat → (Nat → σ → σ) → σ → σ
  | 0, _, s => s
  | n + 1, body, s => body n (forUp n body s)

/-- Loop `for (i = n - 1; i >= 0; i--) s = body i s`. -/
def forDown {σ : Type} : Nat → (Nat → σ → σ) → σ → σ
  | 0, _, s => s
  | n + 1, body, s => forDown n body (body n s)

/-- Method `std::vector::resize(n)` on a vector of field elements (new entries are `mint()`). -/
def resize (l : List Nat) (n : Nat) : List Nat :=
  l.take n ++ List.replicate (n - l.length) 0

/-- Loop `while (f.size() and f.back() == 0) f.pop_back();`. -/
def stripZeros (f : List Nat) : List Nat :=
  f.rdropWhile (fun x => x == 0)

/-! ## `atcoder::internal` arithmetic helpers -/

/-- Function `safe_mod(x, m)`: `x %= m; if (x < 0) x += m;` (`%` truncates toward zero). -/
def safe_mod (x m : Int) : Int :=
  let x := Int.tmod x m
  if x < 0 then x + m else x

/-- The struct `barrett`: the modulus `_m` and the precomputed `im`. -/
structure barrett where
  /-- The modulus. -/
  _m : Nat
  /-- The reciprocal `(unsigned long long)(-1) / m + 1`. -/
  im : Nat
deriving DecidableEq, Repr

/-- Constructor `barrett(m)`. -/
def barrett.new (m : Nat) : barrett :=
  { _m := m, im := u64 ((2 ^ 64 - 1) / m + 1) }

/-- Method `barrett::umod`. -/
def barrett.umod (bt : barrett) : Nat := bt._m

/-- Method `barrett::mul(a, b)`. -/
def barrett.mul (bt : barrett) (a b : Nat) : Nat :=
  let z := u64 (a * b)
  let x := u64 (z * bt.im / 2 ^ 64)
  let v := u32 (sub64 z (u64 (x * bt._m)))
  if bt._m ≤ v then u32 (v + bt._m) else v

/-- The `while (n)` loop of `pow_mod_constexpr`; state `(r, y, n)`. -/
def pow_mod_constexprLoop (_m : Nat) : Nat → Nat → Nat → Nat → Nat
  | 0, r, _, _ => r
  | fuel + 1, r, y, n =>
    if n = 0 then r
    else
      let r := if n % 2 = 1 then u64 (r * y) % _m else r
      let y := u64 (y * y) % _m
      pow_mod_constexprLoop _m fuel r y (n / 2)

/-- Function `pow_mod_constexpr(x, n, m)` for `0 <= n`, `1 <= m`. -/
def pow_mod_constexpr (x : Int) (n : Nat) (m : Nat) : Nat :=
  if m = 1 then 0
  else pow_mod_constexprLoop m n 1 (safe_mod x m).toNat n

/-- Loop `while (d % 2 == 0) d /= 2;`. -/
def oddPartLoop : Nat → Nat → Nat
  | 0, d => d
  | fuel + 1, d => if d % 2 = 0 then oddPartLoop fuel (d / 2) else d

/-- Loop `while (t != n - 1 && y != 1 && y != n - 1) { y = y * y % n; t <<= 1; }`;
returns the final `(t, y)`. -/
def millerRabinLoop (n : Nat) : Nat → Nat → Nat → Nat × Nat
  | 0, t, y => (t, y)
  | fuel + 1, t, y =>
    if t ≠ n - 1 ∧ y ≠ 1 ∧ y ≠ n - 1 then millerRabinLoop n fuel (t * 2) (y * y % n)
    else (t, y)

/-- Function `is_prime_constexpr(n)`. -/
def is_prime_constexpr (n : Nat) : Bool :=
  if n ≤ 1 then false
  else if n = 2 ∨ n = 7 ∨ n = 61 then true
  else if n % 2 = 0 then false
  else
    let d := oddPartLoop n (n - 1)
    [2, 7, 61].all fun a =>
      let ty := millerRabinLoop n 32 d (pow_mod_constexpr a d n)
      !(ty.2 ≠ n - 1 ∧ ty.1 % 2 = 0)

/-- The `while (t)` loop of `inv_gcd`; state `(s, t, m0, m1)`. -/
def inv_gcdLoop : Nat → Int → Int → Int → Int → Int × Int × Int × Int
  | 0, s, t, m0, m1 => (s, t, m0, m1)
  | fuel + 1, s, t, m0, m1 =>
    if t = 0 then (s, t, m0, m1)
    else
      let u := Int.tdiv s t
      let s := s - t * u
      let m0 := m0 - m1 * u
      inv_gcdLoop fuel t s m1 m0

/-- Function `inv_gcd(a, b)` for `1 <= b`: the pair `(g, x)`. -/
def inv_gcd (a b : Int) : Int × Int :=
  let a := safe_mod a b
  if a = 0 then (b, 0)
  else
    let st := inv_gcdLoop (a.toNat + 1) b a 0 1
    let s := st.1
    let m0 := st.2.2.1
    let m0 := if m0 < 0 then m0 + Int.tdiv b s else m0
    (s, m0)

/-- Loop `while (x % 2 == 0) x /= 2;` and `while (x % i == 0) x /= i;` of
`primitive_root_constexpr`. -/
def divOutLoop (i : Nat) : Nat → Nat → Nat
  | 0, x => x
  | fuel + 1, x => if x % i = 0 then divOutLoop i fuel (x / i) else x

/-- Loop `for (int i = 3; (long long)(i) * i <= x; i += 2)` of `primitive_root_constexpr`;
state `(divs, x)`. -/
def primitiveRootDivsLoop : Nat → Nat → List Nat → Nat → List Nat × Nat
  | 0, _, divs, x => (divs, x)
  | fuel + 1, i, divs, x =>
    if i * i ≤ x then
      if x % i = 0 then primitiveRootDivsLoop fuel (i + 2) (divs ++ [i]) (divOutLoop i x x)
      else primitiveRootDivsLoop fuel (i + 2) divs x
    else (divs, x)

/-- Loop `for (int g = 2;; g++)` of `primitive_root_constexpr`. -/
def primitiveRootSearch (m : Nat) (divs : List Nat) : Nat → Nat → Nat
  | 0, g => g
  | fuel + 1, g =>
    if divs.all (fun dv => pow_mod_constexpr g ((m - 1) / dv) m != 1) then g
    else primitiveRootSearch m divs fuel (g + 1)

/-- Function `primitive_root_constexpr(m)`. -/
def primitive_root_constexpr (m : Nat) : Nat :=
  if m = 2 then 1
  else if m = 167772161 then 3
  else if m = 469762049 then 3
  else if m = 754974721 then 11
  else if m = 998244353 then 3
  else
    let x := divOutLoop 2 m ((m - 1) / 2)
    let dx := primitiveRootDivsLoop m 3 [2] x
    let divs := if dx.2 > 1 then dx.1 ++ [dx.2] else dx.1
    primitiveRootSearch m divs m 2

/-! ## `static_modint<m>` -/

namespace static_modint

/-- Constructor `static_modint(T v)` for a signed integer type. -/
def ofInt (m : Nat) (v : Int) : Nat :=
  let x := Int.tmod v (m : Int)
  let x := if x < 0 then x + (m : Int) else x
  x.toNat

/-- Constructor `static_modint(T v)` for an unsigned integer type. -/
def ofNat (m : Nat) (v : Nat) : Nat := v % m

/-- Operator `+=`. -/
def add (m a b : Nat) : Nat :=
  let v := u32 (a + b)
  if v ≥ m then sub32 v m else v

/-- Operator `-=`. -/
def sub (m a b : Nat) : Nat :=
  let v := sub32 a b
  if v ≥ m then u32 (v + m) else v

/-- Operator `*=`. -/
def mul (m a b : Nat) : Nat :=
  u32 (u64 (a * b) % m)

/-- Unary `operator-`: `mint() - *this`. -/
def neg (m a : Nat) : Nat := sub m 0 a

/-- The `while (n)` loop of `pow`; state `(x, r, n)`. -/
def powLoop (m : Nat) : Nat → Nat → Nat → Nat → Nat
  | 0, _, r, _ => r
  | fuel + 1, x, r, n =>
    if n = 0 then r
    else
      let r := if n % 2 = 1 then mul m r x else r
      let x := mul m x x
      powLoop m fuel x r (n / 2)

/-- Method `pow(n)`; `assert(0 <= n)`. -/
def pow (m a : Nat) (n : Int) : Option Nat :=
  if 0 ≤ n then some (powLoop m n.toNat a (ofInt m 1) n.toNat) else none

/-- Method `inv()`; `prime` is `is_prime<m>`. -/
def inv (m a : Nat) : Option Nat :=
  if is_prime_constexpr m then
    if a ≠ 0 then pow m a (sub32 m 2) else none
  else
    let eg := inv_gcd a m
    if eg.1 = 1 then some (ofInt m eg.2) else none

end static_modint

/-! ## `dynamic_modint<id>` (the static member `bt` is a parameter) -/

namespace dynamic_modint

/-- Method `mod()`. -/
def mod (bt : barrett) : Nat := bt.umod

/-- Constructor `dynamic_modint(T v)` for a signed integer type. -/
def ofInt (bt : barrett) (v : Int) : Nat :=
  let x := Int.tmod v (mod bt : Int)
  let x := if x < 0 then x + (mod bt : Int) else x
  x.toNat

/-- Operator `*=`. -/
def mul (bt : barrett) (a b : Nat) : Nat := bt.mul a b

/-- Method `inv()`. -/
def inv (bt : barrett) (a : Nat) : Option Nat :=
  let eg := inv_gcd a (mod bt)
  if eg.1 = 1 then some (ofInt bt eg.2) else none

end dynamic_modint

/-! ## `mint = atcoder::modint998244353` -/

namespace mint

/-- The modulus `998244353`. -/
def mod : Nat := 998244353

/-- Constructor from a signed integer. -/
def ofInt (v : Int) : Nat := static_modint.ofInt mod v

/-- Constructor from an unsigned integer. -/
def ofNat (v : Nat) : Nat := static_modint.ofNat mod v

/-- Operator `+`. -/
def add (a b : Nat) : Nat := static_modint.add mod a b

/-- Operator `-`. -/
def sub (a b : Nat) : Nat := static_modint.sub mod a b

/-- Operator `*`. -/
def mul (a b : Nat) : Nat := static_modint.mul mod a b

/-- Unary `-`. -/
def neg (a : Nat) : Nat := static_modint.neg mod a

/-- Method `pow`. -/
def pow (a : Nat) (n : Int) : Option Nat := static_modint.pow mod a n

/-- Method `inv`. -/
def inv (a : Nat) : Option Nat := static_modint.inv mod a

end mint

/-! ## `atcoder::internal` bit helpers -/

/-- The loop `while ((1U << x) < (unsigned int)(n)) x++;` of `ceil_pow2`. -/
def ceil_pow2Loop (n : Nat) : Nat → Nat → Nat
  | 0, x => x
  | fuel + 1, x => if u32 (2 ^ x) < u32 n then ceil_pow2Loop n fuel (x + 1) else x

/-- Function `ceil_pow2(n)`: minimum `x` with `n <= 2**x`. -/
def ceil_pow2 (n : Nat) : Nat := ceil_pow2Loop n 32 0

/-- The loop `while (!(n & (1 << x))) x++;` of `bsf_constexpr`. -/
def bsf_constexprLoop (n : Nat) : Nat → Nat → Nat
  | 0, x => x
  | fuel + 1, x => if n / 2 ^ x % 2 = 0 then bsf_constexprLoop n fuel (x + 1) else x

/-- Function `bsf_constexpr(n)` for `1 <= n`. -/
def bsf_constexpr (n : Nat) : Nat := bsf_constexprLoop n 32 0

/-- Count of trailing zero bits, scanning upward from bit `x`. -/
def bsfLoop : Nat → Nat → Nat → Nat
  | 0, x, _ => x
  | fuel + 1, x, n => if n % 2 = 1 then x else bsfLoop fuel (x + 1) (n / 2)

/-- Function `bsf(n)` (`__builtin_ctz`) for `1 <= n`: minimum `x` with bit `x` of `n` set. -/
def bsf (n : Nat) : Nat := bsfLoop 32 0 n

/-! ## `fft_info<mint>` for `mint = modint998244353` -/

/-- The tables of `fft_info`. -/
structure fft_info where
  /-- Table `root`: `root[i]^(2^i) == 1`. -/
  root : List Nat
  /-- Table `iroot`: `root[i] * iroot[i] == 1`. -/
  iroot : List Nat
  /-- Table `rate2`. -/
  rate2 : List Nat
  /-- Table `irate2`. -/
  irate2 : List Nat
  /-- Table `rate3`. -/
  rate3 : List Nat
  /-- Table `irate3`. -/
  irate3 : List Nat
deriving DecidableEq, Repr

/-- Constant `fft_info::rank2 = bsf_constexpr(mint::mod() - 1)`. -/
def rank2 : Nat := bsf_constexpr (mint.mod - 1)

/-- Template argument `g = primitive_root<mint::mod()>`. -/
def g : Nat := primitive_root_constexpr mint.mod

/-- The two loops of `fft_info()` filling `rate2`/`irate2` (with `k = 2`) and
`rate3`/`irate3` (with `k = 3`); state `(rate, irate, prod, iprod)`. -/
def rateLoop (root iroot : List Nat) (k : Nat) : List Nat × List Nat :=
  let st := forUp (rank2 + 1 - k)
    (fun i (st : List Nat × List Nat × Nat × Nat) =>
      let rate := st.1.set i (mint.mul (root.getD (i + k) 0) st.2.2.1)
      let irate := st.2.1.set i (mint.mul (iroot.getD (i + k) 0) st.2.2.2)
      let prod := mint.mul st.2.2.1 (iroot.getD (i + k) 0)
      let iprod := mint.mul st.2.2.2 (root.getD (i + k) 0)
      (rate, irate, prod, iprod))
    (List.replicate (rank2 + 1 - k) 0, List.replicate (rank2 + 1 - k) 0,
      mint.ofInt 1, mint.ofInt 1)
  (st.1, st.2.1)

/-- Constructor `fft_info()`. -/
def fft_info.new : Option fft_info := do
  let rootTop ← mint.pow (mint.ofInt g) (((mint.mod - 1) / 2 ^ rank2 : Nat) : Int)
  let irootTop ← mint.inv rootTop
  let root := (List.replicate (rank2 + 1) 0).set rank2 rootTop
  let iroot := (List.replicate (rank2 + 1) 0).set rank2 irootTop
  let ri := forDown rank2
    (fun i (st : List Nat × List Nat) =>
      (st.1.set i (mint.mul (st.1.getD (i + 1) 0) (st.1.getD (i + 1) 0)),
       st.2.set i (mint.mul (st.2.getD (i + 1) 0) (st.2.getD (i + 1) 0))))
    (root, iroot)
  let r2 := rateLoop ri.1 ri.2 2
  let r3 := rateLoop ri.1 ri.2 3
  pure { root := ri.1, iroot := ri.2, rate2 := r2.1, irate2 := r2.2,
         rate3 := r3.1, irate3 := r3.2 }

/-! ## `butterfly` and `butterfly_inv` -/

/-- The branch `h - len == 1` of `butterfly`: one radix-2 pass. The table read
`info.rate2[bsf(~s)]` is written with `getD`; the index is within the `rank2 - 1` entries for
every `a` of at most `2^23` entries, and this definition stands for the source on that range
only (past it the source indexes beyond the array). -/
def butterfly_radix2 (info : fft_info) (h len : Nat) (a : List Nat) : List Nat :=
  let p := 2 ^ (h - len - 1)
  (forUp (2 ^ len)
    (fun s (st : List Nat × Nat) =>
      let rot := st.2
      let offset := s * 2 ^ (h - len)
      let a := forUp p
        (fun i a =>
          let l := a.getD (i + offset) 0
          let r := mint.mul (a.getD (i + offset + p) 0) rot
          (a.set (i + offset) (mint.add l r)).set (i + offset + p) (mint.sub l r))
        st.1
      let rot :=
        if s + 1 ≠ 2 ^ len then mint.mul rot (info.rate2.getD (bsf (not32 s)) 0) else rot
      (a, rot))
    (a, mint.ofInt 1)).1

/-- The `4-base` branch of `butterfly`: one radix-4 pass. The table read
`info.rate3[bsf(~s)]` is written with `getD`; the index is within the `rank2 - 2` entries for
every `a` of at most `2^23` entries, and this definition stands for the source on that range
only (past it the source indexes beyond the array). -/
def butterfly_radix4 (info : fft_info) (h len : Nat) (a : List Nat) : List Nat :=
  let p := 2 ^ (h - len - 2)
  let imag := info.root.getD 2 0
  (forUp (2 ^ len)
    (fun s (st : List Nat × Nat) =>
      let rot := st.2
      let rot2 := mint.mul rot rot
      let rot3 := mint.mul rot2 rot
      let offset := s * 2 ^ (h - len)
      let a := forUp p
        (fun i a =>
          let mod2 := u64 (mint.mod * mint.mod)
          let a0 := a.getD (i + offset) 0
          let a1 := u64 (a.getD (i + offset + p) 0 * rot)
          let a2 := u64 (a.getD (i + offset + 2 * p) 0 * rot2)
          let a3 := u64 (a.getD (i + offset + 3 * p) 0 * rot3)
          let a1na3imag := u64 (mint.ofNat (sub64 (u64 (a1 + mod2)) a3) * imag)
          let na2 := sub64 mod2 a2
          let a := a.set (i + offset) (mint.ofNat (u64 (u64 (u64 (a0 + a2) + a1) + a3)))
          let a := a.set (i + offset + 1 * p)
            (mint.ofNat (u64 (u64 (a0 + a2) + sub64 (u64 (2 * mod2)) (u64 (a1 + a3)))))
          let a := a.set (i + offset + 2 * p) (mint.ofNat (u64 (u64 (a0 + na2) + a1na3imag)))
          a.set (i + offset + 3 * p)
            (mint.ofNat (u64 (u64 (a0 + na2) + sub64 mod2 a1na3imag))))
        st.1
      let rot :=
        if s + 1 ≠ 2 ^ len then mint.mul rot (info.rate3.getD (bsf (not32 s)) 0) else rot
      (a, rot))
    (a, mint.ofInt 1)).1

/-- The loop `while (len < h)` of `butterfly`. -/
def butterflyLoop (info : fft_info) (h : Nat) : Nat → Nat → List Nat → List Nat
  | 0, _, a => a
  | fuel + 1, len, a =>
    if len < h then
      if h - len = 1 then butterflyLoop info h fuel (len + 1) (butterfly_radix2 info h len a)
      else butterflyLoop info h fuel (len + 2) (butterfly_radix4 info h len a)
    else a

/-- Function `butterfly(a)`; `info` is the function-local static `fft_info<mint>`. -/
def butterfly (a : List Nat) : Option (List Nat) := do
  let info ← fft_info.new
  let h := ceil_pow2 a.length
  pure (butterflyLoop info h h 0 a)

/-- The branch `len == 1` of `butterfly_inv`: one radix-2 pass. The table read
`info.irate2[bsf(~s)]` is written with `getD`; its guard holds for no block of this pass. -/
def butterfly_inv_radix2 (info : fft_info) (h len : Nat) (a : List Nat) : List Nat :=
  let p := 2 ^ (h - len)
  (forUp (2 ^ (len - 1))
    (fun s (st : List Nat × Nat) =>
      let irot := st.2
      let offset := s * 2 ^ (h - len + 1)
      let a := forUp p
        (fun i a =>
          let l := a.getD (i + offset) 0
          let r := a.getD (i + offset + p) 0
          (a.set (i + offset) (mint.add l r)).set (i + offset + p)
            (mint.ofNat (u64 (sub32 (u32 (mint.mod + l)) r * irot))))
        st.1
      let irot :=
        if s + 1 ≠ 2 ^ (len - 1) then mint.mul irot (info.irate2.getD (bsf (not32 s)) 0)
        else irot
      (a, irot))
    (a, mint.ofInt 1)).1

/-- The `4-base` branch of `butterfly_inv`: one radix-4 pass. The table read
`info.irate3[bsf(~s)]` is written with `getD`; the index is within the `rank2 - 2` entries
for every `a` of at most `2^23` entries, and this definition stands for the source on that
range only (past it the source indexes beyond the array). -/
def butterfly_inv_radix4 (info : fft_info) (h len : Nat) (a : List Nat) : List Nat :=
  let p := 2 ^ (h - len)
  let iimag := info.iroot.getD 2 0
  (forUp (2 ^ (len - 2))
    (fun s (st : List Nat × Nat) =>
      let irot := st.2
      let irot2 := mint.mul irot irot
      let irot3 := mint.mul irot2 irot
      let offset := s * 2 ^ (h - len + 2)
      let a := forUp p
        (fun i a =>
          let a0 := a.getD (i + offset + 0 * p) 0
          let a1 := a.getD (i + offset + 1 * p) 0
          let a2 := a.getD (i + offset + 2 * p) 0
          let a3 := a.getD (i + offset + 3 * p) 0
          let a2na3iimag := mint.ofNat (u64 (sub64 (u64 (mint.mod + a2)) a3 * iimag))
          let a := a.set (i + offset) (mint.ofNat (u64 (u64 (u64 (a0 + a1) + a2) + a3)))
          let a := a.set (i + offset + 1 * p)
            (mint.ofNat (u64 (u64 (u64 (a0 + sub64 mint.mod a1) + a2na3iimag) * irot)))
          let a := a.set (i + offset + 2 * p)
            (mint.ofNat
              (u64 (u64 (u64 (u64 (a0 + a1) + sub64 mint.mod a2) + sub64 mint.mod a3) * irot2)))
          a.set (i + offset + 3 * p)
            (mint.ofNat
              (u64 (u64 (u64 (a0 + sub64 mint.mod a1) + sub64 mint.mod a2na3iimag) * irot3))))
        st.1
      let irot :=
        if s + 1 ≠ 2 ^ (len - 2) then mint.mul irot (info.irate3.getD (bsf (not32 s)) 0)
        else irot
      (a, irot))
    (a, mint.ofInt 1)).1

/-- The loop `while (len)` of `butterfly_inv`. -/
def butterfly_invLoop (info : fft_info) (h : Nat) : Nat → Nat → List Nat → List Nat
  | 0, _, a => a
  | fuel + 1, len, a =>
    if len ≠ 0 then
      if len = 1 then
        butterfly_invLoop info h fuel (len - 1) (butterfly_inv_radix2 info h len a)
      else butterfly_invLoop info h fuel (len - 2) (butterfly_inv_radix4 info h len a)
    else a

/-- Function `butterfly_inv(a)`. -/
def butterfly_inv (a : List Nat) : Option (List Nat) := do
  let info ← fft_info.new
  let h := ceil_pow2 a.length
  pure (butterfly_invLoop info h h h a)

/-! ## Convolution -/

/-- Function `convolution_naive(a, b)`, for `a`, `b` not both empty (`convolution` calls it
with both non-empty); for two empty vectors the source cannot construct `ans(n + m - 1)`. -/
def convolution_naive (a b : List Nat) : List Nat :=
  let n := a.length
  let m := b.length
  let ans := List.replicate (n + m - 1) 0
  if n < m then
    forUp m
      (fun j ans =>
        forUp n
          (fun i ans =>
            ans.set (i + j) (mint.add (ans.getD (i + j) 0) (mint.mul (a.getD i 0) (b.getD j 0))))
          ans)
      ans
  else
    forUp n
      (fun i ans =>
        forUp m
          (fun j ans =>
            ans.set (i + j) (mint.add (ans.getD (i + j) 0) (mint.mul (a.getD i 0) (b.getD j 0))))
          ans)
      ans

/-- Function `convolution_fft(a, b)`. The `int` value `z = 1 << ceil_pow2(n + m - 1)` is the
natural number `2 ^ ceil_pow2 (n + m - 1)`: this definition stands for the source for
`n + m - 1 <= 2^23`, the largest transform the tables of `fft_info` support; past that range
the source reads beyond `rate3` and, further on, overflows `int`. -/
def convolution_fft (a b : List Nat) : Option (List Nat) := do
  let n := a.length
  let m := b.length
  let z := 2 ^ ceil_pow2 (n + m - 1)
  let a := resize a z
  let a ← butterfly a
  let b := resize b z
  let b ← butterfly b
  let a := forUp z (fun i a => a.set i (mint.mul (a.getD i 0) (b.getD i 0))) a
  let a ← butterfly_inv a
  let a := resize a (n + m - 1)
  let iz ← mint.inv (mint.ofInt (z : Nat))
  pure (forUp (n + m - 1) (fun i a => a.set i (mint.mul (a.getD i 0) iz)) a)

/-- Function `convolution(a, b)` on vectors of `mint`. -/
def convolution (a b : List Nat) : Option (List Nat) :=
  let n := a.length
  let m := b.length
  if n = 0 ∨ m = 0 then some []
  else if min n m ≤ 60 then some (convolution_naive a b)
  else convolution_fft a b

end atcoder

/-! ## Formal power series `fps = std::vector<mint>` -/

open atcoder

namespace fps

/-- Operator `+` on `fps`. -/
def add (f g : List Nat) : List Nat :=
  let res := if f.length < g.length then resize f g.length else f
  forUp g.length (fun i res => res.set i (mint.add (res.getD i 0) (g.getD i 0))) res

/-- Operator `-` on `fps`. -/
def sub (f g : List Nat) : List Nat :=
  let res := if f.length < g.length then resize f g.length else f
  forUp g.length (fun i res => res.set i (mint.sub (res.getD i 0) (g.getD i 0))) res

/-- Operator `*` on `fps`. -/
def mul (f g : List Nat) : Option (List Nat) := convolution f g

end fps

/-- The loop `for (int k = 1; k < n; k *= 2)` of `fps_inv`; the first argument bounds the
number of iterations and `none` is returned only when it is exhausted or an assertion
fails. -/
def fps_invLoop (f : List Nat) (n : Nat) : Nat → Nat → List Nat → Option (List Nat)
  | 0, k, res => if k < n then none else some res
  | fuel + 1, k, res =>
    if k < n then do
      let rr ← fps.mul res res
      let tmp ← fps.mul f rr
      let tmp := resize tmp (2 * k)
      let res := resize res (2 * k)
      let res := forUp (2 * k)
        (fun i res => res.set i (mint.sub (mint.mul (mint.ofInt 2) (res.getD i 0)) (tmp.getD i 0)))
        res
      fps_invLoop f n fuel (2 * k) res
    else some res

/-- Function `fps_inv(f, n)`. The parameter `int n` is a natural number: this definition
stands for the source for `size(f) + 2 n <= 2^23`, the range in which the products of the
loop stay within the transform's range. -/
def fps_inv (f : List Nat) (n : Nat) : Option (List Nat) := do
  let i0 ← mint.inv (f.getD 0 0)
  let res ← fps_invLoop f n n 1 [i0]
  pure (resize res n)

namespace fps

/-- Operator `/` on `fps` (polynomial division). -/
def div (f g : List Nat) : Option (List Nat) :=
  let f := stripZeros f
  let g := stripZeros g
  if g.length = 0 then none
  else if f.length < g.length then some []
  else do
    let f := f.reverse
    let g := g.reverse
    let qd := f.length - g.length
    let f := resize f (qd + 1)
    let gi ← fps_inv g (qd + 1)
    let q ← fps.mul f gi
    let q := resize q (qd + 1)
    pure q.reverse

end fps

/-- Function `divmod(f, g)`. -/
def divmod (f g : List Nat) : Option (List Nat × List Nat) := do
  let q ← fps.div f g
  let gq ← fps.mul g q
  let r := stripZeros (fps.sub f gq)
  if r.length < g.length then some (q, r) else none

namespace fps

/-- Operator `%` on `fps`. -/
def mod (f g : List Nat) : Option (List Nat) := (divmod f g).map Prod.snd

end fps

/-! ## The rational-series extractor and the recurrence solver -/

/-- The lambda `rec` of `consecutive_terms_of_rational` (`x^{-k} mod Q`), with `d = deg Q`;
the first argument bounds the recursion depth. -/
def consecutive_terms_of_rational.rec (q : List Nat) (d : Nat) : Nat → Nat → Option (List Nat)
  | 0, k =>
    if k = 0 then some (if d > 0 then [mint.ofInt 1] else [])
    else if k = 1 then do
      let inv_q0 ← mint.inv (q.getD 0 0)
      pure (forUp d (fun j ix => ix.set j (mint.mul (mint.neg (q.getD (j + 1) 0)) inv_q0))
        (List.replicate d 0))
    else none
  | fuel + 1, k =>
    if k = 0 then some (if d > 0 then [mint.ofInt 1] else [])
    else if k = 1 then do
      let inv_q0 ← mint.inv (q.getD 0 0)
      pure (forUp d (fun j ix => ix.set j (mint.mul (mint.neg (q.getD (j + 1) 0)) inv_q0))
        (List.replicate d 0))
    else do
      let f ← consecutive_terms_of_rational.rec q d fuel (u64 (k + 1) / 2)
      let sq_f ← fps.mul f f
      let sq_f := if k % 2 = 1 then 0 :: sq_f else sq_f
      fps.mod sq_f q

/-- Function `consecutive_terms_of_rational(p, q, k, m)`; `k` is a `uint64_t`. -/
def consecutive_terms_of_rational (p q : List Nat) (k m : Nat) : Option (List Nat) :=
  if ¬ (q.length ≠ 0 ∧ q.getD 0 0 ≠ 0 ∧ q.getD (q.length - 1) 0 ≠ 0) then none
  else if ¬ (p.length < q.length) then none
  else do
    let d := q.length - 1
    let ix_k ← consecutive_terms_of_rational.rec q d 64 k
    let t ← fps.mul ix_k p
    let pk ← fps.mod t q
    let qi ← fps_inv q m
    let res ← fps.mul pk qi
    pure (resize res m)

/-- Function `consecutive_terms_of_linear_reccurrent_sequence(a, c, k, m)`; `k` is a
`uint64_t`. -/
def consecutive_terms_of_linear_reccurrent_sequence (a c : List Nat) (k m : Nat) :
    Option (List Nat) := do
  let d := c.length
  let q := (List.replicate (d + 1) 0).set 0 (mint.ofInt 1)
  let q := forUp d (fun i q => q.set (i + 1) (mint.neg (c.getD i 0))) q
  let q := stripZeros q
  let p ← fps.mul a q
  let p := resize p a.length
  let rp ← divmod p q
  let r := rp.1.drop (min rp.1.length k)
  let r := resize r m
  let s ← consecutive_terms_of_rational rp.2 q k m
  pure (fps.add r s)

/-! ## Specification-side and proof-side definitions -/

namespace atcoder

/-- All entries are canonical representatives, `0 <= x < 998244353`. -/
def Valid (l : List Nat) : Prop := ∀ x ∈ l, x < mint.mod

instance (l : List Nat) : Decidable (Valid l) := by unfold Valid; infer_instance

/-- The field element stored at index `j` of a vector. -/
def vecK (l : List Nat) (j : Nat) : ZMod mint.mod := ((l.getD j 0 : Nat) : ZMod mint.mod)

/-- The polynomial / power series whose coefficient list is `l`. -/
def toPS (l : List Nat) : PowerSeries (ZMod mint.mod) := PowerSeries.mk (vecK l)

/-- Value of `rot` at the start of iteration `s` of the block loop of a butterfly pass:
`rot = 1`, then `rot *= rate[bsf(~s)]`. -/
def rotSeq (rate : List Nat) : Nat → Nat
  | 0 => mint.ofInt 1
  | s + 1 => mint.mul (rotSeq rate s) (rate.getD (bsf (not32 s)) 0)

/-- One iteration of the inner loop of a butterfly pass in generic form: read the `r` entries
`a[base + v * p]`, then write `W reads u` to `a[base + u * p]` for `u = 0 .. r-1`. -/
def stridedStep (r p base : Nat) (W : List Nat → Nat → Nat) (a : List Nat) : List Nat :=
  forUp r
    (fun u acc =>
      acc.set (base + u * p) (W ((List.range r).map fun v => a.getD (base + v * p) 0) u))
    a

/-- A butterfly pass in generic form: `S` blocks of `r * p` entries, the twiddle `rot` updated
from the table `rate` after every block but the last. -/
def genPass (r p S : Nat) (rate : List Nat) (W : Nat → List Nat → Nat → Nat)
    (a : List Nat) : List Nat :=
  (forUp S
    (fun s (st : List Nat × Nat) =>
      (forUp p (fun i a => stridedStep r p (i + s * (r * p)) (W st.2) a) st.1,
       if s + 1 ≠ S then mint.mul st.2 (rate.getD (bsf (not32 s)) 0) else st.2))
    (a, mint.ofInt 1)).1

end atcoder

namespace atcoder

/-- Values written by the radix-2 step of `butterfly`, from the entries read. -/
def W_fwd2 (rot : Nat) (x : List Nat) (u : Nat) : Nat :=
  let l := x.getD 0 0
  let r := mint.mul (x.getD 1 0) rot
  if u = 0 then mint.add l r else mint.sub l r

/-- Values written by the radix-4 step of `butterfly`, from the entries read. -/
def W_fwd4 (imag rot : Nat) (x : List Nat) (u : Nat) : Nat :=
  let rot2 := mint.mul rot rot
  let rot3 := mint.mul rot2 rot
  let mod2 := u64 (mint.mod * mint.mod)
  let a0 := x.getD 0 0
  let a1 := u64 (x.getD 1 0 * rot)
  let a2 := u64 (x.getD 2 0 * rot2)
  let a3 := u64 (x.getD 3 0 * rot3)
  let a1na3imag := u64 (mint.ofNat (sub64 (u64 (a1 + mod2)) a3) * imag)
  let na2 := sub64 mod2 a2
  if u = 0 then mint.ofNat (u64 (u64 (u64 (a0 + a2) + a1) + a3))
  else if u = 1 then mint.ofNat (u64 (u64 (a0 + a2) + sub64 (u64 (2 * mod2)) (u64 (a1 + a3))))
  else if u = 2 then mint.ofNat (u64 (u64 (a0 + na2) + a1na3imag))
  else mint.ofNat (u64 (u64 (a0 + na2) + sub64 mod2 a1na3imag))

/-- Values written by the radix-2 step of `butterfly_inv`, from the entries read. -/
def W_inv2 (irot : Nat) (x : List Nat) (u : Nat) : Nat :=
  let l := x.getD 0 0
  let r := x.getD 1 0
  if u = 0 then mint.add l r else mint.ofNat (u64 (sub32 (u32 (mint.mod + l)) r * irot))

/-- Values written by the radix-4 step of `butterfly_inv`, from the entries read. -/
def W_inv4 (iimag irot : Nat) (x : List Nat) (u : Nat) : Nat :=
  let irot2 := mint.mul irot irot
  let irot3 := mint.mul irot2 irot
  let a0 := x.getD 0 0
  let a1 := x.getD 1 0
  let a2 := x.getD 2 0
  let a3 := x.getD 3 0
  let a2na3iimag := mint.ofNat (u64 (sub64 (u64 (mint.mod + a2)) a3 * iimag))
  if u = 0 then mint.ofNat (u64 (u64 (u64 (a0 + a1) + a2) + a3))
  else if u = 1 then mint.ofNat (u64 (u64 (u64 (a0 + sub64 mint.mod a1) + a2na3iimag) * irot))
  else if u = 2 then
    mint.ofNat
      (u64 (u64 (u64 (u64 (a0 + a1) + sub64 mint.mod a2) + sub64 mint.mod a3) * irot2))
  else
    mint.ofNat
      (u64 (u64 (u64 (a0 + sub64 mint.mod a1) + sub64 mint.mod a2na3iimag) * irot3))

end atcoder

namespace atcoder

/-- The tables held by the function-local static `info` of `butterfly` / `butterfly_inv`. -/
def infoTables : fft_info := fft_info.new.getD ⟨[], [], [], [], [], []⟩

/-- Entry `root[j]` as a field element. -/
def rootK (j : Nat) : ZMod mint.mod := ((infoTables.root.getD j 0 : Nat) : ZMod mint.mod)

/-- Entry `iroot[j]` as a field element. -/
def irootK (j : Nat) : ZMod mint.mod := ((infoTables.iroot.getD j 0 : Nat) : ZMod mint.mod)

/-- Product of `r (i + k)` over the positions `i` of the one-bits of `s`. -/
def bitProd (r : Nat → ZMod mint.mod) (k s : Nat) : ZMod mint.mod :=
  if s = 0 then 1 else (if s % 2 = 1 then r k else 1) * bitProd r (k + 1) (s / 2)
termination_by s
decreasing_by omega

/-- One decimation level of the forward transform on blocks of `2 * p` entries:
`(l, r) ↦ (l + ρ r, l - ρ r)` with `ρ = ρ (block index)`. -/
def Lfwd (p : Nat) (ρ : Nat → ZMod mint.mod) (x : Nat → ZMod mint.mod) (j : Nat) :
    ZMod mint.mod :=
  if j % (2 * p) < p then x j + ρ (j / (2 * p)) * x (j + p)
  else x (j - p) - ρ (j / (2 * p)) * x j

/-- One level of the inverse transform on blocks of `2 * p` entries:
`(l, r) ↦ (l + r, (l - r) ρ')`. -/
def Linv (p : Nat) (ρ' : Nat → ZMod mint.mod) (x : Nat → ZMod mint.mod) (j : Nat) :
    ZMod mint.mod :=
  if j % (2 * p) < p then x j + x (j + p)
  else (x (j - p) - x j) * ρ' (j / (2 * p))

/-- The forward transform of length `2 ^ h` as `h` levels: level `l` works on blocks of
`2 ^ (h - l)` entries. -/
def fwdLevels (h : Nat) (x : Nat → ZMod mint.mod) : Nat → Nat → ZMod mint.mod
  | 0 => x
  | l + 1 => Lfwd (2 ^ (h - l - 1)) (bitProd rootK 2) (fwdLevels h x l)

end atcoder

/-! ## The sequence defined by a linear recurrence (specification side) -/

/-- The first `n` terms `[A_0, ..., A_{n-1}]` of the sequence with `A_i = a[i]` for
`i < size(a)` and `A_i = (sum_{j < size(c)} c[j] * A_{i-1-j}) mod 998244353` afterwards,
computed term by term. -/
def linrecTerms (a c : List Nat) : Nat → List Nat
  | 0 => []
  | n + 1 =>
    let prev := linrecTerms a c n
    prev ++ [if n < a.length then a.getD n 0
      else ((List.range c.length).map fun j => c.getD j 0 * prev.getD (n - 1 - j) 0).sum
        % atcoder.mint.mod]

/-- The term `A_i` of the sequence defined by the initial terms `a` and the coefficients
`c`. -/
def linrecTerm (a c : List Nat) (i : Nat) : Nat := (linrecTerms a c (i + 1)).getD i 0

/-! ## Further methods of `static_modint` and `dynamic_modint` -/

namespace atcoder

namespace static_modint

/-- Operator `++` (prefix): `_v++; if (_v == umod()) _v = 0;`. -/
def inc (m a : Nat) : Nat :=
  let v := u32 (a + 1)
  if v = m then 0 else v

/-- Operator `--` (prefix): `if (_v == 0) _v = umod(); _v--;`. -/
def dec (m a : Nat) : Nat :=
  let v := if a = 0 then m else a
  sub32 v 1

end static_modint

namespace dynamic_modint

/-- Constructor `dynamic_modint(T v)` for an unsigned integer type. -/
def ofNat (bt : barrett) (v : Nat) : Nat := u32 (v % mod bt)

/-- Operator `++` (prefix). -/
def inc (bt : barrett) (a : Nat) : Nat :=
  let v := u32 (a + 1)
  if v = bt.umod then 0 else v

/-- Operator `--` (prefix). -/
def dec (bt : barrett) (a : Nat) : Nat :=
  let v := if a = 0 then bt.umod else a
  sub32 v 1

/-- Operator `+=`: `_v += rhs._v; if (_v >= umod()) _v -= umod();`. -/
def add (bt : barrett) (a b : Nat) : Nat :=
  let v := u32 (a + b)
  if v ≥ bt.umod then sub32 v bt.umod else v

/-- Operator `-=`: `_v += mod() - rhs._v; if (_v >= umod()) _v -= umod();`. -/
def sub (bt : barrett) (a b : Nat) : Nat :=
  let v := u32 (a + sub32 (mod bt) b)
  if v ≥ bt.umod then sub32 v bt.umod else v

/-- Unary `operator-`: `mint() - *this`. -/
def neg (bt : barrett) (a : Nat) : Nat := sub bt 0 a

/-- The `while (n)` loop of `pow`; state `(x, r, n)`. -/
def powLoop (bt : barrett) : Nat → Nat → Nat → Nat → Nat
  | 0, _, r, _ => r
  | fuel + 1, x, r, n =>
    if n = 0 then r
    else
      let r := if n % 2 = 1 then mul bt r x else r
      let x := mul bt x x
      powLoop bt fuel x r (n / 2)

/-- Method `pow(n)`; `assert(0 <= n)`. -/
def pow (bt : barrett) (a : Nat) (n : Int) : Option Nat :=
  if 0 ≤ n then some (powLoop bt n.toNat a (ofInt bt 1) n.toNat) else none

end dynamic_modint

end atcoder

/-! ## `correct_bitrev.cpp` -/

/-- Function `bitrev30(x)` of
`src/math/intersection_of_f2_vector_spaces/sol/correct_bitrev.cpp`, on the non-negative
values of `int`: thirty times `res = res << 1 | (x & 1); x >>= 1;`, the state being
`(res, x)`. The bits shifted into `res` stay below `2^30`, so no `int` operation wraps. -/
def bitrev30 (x : Nat) : Nat :=
  (atcoder.forUp 30
    (fun _ (st : Nat × Nat) => ((st.1 <<< 1) ||| (st.2 &&& 1), st.2 >>> 1))
    (0, x)).1

/-! ## `butterfly` and `butterfly_inv` with checked element accesses -/

namespace atcoder

/-- Element read `a[i]` of a `std::vector` or `std::array`: defined only for `i < size`. -/
def readAt (a : List Nat) (i : Nat) : Option Nat :=
  if i < a.length then some (a.getD i 0) else none

/-- Element write `a[i] = v`: defined only for `i < size`. -/
def writeAt (a : List Nat) (i v : Nat) : Option (List Nat) :=
  if i < a.length then some (a.set i v) else none

/-- Loop `for (i = 0; i < n; i++) s = body i s` whose body may fail. -/
def forUpM {σ : Type} : Nat → (Nat → σ → Option σ) → σ → Option σ
  | 0, _, s => some s
  | n + 1, body, s => (forUpM n body s).bind (body n)

/-- The branch `h - len == 1` of `butterfly`, every element access checked: `none` as soon
as an index into `a` or into `info.rate2` is out of range. -/
def butterfly_radix2_checked (info : fft_info) (h len : Nat) (a : List Nat) :
    Option (List Nat) :=
  let p := 2 ^ (h - len - 1)
  (forUpM (2 ^ len)
    (fun s (st : List Nat × Nat) =>
      let rot := st.2
      let offset := s * 2 ^ (h - len)
      (forUpM p
        (fun i a =>
          (readAt a (i + offset)).bind fun l =>
          (readAt a (i + offset + p)).bind fun x =>
          let r := mint.mul x rot
          (writeAt a (i + offset) (mint.add l r)).bind fun a =>
          writeAt a (i + offset + p) (mint.sub l r))
        st.1).bind fun a =>
      (if s + 1 ≠ 2 ^ len then
        (readAt info.rate2 (bsf (not32 s))).bind fun x => some (mint.mul rot x)
      else some rot).bind fun rot =>
      some (a, rot))
    (a, mint.ofInt 1)).map Prod.fst

/-- The `4-base` branch of `butterfly`, every element access checked: `none` as soon as an
index into `a`, `info.root` or `info.rate3` is out of range. -/
def butterfly_radix4_checked (info : fft_info) (h len : Nat) (a : List Nat) :
    Option (List Nat) :=
  let p := 2 ^ (h - len - 2)
  (readAt info.root 2).bind fun imag =>
  (forUpM (2 ^ len)
    (fun s (st : List Nat × Nat) =>
      let rot := st.2
      let rot2 := mint.mul rot rot
      let rot3 := mint.mul rot2 rot
      let offset := s * 2 ^ (h - len)
      (forUpM p
        (fun i a =>
          let mod2 := u64 (mint.mod * mint.mod)
          (readAt a (i + offset)).bind fun x0 =>
          (readAt a (i + offset + p)).bind fun x1 =>
          (readAt a (i + offset + 2 * p)).bind fun x2 =>
          (readAt a (i + offset + 3 * p)).bind fun x3 =>
          let a0 := x0
          let a1 := u64 (x1 * rot)
          let a2 := u64 (x2 * rot2)
          let a3 := u64 (x3 * rot3)
          let a1na3imag := u64 (mint.ofNat (sub64 (u64 (a1 + mod2)) a3) * imag)
          let na2 := sub64 mod2 a2
          (writeAt a (i + offset) (mint.ofNat (u64 (u64 (u64 (a0 + a2) + a1) + a3)))).bind
            fun a =>
          (writeAt a (i + offset + 1 * p)
            (mint.ofNat (u64 (u64 (a0 + a2) + sub64 (u64 (2 * mod2)) (u64 (a1 + a3)))))).bind
            fun a =>
          (writeAt a (i + offset + 2 * p)
            (mint.ofNat (u64 (u64 (a0 + na2) + a1na3imag)))).bind fun a =>
          writeAt a (i + offset + 3 * p)
            (mint.ofNat (u64 (u64 (a0 + na2) + sub64 mod2 a1na3imag))))
        st.1).bind fun a =>
      (if s + 1 ≠ 2 ^ len then
        (readAt info.rate3 (bsf (not32 s))).bind fun x => some (mint.mul rot x)
      else some rot).bind fun rot =>
      some (a, rot))
    (a, mint.ofInt 1)).map Prod.fst

/-- The loop `while (len < h)` of `butterfly` over the checked passes. -/
def butterflyLoop_checked (info : fft_info) (h : Nat) : Nat → Nat → List Nat → Option (List Nat)
  | 0, _, a => some a
  | fuel + 1, len, a =>
    if len < h then
      if h - len = 1 then
        (butterfly_radix2_checked info h len a).bind (butterflyLoop_checked info h fuel (len + 1))
      else
        (butterfly_radix4_checked info h len a).bind (butterflyLoop_checked info h fuel (len + 2))
    else some a

/-- Function `butterfly(a)` with every element access checked. -/
def butterfly_checked (a : List Nat) : Option (List Nat) :=
  fft_info.new.bind fun info =>
  let h := ceil_pow2 a.length
  butterflyLoop_checked info h h 0 a

/-- The branch `len == 1` of `butterfly_inv`, every element access checked. -/
def butterfly_inv_radix2_checked (info : fft_info) (h len : Nat) (a : List Nat) :
    Option (List Nat) :=
  let p := 2 ^ (h - len)
  (forUpM (2 ^ (len - 1))
    (fun s (st : List Nat × Nat) =>
      let irot := st.2
      let offset := s * 2 ^ (h - len + 1)
      (forUpM p
        (fun i a =>
          (readAt a (i + offset)).bind fun l =>
          (readAt a (i + offset + p)).bind fun r =>
          (writeAt a (i + offset) (mint.add l r)).bind fun a =>
          writeAt a (i + offset + p)
            (mint.ofNat (u64 (sub32 (u32 (mint.mod + l)) r * irot))))
        st.1).bind fun a =>
      (if s + 1 ≠ 2 ^ (len - 1) then
        (readAt info.irate2 (bsf (not32 s))).bind fun x => some (mint.mul irot x)
      else some irot).bind fun irot =>
      some (a, irot))
    (a, mint.ofInt 1)).map Prod.fst

/-- The `4-base` branch of `butterfly_inv`, every element access checked. -/
def butterfly_inv_radix4_checked (info : fft_info) (h len : Nat) (a : List Nat) :
    Option (List Nat) :=
  let p := 2 ^ (h - len)
  (readAt info.iroot 2).bind fun iimag =>
  (forUpM (2 ^ (len - 2))
    (fun s (st : List Nat × Nat) =>
      let irot := st.2
      let irot2 := mint.mul irot irot
      let irot3 := mint.mul irot2 irot
      let offset := s * 2 ^ (h - len + 2)
      (forUpM p
        (fun i a =>
          (readAt a (i + offset + 0 * p)).bind fun a0 =>
          (readAt a (i + offset + 1 * p)).bind fun a1 =>
          (readAt a (i + offset + 2 * p)).bind fun a2 =>
          (readAt a (i + offset + 3 * p)).bind fun a3 =>
          let a2na3iimag := mint.ofNat (u64 (sub64 (u64 (mint.mod + a2)) a3 * iimag))
          (writeAt a (i + offset) (mint.ofNat (u64 (u64 (u64 (a0 + a1) + a2) + a3)))).bind
            fun a =>
          (writeAt a (i + offset + 1 * p)
            (mint.ofNat (u64 (u64 (u64 (a0 + sub64 mint.mod a1) + a2na3iimag) * irot)))).bind
            fun a =>
          (writeAt a (i + offset + 2 * p)
            (mint.ofNat
              (u64 (u64 (u64 (u64 (a0 + a1) + sub64 mint.mod a2) + sub64 mint.mod a3)
                * irot2)))).bind fun a =>
          writeAt a (i + offset + 3 * p)
            (mint.ofNat
              (u64 (u64 (u64 (a0 + sub64 mint.mod a1) + sub64 mint.mod a2na3iimag) * irot3))))
        st.1).bind fun a =>
      (if s + 1 ≠ 2 ^ (len - 2) then
        (readAt info.irate3 (bsf (not32 s))).bind fun x => some (mint.mul irot x)
      else some irot).bind fun irot =>
      some (a, irot))
    (a, mint.ofInt 1)).map Prod.fst

/-- The loop `while (len)` of `butterfly_inv` over the checked passes. -/
def butterfly_invLoop_checked (info : fft_info) (h : Nat) :
    Nat → Nat → List Nat → Option (List Nat)
  | 0, _, a => some a
  | fuel + 1, len, a =>
    if len ≠ 0 then
      if len = 1 then
        (butterfly_inv_radix2_checked info h len a).bind
          (butterfly_invLoop_checked info h fuel (len - 1))
      else
        (butterfly_inv_radix4_checked info h len a).bind
          (butterfly_invLoop_checked info h fuel (len - 2))
    else some a

/-- Function `butterfly_inv(a)` with every element access checked. -/
def butterfly_inv_checked (a : List Nat) : Option (List Nat) :=
  fft_info.new.bind fun info =>
  let h := ceil_pow2 a.length
  butterfly_invLoop_checked info h h h a

end atcoder

/-! # Part I: field arithmetic -/

namespace atcoder

theorem mod_pos : 0 < mint.mod := by unfold mint.mod; norm_num

theorem static_modint.add_eq_mod (m a b : Nat) (hm : m < 2 ^ 31) (ha : a < m) (hb : b < m) :
    static_modint.add m a b = (a + b) % m := by
  unfold static_modint.add u32 sub32
  have h1 : (a + b) % 2 ^ 32 = a + b := Nat.mod_eq_of_lt (by omega)
  simp only [h1]
  have h2 : m % 2 ^ 32 = m := Nat.mod_eq_of_lt (by omega)
  split
  · rename_i h
    rw [h2]
    have : (a + b) % m = a + b - m := by
      rw [Nat.mod_eq_sub_mod h]; exact Nat.mod_eq_of_lt (by omega)
    rw [this]
    omega
  · rename_i h
    exact (Nat.mod_eq_of_lt (by omega)).symm

theorem static_modint.sub_eq_mod (m a b : Nat) (hm : m < 2 ^ 31) (ha : a < m) (hb : b < m) :
    static_modint.sub m a b = (a + m - b) % m := by
  unfold static_modint.sub u32 sub32
  have h2 : b % 2 ^ 32 = b := Nat.mod_eq_of_lt (by omega)
  simp only [h2]
  by_cases hab : b ≤ a
  · have h3 : (a + (2 ^ 32 - b)) % 2 ^ 32 = a - b := by omega
    rw [h3, if_neg (by omega)]
    have : a + m - b = (a - b) + m := by omega
    rw [this, Nat.add_mod_right]
    exact (Nat.mod_eq_of_lt (by omega)).symm
  · have h3 : (a + (2 ^ 32 - b)) % 2 ^ 32 = a + 2 ^ 32 - b := by omega
    rw [h3, if_pos (by omega)]
    rw [Nat.mod_eq_of_lt (show a + m - b < m by omega)]
    omega

theorem static_modint.mul_eq_mod (m a b : Nat) (hm : m < 2 ^ 31) (ha : a < m) (hb : b < m) :
    static_modint.mul m a b = (a * b) % m := by
  unfold static_modint.mul u32 u64
  have hab : a * b < 2 ^ 64 := by
    calc a * b < 2 ^ 31 * 2 ^ 31 := Nat.mul_lt_mul'' (by omega) (by omega)
      _ < 2 ^ 64 := by norm_num
  rw [Nat.mod_eq_of_lt hab]
  have hpos : 0 < m := by omega
  exact Nat.mod_eq_of_lt (lt_trans (Nat.mod_lt _ hpos) (by omega))

theorem static_modint.powLoop_eq (m : Nat) (hm : m < 2 ^ 31) (hm1 : 1 < m) :
    ∀ (fuel x r n : Nat), n ≤ fuel → x < m → r < m →
      static_modint.powLoop m fuel x r n = (r * x ^ n) % m := by
  intro fuel
  induction fuel with
  | zero =>
    intro x r n hn hx hr
    have : n = 0 := by omega
    subst this
    simp [static_modint.powLoop, Nat.mod_eq_of_lt hr]
  | succ fuel ih =>
    intro x r n hn hx hr
    unfold static_modint.powLoop
    by_cases h0 : n = 0
    · simp [h0, Nat.mod_eq_of_lt hr]
    · rw [if_neg h0]
      have hpos : 0 < m := by omega
      have hxx : static_modint.mul m x x < m := by
        rw [static_modint.mul_eq_mod m x x hm hx hx]; exact Nat.mod_lt _ hpos
      have hrx : static_modint.mul m r x < m := by
        rw [static_modint.mul_eq_mod m r x hm hr hx]; exact Nat.mod_lt _ hpos
      by_cases hodd : n % 2 = 1
      · simp only [hodd, if_true]
        rw [ih _ _ _ (by omega) hxx hrx, static_modint.mul_eq_mod m x x hm hx hx,
          static_modint.mul_eq_mod m r x hm hr hx]
        conv_rhs => rw [← Nat.div_add_mod n 2, hodd]
        have h : Nat.ModEq m (r * x % m * (x * x % m) ^ (n / 2)) (r * x * (x * x) ^ (n / 2)) :=
          (Nat.mod_modEq _ _).mul ((Nat.mod_modEq _ _).pow _)
        have e : r * x * (x * x) ^ (n / 2) = r * x ^ (2 * (n / 2) + 1) := by
          rw [pow_succ, pow_mul]; ring
        rw [← e]; exact h
      · have heven : n % 2 = 0 := by omega
        simp only [hodd, if_false]
        rw [ih _ _ _ (by omega) hxx hr, static_modint.mul_eq_mod m x x hm hx hx]
        conv_rhs => rw [← Nat.div_add_mod n 2, heven]
        have h : Nat.ModEq m (r * (x * x % m) ^ (n / 2)) (r * (x * x) ^ (n / 2)) :=
          (Nat.ModEq.refl r).mul ((Nat.mod_modEq _ _).pow _)
        have e : r * (x * x) ^ (n / 2) = r * x ^ (2 * (n / 2) + 0) := by
          rw [Nat.add_zero, pow_mul]; ring
        rw [← e]; exact h

/-! The modulus is prime: Lucas test with the primitive root `3`
(`998244352 = 2^23 * 7 * 17`), the powers being computed by the loop of `pow` itself. -/

theorem pow3_mod (e : Nat) :
    3 ^ e % mint.mod = static_modint.powLoop mint.mod e 3 1 e := by
  rw [static_modint.powLoop_eq mint.mod (by unfold mint.mod; norm_num)
    (by unfold mint.mod; norm_num) e 3 1 e le_rfl (by unfold mint.mod; norm_num)
    (by unfold mint.mod; norm_num), one_mul]

theorem pow3_cast (e : Nat) :
    (3 : ZMod mint.mod) ^ e = ((3 ^ e % mint.mod : Nat) : ZMod mint.mod) := by
  rw [ZMod.natCast_mod, Nat.cast_pow, Nat.cast_ofNat]

theorem pow3_full : static_modint.powLoop mint.mod 998244352 3 1 998244352 = 1 := by decide!

theorem pow3_half :
    static_modint.powLoop mint.mod 499122176 3 1 499122176 % mint.mod ≠ 1 % mint.mod := by
  decide!

theorem pow3_seventh :
    static_modint.powLoop mint.mod 142606336 3 1 142606336 % mint.mod ≠ 1 % mint.mod := by
  decide!

theorem pow3_seventeenth :
    static_modint.powLoop mint.mod 58720256 3 1 58720256 % mint.mod ≠ 1 % mint.mod := by
  decide!

theorem prime_mod : Nat.Prime mint.mod := by
  apply lucas_primality mint.mod 3
  · rw [pow3_cast, pow3_mod, show mint.mod - 1 = 998244352 from rfl, pow3_full, Nat.cast_one]
  · intro q hq hdvd
    have e : mint.mod - 1 = 2 ^ 23 * 7 * 17 := rfl
    have hq3 : q = 2 ∨ q = 7 ∨ q = 17 := by
      rw [e] at hdvd
      rcases (Nat.Prime.dvd_mul hq).1 hdvd with h | h
      · rcases (Nat.Prime.dvd_mul hq).1 h with h | h
        · exact Or.inl ((Nat.prime_dvd_prime_iff_eq hq Nat.prime_two).1 (hq.dvd_of_dvd_pow h))
        · exact Or.inr (Or.inl ((Nat.prime_dvd_prime_iff_eq hq (by norm_num)).1 h))
      · exact Or.inr (Or.inr ((Nat.prime_dvd_prime_iff_eq hq (by norm_num)).1 h))
    have key : ∀ v : Nat, ((v : Nat) : ZMod mint.mod) = 1 → v % mint.mod = 1 % mint.mod := by
      intro v hv
      apply (ZMod.natCast_eq_natCast_iff' v 1 mint.mod).1
      rw [hv, Nat.cast_one]
    intro h
    rw [pow3_cast, pow3_mod] at h
    rcases hq3 with rfl | rfl | rfl
    · rw [show (mint.mod - 1) / 2 = 499122176 from rfl] at h
      exact pow3_half (key _ h)
    · rw [show (mint.mod - 1) / 7 = 142606336 from rfl] at h
      exact pow3_seventh (key _ h)
    · rw [show (mint.mod - 1) / 17 = 58720256 from rfl] at h
      exact pow3_seventeenth (key _ h)


theorem is_prime_mod : is_prime_constexpr mint.mod = true := by decide

end atcoder

namespace atcoder

/-! ## `mint` specialisations and the bridge to `ZMod` -/

theorem mint.mod_lt : mint.mod < 2 ^ 31 := by unfold mint.mod; norm_num

theorem mint.add_eq {a b : Nat} (ha : a < mint.mod) (hb : b < mint.mod) :
    mint.add a b = (a + b) % mint.mod :=
  static_modint.add_eq_mod _ a b mint.mod_lt ha hb

theorem mint.sub_eq {a b : Nat} (ha : a < mint.mod) (hb : b < mint.mod) :
    mint.sub a b = (a + mint.mod - b) % mint.mod :=
  static_modint.sub_eq_mod _ a b mint.mod_lt ha hb

theorem mint.mul_eq {a b : Nat} (ha : a < mint.mod) (hb : b < mint.mod) :
    mint.mul a b = (a * b) % mint.mod :=
  static_modint.mul_eq_mod _ a b mint.mod_lt ha hb

theorem mint.neg_eq {a : Nat} (ha : a < mint.mod) :
    mint.neg a = (mint.mod - a) % mint.mod := by
  unfold mint.neg static_modint.neg
  rw [static_modint.sub_eq_mod _ 0 a mint.mod_lt mod_pos ha, Nat.zero_add]

theorem mint.add_lt {a b : Nat} (ha : a < mint.mod) (hb : b < mint.mod) :
    mint.add a b < mint.mod := by
  rw [mint.add_eq ha hb]; exact Nat.mod_lt _ mod_pos

theorem mint.sub_lt {a b : Nat} (ha : a < mint.mod) (hb : b < mint.mod) :
    mint.sub a b < mint.mod := by
  rw [mint.sub_eq ha hb]; exact Nat.mod_lt _ mod_pos

theorem mint.mul_lt {a b : Nat} (ha : a < mint.mod) (hb : b < mint.mod) :
    mint.mul a b < mint.mod := by
  rw [mint.mul_eq ha hb]; exact Nat.mod_lt _ mod_pos

theorem mint.neg_lt {a : Nat} (ha : a < mint.mod) : mint.neg a < mint.mod := by
  rw [mint.neg_eq ha]; exact Nat.mod_lt _ mod_pos

theorem mint.ofNat_lt (v : Nat) : mint.ofNat v < mint.mod := Nat.mod_lt _ mod_pos

theorem mint.cast_add {a b : Nat} (ha : a < mint.mod) (hb : b < mint.mod) :
    ((mint.add a b : Nat) : ZMod mint.mod) = (a : ZMod mint.mod) + b := by
  rw [mint.add_eq ha hb, ZMod.natCast_mod, Nat.cast_add]

theorem mint.cast_mul {a b : Nat} (ha : a < mint.mod) (hb : b < mint.mod) :
    ((mint.mul a b : Nat) : ZMod mint.mod) = (a : ZMod mint.mod) * b := by
  rw [mint.mul_eq ha hb, ZMod.natCast_mod, Nat.cast_mul]

theorem mint.cast_sub {a b : Nat} (ha : a < mint.mod) (hb : b < mint.mod) :
    ((mint.sub a b : Nat) : ZMod mint.mod) = (a : ZMod mint.mod) - b := by
  rw [mint.sub_eq ha hb, ZMod.natCast_mod, Nat.cast_sub (by omega), Nat.cast_add,
    ZMod.natCast_self, add_zero]

theorem mint.cast_neg {a : Nat} (ha : a < mint.mod) :
    ((mint.neg a : Nat) : ZMod mint.mod) = -(a : ZMod mint.mod) := by
  rw [mint.neg_eq ha, ZMod.natCast_mod, Nat.cast_sub (by omega), ZMod.natCast_self, zero_sub]

theorem mint.cast_ofNat (v : Nat) : ((mint.ofNat v : Nat) : ZMod mint.mod) = (v : ZMod mint.mod) := by
  unfold mint.ofNat static_modint.ofNat
  rw [ZMod.natCast_mod]

theorem mint.cast_inj {a b : Nat} (ha : a < mint.mod) (hb : b < mint.mod)
    (h : (a : ZMod mint.mod) = (b : ZMod mint.mod)) : a = b := by
  have := (ZMod.natCast_eq_natCast_iff' a b mint.mod).1 h
  rwa [Nat.mod_eq_of_lt ha, Nat.mod_eq_of_lt hb] at this

theorem mint.cast_eq_zero {a : Nat} (ha : a < mint.mod) :
    (a : ZMod mint.mod) = 0 ↔ a = 0 := by
  constructor
  · intro h
    exact mint.cast_inj ha mod_pos (by simpa using h)
  · intro h; simp [h]

theorem mint.ofInt_one : mint.ofInt 1 = 1 := by decide

theorem mint.ofInt_two : mint.ofInt 2 = 2 := by decide

theorem mint.ofInt_natCast (z : Nat) : mint.ofInt (z : Int) = z % mint.mod := by
  unfold mint.ofInt static_modint.ofInt
  have h1 : Int.tmod (z : Int) (mint.mod : Int) = ((z % mint.mod : Nat) : Int) := by
    rw [Int.tmod_eq_emod (by positivity) (by positivity)]; simp
  simp only [h1]
  rw [if_neg (by omega)]
  exact Int.toNat_ofNat _

theorem mint.pow_eq {a : Nat} (ha : a < mint.mod) (n : Nat) :
    mint.pow a (n : Int) = some (a ^ n % mint.mod) := by
  unfold mint.pow static_modint.pow
  rw [if_pos (by positivity)]
  have h1 : static_modint.ofInt mint.mod 1 = 1 := mint.ofInt_one
  rw [Int.toNat_ofNat, h1,
    static_modint.powLoop_eq mint.mod mint.mod_lt (by unfold mint.mod; norm_num) n a 1 n
      le_rfl ha (by unfold mint.mod; norm_num), one_mul]

theorem mint.inv_eq {a : Nat} (ha : a < mint.mod) (h0 : a ≠ 0) :
    mint.inv a = some (a ^ (mint.mod - 2) % mint.mod) := by
  unfold mint.inv static_modint.inv
  rw [if_pos is_prime_mod, if_pos h0]
  have h2 : ((sub32 mint.mod 2 : Nat) : Int) = ((mint.mod - 2 : Nat) : Int) := by decide
  have := mint.pow_eq ha (mint.mod - 2)
  unfold mint.pow at this
  rw [h2, this]

theorem mint.inv_zero : mint.inv 0 = none := by decide

theorem mint.inv_lt {a x : Nat} (ha : a < mint.mod) (h : mint.inv a = some x) :
    x < mint.mod := by
  by_cases h0 : a = 0
  · subst h0; rw [mint.inv_zero] at h; cases h
  · rw [mint.inv_eq ha h0] at h
    cases h
    exact Nat.mod_lt _ mod_pos

theorem mint.cast_inv {a x : Nat} (ha : a < mint.mod) (h : mint.inv a = some x) :
    (a : ZMod mint.mod) * (x : ZMod mint.mod) = 1 := by
  haveI : Fact (Nat.Prime mint.mod) := ⟨prime_mod⟩
  by_cases h0 : a = 0
  · subst h0; rw [mint.inv_zero] at h; cases h
  · rw [mint.inv_eq ha h0] at h
    cases h
    rw [ZMod.natCast_mod, Nat.cast_pow, ← pow_succ']
    have hne : (a : ZMod mint.mod) ≠ 0 := fun hz => h0 ((mint.cast_eq_zero ha).1 hz)
    have := ZMod.pow_card_sub_one_eq_one hne
    have e : mint.mod - 2 + 1 = mint.mod - 1 := by unfold mint.mod; norm_num
    rw [e]; exact this

/-- The product `a * a.inv()` is the field element `1`. -/
theorem mint.mul_inv {a x : Nat} (ha : a < mint.mod) (h : mint.inv a = some x) :
    mint.mul a x = 1 := by
  have hx := mint.inv_lt ha h
  apply mint.cast_inj (mint.mul_lt ha hx) (by unfold mint.mod; norm_num)
  rw [mint.cast_mul ha hx, mint.cast_inv ha h]; simp

end atcoder

namespace atcoder

/-! ## `inv_gcd` -/

theorem safe_mod_of_nonneg_lt {x m : Int} (h0 : 0 ≤ x) (h1 : x < m) : safe_mod x m = x := by
  unfold safe_mod
  have : Int.tmod x m = x := by
    rw [Int.tmod_eq_emod h0 (by omega)]; exact Int.emod_eq_of_lt h0 h1
  simp only [this]
  rw [if_neg (by omega)]

theorem gcd_step (s t : Int) (hs : 0 ≤ s) (ht : 0 ≤ t) :
    Int.gcd t (s % t) = Int.gcd s t := by
  lift s to ℕ using hs
  lift t to ℕ using ht
  rw [← Int.natCast_mod, Int.gcd_natCast_natCast, Int.gcd_natCast_natCast, Nat.gcd_comm s t]
  rw [Nat.gcd_comm t (s % t)]
  exact (Nat.gcd_rec t s).symm

/-- Invariants of the `while (t)` loop of `inv_gcd` (the source's contracts [1]-[3], the
strict order `t < s`, the preserved gcd, and the bound that makes the final `m0` small). -/
theorem inv_gcdLoop_spec (a b : Int) (G : Nat) :
    ∀ (fuel : Nat) (s t m0 m1 : Int), 0 ≤ t → t < s → t < fuel →
      b ∣ s - m0 * a → b ∣ t - m1 * a → s * |m1| + t * |m0| ≤ b →
      (m0 = 0 ∨ |m0| * s < b) → Int.gcd s t = G →
      (inv_gcdLoop fuel s t m0 m1).1 = G ∧
      b ∣ (inv_gcdLoop fuel s t m0 m1).1 - (inv_gcdLoop fuel s t m0 m1).2.2.1 * a ∧
      ((inv_gcdLoop fuel s t m0 m1).2.2.1 = 0 ∨
        |(inv_gcdLoop fuel s t m0 m1).2.2.1| * (inv_gcdLoop fuel s t m0 m1).1 < b) := by
  intro fuel
  induction fuel with
  | zero => intro s t m0 m1 h0 _ hf; exfalso; simp at hf; omega
  | succ fuel ih =>
    intro s t m0 m1 h0 hts hf h1 h2 h3 h4 hg
    unfold inv_gcdLoop
    by_cases ht : t = 0
    · subst ht
      simp only [if_true]
      refine ⟨?_, h1, h4⟩
      rw [Int.gcd_zero_right] at hg
      have : (Int.natAbs s : Int) = s := Int.natAbs_of_nonneg (by omega)
      rw [← hg]; exact this.symm
    · rw [if_neg ht]
      have htpos : 0 < t := by omega
      have hdiv : Int.tdiv s t = s / t := Int.tdiv_eq_ediv (by omega) h0
      simp only [hdiv]
      have hmod : s - t * (s / t) = s % t := by rw [Int.emod_def]
      rw [hmod]
      have hu : 1 ≤ s / t := by
        have := Int.ediv_le_ediv htpos hts.le
        rw [Int.ediv_self ht] at this; exact this
      have hr0 : 0 ≤ s % t := Int.emod_nonneg s ht
      have hrt : s % t < t := Int.emod_lt_of_pos s htpos
      apply ih t (s % t) m1 (m0 - m1 * (s / t)) hr0 hrt (by push_cast at hf; omega) h2
      · have e : s % t - (m0 - m1 * (s / t)) * a = (s - m0 * a) - (s / t) * (t - m1 * a) := by
          rw [← hmod]; ring
        rw [e]; exact dvd_sub h1 (Dvd.dvd.mul_left h2 _)
      · have habs : |m0 - m1 * (s / t)| ≤ |m0| + |m1| * (s / t) := by
          calc |m0 - m1 * (s / t)| ≤ |m0| + |m1 * (s / t)| := abs_sub _ _
            _ = |m0| + |m1| * (s / t) := by rw [abs_mul, abs_of_nonneg (by omega : (0:Int) ≤ s / t)]
        have hs : s = t * (s / t) + s % t := (Int.ediv_add_emod s t).symm
        have hm1 : 0 ≤ |m1| := abs_nonneg _
        calc t * |m0 - m1 * (s / t)| + s % t * |m1|
            ≤ t * (|m0| + |m1| * (s / t)) + s % t * |m1| := by
              have := mul_le_mul_of_nonneg_left habs h0; linarith
          _ = (t * (s / t) + s % t) * |m1| + t * |m0| := by ring
          _ = s * |m1| + t * |m0| := by rw [← hs]
          _ ≤ b := h3
      · by_cases hm1 : m1 = 0
        · exact Or.inl hm1
        · right
          have hpos : 0 < |m1| := abs_pos.2 hm1
          have hnn : 0 ≤ t * |m0| := mul_nonneg h0 (abs_nonneg _)
          calc |m1| * t < |m1| * s := by exact mul_lt_mul_of_pos_left hts hpos
            _ = s * |m1| := by ring
            _ ≤ b := by linarith
      · rw [← hg]
        exact gcd_step s t (by omega) h0

end atcoder

namespace atcoder

/-- Function `inv_gcd(a, b)` on an already reduced `a`: the source's documented contract
`g = gcd(a, b)`, `x a = g (mod b)`, `0 <= x < b / g`. -/
theorem inv_gcd_spec (a b : Int) (ha : 0 ≤ a) (hab : a < b) :
    (inv_gcd a b).1 = Int.gcd a b ∧ b ∣ (inv_gcd a b).2 * a - (inv_gcd a b).1 ∧
      0 ≤ (inv_gcd a b).2 ∧ (inv_gcd a b).2 < b / (inv_gcd a b).1 := by
  unfold inv_gcd
  rw [safe_mod_of_nonneg_lt ha hab]
  by_cases h0 : a = 0
  · subst h0
    simp only [if_true]
    refine ⟨?_, by simp, le_refl _, ?_⟩
    · rw [Int.gcd_zero_left]; exact (Int.natAbs_of_nonneg (by omega)).symm
    · rw [Int.ediv_self (by omega)]; exact Int.zero_lt_one
  · simp only [if_neg h0]
    have hbpos : 0 < b := by omega
    obtain ⟨h1, h2, h3⟩ := inv_gcdLoop_spec a b (Int.gcd b a) (a.toNat + 1) b a 0 1 ha hab
      (by have := Int.toNat_of_nonneg ha; push_cast; omega) (by simp) (by simp)
      (by simp) (Or.inl rfl) rfl
    set r := inv_gcdLoop (a.toNat + 1) b a 0 1 with hr
    have hGpos : 0 < ((Int.gcd b a : Nat) : Int) := by
      have : 0 < Int.gcd b a := Int.gcd_pos_of_ne_zero_left a (by omega)
      exact_mod_cast this
    have hGb : ((Int.gcd b a : Nat) : Int) ∣ b := Int.gcd_dvd_left
    have hGa : ((Int.gcd b a : Nat) : Int) ∣ a := Int.gcd_dvd_right
    rw [h1] at h2 h3 ⊢
    rw [Int.gcd_comm a b]
    generalize ((Int.gcd b a : Nat) : Int) = G at h1 h2 h3 hGpos hGb hGa ⊢
    have hdiv : Int.tdiv b G = b / G :=
      Int.tdiv_eq_ediv hbpos.le hGpos.le
    rw [hdiv]
    obtain ⟨B, hB⟩ := hGb
    have hBdiv : b / G = B := by
      rw [hB, Int.mul_ediv_cancel_left _ hGpos.ne']
    rw [hBdiv]
    have hBpos : 0 < B := by
      by_contra hcon
      have : G * B ≤ 0 := mul_nonpos_of_nonneg_of_nonpos hGpos.le (by omega)
      omega
    refine ⟨rfl, ?_, ?_, ?_⟩
    · by_cases hneg : r.2.2.1 < 0
      · rw [if_pos hneg]
        obtain ⟨A, hA⟩ := hGa
        have e : (r.2.2.1 + B) * a - G =
            -(G - r.2.2.1 * a) + b * A := by
          have : B * a = b * A := by
            rw [hB]; conv_lhs => rw [hA]
            ring
          linear_combination this
        rw [e]
        exact dvd_add ((dvd_neg).2 h2) (dvd_mul_right _ _)
      · rw [if_neg hneg]
        have e : r.2.2.1 * a - G = -(G - r.2.2.1 * a) := by
          ring
        rw [e]; exact (dvd_neg).2 h2
    · by_cases hneg : r.2.2.1 < 0
      · rw [if_pos hneg]
        rcases h3 with h3 | h3
        · omega
        · rw [abs_of_neg hneg, hB] at h3
          have : -r.2.2.1 < B := by
            by_contra hcon
            have : G * B ≤ -r.2.2.1 * G := by
              rw [mul_comm (-r.2.2.1)]
              exact mul_le_mul_of_nonneg_left (by omega) hGpos.le
            omega
          omega
      · rw [if_neg hneg]; omega
    · by_cases hneg : r.2.2.1 < 0
      · rw [if_pos hneg]; omega
      · rw [if_neg hneg]
        rcases h3 with h3 | h3
        · rw [h3]; exact hBpos
        · rw [abs_of_nonneg (by omega), hB] at h3
          by_contra hcon
          have : G * B ≤ r.2.2.1 * G := by
            rw [mul_comm r.2.2.1]
            exact mul_le_mul_of_nonneg_left (by omega) hGpos.le
          omega

/-! ## `barrett` -/

theorem barrett.mul_eq_barrett (m a b : Nat) (hm1 : 1 ≤ m) (hm : m < 2 ^ 31) (ha : a < m) (hb : b < m) :
    (barrett.new m).mul a b = (a * b) % m := by
  unfold barrett.mul barrett.new
  simp only
  have hz : a * b < 2 ^ 62 := by
    calc a * b < 2 ^ 31 * 2 ^ 31 := Nat.mul_lt_mul'' (by omega) (by omega)
      _ = 2 ^ 62 := by norm_num
  have hzz : u64 (a * b) = a * b := Nat.mod_eq_of_lt (by omega)
  rw [hzz]
  by_cases h1 : m = 1
  · subst h1
    have ha0 : a = 0 := by omega
    have hb0 : b = 0 := by omega
    subst ha0; subst hb0
    decide
  · -- im * m = 2^64 + r with r < m
    set q0 := (2 ^ 64 - 1) / m with hq0
    have hq0m : q0 < 2 ^ 64 - 1 := Nat.div_lt_self (by norm_num) (by omega)
    have him : u64 (q0 + 1) = q0 + 1 := Nat.mod_eq_of_lt (by omega)
    rw [him]
    set z := a * b with hzdef
    set c := z / m with hc
    set d := z % m with hd
    have hzcd : z = m * c + d := (Nat.div_add_mod z m).symm
    have hdm : d < m := Nat.mod_lt _ (by omega)
    have hcm : c < m := by
      rw [hc]; apply Nat.div_lt_of_lt_mul
      calc z = a * b := rfl
        _ < m * m := Nat.mul_lt_mul'' ha hb
    have hq : m * q0 + (2 ^ 64 - 1) % m = 2 ^ 64 - 1 := Nat.div_add_mod _ _
    have hr0 : (2 ^ 64 - 1) % m < m := Nat.mod_lt _ (by omega)
    set r0 := (2 ^ 64 - 1) % m with hr0def
    -- (q0 + 1) * m = 2^64 + (m - 1 - r0)
    have hI : (q0 + 1) * m = 2 ^ 64 + (m - 1 - r0) := by
      have : (q0 + 1) * m = m * q0 + m := by ring
      omega
    have hlow : c * 2 ^ 64 ≤ z * (q0 + 1) := by
      calc c * 2 ^ 64 ≤ c * ((q0 + 1) * m) := Nat.mul_le_mul_left _ (by omega)
        _ = (m * c) * (q0 + 1) := by ring
        _ ≤ z * (q0 + 1) := Nat.mul_le_mul_right _ (by omega)
    have hhigh : z * (q0 + 1) < (c + 2) * 2 ^ 64 := by
      have e : z * (q0 + 1) = c * 2 ^ 64 + (c * (m - 1 - r0) + d * (q0 + 1)) := by
        rw [hzcd, add_mul]
        have : m * c * (q0 + 1) = c * ((q0 + 1) * m) := by ring
        rw [this, hI]; ring
      have b1 : c * (m - 1 - r0) ≤ 2 ^ 31 * 2 ^ 31 :=
        Nat.mul_le_mul (by omega) (by omega)
      have b2 : d * (q0 + 1) ≤ (q0 + 1) * m := by
        rw [mul_comm]; exact Nat.mul_le_mul_left _ hdm.le
      have b3 : (2:Nat) ^ 31 * 2 ^ 31 = 2 ^ 62 := by norm_num
      rw [e]
      have : (c + 2) * 2 ^ 64 = c * 2 ^ 64 + 2 * 2 ^ 64 := by ring
      omega
    have hx1 : c ≤ z * (q0 + 1) / 2 ^ 64 := (Nat.le_div_iff_mul_le (by norm_num)).2 hlow
    have hx2 : z * (q0 + 1) / 2 ^ 64 < c + 2 := (Nat.div_lt_iff_lt_mul (by norm_num)).2 hhigh
    set x := z * (q0 + 1) / 2 ^ 64 with hx
    have hxu : u64 x = x := Nat.mod_eq_of_lt (by omega)
    rw [hxu]
    have hxm : x * m < 2 ^ 64 := by
      calc x * m ≤ (c + 1) * m := Nat.mul_le_mul_right _ (by omega)
        _ ≤ m * m := Nat.mul_le_mul_right _ (by omega)
        _ < 2 ^ 31 * 2 ^ 31 := Nat.mul_lt_mul'' hm hm
        _ < 2 ^ 64 := by norm_num
    have hxmu : u64 (x * m) = x * m := Nat.mod_eq_of_lt hxm
    rw [hxmu]
    unfold sub64 u32
    rw [Nat.mod_eq_of_lt hxm]
    rcases (by omega : x = c ∨ x = c + 1) with hxc | hxc
    · have e1 : x * m = m * c := by rw [hxc]; ring
      have e2 : (z + (2 ^ 64 - x * m)) % 2 ^ 64 = d := by
        rw [e1]; omega
      rw [e2, Nat.mod_eq_of_lt (by omega : d < 2 ^ 32), if_neg (by omega)]
    · have e1 : x * m = m * c + m := by rw [hxc]; ring
      have e2 : (z + (2 ^ 64 - x * m)) % 2 ^ 64 = 2 ^ 64 + d - m := by
        rw [e1]; omega
      rw [e2]
      have e3 : (2 ^ 64 + d - m) % 2 ^ 32 = 2 ^ 32 + d - m := by omega
      rw [e3, if_pos (by omega)]
      omega

end atcoder

namespace atcoder

theorem dynamic_modint.inv_spec (M a : Nat) (ha : a < M)
    (hg : Nat.gcd a M = 1) :
    ∃ x, dynamic_modint.inv (barrett.new M) a = some x ∧ x < M ∧ (a * x) % M = 1 % M := by
  obtain ⟨h1, h2, h3, h4⟩ := inv_gcd_spec (a : Int) (M : Int) (by positivity) (by exact_mod_cast ha)
  have hG : Int.gcd (a : Int) (M : Int) = 1 := by rw [Int.gcd_natCast_natCast]; exact hg
  rw [hG] at h1
  rw [h1] at h2 h4
  simp only [Nat.cast_one, Int.ediv_one] at h1 h2 h4
  unfold dynamic_modint.inv dynamic_modint.mod barrett.umod barrett.new
  simp only
  rw [if_pos h1]
  refine ⟨_, rfl, ?_, ?_⟩
  · unfold dynamic_modint.ofInt dynamic_modint.mod barrett.umod
    simp only
    rw [Int.tmod_eq_emod h3 (by positivity), Int.emod_eq_of_lt h3 h4, if_neg (by omega)]
    omega
  · unfold dynamic_modint.ofInt dynamic_modint.mod barrett.umod
    simp only
    rw [Int.tmod_eq_emod h3 (by positivity), Int.emod_eq_of_lt h3 h4, if_neg (by omega)]
    set x := (inv_gcd (a : Int) (M : Int)).2 with hx
    have hxn : ((x.toNat : Nat) : Int) = x := Int.toNat_of_nonneg h3
    have : (M : Int) ∣ ((a * x.toNat : Nat) : Int) - ((1 : Nat) : Int) := by
      push_cast; rw [hxn, mul_comm]; exact h2
    have hmod := Int.emod_eq_emod_iff_emod_sub_eq_zero.2 (Int.emod_eq_zero_of_dvd this)
    exact_mod_cast hmod

/-- C7. For `M = 998244353` and `1 <= a < M`, `a.inv()` is `a.pow(M - 2)` and
`a * a.inv() == 1`; for the runtime modulus `1 <= M < 2^31` and `b` in `[0, M)` with
`b != 0`, `gcd(b, M) = 1`, `b.inv()` succeeds and `b * b.inv() == 1` (Barrett product). -/
theorem C7_mul_inv (a M b : Nat) (ha1 : 1 ≤ a) (ha : a < mint.mod)
    (hM1 : 1 ≤ M) (hM : M < 2 ^ 31) (hb : b < M) (hb0 : b ≠ 0) (hg : Nat.gcd b M = 1) :
    (∃ x, mint.inv a = some x ∧ mint.pow a ((mint.mod - 2 : Nat) : Int) = some x ∧
        x < mint.mod ∧ mint.mul a x = 1) ∧
    (∃ y, dynamic_modint.inv (barrett.new M) b = some y ∧ y < M ∧
        dynamic_modint.mul (barrett.new M) b y = 1) := by
  constructor
  · have h := mint.inv_eq ha (by omega)
    exact ⟨_, h, mint.pow_eq ha _, mint.inv_lt ha h, mint.mul_inv ha h⟩
  · obtain ⟨y, hy, hyM, hmul⟩ := dynamic_modint.inv_spec M b hb hg
    refine ⟨y, hy, hyM, ?_⟩
    unfold dynamic_modint.mul
    rw [barrett.mul_eq_barrett M b y hM1 hM hb hyM, hmul]
    exact Nat.mod_eq_of_lt (by omega)

theorem C7_mul_inv_witness :
    (1 ≤ 3 ∧ 3 < mint.mod ∧ 1 ≤ 10 ∧ 10 < 2 ^ 31 ∧ 7 < 10 ∧ 7 ≠ 0 ∧ Nat.gcd 7 10 = 1) ∧
    ((∃ x, mint.inv 3 = some x ∧ mint.pow 3 ((mint.mod - 2 : Nat) : Int) = some x ∧
        x < mint.mod ∧ mint.mul 3 x = 1) ∧
    (∃ y, dynamic_modint.inv (barrett.new 10) 7 = some y ∧ y < 10 ∧
        dynamic_modint.mul (barrett.new 10) 7 y = 1)) :=
  ⟨by decide, C7_mul_inv 3 10 7 (by decide) (by decide) (by decide) (by decide) (by decide)
    (by decide) (by decide)⟩

end atcoder

namespace atcoder

/-! ## Vectors: indexing, updates, loops -/

theorem getD_set (l : List Nat) (i j v : Nat) :
    (l.set i v).getD j 0 = if i = j ∧ i < l.length then v else l.getD j 0 := by
  simp only [List.getD_eq_getElem?_getD, List.getElem?_set]
  by_cases h : i = j
  · subst h
    by_cases h2 : i < l.length
    · simp [h2]
    · simp [h2, List.getElem?_eq_none (not_lt.1 h2)]
  · simp [h]

theorem getD_set_eq (l : List Nat) (i v : Nat) (h : i < l.length) :
    (l.set i v).getD i 0 = v := by
  rw [getD_set]; simp [h]

theorem getD_set_ne (l : List Nat) (i j v : Nat) (h : i ≠ j) :
    (l.set i v).getD j 0 = l.getD j 0 := by
  rw [getD_set]; simp [h]

theorem getD_of_le (l : List Nat) (j : Nat) (h : l.length ≤ j) : l.getD j 0 = 0 := by
  simp [List.getD_eq_getElem?_getD, List.getElem?_eq_none h]

theorem ext_getD {l₁ l₂ : List Nat} (hl : l₁.length = l₂.length)
    (h : ∀ i, i < l₁.length → l₁.getD i 0 = l₂.getD i 0) : l₁ = l₂ := by
  apply List.ext_getElem hl
  intro i h1 h2
  have := h i h1
  simpa [List.getD_eq_getElem?_getD, List.getElem?_eq_getElem h1,
    List.getElem?_eq_getElem h2] using this

theorem Valid.getD_lt {l : List Nat} (hl : Valid l) (j : Nat) : l.getD j 0 < mint.mod := by
  by_cases h : j < l.length
  · rw [List.getD_eq_getElem _ _ h]; exact hl _ (List.getElem_mem h)
  · rw [getD_of_le _ _ (not_lt.1 h)]; exact mod_pos

theorem valid_of_getD {l : List Nat} (h : ∀ j, j < l.length → l.getD j 0 < mint.mod) :
    Valid l := by
  intro x hx
  obtain ⟨i, hi, rfl⟩ := List.getElem_of_mem hx
  have := h i hi
  rwa [List.getD_eq_getElem _ _ hi] at this

theorem Valid.set {l : List Nat} (hl : Valid l) (i : Nat) {v : Nat} (hv : v < mint.mod) :
    Valid (l.set i v) := by
  apply valid_of_getD
  intro j _
  rw [getD_set]
  split
  · exact hv
  · exact hl.getD_lt j

theorem valid_nil : Valid [] := by intro x hx; cases hx

theorem valid_replicate_zero (n : Nat) : Valid (List.replicate n 0) := by
  intro x hx
  rw [List.eq_of_mem_replicate hx]; exact mod_pos

theorem length_resize (l : List Nat) (n : Nat) : (resize l n).length = n := by
  unfold resize
  simp only [List.length_append, List.length_take, List.length_replicate]
  omega

theorem getD_resize (l : List Nat) (n j : Nat) :
    (resize l n).getD j 0 = if j < n then l.getD j 0 else 0 := by
  by_cases hj : j < n
  · rw [if_pos hj]
    unfold resize
    by_cases hjl : j < l.length
    · rw [List.getD_append _ _ _ _ (by simp; omega)]
      simp [List.getD_eq_getElem?_getD, List.getElem?_take, hj]
    · rw [List.getD_append_right _ _ _ _ (by simp; omega)]
      rw [getD_of_le l j (by omega)]
      simp only [List.getD_eq_getElem?_getD, List.getElem?_replicate]
      split_ifs <;> rfl
  · rw [if_neg hj]
    exact getD_of_le _ _ (by rw [length_resize]; omega)

theorem Valid.resize {l : List Nat} (hl : Valid l) (n : Nat) : Valid (resize l n) := by
  apply valid_of_getD
  intro j _
  rw [getD_resize]
  split
  · exact hl.getD_lt j
  · exact mod_pos

theorem resize_of_length_eq (l : List Nat) : resize l l.length = l := by
  unfold resize; simp

/-- A loop whose body preserves a property preserves it. -/
theorem forUp_induction {σ : Type} (P : Nat → σ → Prop) (n : Nat) (body : Nat → σ → σ) (s : σ)
    (h0 : P 0 s) (hstep : ∀ i st, i < n → P i st → P (i + 1) (body i st)) :
    P n (forUp n body s) := by
  induction n with
  | zero => exact h0
  | succ n ih =>
    unfold forUp
    exact hstep n _ (Nat.lt_succ_self n)
      (ih (fun i st hi hp => hstep i st (Nat.lt_succ_of_lt hi) hp))

/-- Pointwise loop `for (i = 0; i < n; i++) a[i + c] = F i a[i + c]`. -/
theorem forUp_pointwise (F : Nat → Nat → Nat) (c n : Nat) (a : List Nat) :
    (forUp n (fun i l => l.set (i + c) (F i (l.getD (i + c) 0))) a).length = a.length ∧
    ∀ j, (forUp n (fun i l => l.set (i + c) (F i (l.getD (i + c) 0))) a).getD j 0 =
      if c ≤ j ∧ j < c + n ∧ j < a.length then F (j - c) (a.getD j 0) else a.getD j 0 := by
  induction n with
  | zero =>
    refine ⟨rfl, fun j => ?_⟩
    simp only [forUp]
    rw [if_neg (by omega)]
  | succ n ih =>
    obtain ⟨ih1, ih2⟩ := ih
    unfold forUp
    refine ⟨by rw [List.length_set, ih1], fun j => ?_⟩
    rw [getD_set, ih1]
    simp only [ih2]
    by_cases hj : n + c = j
    · subst hj
      have e : n + c - c = n := by omega
      by_cases hl : n + c < a.length
      · rw [if_pos ⟨rfl, hl⟩, if_neg (by omega), if_pos (by omega), e]
      · rw [if_neg (by omega), if_neg (by omega), if_neg (by omega)]
    · rw [if_neg (by omega)]
      by_cases hc : c ≤ j ∧ j < c + n ∧ j < a.length
      · rw [if_pos hc, if_pos (by omega)]
      · rw [if_neg hc, if_neg (by omega)]

end atcoder

namespace atcoder

open PowerSeries in
theorem coeff_toPS (l : List Nat) (j : Nat) :
    PowerSeries.coeff (ZMod mint.mod) j (toPS l) = vecK l j := by
  unfold toPS; rw [PowerSeries.coeff_mk]

theorem vecK_of_le (l : List Nat) (j : Nat) (h : l.length ≤ j) : vecK l j = 0 := by
  unfold vecK; rw [getD_of_le l j h]; simp

theorem toPS_nil : toPS [] = 0 := by
  ext j; rw [coeff_toPS, vecK_of_le _ _ (by simp)]; simp

theorem toPS_replicate_zero (n : Nat) : toPS (List.replicate n 0) = 0 := by
  ext j
  rw [coeff_toPS]
  unfold vecK
  simp only [List.getD_eq_getElem?_getD, List.getElem?_replicate]
  split_ifs <;> simp

theorem monomial_mul_monomial (i j : Nat) (x y : ZMod mint.mod) :
    PowerSeries.monomial _ i x * PowerSeries.monomial _ j y =
      PowerSeries.monomial _ (i + j) (x * y) := by
  rw [← Polynomial.coe_monomial, ← Polynomial.coe_monomial, ← Polynomial.coe_mul,
    Polynomial.monomial_mul_monomial, Polynomial.coe_monomial]

theorem toPS_eq_sum (l : List Nat) :
    toPS l = ∑ i in Finset.range l.length, PowerSeries.monomial _ i (vecK l i) := by
  ext j
  rw [coeff_toPS, map_sum]
  simp only [PowerSeries.coeff_monomial]
  rw [Finset.sum_ite_eq (Finset.range l.length) j (fun i => vecK l i)]
  split
  · rfl
  · rename_i h
    exact vecK_of_le _ _ (by simpa using h)

/-- Statement `ans[k] += w` on the coefficient list. -/
theorem toPS_set_add {l : List Nat} (hl : Valid l) {k w : Nat} (hk : k < l.length)
    (hw : w < mint.mod) :
    toPS (l.set k (mint.add (l.getD k 0) w)) =
      toPS l + PowerSeries.monomial _ k (w : ZMod mint.mod) := by
  ext j
  rw [map_add, coeff_toPS, coeff_toPS, PowerSeries.coeff_monomial]
  unfold vecK
  rw [getD_set]
  by_cases h : k = j
  · subst h
    rw [if_pos ⟨rfl, hk⟩, if_pos rfl, mint.cast_add (hl.getD_lt k) hw]
  · rw [if_neg (by tauto), if_neg (fun e => h e.symm), add_zero]

/-- Accumulation loop `for (t = 0; t < m; t++) ans[idx t] += w t`. -/
theorem accum_loop (idx w : Nat → Nat) (L m' : Nat) (hw : ∀ t, t < m' → w t < mint.mod)
    (hidx : ∀ t, t < m' → idx t < L) (ans : List Nat) (hlen : ans.length = L) (hv : Valid ans) :
    (forUp m' (fun t ans => ans.set (idx t) (mint.add (ans.getD (idx t) 0) (w t))) ans).length = L ∧
    Valid (forUp m' (fun t ans => ans.set (idx t) (mint.add (ans.getD (idx t) 0) (w t))) ans) ∧
    toPS (forUp m' (fun t ans => ans.set (idx t) (mint.add (ans.getD (idx t) 0) (w t))) ans) =
      toPS ans + ∑ t in Finset.range m', PowerSeries.monomial _ (idx t) (w t : ZMod mint.mod) := by
  have := forUp_induction
    (fun t (st : List Nat) => t ≤ m' → (st.length = L ∧ Valid st ∧
      toPS st = toPS ans + ∑ j in Finset.range t,
        PowerSeries.monomial _ (idx j) (w j : ZMod mint.mod)))
    m' (fun t ans => ans.set (idx t) (mint.add (ans.getD (idx t) 0) (w t))) ans
    (fun _ => ⟨hlen, hv, by simp⟩)
    (fun t st ht ih _ => by
      obtain ⟨h1, h2, h3⟩ := ih (by omega)
      refine ⟨by rw [List.length_set]; exact h1,
        h2.set _ (mint.add_lt (h2.getD_lt _) (hw t ht)), ?_⟩
      rw [toPS_set_add h2 (by rw [h1]; exact hidx t ht) (hw t ht), h3, Finset.sum_range_succ]
      ring)
  exact this le_rfl

/-- Two nested accumulation loops. -/
theorem accum_loop2 (idx w : Nat → Nat → Nat) (L n' m' : Nat)
    (hw : ∀ s t, s < n' → t < m' → w s t < mint.mod)
    (hidx : ∀ s t, s < n' → t < m' → idx s t < L)
    (ans : List Nat) (hlen : ans.length = L) (hv : Valid ans) :
    (forUp n' (fun s ans =>
      forUp m' (fun t ans => ans.set (idx s t) (mint.add (ans.getD (idx s t) 0) (w s t))) ans)
      ans).length = L ∧
    Valid (forUp n' (fun s ans =>
      forUp m' (fun t ans => ans.set (idx s t) (mint.add (ans.getD (idx s t) 0) (w s t))) ans)
      ans) ∧
    toPS (forUp n' (fun s ans =>
      forUp m' (fun t ans => ans.set (idx s t) (mint.add (ans.getD (idx s t) 0) (w s t))) ans)
      ans) =
      toPS ans + ∑ s in Finset.range n', ∑ t in Finset.range m',
        PowerSeries.monomial _ (idx s t) (w s t : ZMod mint.mod) := by
  have := forUp_induction
    (fun k (st : List Nat) => k ≤ n' → (st.length = L ∧ Valid st ∧
      toPS st = toPS ans + ∑ s in Finset.range k, ∑ t in Finset.range m',
        PowerSeries.monomial _ (idx s t) (w s t : ZMod mint.mod)))
    n' (fun s ans =>
      forUp m' (fun t ans => ans.set (idx s t) (mint.add (ans.getD (idx s t) 0) (w s t))) ans)
    ans
    (fun _ => ⟨hlen, hv, by simp⟩)
    (fun k st hk ih _ => by
      obtain ⟨h1, h2, h3⟩ := ih (by omega)
      obtain ⟨g1, g2, g3⟩ := accum_loop (idx k) (w k) L m' (fun t ht => hw k t hk ht)
        (fun t ht => hidx k t hk ht) st h1 h2
      refine ⟨g1, g2, ?_⟩
      rw [g3, h3, Finset.sum_range_succ]
      ring)
  exact this le_rfl

/-- Function `convolution_naive`: length, canonical entries, and the polynomial product. -/
theorem convolution_naive_spec (a b : List Nat) (ha : Valid a) (hb : Valid b)
    (hna : a ≠ []) (hnb : b ≠ []) :
    (convolution_naive a b).length = a.length + b.length - 1 ∧
    Valid (convolution_naive a b) ∧
    toPS (convolution_naive a b) = toPS a * toPS b := by
  have hla : 0 < a.length := List.length_pos.2 hna
  have hlb : 0 < b.length := List.length_pos.2 hnb
  have hprod : toPS a * toPS b = ∑ i in Finset.range a.length, ∑ j in Finset.range b.length,
      PowerSeries.monomial _ (i + j) (vecK a i * vecK b j) := by
    rw [toPS_eq_sum a, toPS_eq_sum b, Finset.sum_mul_sum]
    refine Finset.sum_congr rfl fun i _ => Finset.sum_congr rfl fun j _ => ?_
    exact monomial_mul_monomial _ _ _ _
  unfold convolution_naive
  simp only
  split
  · obtain ⟨h1, h2, h3⟩ := accum_loop2 (fun j i => i + j)
      (fun j i => mint.mul (a.getD i 0) (b.getD j 0)) (a.length + b.length - 1)
      b.length a.length (fun s t _ _ => mint.mul_lt (ha.getD_lt _) (hb.getD_lt _))
      (fun s t hs ht => by show _ + _ < _; omega) (List.replicate (a.length + b.length - 1) 0)
      (by simp) (valid_replicate_zero _)
    refine ⟨h1, h2, ?_⟩
    rw [h3, toPS_replicate_zero, zero_add, hprod, Finset.sum_comm]
    refine Finset.sum_congr rfl fun i _ => Finset.sum_congr rfl fun j _ => ?_
    rw [mint.cast_mul (ha.getD_lt _) (hb.getD_lt _)]; rfl
  · obtain ⟨h1, h2, h3⟩ := accum_loop2 (fun i j => i + j)
      (fun i j => mint.mul (a.getD i 0) (b.getD j 0)) (a.length + b.length - 1)
      a.length b.length (fun s t _ _ => mint.mul_lt (ha.getD_lt _) (hb.getD_lt _))
      (fun s t hs ht => by show _ + _ < _; omega) (List.replicate (a.length + b.length - 1) 0)
      (by simp) (valid_replicate_zero _)
    refine ⟨h1, h2, ?_⟩
    rw [h3, toPS_replicate_zero, zero_add, hprod]
    refine Finset.sum_congr rfl fun i _ => Finset.sum_congr rfl fun j _ => ?_
    rw [mint.cast_mul (ha.getD_lt _) (hb.getD_lt _)]; rfl

end atcoder

namespace atcoder

/-! ## Butterfly passes in generic form -/

theorem idx_mod {p u i : Nat} (hi : i < p) : (u * p + i) % p = i := by
  rw [Nat.add_comm, Nat.add_mul_mod_self_right, Nat.mod_eq_of_lt hi]

theorem idx_div {p u i : Nat} (hi : i < p) : (u * p + i) / p = u := by
  have hp : 0 < p := by omega
  rw [Nat.add_comm, Nat.add_mul_div_right _ _ hp, Nat.div_eq_of_lt hi, Nat.zero_add]

theorem idx_decomp {p j : Nat} : j = (j / p) * p + j % p := by
  rw [Nat.mul_comm]; exact (Nat.div_add_mod j p).symm

/-- Strided writes `a[base + u * p] = val u` for `u < t`. -/
theorem forUp_strided (val : Nat → Nat) (p base : Nat) (hp : 0 < p) (a : List Nat) (t : Nat) :
    (forUp t (fun u acc => acc.set (base + u * p) (val u)) a).length = a.length ∧
    ∀ j, (forUp t (fun u acc => acc.set (base + u * p) (val u)) a).getD j 0 =
      if j < a.length ∧ base ≤ j ∧ (j - base) % p = 0 ∧ (j - base) / p < t
      then val ((j - base) / p) else a.getD j 0 := by
  induction t with
  | zero =>
    refine ⟨rfl, fun j => ?_⟩
    simp [forUp]
  | succ t ih =>
    obtain ⟨ih1, ih2⟩ := ih
    unfold forUp
    refine ⟨by rw [List.length_set, ih1], fun j => ?_⟩
    rw [getD_set, ih1, ih2]
    by_cases hj : base + t * p = j
    · subst hj
      have e1 : base + t * p - base = t * p := by omega
      have e2 : t * p % p = 0 := Nat.mul_mod_left _ _
      have e3 : t * p / p = t := Nat.mul_div_cancel _ hp
      by_cases hl : base + t * p < a.length
      · rw [if_pos ⟨rfl, hl⟩, e1, e3, if_pos ⟨hl, by omega, e2, by omega⟩]
      · rw [if_neg (by tauto), if_neg (by tauto), if_neg (by tauto)]
    · rw [if_neg (by tauto)]
      by_cases hc : j < a.length ∧ base ≤ j ∧ (j - base) % p = 0 ∧ (j - base) / p < t
      · rw [if_pos hc, if_pos ⟨hc.1, hc.2.1, hc.2.2.1, by omega⟩]
      · rw [if_neg hc, if_neg]
        rintro ⟨h1, h2, h3, h4⟩
        apply hc
        refine ⟨h1, h2, h3, ?_⟩
        rcases Nat.lt_succ_iff_lt_or_eq.1 h4 with h | h
        · exact h
        · exfalso
          apply hj
          have := @idx_decomp p (j - base)
          rw [h3, h] at this
          omega

/-- The entries read by one strided step. -/
theorem stridedStep_spec (r p base : Nat) (W : List Nat → Nat → Nat) (hp : 0 < p)
    (a : List Nat) :
    (stridedStep r p base W a).length = a.length ∧
    ∀ j, (stridedStep r p base W a).getD j 0 =
      if j < a.length ∧ base ≤ j ∧ (j - base) % p = 0 ∧ (j - base) / p < r
      then W ((List.range r).map fun v => a.getD (base + v * p) 0) ((j - base) / p)
      else a.getD j 0 := by
  unfold stridedStep
  exact forUp_strided _ p base hp a r

/-- The inner loop of a butterfly pass over one block starting at `off`. -/
theorem innerLoop_spec (r p off : Nat) (W : List Nat → Nat → Nat) (hp : 0 < p)
    (a : List Nat) (hlen : off + r * p ≤ a.length) (t : Nat) (ht : t ≤ p) :
    (forUp t (fun i a => stridedStep r p (i + off) W a) a).length = a.length ∧
    ∀ j, (forUp t (fun i a => stridedStep r p (i + off) W a) a).getD j 0 =
      if off ≤ j ∧ j < off + r * p ∧ (j - off) % p < t
      then W ((List.range r).map fun v => a.getD ((j - off) % p + off + v * p) 0)
        ((j - off) / p)
      else a.getD j 0 := by
  induction t with
  | zero =>
    refine ⟨rfl, fun j => ?_⟩
    simp [forUp]
  | succ t ih =>
    obtain ⟨ih1, ih2⟩ := ih (by omega)
    unfold forUp
    obtain ⟨s1, s2⟩ := stridedStep_spec r p (t + off) W hp
      (forUp t (fun i a => stridedStep r p (i + off) W a) a)
    refine ⟨by rw [s1, ih1], fun j => ?_⟩
    rw [s2, ih1]
    have hreads : ((List.range r).map fun v =>
        (forUp t (fun i a => stridedStep r p (i + off) W a) a).getD (t + off + v * p) 0) =
        ((List.range r).map fun v => a.getD (t + off + v * p) 0) := by
      apply List.map_congr_left
      intro v _
      rw [ih2, if_neg]
      rintro ⟨_, _, h3⟩
      have e : t + off + v * p - off = v * p + t := by omega
      rw [e, idx_mod (by omega)] at h3
      omega
    rw [hreads]
    by_cases hc : j < a.length ∧ t + off ≤ j ∧ (j - (t + off)) % p = 0 ∧ (j - (t + off)) / p < r
    · obtain ⟨c1, c2, c3, c4⟩ := hc
      rw [if_pos ⟨c1, c2, c3, c4⟩]
      have hd := @idx_decomp p (j - (t + off))
      rw [c3, Nat.add_zero] at hd
      have e : j - off = ((j - (t + off)) / p) * p + t := by omega
      have hm : (j - off) % p = t := by rw [e]; exact idx_mod (by omega)
      have hq : (j - off) / p = (j - (t + off)) / p := by rw [e]; exact idx_div (by omega)
      have hlt : j < off + r * p := by
        have : ((j - (t + off)) / p + 1) * p ≤ r * p := Nat.mul_le_mul_right _ (by omega)
        have : ((j - (t + off)) / p + 1) * p = ((j - (t + off)) / p) * p + p := by ring
        omega
      rw [if_pos ⟨by omega, hlt, by omega⟩, hm, hq]
    · rw [if_neg hc, ih2]
      by_cases hc2 : off ≤ j ∧ j < off + r * p ∧ (j - off) % p < t
      · rw [if_pos hc2, if_pos ⟨hc2.1, hc2.2.1, by omega⟩]
      · rw [if_neg hc2, if_neg]
        rintro ⟨h1, h2, h3⟩
        have hm : (j - off) % p = t := by omega
        apply hc
        have hd := @idx_decomp p (j - off)
        rw [hm] at hd
        have e : j - (t + off) = ((j - off) / p) * p := by omega
        refine ⟨by omega, by omega, by rw [e]; exact Nat.mul_mod_left _ _, ?_⟩
        rw [e, Nat.mul_div_cancel _ hp]
        apply (Nat.div_lt_iff_lt_mul hp).2
        omega

end atcoder

namespace atcoder

theorem blk_div {B s x : Nat} (hx : x < B) : (s * B + x) / B = s := idx_div hx

theorem blk_mod {B s x : Nat} (hx : x < B) : (s * B + x) % B = x := idx_mod hx

theorem sub_lt_block {r p u i : Nat} (hu : u < r) (hi : i < p) : u * p + i < r * p := by
  have : (u + 1) * p ≤ r * p := Nat.mul_le_mul_right _ (by omega)
  have : (u + 1) * p = u * p + p := by ring
  omega

/-- The block loop of a butterfly pass: state after `t` blocks. -/
theorem outerLoop_spec (r p S : Nat) (rate : List Nat) (W : Nat → List Nat → Nat → Nat)
    (hp : 0 < p) (a : List Nat) (hlen : S * (r * p) ≤ a.length) (t : Nat) (ht : t ≤ S) :
    let st := forUp t
      (fun s (st : List Nat × Nat) =>
        (forUp p (fun i a => stridedStep r p (i + s * (r * p)) (W st.2) a) st.1,
         if s + 1 ≠ S then mint.mul st.2 (rate.getD (bsf (not32 s)) 0) else st.2))
      (a, mint.ofInt 1)
    st.1.length = a.length ∧ (t < S → st.2 = rotSeq rate t) ∧
    ∀ j, st.1.getD j 0 =
      if j < t * (r * p)
      then W (rotSeq rate (j / (r * p)))
        ((List.range r).map fun v =>
          a.getD (j % (r * p) % p + j / (r * p) * (r * p) + v * p) 0)
        (j % (r * p) / p)
      else a.getD j 0 := by
  induction t with
  | zero =>
    refine ⟨rfl, fun _ => rfl, fun j => ?_⟩
    simp [forUp]
  | succ t ih =>
    obtain ⟨ih1, ih2, ih3⟩ := ih (by omega)
    simp only [forUp]
    set st := forUp t
      (fun s (st : List Nat × Nat) =>
        (forUp p (fun i a => stridedStep r p (i + s * (r * p)) (W st.2) a) st.1,
         if s + 1 ≠ S then mint.mul st.2 (rate.getD (bsf (not32 s)) 0) else st.2))
      (a, mint.ofInt 1) with hst
    have hrot : st.2 = rotSeq rate t := ih2 (by omega)
    have hB : (t + 1) * (r * p) = t * (r * p) + r * p := by ring
    have hle : (t + 1) * (r * p) ≤ S * (r * p) := Nat.mul_le_mul_right _ (by omega)
    obtain ⟨s1, s2⟩ := innerLoop_spec r p (t * (r * p)) (W st.2) hp st.1
      (by rw [ih1]; omega) p le_rfl
    refine ⟨by rw [s1, ih1], ?_, fun j => ?_⟩
    · intro hlt
      rw [if_pos (by omega), hrot]
      rfl
    · rw [s2]
      by_cases hc : t * (r * p) ≤ j ∧ j < t * (r * p) + r * p
      · obtain ⟨c1, c2⟩ := hc
        have hpm : (j - t * (r * p)) % p < p := Nat.mod_lt _ hp
        rw [if_pos ⟨c1, c2, hpm⟩, if_pos (by omega)]
        have ej : j = t * (r * p) + (j - t * (r * p)) := by omega
        have hx : j - t * (r * p) < r * p := by omega
        have hdiv : j / (r * p) = t := by
          have := @blk_div (r * p) t _ hx
          rwa [← ej] at this
        have hmod : j % (r * p) = j - t * (r * p) := by
          have := @blk_mod (r * p) t _ hx
          rwa [← ej] at this
        rw [hdiv, hmod, hrot]
        congr 1
        apply List.map_congr_left
        intro v hv
        have hv' : v < r := List.mem_range.1 hv
        rw [ih3, if_neg]
        have := @sub_lt_block r p v ((j - t * (r * p)) % p) hv' hpm
        omega
      · rw [if_neg (by omega), ih3]
        by_cases hc2 : j < t * (r * p)
        · rw [if_pos hc2, if_pos (by omega)]
        · rw [if_neg hc2, if_neg (by omega)]

/-- A butterfly pass in generic form, entry by entry: block `s`, row `u`, column `i`. -/
theorem genPass_spec (r p S : Nat) (rate : List Nat) (W : Nat → List Nat → Nat → Nat)
    (hp : 0 < p) (a : List Nat) (hlen : S * (r * p) ≤ a.length) :
    (genPass r p S rate W a).length = a.length ∧
    ∀ s u i, s < S → u < r → i < p →
      (genPass r p S rate W a).getD (s * (r * p) + u * p + i) 0 =
        W (rotSeq rate s) ((List.range r).map fun v => a.getD (s * (r * p) + v * p + i) 0) u := by
  obtain ⟨h1, _, h3⟩ := outerLoop_spec r p S rate W hp a hlen S le_rfl
  unfold genPass
  refine ⟨h1, fun s u i hs hu hi => ?_⟩
  rw [h3]
  have hx : u * p + i < r * p := sub_lt_block hu hi
  have hle : (s + 1) * (r * p) ≤ S * (r * p) := Nat.mul_le_mul_right _ (by omega)
  have hB : (s + 1) * (r * p) = s * (r * p) + r * p := by ring
  rw [if_pos (by omega)]
  have e : s * (r * p) + u * p + i = s * (r * p) + (u * p + i) := by omega
  rw [e, blk_div hx, blk_mod hx, idx_mod hi, idx_div hi]
  congr 1
  apply List.map_congr_left
  intro v _
  congr 1
  omega

end atcoder

namespace atcoder

/-! ## The four passes of the source are instances of the generic pass -/

theorem butterfly_radix2_eq (info : fft_info) (h len : Nat) (hl : len < h) (a : List Nat) :
    butterfly_radix2 info h len a =
      genPass 2 (2 ^ (h - len - 1)) (2 ^ len) info.rate2 W_fwd2 a := by
  have hpow : 2 ^ (h - len) = 2 * 2 ^ (h - len - 1) := by
    rw [← pow_succ']; congr 1; omega
  unfold butterfly_radix2 genPass
  simp only [hpow]
  congr 2
  funext s st
  congr 1
  congr 1
  funext i a
  simp [stridedStep, forUp, W_fwd2, List.range_succ]

theorem butterfly_radix4_eq (info : fft_info) (h len : Nat) (hl : len + 2 ≤ h) (a : List Nat) :
    butterfly_radix4 info h len a =
      genPass 4 (2 ^ (h - len - 2)) (2 ^ len) info.rate3 (W_fwd4 (info.root.getD 2 0)) a := by
  have hpow : 2 ^ (h - len) = 4 * 2 ^ (h - len - 2) := by
    have : h - len = (h - len - 2) + 2 := by omega
    conv_lhs => rw [this, pow_add]
    ring
  unfold butterfly_radix4 genPass
  simp only [hpow]
  congr 2
  funext s st
  congr 1
  congr 1
  funext i a
  simp [stridedStep, forUp, W_fwd4, List.range_succ]

theorem butterfly_inv_radix2_eq (info : fft_info) (h len : Nat) (a : List Nat) :
    butterfly_inv_radix2 info h len a =
      genPass 2 (2 ^ (h - len)) (2 ^ (len - 1)) info.irate2 W_inv2 a := by
  have hpow : 2 ^ (h - len + 1) = 2 * 2 ^ (h - len) := by
    rw [pow_succ']
  unfold butterfly_inv_radix2 genPass
  simp only [hpow]
  congr 2
  funext s st
  congr 1
  congr 1
  funext i a
  simp [stridedStep, forUp, W_inv2, List.range_succ]

theorem butterfly_inv_radix4_eq (info : fft_info) (h len : Nat) (a : List Nat) :
    butterfly_inv_radix4 info h len a =
      genPass 4 (2 ^ (h - len)) (2 ^ (len - 2)) info.irate3 (W_inv4 (info.iroot.getD 2 0)) a := by
  have hpow : 2 ^ (h - len + 2) = 4 * 2 ^ (h - len) := by
    rw [pow_add]; ring
  unfold butterfly_inv_radix4 genPass
  simp only [hpow]
  congr 2
  funext s st
  congr 1
  congr 1
  funext i a
  simp [stridedStep, forUp, W_inv4, List.range_succ]

end atcoder

namespace atcoder

/-! ## Field values of the butterfly steps (64-bit intermediates do not wrap) -/

theorem u64_of_lt {x : Nat} (h : x < 2 ^ 64) : u64 x = x := Nat.mod_eq_of_lt h

theorem u32_of_lt {x : Nat} (h : x < 2 ^ 32) : u32 x = x := Nat.mod_eq_of_lt h

theorem sub64_of_le {a b : Nat} (hb : b ≤ a) (ha : a < 2 ^ 64) : sub64 a b = a - b := by
  unfold sub64
  rw [Nat.mod_eq_of_lt (by omega : b < 2 ^ 64)]
  omega

theorem sub32_of_le {a b : Nat} (hb : b ≤ a) (ha : a < 2 ^ 32) : sub32 a b = a - b := by
  unfold sub32
  rw [Nat.mod_eq_of_lt (by omega : b < 2 ^ 32)]
  omega

theorem mint.cast_mod : ((mint.mod : Nat) : ZMod mint.mod) = 0 := ZMod.natCast_self _

theorem mul_lt_mod2 {x y : Nat} (hx : x < mint.mod) (hy : y < mint.mod) :
    x * y ≤ 998244352 * 998244352 := by
  unfold mint.mod at hx hy
  exact Nat.mul_le_mul (by omega) (by omega)

theorem W_fwd2_spec {l r rot : Nat} (hl : l < mint.mod) (hr : r < mint.mod)
    (hrot : rot < mint.mod) :
    W_fwd2 rot [l, r] 0 < mint.mod ∧ W_fwd2 rot [l, r] 1 < mint.mod ∧
    ((W_fwd2 rot [l, r] 0 : Nat) : ZMod mint.mod) = l + r * rot ∧
    ((W_fwd2 rot [l, r] 1 : Nat) : ZMod mint.mod) = l - r * rot := by
  have hm := mint.mul_lt hr hrot
  simp only [W_fwd2, List.getD_cons_zero, List.getD_cons_succ, if_true, one_ne_zero, if_false]
  refine ⟨mint.add_lt hl hm, mint.sub_lt hl hm, ?_, ?_⟩
  · rw [mint.cast_add hl hm, mint.cast_mul hr hrot]
  · rw [mint.cast_sub hl hm, mint.cast_mul hr hrot]

theorem W_fwd4_spec {x0 x1 x2 x3 rot imag : Nat} (h0 : x0 < mint.mod) (h1 : x1 < mint.mod)
    (h2 : x2 < mint.mod) (h3 : x3 < mint.mod) (hrot : rot < mint.mod)
    (himag : imag < mint.mod) :
    (∀ u, W_fwd4 imag rot [x0, x1, x2, x3] u < mint.mod) ∧
    ((W_fwd4 imag rot [x0, x1, x2, x3] 0 : Nat) : ZMod mint.mod) =
      x0 + x2 * rot ^ 2 + x1 * rot + x3 * rot ^ 3 ∧
    ((W_fwd4 imag rot [x0, x1, x2, x3] 1 : Nat) : ZMod mint.mod) =
      x0 + x2 * rot ^ 2 - (x1 * rot + x3 * rot ^ 3) ∧
    ((W_fwd4 imag rot [x0, x1, x2, x3] 2 : Nat) : ZMod mint.mod) =
      x0 - x2 * rot ^ 2 + (x1 * rot - x3 * rot ^ 3) * imag ∧
    ((W_fwd4 imag rot [x0, x1, x2, x3] 3 : Nat) : ZMod mint.mod) =
      x0 - x2 * rot ^ 2 - (x1 * rot - x3 * rot ^ 3) * imag := by
  have hr2 := mint.mul_lt hrot hrot
  have hr3 := mint.mul_lt hr2 hrot
  have c2 : ((mint.mul rot rot : Nat) : ZMod mint.mod) = (rot : ZMod mint.mod) ^ 2 := by
    rw [mint.cast_mul hrot hrot]; ring
  have c3 : ((mint.mul (mint.mul rot rot) rot : Nat) : ZMod mint.mod) =
      (rot : ZMod mint.mod) ^ 3 := by
    rw [mint.cast_mul hr2 hrot, c2]; ring
  have b1 := mul_lt_mod2 h1 hrot
  have b2 := mul_lt_mod2 h2 hr2
  have b3 := mul_lt_mod2 h3 hr3
  have hM2 : mint.mod * mint.mod = 998244353 * 998244353 := rfl
  have hmod2 : u64 (mint.mod * mint.mod) = mint.mod * mint.mod := u64_of_lt (by rw [hM2]; norm_num)
  have cM2 : ((mint.mod * mint.mod : Nat) : ZMod mint.mod) = 0 := by
    rw [Nat.cast_mul, mint.cast_mod, zero_mul]
  simp only [W_fwd4, List.getD_cons_zero, List.getD_cons_succ, hmod2]
  generalize hA1 : x1 * rot = A1 at b1
  generalize hA2 : x2 * mint.mul rot rot = A2 at b2
  generalize hA3 : x3 * mint.mul (mint.mul rot rot) rot = A3 at b3
  have cA1 : (A1 : ZMod mint.mod) = x1 * rot := by rw [← hA1, Nat.cast_mul]
  have cA2 : (A2 : ZMod mint.mod) = x2 * rot ^ 2 := by rw [← hA2, Nat.cast_mul, c2]
  have cA3 : (A3 : ZMod mint.mod) = x3 * rot ^ 3 := by rw [← hA3, Nat.cast_mul, c3]
  rw [hM2] at cM2 ⊢
  have hx0 : x0 < 998244353 := h0
  norm_num at b1 b2 b3 ⊢
  rw [u64_of_lt (by omega : A1 < 2 ^ 64), u64_of_lt (by omega : A2 < 2 ^ 64),
    u64_of_lt (by omega : A3 < 2 ^ 64)]
  rw [u64_of_lt (by omega : A1 + 996491788296388609 < 2 ^ 64),
    sub64_of_le (by omega : A3 ≤ A1 + 996491788296388609) (by omega)]
  have hT := mint.ofNat_lt (A1 + 996491788296388609 - A3)
  have bT := mul_lt_mod2 hT himag
  generalize hTI : mint.ofNat (A1 + 996491788296388609 - A3) * imag = TI at bT
  have cTI : (TI : ZMod mint.mod) = (x1 * rot - x3 * rot ^ 3) * imag := by
    rw [← hTI, Nat.cast_mul, mint.cast_ofNat, Nat.cast_sub (by omega), Nat.cast_add, cM2,
      cA1, cA3]
    ring
  norm_num at bT
  rw [u64_of_lt (by omega : TI < 2 ^ 64)]
  rw [sub64_of_le (by omega : A2 ≤ 996491788296388609) (by norm_num),
    sub64_of_le (by omega : TI ≤ 996491788296388609) (by norm_num)]
  rw [u64_of_lt (by norm_num : 1992983576592777218 < 2 ^ 64),
    u64_of_lt (by omega : A1 + A3 < 2 ^ 64),
    sub64_of_le (by omega : A1 + A3 ≤ 1992983576592777218) (by norm_num)]
  rw [u64_of_lt (by omega : x0 + A2 < 2 ^ 64), u64_of_lt (by omega : x0 + A2 + A1 < 2 ^ 64),
    u64_of_lt (by omega : x0 + A2 + A1 + A3 < 2 ^ 64),
    u64_of_lt (by omega : x0 + A2 + (1992983576592777218 - (A1 + A3)) < 2 ^ 64),
    u64_of_lt (by omega : x0 + (996491788296388609 - A2) < 2 ^ 64),
    u64_of_lt (by omega : x0 + (996491788296388609 - A2) + TI < 2 ^ 64),
    u64_of_lt (by omega : x0 + (996491788296388609 - A2) + (996491788296388609 - TI) < 2 ^ 64)]
  have cc : ((1992983576592777218 : Nat) : ZMod mint.mod) = 0 := by
    have : (1992983576592777218 : Nat) = 2 * 996491788296388609 := by norm_num
    rw [this, Nat.cast_mul, cM2, mul_zero]
  refine ⟨fun u => ?_, ?_, ?_, ?_, ?_⟩
  · split_ifs <;> exact mint.ofNat_lt _
  · rw [mint.cast_ofNat]; push_cast; rw [cA1, cA2, cA3]
  · rw [mint.cast_ofNat, Nat.cast_add, Nat.cast_sub (by omega), cc]; push_cast
    rw [cA1, cA2, cA3]; ring
  · rw [mint.cast_ofNat, Nat.cast_add, Nat.cast_add, Nat.cast_sub (by omega), cM2, cTI, cA2]
    ring
  · rw [mint.cast_ofNat, Nat.cast_add, Nat.cast_add, Nat.cast_sub (by omega),
      Nat.cast_sub (by omega), cM2, cTI, cA2]
    ring

end atcoder

namespace atcoder

theorem mul_le_of_lt {x y X : Nat} (hx : x ≤ X) (hy : y < mint.mod) :
    x * y ≤ X * 998244352 := by
  unfold mint.mod at hy
  exact Nat.mul_le_mul hx (by omega)

theorem W_inv2_spec {l r irot : Nat} (hl : l < mint.mod) (hr : r < mint.mod)
    (hrot : irot < mint.mod) :
    W_inv2 irot [l, r] 0 < mint.mod ∧ W_inv2 irot [l, r] 1 < mint.mod ∧
    ((W_inv2 irot [l, r] 0 : Nat) : ZMod mint.mod) = l + r ∧
    ((W_inv2 irot [l, r] 1 : Nat) : ZMod mint.mod) = (l - r) * irot := by
  simp only [W_inv2, List.getD_cons_zero, List.getD_cons_succ, if_true, one_ne_zero, if_false]
  have hl' : l < 998244353 := hl
  have hr' : r < 998244353 := hr
  have hM : mint.mod = 998244353 := rfl
  rw [hM, u32_of_lt (by omega : 998244353 + l < 2 ^ 32),
    sub32_of_le (by omega : r ≤ 998244353 + l) (by omega)]
  have b := mul_le_of_lt (by omega : 998244353 + l - r ≤ 1996488706) hrot
  generalize hP : (998244353 + l - r) * irot = P at b
  have cP : (P : ZMod mint.mod) = (l - r) * irot := by
    rw [← hP, Nat.cast_mul, Nat.cast_sub (by omega), Nat.cast_add]
    have : ((998244353 : Nat) : ZMod mint.mod) = 0 := mint.cast_mod
    rw [this]; ring
  norm_num at b
  rw [u64_of_lt (by omega : P < 2 ^ 64)]
  refine ⟨mint.add_lt hl hr, mint.ofNat_lt _, mint.cast_add hl hr, ?_⟩
  rw [mint.cast_ofNat, cP]

theorem W_inv4_spec {x0 x1 x2 x3 irot iimag : Nat} (h0 : x0 < mint.mod) (h1 : x1 < mint.mod)
    (h2 : x2 < mint.mod) (h3 : x3 < mint.mod) (hrot : irot < mint.mod)
    (himag : iimag < mint.mod) :
    (∀ u, W_inv4 iimag irot [x0, x1, x2, x3] u < mint.mod) ∧
    ((W_inv4 iimag irot [x0, x1, x2, x3] 0 : Nat) : ZMod mint.mod) = x0 + x1 + x2 + x3 ∧
    ((W_inv4 iimag irot [x0, x1, x2, x3] 1 : Nat) : ZMod mint.mod) =
      (x0 - x1 + (x2 - x3) * iimag) * irot ∧
    ((W_inv4 iimag irot [x0, x1, x2, x3] 2 : Nat) : ZMod mint.mod) =
      (x0 + x1 - x2 - x3) * irot ^ 2 ∧
    ((W_inv4 iimag irot [x0, x1, x2, x3] 3 : Nat) : ZMod mint.mod) =
      (x0 - x1 - (x2 - x3) * iimag) * irot ^ 3 := by
  have hr2 := mint.mul_lt hrot hrot
  have hr3 := mint.mul_lt hr2 hrot
  have c2 : ((mint.mul irot irot : Nat) : ZMod mint.mod) = (irot : ZMod mint.mod) ^ 2 := by
    rw [mint.cast_mul hrot hrot]; ring
  have c3 : ((mint.mul (mint.mul irot irot) irot : Nat) : ZMod mint.mod) =
      (irot : ZMod mint.mod) ^ 3 := by
    rw [mint.cast_mul hr2 hrot, c2]; ring
  have cM : ((998244353 : Nat) : ZMod mint.mod) = 0 := mint.cast_mod
  simp only [W_inv4, List.getD_cons_zero, List.getD_cons_succ]
  have hM : mint.mod = 998244353 := rfl
  have hx0 : x0 < 998244353 := h0
  have hx1 : x1 < 998244353 := h1
  have hx2 : x2 < 998244353 := h2
  have hx3 : x3 < 998244353 := h3
  rw [hM]
  rw [u64_of_lt (by omega : 998244353 + x2 < 2 ^ 64),
    sub64_of_le (by omega : x3 ≤ 998244353 + x2) (by omega)]
  have bQ := mul_le_of_lt (by omega : 998244353 + x2 - x3 ≤ 1996488706) himag
  generalize hQ : (998244353 + x2 - x3) * iimag = Q at bQ
  have cQ : (Q : ZMod mint.mod) = (x2 - x3) * iimag := by
    rw [← hQ, Nat.cast_mul, Nat.cast_sub (by omega), Nat.cast_add, cM]; ring
  norm_num at bQ
  rw [u64_of_lt (by omega : Q < 2 ^ 64)]
  have hT : mint.ofNat Q < 998244353 := mint.ofNat_lt Q
  have cT : ((mint.ofNat Q : Nat) : ZMod mint.mod) = (x2 - x3) * iimag := by
    rw [mint.cast_ofNat, cQ]
  generalize mint.ofNat Q = T at hT cT
  rw [sub64_of_le (by omega : x1 ≤ 998244353) (by norm_num),
    sub64_of_le (by omega : x2 ≤ 998244353) (by norm_num),
    sub64_of_le (by omega : x3 ≤ 998244353) (by norm_num),
    sub64_of_le (by omega : T ≤ 998244353) (by norm_num)]
  rw [u64_of_lt (by omega : x0 + x1 < 2 ^ 64), u64_of_lt (by omega : x0 + x1 + x2 < 2 ^ 64),
    u64_of_lt (by omega : x0 + x1 + x2 + x3 < 2 ^ 64),
    u64_of_lt (by omega : x0 + (998244353 - x1) < 2 ^ 64),
    u64_of_lt (by omega : x0 + (998244353 - x1) + T < 2 ^ 64),
    u64_of_lt (by omega : x0 + x1 + (998244353 - x2) < 2 ^ 64),
    u64_of_lt (by omega : x0 + x1 + (998244353 - x2) + (998244353 - x3) < 2 ^ 64),
    u64_of_lt (by omega : x0 + (998244353 - x1) + (998244353 - T) < 2 ^ 64)]
  have bP1 := mul_le_of_lt (by omega : x0 + (998244353 - x1) + T ≤ 2994733059) hrot
  have bP2 := mul_le_of_lt
    (by omega : x0 + x1 + (998244353 - x2) + (998244353 - x3) ≤ 3992977412) hr2
  have bP3 := mul_le_of_lt
    (by omega : x0 + (998244353 - x1) + (998244353 - T) ≤ 2994733059) hr3
  generalize hP1 : (x0 + (998244353 - x1) + T) * irot = P1 at bP1
  generalize hP2 : (x0 + x1 + (998244353 - x2) + (998244353 - x3)) * mint.mul irot irot = P2
    at bP2
  generalize hP3 : (x0 + (998244353 - x1) + (998244353 - T)) * mint.mul (mint.mul irot irot) irot
    = P3 at bP3
  have cP1 : (P1 : ZMod mint.mod) = (x0 - x1 + (x2 - x3) * iimag) * irot := by
    rw [← hP1]; push_cast [Nat.cast_sub (by omega : x1 ≤ 998244353)]
    rw [cT]
    have : ((998244353 : Nat) : ZMod mint.mod) = (998244353 : ZMod mint.mod) := by norm_cast
    rw [← this, cM]; ring
  have cP2 : (P2 : ZMod mint.mod) = (x0 + x1 - x2 - x3) * irot ^ 2 := by
    rw [← hP2]
    push_cast [Nat.cast_sub (by omega : x2 ≤ 998244353),
      Nat.cast_sub (by omega : x3 ≤ 998244353)]
    rw [c2]
    have : ((998244353 : Nat) : ZMod mint.mod) = (998244353 : ZMod mint.mod) := by norm_cast
    rw [← this, cM]; ring
  have cP3 : (P3 : ZMod mint.mod) = (x0 - x1 - (x2 - x3) * iimag) * irot ^ 3 := by
    rw [← hP3]
    push_cast [Nat.cast_sub (by omega : x1 ≤ 998244353),
      Nat.cast_sub (by omega : T ≤ 998244353)]
    rw [c3, cT]
    have : ((998244353 : Nat) : ZMod mint.mod) = (998244353 : ZMod mint.mod) := by norm_cast
    rw [← this, cM]; ring
  norm_num at bP1 bP2 bP3
  rw [u64_of_lt (by omega : P1 < 2 ^ 64), u64_of_lt (by omega : P2 < 2 ^ 64),
    u64_of_lt (by omega : P3 < 2 ^ 64)]
  refine ⟨fun u => ?_, ?_, ?_, ?_, ?_⟩
  · split_ifs <;> exact mint.ofNat_lt _
  · show ((mint.ofNat _ : Nat) : ZMod mint.mod) = _
    rw [mint.cast_ofNat]; push_cast; ring
  · show ((mint.ofNat _ : Nat) : ZMod mint.mod) = _
    rw [mint.cast_ofNat, cP1]
  · show ((mint.ofNat _ : Nat) : ZMod mint.mod) = _
    rw [mint.cast_ofNat, cP2]
  · show ((mint.ofNat _ : Nat) : ZMod mint.mod) = _
    rw [mint.cast_ofNat, cP3]

end atcoder

namespace atcoder

/-! ## The twiddle tables -/

theorem fft_info_new_eq : fft_info.new = some infoTables := by decide!

theorem rank2_eq : rank2 = 23 := by decide!

theorem tables_length : infoTables.root.length = 24 ∧ infoTables.iroot.length = 24 ∧
    infoTables.rate2.length = 22 ∧ infoTables.irate2.length = 22 ∧
    infoTables.rate3.length = 21 ∧ infoTables.irate3.length = 21 := by decide!

theorem tables_valid : Valid infoTables.root ∧ Valid infoTables.iroot ∧
    Valid infoTables.rate2 ∧ Valid infoTables.irate2 ∧
    Valid infoTables.rate3 ∧ Valid infoTables.irate3 := by decide!

theorem root_zero_one : infoTables.root.getD 0 0 = 1 ∧
    infoTables.root.getD 1 0 = mint.mod - 1 := by decide!

theorem root_sq : ∀ i, i < 23 →
    mint.mul (infoTables.root.getD (i + 1) 0) (infoTables.root.getD (i + 1) 0) =
      infoTables.root.getD i 0 := by decide!

theorem root_iroot : ∀ i, i < 24 →
    mint.mul (infoTables.root.getD i 0) (infoTables.iroot.getD i 0) = 1 := by decide!

theorem rate2_eq : ∀ t, t < 22 → infoTables.rate2.getD t 0 =
    mint.mul (infoTables.root.getD (t + 2) 0)
      (forUp t (fun j acc => mint.mul acc (infoTables.iroot.getD (j + 2) 0)) 1) := by decide!

theorem irate2_eq : ∀ t, t < 22 → infoTables.irate2.getD t 0 =
    mint.mul (infoTables.iroot.getD (t + 2) 0)
      (forUp t (fun j acc => mint.mul acc (infoTables.root.getD (j + 2) 0)) 1) := by decide!

theorem rate3_eq : ∀ t, t < 21 → infoTables.rate3.getD t 0 =
    mint.mul (infoTables.root.getD (t + 3) 0)
      (forUp t (fun j acc => mint.mul acc (infoTables.iroot.getD (j + 3) 0)) 1) := by decide!

theorem irate3_eq : ∀ t, t < 21 → infoTables.irate3.getD t 0 =
    mint.mul (infoTables.iroot.getD (t + 3) 0)
      (forUp t (fun j acc => mint.mul acc (infoTables.root.getD (j + 3) 0)) 1) := by decide!

end atcoder

namespace atcoder

theorem rootK_zero : rootK 0 = 1 := by
  unfold rootK; rw [root_zero_one.1]; simp

theorem rootK_one : rootK 1 = -1 := by
  unfold rootK; rw [root_zero_one.2, Nat.cast_sub (by unfold mint.mod; norm_num), mint.cast_mod]
  simp

theorem rootK_sq {i : Nat} (hi : i < 23) : rootK (i + 1) ^ 2 = rootK i := by
  unfold rootK
  rw [← root_sq i hi, mint.cast_mul (tables_valid.1.getD_lt _) (tables_valid.1.getD_lt _)]
  ring

theorem rootK_mul_irootK {i : Nat} (hi : i < 24) : rootK i * irootK i = 1 := by
  unfold rootK irootK
  rw [← mint.cast_mul (tables_valid.1.getD_lt _) (tables_valid.2.1.getD_lt _), root_iroot i hi]
  simp

theorem irootK_mul_rootK {i : Nat} (hi : i < 24) : irootK i * rootK i = 1 := by
  rw [mul_comm]; exact rootK_mul_irootK hi

theorem bitProd_zero (r : Nat → ZMod mint.mod) (k : Nat) : bitProd r k 0 = 1 := by
  rw [bitProd]; simp

theorem bitProd_even (r : Nat → ZMod mint.mod) (k s : Nat) :
    bitProd r k (2 * s) = bitProd r (k + 1) s := by
  by_cases h : s = 0
  · subst h; rw [bitProd_zero, bitProd_zero]
  · rw [bitProd, if_neg (by omega), if_neg (by omega), one_mul]
    congr 1; omega

theorem bitProd_odd (r : Nat → ZMod mint.mod) (k s : Nat) :
    bitProd r k (2 * s + 1) = r k * bitProd r (k + 1) s := by
  rw [bitProd, if_neg (by omega), if_pos (by omega)]
  congr 2; omega

theorem bsfLoop_shift (f x n : Nat) : bsfLoop f (x + 1) n = bsfLoop f x n + 1 := by
  induction f generalizing x n with
  | zero => rfl
  | succ f ih =>
    unfold bsfLoop
    split
    · rfl
    · exact ih _ _

/-- The rate-table recurrence of the twiddle: with `T` the number of trailing one-bits of `s`
(as computed by `bsf(~s)` on `w`-bit words), stepping from block `s` to `s + 1` multiplies the
bit-product by `r (T + k) * ∏_{j < T} ir (j + k)`. -/
theorem bitProd_succ (r ir : Nat → ZMod mint.mod) :
    ∀ (w N k s : Nat), s + 1 < 2 ^ N → N ≤ w →
      (∀ j, k ≤ j → j < k + N → r j * ir j = 1) →
      bsfLoop w 0 (2 ^ w - 1 - s) < N ∧
      bitProd r k (s + 1) = bitProd r k s *
        (r (bsfLoop w 0 (2 ^ w - 1 - s) + k) *
          ∏ j in Finset.range (bsfLoop w 0 (2 ^ w - 1 - s)), ir (j + k)) := by
  intro w
  induction w with
  | zero =>
    intro N k s hs hN
    have : N = 0 := by omega
    subst this
    simp at hs
  | succ w ih =>
    intro N k s hs hN hinv
    have hN1 : 1 ≤ N := by
      rcases Nat.eq_zero_or_pos N with h | h
      · subst h; simp at hs
      · exact h
    have hpow : 2 ^ N ≤ 2 ^ (w + 1) := Nat.pow_le_pow_right (by norm_num) hN
    have hpw : 2 ^ (w + 1) = 2 * 2 ^ w := by rw [pow_succ']
    have hwpos : 0 < 2 ^ w := by positivity
    rcases Nat.even_or_odd' s with ⟨s', hs' | hs'⟩
    · subst hs'
      have hodd : (2 ^ (w + 1) - 1 - 2 * s') % 2 = 1 := by omega
      have hT : bsfLoop (w + 1) 0 (2 ^ (w + 1) - 1 - 2 * s') = 0 := by
        unfold bsfLoop; rw [if_pos hodd]
      rw [hT]
      refine ⟨by omega, ?_⟩
      rw [bitProd_odd, bitProd_even]
      simp [mul_comm]
    · subst hs'
      have hN2 : 2 ≤ N := by
        rcases Nat.lt_or_ge N 2 with h | h
        · have : N = 1 := by omega
          subst this; simp at hs; omega
        · exact h
      have hpN : 2 ^ N = 2 * 2 ^ (N - 1) := by
        rw [← pow_succ']; congr 1; omega
      have hs2 : s' + 1 < 2 ^ (N - 1) := by omega
      obtain ⟨ih1, ih2⟩ := ih (N - 1) (k + 1) s' hs2 (by omega)
        (fun j h1 h2 => hinv j (by omega) (by omega))
      have hle : 2 ^ (N - 1) ≤ 2 ^ w := Nat.pow_le_pow_right (by norm_num) (by omega)
      have heven : (2 ^ (w + 1) - 1 - (2 * s' + 1)) % 2 ≠ 1 := by omega
      have hhalf : (2 ^ (w + 1) - 1 - (2 * s' + 1)) / 2 = 2 ^ w - 1 - s' := by omega
      have hT : bsfLoop (w + 1) 0 (2 ^ (w + 1) - 1 - (2 * s' + 1)) =
          bsfLoop w 0 (2 ^ w - 1 - s') + 1 := by
        conv_lhs => unfold bsfLoop
        rw [if_neg heven, hhalf, bsfLoop_shift]
      rw [hT]
      refine ⟨by omega, ?_⟩
      have e : 2 * s' + 1 + 1 = 2 * (s' + 1) := by ring
      rw [e, bitProd_even, bitProd_odd, ih2, Finset.prod_range_succ']
      have hk := hinv k le_rfl (by omega)
      have e2 : bsfLoop w 0 (2 ^ w - 1 - s') + 1 + k = bsfLoop w 0 (2 ^ w - 1 - s') + (k + 1) := by
        omega
      rw [e2]
      have e3 : ∀ j, ir (j + 1 + k) = ir (j + (k + 1)) := fun j => by
        congr 1; omega
      simp only [e3, Nat.zero_add]
      calc bitProd r (k + 1) s' * (r (bsfLoop w 0 (2 ^ w - 1 - s') + (k + 1)) *
            ∏ j in Finset.range (bsfLoop w 0 (2 ^ w - 1 - s')), ir (j + (k + 1)))
          = (r k * ir k) * (bitProd r (k + 1) s' * (r (bsfLoop w 0 (2 ^ w - 1 - s') + (k + 1)) *
            ∏ j in Finset.range (bsfLoop w 0 (2 ^ w - 1 - s')), ir (j + (k + 1)))) := by
            rw [hk, one_mul]
        _ = _ := by ring

theorem bitProd_sq (r : Nat → ZMod mint.mod) :
    ∀ (w k s : Nat), s < 2 ^ w → (∀ j, k ≤ j → j < k + w → r (j + 1) ^ 2 = r j) →
      bitProd r (k + 1) s ^ 2 = bitProd r k s := by
  intro w
  induction w with
  | zero =>
    intro k s hs _
    have : s = 0 := by simpa using hs
    subst this
    rw [bitProd_zero, bitProd_zero]; ring
  | succ w ih =>
    intro k s hs hsq
    have hpw : 2 ^ (w + 1) = 2 * 2 ^ w := by rw [pow_succ']
    rcases Nat.even_or_odd' s with ⟨s', hs' | hs'⟩
    · subst hs'
      rw [bitProd_even, bitProd_even]
      exact ih (k + 1) s' (by omega) (fun j h1 h2 => hsq j (by omega) (by omega))
    · subst hs'
      rw [bitProd_odd, bitProd_odd, mul_pow, hsq k le_rfl (by omega),
        ih (k + 1) s' (by omega) (fun j h1 h2 => hsq j (by omega) (by omega))]

theorem bitProd_mul_inv (r ir : Nat → ZMod mint.mod) :
    ∀ (w k s : Nat), s < 2 ^ w → (∀ j, k ≤ j → j < k + w → r j * ir j = 1) →
      bitProd r k s * bitProd ir k s = 1 := by
  intro w
  induction w with
  | zero =>
    intro k s hs _
    have : s = 0 := by simpa using hs
    subst this
    rw [bitProd_zero, bitProd_zero]; ring
  | succ w ih =>
    intro k s hs hinv
    have hpw : 2 ^ (w + 1) = 2 * 2 ^ w := by rw [pow_succ']
    rcases Nat.even_or_odd' s with ⟨s', hs' | hs'⟩
    · subst hs'
      rw [bitProd_even, bitProd_even]
      exact ih (k + 1) s' (by omega) (fun j h1 h2 => hinv j (by omega) (by omega))
    · subst hs'
      rw [bitProd_odd, bitProd_odd]
      have h1 := hinv k le_rfl (by omega)
      have h2 := ih (k + 1) s' (by omega) (fun j h1 h2 => hinv j (by omega) (by omega))
      calc r k * bitProd r (k + 1) s' * (ir k * bitProd ir (k + 1) s')
          = (r k * ir k) * (bitProd r (k + 1) s' * bitProd ir (k + 1) s') := by ring
        _ = 1 := by rw [h1, h2, one_mul]

end atcoder

namespace atcoder

theorem forUp_prod_cast (tbl : List Nat) (hv : Valid tbl) (k t : Nat) :
    forUp t (fun j acc => mint.mul acc (tbl.getD (j + k) 0)) 1 < mint.mod ∧
    ((forUp t (fun j acc => mint.mul acc (tbl.getD (j + k) 0)) 1 : Nat) : ZMod mint.mod) =
      ∏ j in Finset.range t, ((tbl.getD (j + k) 0 : Nat) : ZMod mint.mod) := by
  induction t with
  | zero => exact ⟨by unfold mint.mod forUp; norm_num, by simp [forUp]⟩
  | succ t ih =>
    obtain ⟨h1, h2⟩ := ih
    unfold forUp
    refine ⟨mint.mul_lt h1 (hv.getD_lt _), ?_⟩
    rw [mint.cast_mul h1 (hv.getD_lt _), h2, Finset.prod_range_succ]

theorem rotSeq_closed (rate : List Nat) (r ir : Nat → ZMod mint.mod) (k N : Nat) (hN : N ≤ 32)
    (hv : Valid rate)
    (hrate : ∀ t, t < N → ((rate.getD t 0 : Nat) : ZMod mint.mod) =
      r (t + k) * ∏ j in Finset.range t, ir (j + k))
    (hinv : ∀ j, k ≤ j → j < k + N → r j * ir j = 1) :
    ∀ s, s < 2 ^ N → rotSeq rate s < mint.mod ∧
      ((rotSeq rate s : Nat) : ZMod mint.mod) = bitProd r k s := by
  intro s
  induction s with
  | zero =>
    intro _
    refine ⟨by unfold rotSeq; rw [mint.ofInt_one]; unfold mint.mod; norm_num, ?_⟩
    unfold rotSeq; rw [mint.ofInt_one, bitProd_zero]; simp
  | succ s ih =>
    intro hs
    obtain ⟨h1, h2⟩ := ih (by omega)
    unfold rotSeq
    have hpow : 2 ^ N ≤ 2 ^ 32 := Nat.pow_le_pow_right (by norm_num) hN
    have hnot : bsf (not32 s) = bsfLoop 32 0 (2 ^ 32 - 1 - s) := by
      unfold bsf not32; rw [Nat.mod_eq_of_lt (by omega)]
    obtain ⟨b1, b2⟩ := bitProd_succ r ir 32 N k s hs hN hinv
    rw [hnot]
    refine ⟨mint.mul_lt h1 (hv.getD_lt _), ?_⟩
    rw [mint.cast_mul h1 (hv.getD_lt _), h2, hrate _ b1, b2]

theorem rot2_closed {s : Nat} (hs : s < 2 ^ 22) :
    rotSeq infoTables.rate2 s < mint.mod ∧
    ((rotSeq infoTables.rate2 s : Nat) : ZMod mint.mod) = bitProd rootK 2 s := by
  refine rotSeq_closed infoTables.rate2 rootK irootK 2 22 (by norm_num) tables_valid.2.2.1
    (fun t ht => ?_) (fun j _ hj => rootK_mul_irootK (by omega)) s hs
  rw [rate2_eq t ht]
  obtain ⟨p1, p2⟩ := forUp_prod_cast infoTables.iroot tables_valid.2.1 2 t
  rw [mint.cast_mul (tables_valid.1.getD_lt _) p1, p2]
  rfl

theorem irot2_closed {s : Nat} (hs : s < 2 ^ 22) :
    rotSeq infoTables.irate2 s < mint.mod ∧
    ((rotSeq infoTables.irate2 s : Nat) : ZMod mint.mod) = bitProd irootK 2 s := by
  refine rotSeq_closed infoTables.irate2 irootK rootK 2 22 (by norm_num) tables_valid.2.2.2.1
    (fun t ht => ?_) (fun j _ hj => irootK_mul_rootK (by omega)) s hs
  rw [irate2_eq t ht]
  obtain ⟨p1, p2⟩ := forUp_prod_cast infoTables.root tables_valid.1 2 t
  rw [mint.cast_mul (tables_valid.2.1.getD_lt _) p1, p2]
  rfl

theorem rot3_closed {s : Nat} (hs : s < 2 ^ 21) :
    rotSeq infoTables.rate3 s < mint.mod ∧
    ((rotSeq infoTables.rate3 s : Nat) : ZMod mint.mod) = bitProd rootK 3 s := by
  refine rotSeq_closed infoTables.rate3 rootK irootK 3 21 (by norm_num) tables_valid.2.2.2.2.1
    (fun t ht => ?_) (fun j _ hj => rootK_mul_irootK (by omega)) s hs
  rw [rate3_eq t ht]
  obtain ⟨p1, p2⟩ := forUp_prod_cast infoTables.iroot tables_valid.2.1 3 t
  rw [mint.cast_mul (tables_valid.1.getD_lt _) p1, p2]
  rfl

theorem irot3_closed {s : Nat} (hs : s < 2 ^ 21) :
    rotSeq infoTables.irate3 s < mint.mod ∧
    ((rotSeq infoTables.irate3 s : Nat) : ZMod mint.mod) = bitProd irootK 3 s := by
  refine rotSeq_closed infoTables.irate3 irootK rootK 3 21 (by norm_num) tables_valid.2.2.2.2.2
    (fun t ht => ?_) (fun j _ hj => irootK_mul_rootK (by omega)) s hs
  rw [irate3_eq t ht]
  obtain ⟨p1, p2⟩ := forUp_prod_cast infoTables.root tables_valid.1 3 t
  rw [mint.cast_mul (tables_valid.2.1.getD_lt _) p1, p2]
  rfl

end atcoder

namespace atcoder

/-! ## Transform levels on index functions -/

theorem Lfwd_lo {p s i j : Nat} (ρ x : Nat → ZMod mint.mod) (hi : i < p)
    (hj : j = s * (2 * p) + i) : Lfwd p ρ x j = x j + ρ s * x (j + p) := by
  have hi2 : i < 2 * p := by omega
  unfold Lfwd
  rw [hj, blk_mod hi2, blk_div hi2, if_pos hi]

theorem Lfwd_hi {p s i j : Nat} (ρ x : Nat → ZMod mint.mod) (hi : i < p)
    (hj : j = s * (2 * p) + p + i) : Lfwd p ρ x j = x (j - p) - ρ s * x j := by
  have hi2 : p + i < 2 * p := by omega
  have e : s * (2 * p) + p + i = s * (2 * p) + (p + i) := by omega
  unfold Lfwd
  rw [hj, e, blk_mod hi2, blk_div hi2, if_neg (by omega)]

theorem Linv_lo {p s i j : Nat} (ρ x : Nat → ZMod mint.mod) (hi : i < p)
    (hj : j = s * (2 * p) + i) : Linv p ρ x j = x j + x (j + p) := by
  have hi2 : i < 2 * p := by omega
  unfold Linv
  rw [hj, blk_mod hi2, if_pos hi]

theorem Linv_hi {p s i j : Nat} (ρ x : Nat → ZMod mint.mod) (hi : i < p)
    (hj : j = s * (2 * p) + p + i) : Linv p ρ x j = (x (j - p) - x j) * ρ s := by
  have hi2 : p + i < 2 * p := by omega
  have e : s * (2 * p) + p + i = s * (2 * p) + (p + i) := by omega
  unfold Linv
  rw [hj, e, blk_mod hi2, blk_div hi2, if_neg (by omega)]

/-- Every index below `S * (r * p)` is `s * (r * p) + u * p + i` for a block `s`, a row `u`
and a column `i`. -/
theorem idx_split {r p S j : Nat} (hp : 0 < p) (hj : j < S * (r * p)) :
    ∃ s u i, s < S ∧ u < r ∧ i < p ∧ j = s * (r * p) + u * p + i := by
  have hB : 0 < r * p := by
    rcases Nat.eq_zero_or_pos (r * p) with h | h
    · rw [h] at hj; simp at hj
    · exact h
  refine ⟨j / (r * p), j % (r * p) / p, j % (r * p) % p, ?_, ?_, Nat.mod_lt _ hp, ?_⟩
  · exact (Nat.div_lt_iff_lt_mul hB).2 hj
  · exact (Nat.div_lt_iff_lt_mul hp).2 (Nat.mod_lt _ hB)
  · have h1 := @idx_decomp (r * p) j
    have h2 := @idx_decomp p (j % (r * p))
    omega

theorem pow_split2 {h len : Nat} (hl : len < h) : 2 ^ len * (2 * 2 ^ (h - len - 1)) = 2 ^ h := by
  rw [← pow_succ', ← pow_add]; congr 1; omega

theorem pow_split4 {h len : Nat} (hl : len + 2 ≤ h) :
    2 ^ len * (4 * 2 ^ (h - len - 2)) = 2 ^ h := by
  have : (4 : Nat) = 2 ^ 2 := by norm_num
  rw [this, ← pow_add, ← pow_add]; congr 1; omega

end atcoder

namespace atcoder

theorem range2_map (f : Nat → Nat) : (List.range 2).map f = [f 0, f 1] := rfl

theorem range4_map (f : Nat → Nat) : (List.range 4).map f = [f 0, f 1, f 2, f 3] := rfl

/-- The radix-2 pass of `butterfly` is one forward level. -/
theorem fwd2_pass (h len : Nat) (hl : len < h) (hh : h ≤ 23) (a : List Nat)
    (hlen : a.length = 2 ^ h) (hv : Valid a) :
    (butterfly_radix2 infoTables h len a).length = 2 ^ h ∧
    Valid (butterfly_radix2 infoTables h len a) ∧
    ∀ j, j < 2 ^ h → vecK (butterfly_radix2 infoTables h len a) j =
      Lfwd (2 ^ (h - len - 1)) (bitProd rootK 2) (vecK a) j := by
  rw [butterfly_radix2_eq _ _ _ hl]
  have hp : 0 < 2 ^ (h - len - 1) := by positivity
  set p := 2 ^ (h - len - 1) with hpdef
  have hS : 2 ^ len * (2 * p) = 2 ^ h := pow_split2 hl
  obtain ⟨g1, g2⟩ := genPass_spec 2 p (2 ^ len) infoTables.rate2 W_fwd2 hp a (by rw [hS, hlen])
  have hS22 : 2 ^ len ≤ 2 ^ 22 := Nat.pow_le_pow_right (by norm_num) (by omega)
  have key : ∀ s u i, s < 2 ^ len → u < 2 → i < p →
      (genPass 2 p (2 ^ len) infoTables.rate2 W_fwd2 a).getD (s * (2 * p) + u * p + i) 0
        < mint.mod ∧
      vecK (genPass 2 p (2 ^ len) infoTables.rate2 W_fwd2 a) (s * (2 * p) + u * p + i) =
        Lfwd p (bitProd rootK 2) (vecK a) (s * (2 * p) + u * p + i) := by
    intro s u i hs hu hi
    obtain ⟨r1, r2⟩ := @rot2_closed s (by omega)
    obtain ⟨w1, w2, w3, w4⟩ := W_fwd2_spec (hv.getD_lt (s * (2 * p) + 0 * p + i))
      (hv.getD_lt (s * (2 * p) + 1 * p + i)) r1
    unfold vecK
    rw [g2 s u i hs hu hi, range2_map]
    rcases (by omega : u = 0 ∨ u = 1) with rfl | rfl
    · refine ⟨w1, ?_⟩
      rw [w3, r2, Lfwd_lo _ _ hi (by ring : s * (2 * p) + 0 * p + i = s * (2 * p) + i)]
      have e : s * (2 * p) + 0 * p + i + p = s * (2 * p) + 1 * p + i := by ring
      rw [e]; ring
    · refine ⟨w2, ?_⟩
      rw [w4, r2, Lfwd_hi _ _ hi (by ring : s * (2 * p) + 1 * p + i = s * (2 * p) + p + i)]
      have e : s * (2 * p) + 1 * p + i - p = s * (2 * p) + 0 * p + i := by
        have : s * (2 * p) + 1 * p + i = s * (2 * p) + 0 * p + i + p := by ring
        omega
      rw [e]; ring
  refine ⟨by rw [g1, hlen], ?_, ?_⟩
  · apply valid_of_getD
    intro j hj
    rw [g1, hlen, ← hS] at hj
    obtain ⟨s, u, i, hs, hu, hi, rfl⟩ := idx_split hp hj
    exact (key s u i hs hu hi).1
  · intro j hj
    rw [← hS] at hj
    obtain ⟨s, u, i, hs, hu, hi, rfl⟩ := idx_split hp hj
    exact (key s u i hs hu hi).2

end atcoder

namespace atcoder

theorem rho_sq {s : Nat} (hs : s < 2 ^ 21) : bitProd rootK 3 s ^ 2 = bitProd rootK 2 s :=
  bitProd_sq rootK 21 2 s hs (fun _ _ hj => rootK_sq (by omega))

/-- The radix-4 pass of `butterfly` is two consecutive forward levels. -/
theorem fwd4_pass (h len : Nat) (hl : len + 2 ≤ h) (hh : h ≤ 23) (a : List Nat)
    (hlen : a.length = 2 ^ h) (hv : Valid a) :
    (butterfly_radix4 infoTables h len a).length = 2 ^ h ∧
    Valid (butterfly_radix4 infoTables h len a) ∧
    ∀ j, j < 2 ^ h → vecK (butterfly_radix4 infoTables h len a) j =
      Lfwd (2 ^ (h - len - 2)) (bitProd rootK 2)
        (Lfwd (2 * 2 ^ (h - len - 2)) (bitProd rootK 2) (vecK a)) j := by
  rw [butterfly_radix4_eq _ _ _ hl]
  have hp : 0 < 2 ^ (h - len - 2) := by positivity
  set p := 2 ^ (h - len - 2) with hpdef
  have hS : 2 ^ len * (4 * p) = 2 ^ h := pow_split4 hl
  obtain ⟨g1, g2⟩ := genPass_spec 4 p (2 ^ len) infoTables.rate3
    (W_fwd4 (infoTables.root.getD 2 0)) hp a (by rw [hS, hlen])
  have hS21 : 2 ^ len ≤ 2 ^ 21 := Nat.pow_le_pow_right (by norm_num) (by omega)
  have key : ∀ s u i, s < 2 ^ len → u < 4 → i < p →
      (genPass 4 p (2 ^ len) infoTables.rate3 (W_fwd4 (infoTables.root.getD 2 0)) a).getD
        (s * (4 * p) + u * p + i) 0 < mint.mod ∧
      vecK (genPass 4 p (2 ^ len) infoTables.rate3 (W_fwd4 (infoTables.root.getD 2 0)) a)
        (s * (4 * p) + u * p + i) =
        Lfwd p (bitProd rootK 2) (Lfwd (2 * p) (bitProd rootK 2) (vecK a))
          (s * (4 * p) + u * p + i) := by
    intro s u i hs hu hi
    obtain ⟨r1, r2⟩ := @rot3_closed s (by omega)
    obtain ⟨w0, w1, w2, w3, w4⟩ := W_fwd4_spec (hv.getD_lt (s * (4 * p) + 0 * p + i))
      (hv.getD_lt (s * (4 * p) + 1 * p + i)) (hv.getD_lt (s * (4 * p) + 2 * p + i))
      (hv.getD_lt (s * (4 * p) + 3 * p + i)) r1 (tables_valid.1.getD_lt 2)
    have hρs : bitProd rootK 2 s = bitProd rootK 3 s ^ 2 := (rho_sq (by omega)).symm
    have hρe : bitProd rootK 2 (2 * s) = bitProd rootK 3 s := bitProd_even _ _ _
    have hρo : bitProd rootK 2 (2 * s + 1) = rootK 2 * bitProd rootK 3 s := bitProd_odd _ _ _
    have himag : ((infoTables.root.getD 2 0 : Nat) : ZMod mint.mod) = rootK 2 := rfl
    have hi2 : i < 2 * p := by omega
    have hip : i + p < 2 * p := by omega
    -- the four entries of the block column, as values of the middle level
    have m0 : Lfwd (2 * p) (bitProd rootK 2) (vecK a) (s * (4 * p) + 0 * p + i) =
        vecK a (s * (4 * p) + 0 * p + i) +
          bitProd rootK 3 s ^ 2 * vecK a (s * (4 * p) + 2 * p + i) := by
      rw [Lfwd_lo _ _ hi2 (by ring : s * (4 * p) + 0 * p + i = s * (2 * (2 * p)) + i), hρs]
      have e : s * (4 * p) + 0 * p + i + 2 * p = s * (4 * p) + 2 * p + i := by ring
      rw [e]
    have m1 : Lfwd (2 * p) (bitProd rootK 2) (vecK a) (s * (4 * p) + 1 * p + i) =
        vecK a (s * (4 * p) + 1 * p + i) +
          bitProd rootK 3 s ^ 2 * vecK a (s * (4 * p) + 3 * p + i) := by
      rw [Lfwd_lo _ _ hip (by ring : s * (4 * p) + 1 * p + i = s * (2 * (2 * p)) + (i + p)),
        hρs]
      have e : s * (4 * p) + 1 * p + i + 2 * p = s * (4 * p) + 3 * p + i := by ring
      rw [e]
    have m2 : Lfwd (2 * p) (bitProd rootK 2) (vecK a) (s * (4 * p) + 2 * p + i) =
        vecK a (s * (4 * p) + 0 * p + i) -
          bitProd rootK 3 s ^ 2 * vecK a (s * (4 * p) + 2 * p + i) := by
      rw [Lfwd_hi _ _ hi2 (by ring : s * (4 * p) + 2 * p + i = s * (2 * (2 * p)) + 2 * p + i),
        hρs]
      have e : s * (4 * p) + 2 * p + i - 2 * p = s * (4 * p) + 0 * p + i := by
        have : s * (4 * p) + 2 * p + i = s * (4 * p) + 0 * p + i + 2 * p := by ring
        omega
      rw [e]
    have m3 : Lfwd (2 * p) (bitProd rootK 2) (vecK a) (s * (4 * p) + 3 * p + i) =
        vecK a (s * (4 * p) + 1 * p + i) -
          bitProd rootK 3 s ^ 2 * vecK a (s * (4 * p) + 3 * p + i) := by
      rw [Lfwd_hi _ _ hip
        (by ring : s * (4 * p) + 3 * p + i = s * (2 * (2 * p)) + 2 * p + (i + p)), hρs]
      have e : s * (4 * p) + 3 * p + i - 2 * p = s * (4 * p) + 1 * p + i := by
        have : s * (4 * p) + 3 * p + i = s * (4 * p) + 1 * p + i + 2 * p := by ring
        omega
      rw [e]
    unfold vecK at m0 m1 m2 m3 ⊢
    rw [g2 s u i hs hu hi, range4_map]
    rcases (by omega : u = 0 ∨ u = 1 ∨ u = 2 ∨ u = 3) with rfl | rfl | rfl | rfl
    · refine ⟨w0 0, ?_⟩
      rw [w1, r2, Lfwd_lo _ _ hi (by ring : s * (4 * p) + 0 * p + i = (2 * s) * (2 * p) + i),
        hρe, m0]
      have e : s * (4 * p) + 0 * p + i + p = s * (4 * p) + 1 * p + i := by ring
      rw [e, m1]; ring
    · refine ⟨w0 1, ?_⟩
      rw [w2, r2,
        Lfwd_hi _ _ hi (by ring : s * (4 * p) + 1 * p + i = (2 * s) * (2 * p) + p + i),
        hρe, m1]
      have e : s * (4 * p) + 1 * p + i - p = s * (4 * p) + 0 * p + i := by
        have : s * (4 * p) + 1 * p + i = s * (4 * p) + 0 * p + i + p := by ring
        omega
      rw [e, m0]; ring
    · refine ⟨w0 2, ?_⟩
      rw [w3, r2,
        Lfwd_lo _ _ hi (by ring : s * (4 * p) + 2 * p + i = (2 * s + 1) * (2 * p) + i),
        hρo, m2]
      have e : s * (4 * p) + 2 * p + i + p = s * (4 * p) + 3 * p + i := by ring
      rw [e, m3, himag]; ring
    · refine ⟨w0 3, ?_⟩
      rw [w4, r2,
        Lfwd_hi _ _ hi (by ring : s * (4 * p) + 3 * p + i = (2 * s + 1) * (2 * p) + p + i),
        hρo, m3]
      have e : s * (4 * p) + 3 * p + i - p = s * (4 * p) + 2 * p + i := by
        have : s * (4 * p) + 3 * p + i = s * (4 * p) + 2 * p + i + p := by ring
        omega
      rw [e, m2, himag]; ring
  refine ⟨by rw [g1, hlen], ?_, ?_⟩
  · apply valid_of_getD
    intro j hj
    rw [g1, hlen, ← hS] at hj
    obtain ⟨s, u, i, hs, hu, hi, rfl⟩ := idx_split hp hj
    exact (key s u i hs hu hi).1
  · intro j hj
    rw [← hS] at hj
    obtain ⟨s, u, i, hs, hu, hi, rfl⟩ := idx_split hp hj
    exact (key s u i hs hu hi).2

end atcoder

namespace atcoder

/-! ## The forward transform -/

theorem Lfwd_congr {p S : Nat} (hp : 0 < p) (ρ x x' : Nat → ZMod mint.mod)
    (hx : ∀ j, j < S * (2 * p) → x j = x' j) :
    ∀ j, j < S * (2 * p) → Lfwd p ρ x j = Lfwd p ρ x' j := by
  intro j hj
  obtain ⟨s, u, i, hs, hu, hi, rfl⟩ := idx_split hp hj
  have hle : (s + 1) * (2 * p) ≤ S * (2 * p) := Nat.mul_le_mul_right _ (by omega)
  have hB : (s + 1) * (2 * p) = s * (2 * p) + 2 * p := by ring
  rcases (by omega : u = 0 ∨ u = 1) with rfl | rfl
  · rw [Lfwd_lo ρ x hi (by ring : s * (2 * p) + 0 * p + i = s * (2 * p) + i),
      Lfwd_lo ρ x' hi (by ring : s * (2 * p) + 0 * p + i = s * (2 * p) + i),
      hx _ (by omega), hx _ (by omega)]
  · rw [Lfwd_hi ρ x hi (by ring : s * (2 * p) + 1 * p + i = s * (2 * p) + p + i),
      Lfwd_hi ρ x' hi (by ring : s * (2 * p) + 1 * p + i = s * (2 * p) + p + i),
      hx _ (by omega), hx _ (by omega)]

theorem Linv_congr {p S : Nat} (hp : 0 < p) (ρ x x' : Nat → ZMod mint.mod)
    (hx : ∀ j, j < S * (2 * p) → x j = x' j) :
    ∀ j, j < S * (2 * p) → Linv p ρ x j = Linv p ρ x' j := by
  intro j hj
  obtain ⟨s, u, i, hs, hu, hi, rfl⟩ := idx_split hp hj
  have hle : (s + 1) * (2 * p) ≤ S * (2 * p) := Nat.mul_le_mul_right _ (by omega)
  have hB : (s + 1) * (2 * p) = s * (2 * p) + 2 * p := by ring
  rcases (by omega : u = 0 ∨ u = 1) with rfl | rfl
  · rw [Linv_lo ρ x hi (by ring : s * (2 * p) + 0 * p + i = s * (2 * p) + i),
      Linv_lo ρ x' hi (by ring : s * (2 * p) + 0 * p + i = s * (2 * p) + i),
      hx _ (by omega), hx _ (by omega)]
  · rw [Linv_hi ρ x hi (by ring : s * (2 * p) + 1 * p + i = s * (2 * p) + p + i),
      Linv_hi ρ x' hi (by ring : s * (2 * p) + 1 * p + i = s * (2 * p) + p + i),
      hx _ (by omega), hx _ (by omega)]

theorem ceil_pow2Loop_spec (n B : Nat) (hn : n ≤ 2 ^ B) (hB : B ≤ 31) :
    ∀ (fuel x : Nat), x ≤ B → B - x ≤ fuel →
      x ≤ ceil_pow2Loop n fuel x ∧ ceil_pow2Loop n fuel x ≤ B ∧
      n ≤ 2 ^ ceil_pow2Loop n fuel x ∧
      ∀ y, x ≤ y → y < ceil_pow2Loop n fuel x → 2 ^ y < n := by
  have h31 : (2:Nat) ^ B ≤ 2 ^ 31 := Nat.pow_le_pow_right (by norm_num) hB
  have hn32 : u32 n = n := u32_of_lt (by omega)
  intro fuel
  induction fuel with
  | zero =>
    intro x hx hf
    have : x = B := by omega
    subst this
    unfold ceil_pow2Loop
    exact ⟨le_rfl, le_rfl, hn, fun y h1 h2 => by omega⟩
  | succ fuel ih =>
    intro x hx hf
    unfold ceil_pow2Loop
    have hx31 : (2:Nat) ^ x ≤ 2 ^ 31 := Nat.pow_le_pow_right (by norm_num) (by omega)
    rw [hn32, u32_of_lt (by omega : 2 ^ x < 2 ^ 32)]
    by_cases hlt : 2 ^ x < n
    · rw [if_pos hlt]
      have hxB : x < B := by
        by_contra hc
        have : x = B := by omega
        subst this; omega
      obtain ⟨i1, i2, i3, i4⟩ := ih (x + 1) (by omega) (by omega)
      refine ⟨by omega, i2, i3, fun y h1 h2 => ?_⟩
      rcases Nat.eq_or_lt_of_le h1 with h | h
      · rw [← h]; exact hlt
      · exact i4 y (by omega) h2
    · rw [if_neg hlt]
      exact ⟨le_rfl, hx, by omega, fun y h1 h2 => by omega⟩

theorem ceil_pow2_spec (n B : Nat) (hn : n ≤ 2 ^ B) (hB : B ≤ 31) :
    ceil_pow2 n ≤ B ∧ n ≤ 2 ^ ceil_pow2 n := by
  obtain ⟨_, h2, h3, _⟩ := ceil_pow2Loop_spec n B hn hB 32 0 (by omega) (by omega)
  exact ⟨h2, h3⟩

theorem ceil_pow2_pow (h : Nat) (hh : h ≤ 31) : ceil_pow2 (2 ^ h) = h := by
  obtain ⟨h2, h3⟩ := ceil_pow2_spec (2 ^ h) h le_rfl hh
  have : h ≤ ceil_pow2 (2 ^ h) := (Nat.pow_le_pow_iff_right (by norm_num)).1 h3
  omega

theorem fwdLevels_succ (h : Nat) (x : Nat → ZMod mint.mod) (l : Nat) :
    fwdLevels h x (l + 1) = Lfwd (2 ^ (h - l - 1)) (bitProd rootK 2) (fwdLevels h x l) := rfl

/-- The loop of `butterfly` computes the remaining levels. -/
theorem butterflyLoop_spec (h : Nat) (hh : h ≤ 23) (x0 : Nat → ZMod mint.mod) :
    ∀ (fuel len : Nat) (a : List Nat), len ≤ h → h - len ≤ fuel → a.length = 2 ^ h →
      Valid a → (∀ j, j < 2 ^ h → vecK a j = fwdLevels h x0 len j) →
      (butterflyLoop infoTables h fuel len a).length = 2 ^ h ∧
      Valid (butterflyLoop infoTables h fuel len a) ∧
      ∀ j, j < 2 ^ h → vecK (butterflyLoop infoTables h fuel len a) j = fwdLevels h x0 h j := by
  intro fuel
  induction fuel with
  | zero =>
    intro len a hl hf hlen hv hx
    have : len = h := by omega
    subst this
    exact ⟨hlen, hv, hx⟩
  | succ fuel ih =>
    intro len a hl hf hlen hv hx
    unfold butterflyLoop
    by_cases hlt : len < h
    · rw [if_pos hlt]
      by_cases h1 : h - len = 1
      · rw [if_pos h1]
        obtain ⟨p1, p2, p3⟩ := fwd2_pass h len hlt hh a hlen hv
        apply ih (len + 1) _ (by omega) (by omega) p1 p2
        intro j hj
        rw [p3 j hj, fwdLevels_succ]
        have hS := @pow_split2 h len hlt
        rw [← hS] at hj
        exact Lfwd_congr (by positivity) _ _ _ (fun j' hj' => hx j' (by rw [← hS]; exact hj')) j hj
      · rw [if_neg h1]
        have hl2 : len + 2 ≤ h := by omega
        obtain ⟨p1, p2, p3⟩ := fwd4_pass h len hl2 hh a hlen hv
        apply ih (len + 2) _ (by omega) (by omega) p1 p2
        intro j hj
        rw [p3 j hj, fwdLevels_succ, fwdLevels_succ]
        have e1 : h - (len + 1) - 1 = h - len - 2 := by omega
        have e2 : 2 ^ (h - len - 1) = 2 * 2 ^ (h - len - 2) := by
          rw [← pow_succ']; congr 1; omega
        rw [e1, e2]
        have hS4 := @pow_split4 h len hl2
        have hS : 2 ^ (len + 1) * (2 * 2 ^ (h - len - 2)) = 2 ^ h := by
          rw [← hS4, pow_succ]; ring
        have hS' : 2 ^ len * (2 * (2 * 2 ^ (h - len - 2))) = 2 ^ h := by
          rw [← hS4]; ring
        rw [← hS] at hj
        apply Lfwd_congr (by positivity) _ _ _ _ j hj
        intro j' hj'
        rw [hS, ← hS'] at hj'
        apply Lfwd_congr (by positivity) _ _ _ _ j' hj'
        intro j'' hj''
        exact hx j'' (by rw [← hS']; exact hj'')
    · rw [if_neg hlt]
      have : len = h := by omega
      subst this
      exact ⟨hlen, hv, hx⟩

/-- Function `butterfly` on a vector of length `2^h`, `h <= 23`: no assertion fails, the
entries stay canonical, and the result is the `h`-level forward transform. -/
theorem butterfly_spec (h : Nat) (hh : h ≤ 23) (a : List Nat) (hlen : a.length = 2 ^ h)
    (hv : Valid a) :
    ∃ out, butterfly a = some out ∧ out.length = 2 ^ h ∧ Valid out ∧
      ∀ j, j < 2 ^ h → vecK out j = fwdLevels h (vecK a) h j := by
  unfold butterfly
  rw [fft_info_new_eq, hlen, ceil_pow2_pow h (by omega)]
  refine ⟨_, rfl, ?_⟩
  exact butterflyLoop_spec h hh (vecK a) h 0 a (by omega) (by omega) hlen hv (fun j _ => rfl)

end atcoder

namespace atcoder

/-! ## The inverse transform -/

theorem iroot_sq : ∀ i, i < 23 →
    mint.mul (infoTables.iroot.getD (i + 1) 0) (infoTables.iroot.getD (i + 1) 0) =
      infoTables.iroot.getD i 0 := by decide!

theorem irootK_sq {i : Nat} (hi : i < 23) : irootK (i + 1) ^ 2 = irootK i := by
  unfold irootK
  rw [← iroot_sq i hi, mint.cast_mul (tables_valid.2.1.getD_lt _) (tables_valid.2.1.getD_lt _)]
  ring

theorem irho_sq {s : Nat} (hs : s < 2 ^ 21) : bitProd irootK 3 s ^ 2 = bitProd irootK 2 s :=
  bitProd_sq irootK 21 2 s hs (fun _ _ hj => irootK_sq (by omega))

theorem rho_mul_irho {s : Nat} (hs : s < 2 ^ 22) :
    bitProd rootK 2 s * bitProd irootK 2 s = 1 :=
  bitProd_mul_inv rootK irootK 22 2 s hs (fun _ _ hj => rootK_mul_irootK (by omega))

/-- An inverse level undoes a forward level up to the factor 2. -/
theorem Linv_scaled_Lfwd {p S : Nat} (hp : 0 < p) (ρ ρ' x y : Nat → ZMod mint.mod)
    (c : ZMod mint.mod) (hy : ∀ j, j < S * (2 * p) → y j = c * Lfwd p ρ x j)
    (hρ : ∀ s, s < S → ρ s * ρ' s = 1) :
    ∀ j, j < S * (2 * p) → Linv p ρ' y j = (2 * c) * x j := by
  intro j hj
  obtain ⟨s, u, i, hs, hu, hi, rfl⟩ := idx_split hp hj
  have hle : (s + 1) * (2 * p) ≤ S * (2 * p) := Nat.mul_le_mul_right _ (by omega)
  have hB : (s + 1) * (2 * p) = s * (2 * p) + 2 * p := by ring
  have e0 : s * (2 * p) + 0 * p + i = s * (2 * p) + i := by ring
  have e1 : s * (2 * p) + 1 * p + i = s * (2 * p) + p + i := by ring
  have hlo := Lfwd_lo ρ x hi (rfl : s * (2 * p) + i = s * (2 * p) + i)
  have hhi := Lfwd_hi ρ x hi (rfl : s * (2 * p) + p + i = s * (2 * p) + p + i)
  have e2 : s * (2 * p) + p + i - p = s * (2 * p) + i := by omega
  have e3 : s * (2 * p) + i + p = s * (2 * p) + p + i := by omega
  rw [e2] at hhi
  rw [e3] at hlo
  rcases (by omega : u = 0 ∨ u = 1) with rfl | rfl
  · rw [e0, Linv_lo ρ' y hi rfl, e3, hy _ (by omega), hy _ (by omega), hlo, hhi]
    ring
  · rw [e1, Linv_hi ρ' y hi rfl, e2, hy _ (by omega), hy _ (by omega), hlo, hhi]
    have := hρ s hs
    calc (c * (x (s * (2 * p) + i) + ρ s * x (s * (2 * p) + p + i)) -
          c * (x (s * (2 * p) + i) - ρ s * x (s * (2 * p) + p + i))) * ρ' s
        = 2 * c * (ρ s * ρ' s) * x (s * (2 * p) + p + i) := by ring
      _ = _ := by rw [this]; ring

/-- The radix-2 pass of `butterfly_inv` is one inverse level. -/
theorem inv2_pass (h len : Nat) (hl1 : 1 ≤ len) (hl : len ≤ h) (hh : h ≤ 23) (a : List Nat)
    (hlen : a.length = 2 ^ h) (hv : Valid a) :
    (butterfly_inv_radix2 infoTables h len a).length = 2 ^ h ∧
    Valid (butterfly_inv_radix2 infoTables h len a) ∧
    ∀ j, j < 2 ^ h → vecK (butterfly_inv_radix2 infoTables h len a) j =
      Linv (2 ^ (h - len)) (bitProd irootK 2) (vecK a) j := by
  rw [butterfly_inv_radix2_eq]
  have hp : 0 < 2 ^ (h - len) := by positivity
  set p := 2 ^ (h - len) with hpdef
  have hS : 2 ^ (len - 1) * (2 * p) = 2 ^ h := by
    rw [hpdef, ← pow_succ', ← pow_add]; congr 1; omega
  obtain ⟨g1, g2⟩ := genPass_spec 2 p (2 ^ (len - 1)) infoTables.irate2 W_inv2 hp a
    (by rw [hS, hlen])
  have hS22 : 2 ^ (len - 1) ≤ 2 ^ 22 := Nat.pow_le_pow_right (by norm_num) (by omega)
  have key : ∀ s u i, s < 2 ^ (len - 1) → u < 2 → i < p →
      (genPass 2 p (2 ^ (len - 1)) infoTables.irate2 W_inv2 a).getD
        (s * (2 * p) + u * p + i) 0 < mint.mod ∧
      vecK (genPass 2 p (2 ^ (len - 1)) infoTables.irate2 W_inv2 a)
        (s * (2 * p) + u * p + i) =
        Linv p (bitProd irootK 2) (vecK a) (s * (2 * p) + u * p + i) := by
    intro s u i hs hu hi
    obtain ⟨r1, r2⟩ := @irot2_closed s (by omega)
    obtain ⟨w1, w2, w3, w4⟩ := W_inv2_spec (hv.getD_lt (s * (2 * p) + 0 * p + i))
      (hv.getD_lt (s * (2 * p) + 1 * p + i)) r1
    unfold vecK
    rw [g2 s u i hs hu hi, range2_map]
    rcases (by omega : u = 0 ∨ u = 1) with rfl | rfl
    · refine ⟨w1, ?_⟩
      rw [w3, Linv_lo _ _ hi (by ring : s * (2 * p) + 0 * p + i = s * (2 * p) + i)]
      have e : s * (2 * p) + 0 * p + i + p = s * (2 * p) + 1 * p + i := by ring
      rw [e]
    · refine ⟨w2, ?_⟩
      rw [w4, r2, Linv_hi _ _ hi (by ring : s * (2 * p) + 1 * p + i = s * (2 * p) + p + i)]
      have e : s * (2 * p) + 1 * p + i - p = s * (2 * p) + 0 * p + i := by
        have : s * (2 * p) + 1 * p + i = s * (2 * p) + 0 * p + i + p := by ring
        omega
      rw [e]
  refine ⟨by rw [g1, hlen], ?_, ?_⟩
  · apply valid_of_getD
    intro j hj
    rw [g1, hlen, ← hS] at hj
    obtain ⟨s, u, i, hs, hu, hi, rfl⟩ := idx_split hp hj
    exact (key s u i hs hu hi).1
  · intro j hj
    rw [← hS] at hj
    obtain ⟨s, u, i, hs, hu, hi, rfl⟩ := idx_split hp hj
    exact (key s u i hs hu hi).2

/-- The radix-4 pass of `butterfly_inv` is two consecutive inverse levels. -/
theorem inv4_pass (h len : Nat) (hl2 : 2 ≤ len) (hl : len ≤ h) (hh : h ≤ 23) (a : List Nat)
    (hlen : a.length = 2 ^ h) (hv : Valid a) :
    (butterfly_inv_radix4 infoTables h len a).length = 2 ^ h ∧
    Valid (butterfly_inv_radix4 infoTables h len a) ∧
    ∀ j, j < 2 ^ h → vecK (butterfly_inv_radix4 infoTables h len a) j =
      Linv (2 * 2 ^ (h - len)) (bitProd irootK 2)
        (Linv (2 ^ (h - len)) (bitProd irootK 2) (vecK a)) j := by
  rw [butterfly_inv_radix4_eq]
  have hp : 0 < 2 ^ (h - len) := by positivity
  set p := 2 ^ (h - len) with hpdef
  have hS : 2 ^ (len - 2) * (4 * p) = 2 ^ h := by
    have : (4 : Nat) = 2 ^ 2 := by norm_num
    rw [hpdef, this, ← pow_add, ← pow_add]; congr 1; omega
  obtain ⟨g1, g2⟩ := genPass_spec 4 p (2 ^ (len - 2)) infoTables.irate3
    (W_inv4 (infoTables.iroot.getD 2 0)) hp a (by rw [hS, hlen])
  have hS21 : 2 ^ (len - 2) ≤ 2 ^ 21 := Nat.pow_le_pow_right (by norm_num) (by omega)
  have key : ∀ s u i, s < 2 ^ (len - 2) → u < 4 → i < p →
      (genPass 4 p (2 ^ (len - 2)) infoTables.irate3 (W_inv4 (infoTables.iroot.getD 2 0))
        a).getD (s * (4 * p) + u * p + i) 0 < mint.mod ∧
      vecK (genPass 4 p (2 ^ (len - 2)) infoTables.irate3 (W_inv4 (infoTables.iroot.getD 2 0))
        a) (s * (4 * p) + u * p + i) =
        Linv (2 * p) (bitProd irootK 2) (Linv p (bitProd irootK 2) (vecK a))
          (s * (4 * p) + u * p + i) := by
    intro s u i hs hu hi
    obtain ⟨r1, r2⟩ := @irot3_closed s (by omega)
    obtain ⟨w0, w1, w2, w3, w4⟩ := W_inv4_spec (hv.getD_lt (s * (4 * p) + 0 * p + i))
      (hv.getD_lt (s * (4 * p) + 1 * p + i)) (hv.getD_lt (s * (4 * p) + 2 * p + i))
      (hv.getD_lt (s * (4 * p) + 3 * p + i)) r1 (tables_valid.2.1.getD_lt 2)
    have hρs : bitProd irootK 2 s = bitProd irootK 3 s ^ 2 := (irho_sq (by omega)).symm
    have hρe : bitProd irootK 2 (2 * s) = bitProd irootK 3 s := bitProd_even _ _ _
    have hρo : bitProd irootK 2 (2 * s + 1) = irootK 2 * bitProd irootK 3 s :=
      bitProd_odd _ _ _
    have himag : ((infoTables.iroot.getD 2 0 : Nat) : ZMod mint.mod) = irootK 2 := rfl
    have hi2 : i < 2 * p := by omega
    have hip : i + p < 2 * p := by omega
    -- the four entries of the block column after the first inverse level
    have m0 : Linv p (bitProd irootK 2) (vecK a) (s * (4 * p) + 0 * p + i) =
        vecK a (s * (4 * p) + 0 * p + i) + vecK a (s * (4 * p) + 1 * p + i) := by
      rw [Linv_lo _ _ hi (by ring : s * (4 * p) + 0 * p + i = (2 * s) * (2 * p) + i)]
      have e : s * (4 * p) + 0 * p + i + p = s * (4 * p) + 1 * p + i := by ring
      rw [e]
    have m1 : Linv p (bitProd irootK 2) (vecK a) (s * (4 * p) + 1 * p + i) =
        (vecK a (s * (4 * p) + 0 * p + i) - vecK a (s * (4 * p) + 1 * p + i)) *
          bitProd irootK 3 s := by
      rw [Linv_hi _ _ hi (by ring : s * (4 * p) + 1 * p + i = (2 * s) * (2 * p) + p + i),
        hρe]
      have e : s * (4 * p) + 1 * p + i - p = s * (4 * p) + 0 * p + i := by
        have : s * (4 * p) + 1 * p + i = s * (4 * p) + 0 * p + i + p := by ring
        omega
      rw [e]
    have m2 : Linv p (bitProd irootK 2) (vecK a) (s * (4 * p) + 2 * p + i) =
        vecK a (s * (4 * p) + 2 * p + i) + vecK a (s * (4 * p) + 3 * p + i) := by
      rw [Linv_lo _ _ hi (by ring : s * (4 * p) + 2 * p + i = (2 * s + 1) * (2 * p) + i)]
      have e : s * (4 * p) + 2 * p + i + p = s * (4 * p) + 3 * p + i := by ring
      rw [e]
    have m3 : Linv p (bitProd irootK 2) (vecK a) (s * (4 * p) + 3 * p + i) =
        (vecK a (s * (4 * p) + 2 * p + i) - vecK a (s * (4 * p) + 3 * p + i)) *
          (irootK 2 * bitProd irootK 3 s) := by
      rw [Linv_hi _ _ hi
        (by ring : s * (4 * p) + 3 * p + i = (2 * s + 1) * (2 * p) + p + i), hρo]
      have e : s * (4 * p) + 3 * p + i - p = s * (4 * p) + 2 * p + i := by
        have : s * (4 * p) + 3 * p + i = s * (4 * p) + 2 * p + i + p := by ring
        omega
      rw [e]
    unfold vecK at m0 m1 m2 m3 ⊢
    rw [g2 s u i hs hu hi, range4_map]
    rcases (by omega : u = 0 ∨ u = 1 ∨ u = 2 ∨ u = 3) with rfl | rfl | rfl | rfl
    · refine ⟨w0 0, ?_⟩
      rw [w1, Linv_lo _ _ hi2 (by ring : s * (4 * p) + 0 * p + i = s * (2 * (2 * p)) + i), m0]
      have e : s * (4 * p) + 0 * p + i + 2 * p = s * (4 * p) + 2 * p + i := by ring
      rw [e, m2]; ring
    · refine ⟨w0 1, ?_⟩
      rw [w2, r2,
        Linv_lo _ _ hip (by ring : s * (4 * p) + 1 * p + i = s * (2 * (2 * p)) + (i + p)), m1]
      have e : s * (4 * p) + 1 * p + i + 2 * p = s * (4 * p) + 3 * p + i := by ring
      rw [e, m3, himag]; ring
    · refine ⟨w0 2, ?_⟩
      rw [w3, r2,
        Linv_hi _ _ hi2 (by ring : s * (4 * p) + 2 * p + i = s * (2 * (2 * p)) + 2 * p + i),
        hρs, m2]
      have e : s * (4 * p) + 2 * p + i - 2 * p = s * (4 * p) + 0 * p + i := by
        have : s * (4 * p) + 2 * p + i = s * (4 * p) + 0 * p + i + 2 * p := by ring
        omega
      rw [e, m0]; ring
    · refine ⟨w0 3, ?_⟩
      rw [w4, r2,
        Linv_hi _ _ hip
          (by ring : s * (4 * p) + 3 * p + i = s * (2 * (2 * p)) + 2 * p + (i + p)),
        hρs, m3]
      have e : s * (4 * p) + 3 * p + i - 2 * p = s * (4 * p) + 1 * p + i := by
        have : s * (4 * p) + 3 * p + i = s * (4 * p) + 1 * p + i + 2 * p := by ring
        omega
      rw [e, m1, himag]; ring
  refine ⟨by rw [g1, hlen], ?_, ?_⟩
  · apply valid_of_getD
    intro j hj
    rw [g1, hlen, ← hS] at hj
    obtain ⟨s, u, i, hs, hu, hi, rfl⟩ := idx_split hp hj
    exact (key s u i hs hu hi).1
  · intro j hj
    rw [← hS] at hj
    obtain ⟨s, u, i, hs, hu, hi, rfl⟩ := idx_split hp hj
    exact (key s u i hs hu hi).2

end atcoder

namespace atcoder

theorem fwdLevels_pred (h : Nat) (x : Nat → ZMod mint.mod) {len : Nat} (hl : 1 ≤ len) :
    fwdLevels h x len = Lfwd (2 ^ (h - len)) (bitProd rootK 2) (fwdLevels h x (len - 1)) := by
  cases len with
  | zero => omega
  | succ m =>
    rw [fwdLevels_succ]
    have q : h - m - 1 = h - (m + 1) := by omega
    rw [q]; rfl

/-- The loop of `butterfly_inv` undoes the levels of the forward transform, doubling the
scale at every level. -/
theorem butterfly_invLoop_spec (h : Nat) (hh : h ≤ 23) (x0 : Nat → ZMod mint.mod) :
    ∀ (fuel len : Nat) (a : List Nat), len ≤ h → len ≤ fuel → a.length = 2 ^ h →
      Valid a →
      (∀ j, j < 2 ^ h → vecK a j = (2 : ZMod mint.mod) ^ (h - len) * fwdLevels h x0 len j) →
      (butterfly_invLoop infoTables h fuel len a).length = 2 ^ h ∧
      Valid (butterfly_invLoop infoTables h fuel len a) ∧
      ∀ j, j < 2 ^ h →
        vecK (butterfly_invLoop infoTables h fuel len a) j = (2 : ZMod mint.mod) ^ h * x0 j := by
  intro fuel
  induction fuel with
  | zero =>
    intro len a hl hf hlen hv hx
    have : len = 0 := by omega
    subst this
    exact ⟨hlen, hv, fun j hj => by
      show vecK a j = _
      rw [hx j hj]; rfl⟩
  | succ fuel ih =>
    intro len a hl hf hlen hv hx
    unfold butterfly_invLoop
    by_cases h0 : len = 0
    · subst h0
      rw [if_neg (by simp)]
      exact ⟨hlen, hv, fun j hj => by
        rw [hx j hj]; rfl⟩
    · rw [if_pos h0]
      by_cases h1 : len = 1
      · subst h1
        rw [if_pos rfl]
        obtain ⟨p1, p2, p3⟩ := inv2_pass h 1 le_rfl hl hh a hlen hv
        apply ih 0 _ (by omega) (by omega) p1 p2
        intro j hj
        rw [p3 j hj]
        have hS : 2 ^ 0 * (2 * 2 ^ (h - 1)) = 2 ^ h := by
          rw [pow_zero, one_mul, ← pow_succ']; congr 1; omega
        have := Linv_scaled_Lfwd (S := 2 ^ 0) (p := 2 ^ (h - 1)) (by positivity)
          (bitProd rootK 2) (bitProd irootK 2) (fwdLevels h x0 0) (vecK a)
          ((2 : ZMod mint.mod) ^ (h - 1))
          (fun j' hj' => by
            rw [hx j' (by rw [← hS]; exact hj'), fwdLevels_succ]; rfl)
          (fun s hs => rho_mul_irho (by
            have : s = 0 := by simpa using hs
            subst this; positivity))
          j (by rw [hS]; exact hj)
        rw [this, ← pow_succ']
        congr 2
        omega
      · rw [if_neg h1]
        have hl2 : 2 ≤ len := by omega
        obtain ⟨p1, p2, p3⟩ := inv4_pass h len hl2 hl hh a hlen hv
        apply ih (len - 2) _ (by omega) (by omega) p1 p2
        intro j hj
        rw [p3 j hj]
        have hS1 : 2 ^ (len - 1) * (2 * 2 ^ (h - len)) = 2 ^ h := by
          rw [← pow_succ', ← pow_add]; congr 1; omega
        have hS2 : 2 ^ (len - 2) * (2 * (2 * 2 ^ (h - len))) = 2 ^ h := by
          rw [← pow_succ', ← pow_succ', ← pow_add]; congr 1; omega
        have hS21 : 2 ^ (len - 1) ≤ 2 ^ 22 := Nat.pow_le_pow_right (by norm_num) (by omega)
        have hS22 : 2 ^ (len - 2) ≤ 2 ^ 22 := Nat.pow_le_pow_right (by norm_num) (by omega)
        have e1 := fwdLevels_pred h x0 (by omega : 1 ≤ len)
        have e2 : fwdLevels h x0 (len - 1) =
            Lfwd (2 * 2 ^ (h - len)) (bitProd rootK 2) (fwdLevels h x0 (len - 2)) := by
          rw [fwdLevels_pred h x0 (by omega : 1 ≤ len - 1)]
          have q1 : h - (len - 1) = h - len + 1 := by omega
          have q2 : len - 1 - 1 = len - 2 := by omega
          rw [q1, q2, pow_succ']
        have mid := Linv_scaled_Lfwd (S := 2 ^ (len - 1)) (p := 2 ^ (h - len)) (by positivity)
          (bitProd rootK 2) (bitProd irootK 2) (fwdLevels h x0 (len - 1)) (vecK a)
          ((2 : ZMod mint.mod) ^ (h - len))
          (fun j' hj' => by rw [hx j' (by rw [← hS1]; exact hj'), e1])
          (fun s hs => rho_mul_irho (lt_of_lt_of_le hs hS21))
        have := Linv_scaled_Lfwd (S := 2 ^ (len - 2)) (p := 2 * 2 ^ (h - len)) (by positivity)
          (bitProd rootK 2) (bitProd irootK 2) (fwdLevels h x0 (len - 2))
          (Linv (2 ^ (h - len)) (bitProd irootK 2) (vecK a))
          (2 * (2 : ZMod mint.mod) ^ (h - len))
          (fun j' hj' => by rw [mid j' (by rw [hS1, ← hS2]; exact hj'), e2])
          (fun s hs => rho_mul_irho (lt_of_lt_of_le hs hS22))
          j (by rw [hS2]; exact hj)
        rw [this]
        congr 1
        have : h - (len - 2) = (h - len) + 1 + 1 := by omega
        rw [this, pow_succ, pow_succ]; ring

/-- Function `butterfly_inv` applied to (a vector holding) the forward transform of `x0`
returns `2^h * x0`. -/
theorem butterfly_inv_spec (h : Nat) (hh : h ≤ 23) (x0 : Nat → ZMod mint.mod) (a : List Nat)
    (hlen : a.length = 2 ^ h) (hv : Valid a)
    (hx : ∀ j, j < 2 ^ h → vecK a j = fwdLevels h x0 h j) :
    ∃ out, butterfly_inv a = some out ∧ out.length = 2 ^ h ∧ Valid out ∧
      ∀ j, j < 2 ^ h → vecK out j = (2 : ZMod mint.mod) ^ h * x0 j := by
  unfold butterfly_inv
  rw [fft_info_new_eq, hlen, ceil_pow2_pow h (by omega)]
  refine ⟨_, rfl, ?_⟩
  exact butterfly_invLoop_spec h hh x0 h h a le_rfl le_rfl hlen hv
    (fun j hj => by rw [hx j hj, Nat.sub_self, pow_zero, one_mul])

end atcoder

namespace atcoder

/-! ## The forward transform evaluates the polynomial -/

theorem sum_range_two_mul (f : Nat → ZMod mint.mod) (N : Nat) :
    ∑ j in Finset.range (2 * N), f j =
      ∑ j in Finset.range N, f (2 * j) + ∑ j in Finset.range N, f (2 * j + 1) := by
  induction N with
  | zero => simp
  | succ N ih =>
    have : 2 * (N + 1) = 2 * N + 1 + 1 := by ring
    rw [this, Finset.sum_range_succ, Finset.sum_range_succ, ih, Finset.sum_range_succ,
      Finset.sum_range_succ]
    ring

theorem xi_sq {s : Nat} (hs : s < 2 ^ 22) : bitProd rootK 2 s ^ 2 = bitProd rootK 1 s :=
  bitProd_sq rootK 22 1 s hs (fun _ _ hj => rootK_sq (by omega))

/-- After `l` levels, block `s` holds the residue of the polynomial modulo
`x^B - ξ_s` (`B` the block length): entry `i` is `Σ_j x[i + j B] ξ_s^j`. -/
theorem fwdLevels_eval (h : Nat) (hh : h ≤ 23) (x : Nat → ZMod mint.mod) :
    ∀ l, l ≤ h → ∀ s i, s < 2 ^ l → i < 2 ^ (h - l) →
      fwdLevels h x l (s * 2 ^ (h - l) + i) =
        ∑ j in Finset.range (2 ^ l), x (i + j * 2 ^ (h - l)) * bitProd rootK 1 s ^ j := by
  intro l
  induction l with
  | zero =>
    intro _ s i hs hi
    have : s = 0 := by simpa using hs
    subst this
    simp [fwdLevels]
  | succ l ih =>
    intro hl s' i hs' hi
    have ih' := ih (by omega)
    set p := 2 ^ (h - (l + 1)) with hpdef
    have hB : 2 ^ (h - l) = 2 * p := by
      rw [hpdef, ← pow_succ']; congr 1; omega
    have hp1 : 2 ^ (h - l - 1) = p := by rw [hpdef]; congr 1
    have hpw : 2 ^ (l + 1) = 2 * 2 ^ l := by rw [pow_succ']
    have hl22 : 2 ^ l ≤ 2 ^ 22 := Nat.pow_le_pow_right (by norm_num) (by omega)
    rw [fwdLevels_succ, hp1, hpw, sum_range_two_mul]
    rw [hB] at ih'
    rcases Nat.even_or_odd' s' with ⟨s, hs | hs⟩
    · subst hs
      have hs2 : s < 2 ^ l := by omega
      rw [Lfwd_lo _ _ hi (by ring : 2 * s * p + i = s * (2 * p) + i)]
      have e1 : 2 * s * p + i = s * (2 * p) + i := by ring
      have e2 : s * (2 * p) + i + p = s * (2 * p) + (i + p) := by ring
      rw [e1, e2, ih' s i hs2 (by omega), ih' s (i + p) hs2 (by omega), bitProd_even,
        Finset.mul_sum, ← Finset.sum_add_distrib, ← Finset.sum_add_distrib]
      apply Finset.sum_congr rfl
      intro j _
      rw [← xi_sq (by omega : s < 2 ^ 22)]
      have i1 : i + j * (2 * p) = i + 2 * j * p := by ring
      have i2 : i + p + j * (2 * p) = i + (2 * j + 1) * p := by ring
      rw [i1, i2]
      ring
    · subst hs
      have hs2 : s < 2 ^ l := by omega
      rw [Lfwd_hi _ _ hi (by ring : (2 * s + 1) * p + i = s * (2 * p) + p + i)]
      have e1 : (2 * s + 1) * p + i - p = s * (2 * p) + i := by
        have : (2 * s + 1) * p + i = s * (2 * p) + i + p := by ring
        omega
      have e2 : (2 * s + 1) * p + i = s * (2 * p) + (i + p) := by ring
      rw [e1, e2, ih' s i hs2 (by omega), ih' s (i + p) hs2 (by omega), bitProd_odd,
        rootK_one, Finset.mul_sum, ← Finset.sum_sub_distrib, ← Finset.sum_add_distrib]
      apply Finset.sum_congr rfl
      intro j _
      rw [← xi_sq (by omega : s < 2 ^ 22)]
      have i1 : i + j * (2 * p) = i + 2 * j * p := by ring
      have i2 : i + p + j * (2 * p) = i + (2 * j + 1) * p := by ring
      have n1 : (-1 * bitProd rootK 2 s) ^ (2 * j) = (bitProd rootK 2 s ^ 2) ^ j := by
        rw [pow_mul]; congr 1; ring
      have n2 : (-1 * bitProd rootK 2 s) ^ (2 * j + 1) =
          -(bitProd rootK 2 s * (bitProd rootK 2 s ^ 2) ^ j) := by
        rw [pow_succ, n1]; ring
      rw [i1, i2, n1, n2]
      ring

/-- The forward transform of a coefficient vector: entry `s` is the value of the polynomial
at the point `ξ_s`. -/
theorem fwdLevels_eq_eval (h : Nat) (hh : h ≤ 23) (a : List Nat) (s : Nat) (hs : s < 2 ^ h) :
    fwdLevels h (vecK a) h s =
      (PowerSeries.trunc (2 ^ h) (toPS a)).eval (bitProd rootK 1 s) := by
  have := fwdLevels_eval h hh (vecK a) h le_rfl s 0 hs (by simp)
  simp only [Nat.sub_self, pow_zero, mul_one, add_zero, zero_add] at this
  rw [this, Polynomial.eval, PowerSeries.eval₂_trunc_eq_sum_range]
  apply Finset.sum_congr rfl
  intro j _
  rw [coeff_toPS]; rfl

end atcoder

namespace atcoder

/-! ## `convolution_fft` equals `convolution_naive` -/

theorem forUp_pointwise0 (F : Nat → Nat → Nat) (n : Nat) (a : List Nat) :
    (forUp n (fun i l => l.set i (F i (l.getD i 0))) a).length = a.length ∧
    ∀ j, (forUp n (fun i l => l.set i (F i (l.getD i 0))) a).getD j 0 =
      if j < n ∧ j < a.length then F j (a.getD j 0) else a.getD j 0 := by
  have := forUp_pointwise F 0 n a
  simp only [Nat.add_zero, Nat.zero_le, true_and, Nat.zero_add, Nat.sub_zero] at this
  exact this

theorem toPS_resize (l : List Nat) (n : Nat) (h : l.length ≤ n) : toPS (resize l n) = toPS l := by
  ext j
  rw [coeff_toPS, coeff_toPS]
  unfold vecK
  rw [getD_resize]
  split
  · rfl
  · rw [getD_of_le l j (by omega)]

theorem coe_trunc_toPS (l : List Nat) (n : Nat) (h : l.length ≤ n) :
    ((PowerSeries.trunc n (toPS l) : Polynomial (ZMod mint.mod)) :
      PowerSeries (ZMod mint.mod)) = toPS l := by
  ext j
  rw [Polynomial.coeff_coe, PowerSeries.coeff_trunc]
  split
  · rfl
  · rw [coeff_toPS, vecK_of_le l j (by omega)]

theorem natDegree_trunc_toPS (l : List Nat) (n : Nat) :
    (PowerSeries.trunc n (toPS l)).natDegree ≤ l.length - 1 := by
  rw [Polynomial.natDegree_le_iff_coeff_eq_zero]
  intro k hk
  rw [PowerSeries.coeff_trunc]
  split
  · rw [coeff_toPS, vecK_of_le l k (by omega)]
  · rfl

theorem trunc_mul_toPS (a b : List Nat) (n : Nat) (ha : a ≠ []) (hb : b ≠ [])
    (h : a.length + b.length - 1 ≤ n) :
    PowerSeries.trunc n (toPS a * toPS b) =
      PowerSeries.trunc n (toPS a) * PowerSeries.trunc n (toPS b) := by
  have hla : 0 < a.length := List.length_pos.2 ha
  have hlb : 0 < b.length := List.length_pos.2 hb
  conv_lhs => rw [← coe_trunc_toPS a n (by omega), ← coe_trunc_toPS b n (by omega),
    ← Polynomial.coe_mul]
  apply PowerSeries.trunc_coe_eq_self
  have h1 := natDegree_trunc_toPS a n
  have h2 := natDegree_trunc_toPS b n
  have h3 := Polynomial.natDegree_mul_le (p := PowerSeries.trunc n (toPS a))
    (q := PowerSeries.trunc n (toPS b))
  omega

theorem two_pow_lt_mod {h : Nat} (hh : h ≤ 23) : 2 ^ h < mint.mod := by
  have : 2 ^ h ≤ 2 ^ 23 := Nat.pow_le_pow_right (by norm_num) hh
  unfold mint.mod; omega

/-- C3 (main part). On canonical non-empty inputs whose product has at most `2^23`
coefficients, the transform-based product equals the schoolbook product. -/
theorem convolution_fft_eq_naive (a b : List Nat) (ha : Valid a) (hb : Valid b)
    (hna : a ≠ []) (hnb : b ≠ []) (hsz : a.length + b.length - 1 ≤ 2 ^ 23) :
    convolution_fft a b = some (convolution_naive a b) := by
  have hla : 0 < a.length := List.length_pos.2 hna
  have hlb : 0 < b.length := List.length_pos.2 hnb
  obtain ⟨hh, hN⟩ := ceil_pow2_spec (a.length + b.length - 1) 23 hsz (by norm_num)
  obtain ⟨c1, c2, c3⟩ := convolution_naive_spec a b ha hb hna hnb
  unfold convolution_fft
  simp only
  set h := ceil_pow2 (a.length + b.length - 1) with hdef
  -- forward transforms
  obtain ⟨fa, hfa, fa1, fa2, fa3⟩ := butterfly_spec h hh (resize a (2 ^ h))
    (length_resize _ _) (ha.resize _)
  obtain ⟨fb, hfb, fb1, fb2, fb3⟩ := butterfly_spec h hh (resize b (2 ^ h))
    (length_resize _ _) (hb.resize _)
  rw [hfa, hfb]
  simp only [Option.bind_eq_bind, Option.some_bind]
  -- pointwise product
  obtain ⟨q1, q2⟩ := forUp_pointwise0 (fun i v => mint.mul v (fb.getD i 0)) (2 ^ h) fa
  set prod := forUp (2 ^ h) (fun i a => a.set i (mint.mul (a.getD i 0) (fb.getD i 0))) fa
    with hprod
  have hpv : Valid prod := by
    apply valid_of_getD
    intro j _
    rw [q2]
    split
    · exact mint.mul_lt (fa2.getD_lt _) (fb2.getD_lt _)
    · exact fa2.getD_lt _
  have hpx : ∀ j, j < 2 ^ h → vecK prod j = fwdLevels h (vecK (convolution_naive a b)) h j := by
    intro j hj
    have hq : vecK prod j = vecK fa j * vecK fb j := by
      show ((prod.getD j 0 : Nat) : ZMod mint.mod) = _
      rw [q2, if_pos ⟨hj, by rw [fa1]; exact hj⟩,
        mint.cast_mul (fa2.getD_lt _) (fb2.getD_lt _)]
      rfl
    rw [hq, fa3 j hj, fb3 j hj, fwdLevels_eq_eval h hh _ j hj, fwdLevels_eq_eval h hh _ j hj,
      fwdLevels_eq_eval h hh _ j hj, toPS_resize a _ (by omega), toPS_resize b _ (by omega),
      c3, trunc_mul_toPS a b _ hna hnb hN, Polynomial.eval_mul]
  -- inverse transform
  obtain ⟨y, hy, y1, y2, y3⟩ := butterfly_inv_spec h hh (vecK (convolution_naive a b)) prod
    (by rw [q1, fa1]) hpv hpx
  rw [hy]
  simp only [Option.some_bind]
  -- scaling by the inverse of the length
  have hz : mint.ofInt ((2 ^ h : Nat) : Int) = 2 ^ h := by
    rw [mint.ofInt_natCast, Nat.mod_eq_of_lt (two_pow_lt_mod hh)]
  rw [hz]
  have hz0 : (2 ^ h : Nat) ≠ 0 := by positivity
  have hinv := mint.inv_eq (two_pow_lt_mod hh) hz0
  rw [hinv]
  simp only [Option.some_bind]
  have hizlt := mint.inv_lt (two_pow_lt_mod hh) hinv
  have hizc := mint.cast_inv (two_pow_lt_mod hh) hinv
  set iz := (2 ^ h) ^ (mint.mod - 2) % mint.mod with hizdef
  obtain ⟨r1, r2⟩ := forUp_pointwise0 (fun _ v => mint.mul v iz) (a.length + b.length - 1)
    (resize y (a.length + b.length - 1))
  show some _ = some _
  congr 1
  apply ext_getD
  · rw [r1, length_resize, c1]
  · intro j hj
    rw [r1, length_resize] at hj
    rw [r2, if_pos ⟨hj, by rw [length_resize]; exact hj⟩, getD_resize, if_pos hj]
    apply mint.cast_inj (mint.mul_lt (y2.getD_lt _) hizlt) (c2.getD_lt _)
    rw [mint.cast_mul (y2.getD_lt _) hizlt]
    have := y3 j (by omega)
    rw [show ((y.getD j 0 : Nat) : ZMod mint.mod) = vecK y j from rfl, this]
    show _ * vecK (convolution_naive a b) j * _ = vecK (convolution_naive a b) j
    have hc : ((2 ^ h : Nat) : ZMod mint.mod) = (2 : ZMod mint.mod) ^ h := by push_cast; rfl
    rw [hc] at hizc
    calc (2 : ZMod mint.mod) ^ h * vecK (convolution_naive a b) j * iz
        = ((2 : ZMod mint.mod) ^ h * iz) * vecK (convolution_naive a b) j := by
          ring
      _ = _ := by rw [hizc, one_mul]

end atcoder

namespace atcoder

/-! ## `convolution` -/

theorem two_pow_mod_ne_zero (k : Nat) : 2 ^ k % mint.mod ≠ 0 := by
  intro h
  have hd : mint.mod ∣ 2 ^ k := Nat.dvd_of_mod_eq_zero h
  have := prime_mod.dvd_of_dvd_pow hd
  have := Nat.le_of_dvd (by norm_num) this
  unfold mint.mod at this
  omega

/-- The coefficient of index `t` of the schoolbook product, as a residue. -/
theorem convolution_naive_coeff (a b : List Nat) (ha : Valid a) (hb : Valid b)
    (hna : a ≠ []) (hnb : b ≠ []) (t : Nat) :
    (convolution_naive a b).getD t 0 =
      (∑ p in Finset.antidiagonal t, a.getD p.1 0 * b.getD p.2 0) % mint.mod := by
  obtain ⟨_, c2, c3⟩ := convolution_naive_spec a b ha hb hna hnb
  apply mint.cast_inj (c2.getD_lt _) (Nat.mod_lt _ mod_pos)
  have := congrArg (PowerSeries.coeff (ZMod mint.mod) t) c3
  rw [coeff_toPS, PowerSeries.coeff_mul] at this
  rw [ZMod.natCast_mod, Nat.cast_sum]
  rw [show ((convolution_naive a b).getD t 0 : ZMod mint.mod) = vecK (convolution_naive a b) t
    from rfl, this]
  apply Finset.sum_congr rfl
  intro p _
  rw [coeff_toPS, coeff_toPS, Nat.cast_mul]; rfl

/-- Function `convolution` on canonical inputs within the transform's range: the
coefficient list of the product. -/
theorem convolution_spec (a b : List Nat) (ha : Valid a) (hb : Valid b)
    (hsz : a.length + b.length - 1 ≤ 2 ^ 23) :
    ∃ c, convolution a b = some c ∧ Valid c ∧ toPS c = toPS a * toPS b ∧
      ((a.length = 0 ∨ b.length = 0) → c = []) ∧
      (¬ (a.length = 0 ∨ b.length = 0) → c.length = a.length + b.length - 1) := by
  unfold convolution
  simp only
  by_cases h0 : a.length = 0 ∨ b.length = 0
  · rw [if_pos h0]
    refine ⟨[], rfl, valid_nil, ?_, fun _ => rfl, fun h => absurd h0 h⟩
    rcases h0 with h | h
    · rw [List.length_eq_zero.1 h, toPS_nil, zero_mul]
    · rw [List.length_eq_zero.1 h, toPS_nil, mul_zero]
  · rw [if_neg h0]
    have hna : a ≠ [] := fun h => h0 (Or.inl (by rw [h]; rfl))
    have hnb : b ≠ [] := fun h => h0 (Or.inr (by rw [h]; rfl))
    obtain ⟨c1, c2, c3⟩ := convolution_naive_spec a b ha hb hna hnb
    have hres : (if min a.length b.length ≤ 60 then some (convolution_naive a b)
        else convolution_fft a b) = some (convolution_naive a b) := by
      split
      · rfl
      · exact convolution_fft_eq_naive a b ha hb hna hnb hsz
    rw [hres]
    exact ⟨_, rfl, c2, c3, fun h => absurd h h0, fun _ => c1⟩

/-- C3. For canonical non-empty `a`, `b` with `n + m - 1 <= 2^23`: `convolution_fft`
returns exactly `convolution_naive`, so does `convolution` whichever path the threshold
selects, and entry `t` is `Σ_{i+j=t} a[i] b[j] mod 998244353`. -/
theorem C3_fft_eq_naive (a b : List Nat) (ha : Valid a) (hb : Valid b)
    (hna : a ≠ []) (hnb : b ≠ []) (hsz : a.length + b.length - 1 ≤ 2 ^ 23) :
    convolution_fft a b = some (convolution_naive a b) ∧
    convolution a b = some (convolution_naive a b) ∧
    ∀ t, t < a.length + b.length - 1 →
      (convolution_naive a b).getD t 0 =
        (∑ p in Finset.antidiagonal t, a.getD p.1 0 * b.getD p.2 0) % mint.mod := by
  refine ⟨convolution_fft_eq_naive a b ha hb hna hnb hsz, ?_,
    fun t _ => convolution_naive_coeff a b ha hb hna hnb t⟩
  unfold convolution
  simp only
  have h0 : ¬ (a.length = 0 ∨ b.length = 0) := by
    rintro (h | h)
    · exact hna (List.length_eq_zero.1 h)
    · exact hnb (List.length_eq_zero.1 h)
  rw [if_neg h0]
  split
  · rfl
  · exact convolution_fft_eq_naive a b ha hb hna hnb hsz

theorem C3_fft_eq_naive_witness :
    (Valid [1, 2, 3] ∧ Valid [4, 5] ∧ [1, 2, 3] ≠ ([] : List Nat) ∧ [4, 5] ≠ ([] : List Nat) ∧
      [1, 2, 3].length + [4, 5].length - 1 ≤ 2 ^ 23) ∧
    (convolution_fft [1, 2, 3] [4, 5] = some (convolution_naive [1, 2, 3] [4, 5]) ∧
    convolution [1, 2, 3] [4, 5] = some (convolution_naive [1, 2, 3] [4, 5]) ∧
    ∀ t, t < [1, 2, 3].length + [4, 5].length - 1 →
      (convolution_naive [1, 2, 3] [4, 5]).getD t 0 =
        (∑ p in Finset.antidiagonal t, [1, 2, 3].getD p.1 0 * [4, 5].getD p.2 0) % mint.mod) :=
  ⟨⟨by decide, by decide, by decide, by decide, by decide⟩,
    C3_fft_eq_naive [1, 2, 3] [4, 5] (by decide) (by decide) (by decide) (by decide)
      (by decide)⟩

/-- C4. For canonical `a` (length `n`) and `b` (length `m`) within the transform's range,
`n + m - 1 <= 2^23`: `convolution(a, b)` returns; the result is empty when `n = 0` or
`m = 0` and has exactly `n + m - 1` entries otherwise. -/
theorem C4_convolution_length (a b : List Nat) (ha : Valid a) (hb : Valid b)
    (hsz : a.length + b.length - 1 ≤ 2 ^ 23) :
    ∃ c, convolution a b = some c ∧
      ((a.length = 0 ∨ b.length = 0) → c = []) ∧
      (¬ (a.length = 0 ∨ b.length = 0) → c.length = a.length + b.length - 1) := by
  obtain ⟨c, e, _, _, h1, h2⟩ := convolution_spec a b ha hb hsz
  exact ⟨c, e, h1, h2⟩

theorem C4_convolution_length_witness :
    (Valid [1, 2, 3] ∧ Valid [4, 5] ∧ [1, 2, 3].length + [4, 5].length - 1 ≤ 2 ^ 23) ∧
    ∃ c, convolution [1, 2, 3] [4, 5] = some c ∧
      (([1, 2, 3].length = 0 ∨ [4, 5].length = 0) → c = []) ∧
      (¬ ([1, 2, 3].length = 0 ∨ [4, 5].length = 0) →
        c.length = [1, 2, 3].length + [4, 5].length - 1) :=
  ⟨⟨by decide, by decide, by decide⟩,
    C4_convolution_length [1, 2, 3] [4, 5] (by decide) (by decide) (by decide)⟩

end atcoder

open atcoder

/-! ## Power series: `+`, `-`, `*` -/

theorem vecK_lt_eq {l : List Nat} (j : Nat) : vecK l j = ((l.getD j 0 : Nat) : ZMod mint.mod) :=
  rfl

theorem toPS_ext {l₁ l₂ : List Nat} (h : ∀ j, vecK l₁ j = vecK l₂ j) : toPS l₁ = toPS l₂ := by
  ext j; rw [coeff_toPS, coeff_toPS, h]

theorem fps.add_spec (f g : List Nat) (hf : Valid f) (hg : Valid g) :
    (fps.add f g).length = max f.length g.length ∧ Valid (fps.add f g) ∧
    toPS (fps.add f g) = toPS f + toPS g := by
  unfold fps.add
  simp only
  set res := (if f.length < g.length then resize f g.length else f) with hres
  have hrl : res.length = max f.length g.length := by
    rw [hres]; split
    · rw [length_resize]; omega
    · omega
  have hrv : Valid res := by
    rw [hres]; split
    · exact hf.resize _
    · exact hf
  have hrx : ∀ j, res.getD j 0 = f.getD j 0 := by
    intro j
    rw [hres]; split
    · rw [getD_resize]
      split
      · rfl
      · rw [getD_of_le f j (by omega)]
    · rfl
  obtain ⟨q1, q2⟩ := forUp_pointwise0 (fun i v => mint.add v (g.getD i 0)) g.length res
  have hval : ∀ j, (forUp g.length (fun i res => res.set i (mint.add (res.getD i 0) (g.getD i 0)))
      res).getD j 0 = mint.add (f.getD j 0) (g.getD j 0) := by
    intro j
    rw [q2, hrx]
    split
    · rfl
    · rename_i h
      have : g.length ≤ j := by
        by_contra hc
        exact h ⟨by omega, by rw [hrl]; omega⟩
      rw [getD_of_le g j this, mint.add_eq (hf.getD_lt _) mod_pos, Nat.add_zero,
        Nat.mod_eq_of_lt (hf.getD_lt _)]
  refine ⟨by rw [q1, hrl], ?_, ?_⟩
  · apply valid_of_getD
    intro j _
    rw [hval]
    exact mint.add_lt (hf.getD_lt _) (hg.getD_lt _)
  · ext j
    rw [map_add, coeff_toPS, coeff_toPS, coeff_toPS, vecK_lt_eq, hval,
      mint.cast_add (hf.getD_lt _) (hg.getD_lt _)]
    rfl

theorem fps.sub_spec (f g : List Nat) (hf : Valid f) (hg : Valid g) :
    (fps.sub f g).length = max f.length g.length ∧ Valid (fps.sub f g) ∧
    toPS (fps.sub f g) = toPS f - toPS g := by
  unfold fps.sub
  simp only
  set res := (if f.length < g.length then resize f g.length else f) with hres
  have hrl : res.length = max f.length g.length := by
    rw [hres]; split
    · rw [length_resize]; omega
    · omega
  have hrx : ∀ j, res.getD j 0 = f.getD j 0 := by
    intro j
    rw [hres]; split
    · rw [getD_resize]
      split
      · rfl
      · rw [getD_of_le f j (by omega)]
    · rfl
  obtain ⟨q1, q2⟩ := forUp_pointwise0 (fun i v => mint.sub v (g.getD i 0)) g.length res
  have hval : ∀ j, (forUp g.length (fun i res => res.set i (mint.sub (res.getD i 0) (g.getD i 0)))
      res).getD j 0 = mint.sub (f.getD j 0) (g.getD j 0) := by
    intro j
    rw [q2, hrx]
    split
    · rfl
    · rename_i h
      have : g.length ≤ j := by
        by_contra hc
        exact h ⟨by omega, by rw [hrl]; omega⟩
      rw [getD_of_le g j this, mint.sub_eq (hf.getD_lt _) mod_pos, Nat.sub_zero,
        Nat.add_mod_right, Nat.mod_eq_of_lt (hf.getD_lt _)]
  refine ⟨by rw [q1, hrl], ?_, ?_⟩
  · apply valid_of_getD
    intro j _
    rw [hval]
    exact mint.sub_lt (hf.getD_lt _) (hg.getD_lt _)
  · ext j
    rw [map_sub, coeff_toPS, coeff_toPS, coeff_toPS, vecK_lt_eq, hval,
      mint.cast_sub (hf.getD_lt _) (hg.getD_lt _)]
    rfl

theorem fps.mul_spec (f g : List Nat) (hf : Valid f) (hg : Valid g)
    (hsz : f.length + g.length - 1 ≤ 2 ^ 23) :
    ∃ c, fps.mul f g = some c ∧ Valid c ∧ toPS c = toPS f * toPS g ∧
      c.length ≤ f.length + g.length - 1 ∧
      (¬ (f.length = 0 ∨ g.length = 0) → c.length = f.length + g.length - 1) := by
  obtain ⟨c, h1, h2, h3, h4, h5⟩ := convolution_spec f g hf hg hsz
  refine ⟨c, h1, h2, h3, ?_, h5⟩
  by_cases h0 : f.length = 0 ∨ g.length = 0
  · rw [h4 h0]; simp
  · rw [h5 h0]

/-- Equality of the first `n` coefficients, as divisibility by `X^n`. -/
theorem X_pow_dvd_sub_iff (n : Nat) (φ ψ : PowerSeries (ZMod mint.mod)) :
    PowerSeries.X ^ n ∣ φ - ψ ↔
      ∀ j, j < n → PowerSeries.coeff _ j φ = PowerSeries.coeff _ j ψ := by
  rw [PowerSeries.X_pow_dvd_iff]
  constructor
  · intro h j hj
    have := h j hj
    rwa [map_sub, sub_eq_zero] at this
  · intro h j hj
    rw [map_sub, sub_eq_zero]; exact h j hj

theorem resize_dvd (l : List Nat) (n : Nat) :
    PowerSeries.X ^ n ∣ toPS (resize l n) - toPS l := by
  rw [X_pow_dvd_sub_iff]
  intro j hj
  rw [coeff_toPS, coeff_toPS, vecK_lt_eq, getD_resize, if_pos hj]; rfl

/-! ## `fps_inv` -/

/-- One Newton step: from `f r = 1 (mod x^k)` to `f r' = 1 (mod x^(2k))` for
`r' = 2 r - f r^2 (mod x^(2k))`. -/
theorem newton_step (F R N : PowerSeries (ZMod mint.mod)) (k : Nat)
    (h1 : PowerSeries.X ^ k ∣ F * R - 1)
    (h2 : PowerSeries.X ^ (2 * k) ∣ N - (2 * R - F * R ^ 2)) :
    PowerSeries.X ^ (2 * k) ∣ F * N - 1 := by
  have h3 : PowerSeries.X ^ (2 * k) ∣ (F * R - 1) ^ 2 := by
    have := pow_dvd_pow_of_dvd h1 2
    rwa [← pow_mul, mul_comm k 2] at this
  have e : F * N - 1 = F * (N - (2 * R - F * R ^ 2)) - (F * R - 1) ^ 2 := by ring
  rw [e]
  exact dvd_sub (Dvd.dvd.mul_left h2 _) h3

theorem fps_invLoop_spec (f : List Nat) (hf : Valid f) (n : Nat)
    (hsz : f.length + 2 * n ≤ 2 ^ 23) :
    ∀ (fuel k : Nat) (res : List Nat), 1 ≤ k → n ≤ k + fuel → res.length = k → Valid res →
      PowerSeries.X ^ k ∣ toPS f * toPS res - 1 →
      ∃ r, fps_invLoop f n fuel k res = some r ∧ n ≤ r.length ∧ Valid r ∧
        PowerSeries.X ^ n ∣ toPS f * toPS r - 1 := by
  intro fuel
  induction fuel with
  | zero =>
    intro k res hk hn hl hv hd
    unfold fps_invLoop
    rw [if_neg (by omega)]
    exact ⟨res, rfl, by omega, hv, dvd_trans (pow_dvd_pow _ (by omega)) hd⟩
  | succ fuel ih =>
    intro k res hk hn hl hv hd
    unfold fps_invLoop
    by_cases hkn : k < n
    · rw [if_pos hkn]
      obtain ⟨rr, e1, v1, p1, l1, _⟩ := fps.mul_spec res res hv hv (by omega)
      obtain ⟨tmp, e2, v2, p2, _, _⟩ := fps.mul_spec f rr hf v1 (by omega)
      rw [e1]
      simp only [Option.bind_eq_bind, Option.some_bind]
      rw [e2]
      simp only [Option.some_bind]
      obtain ⟨q1, q2⟩ := forUp_pointwise0
        (fun i v => mint.sub (mint.mul (mint.ofInt 2) v) ((resize tmp (2 * k)).getD i 0))
        (2 * k) (resize res (2 * k))
      set new := forUp (2 * k)
        (fun i res => res.set i
          (mint.sub (mint.mul (mint.ofInt 2) (res.getD i 0)) ((resize tmp (2 * k)).getD i 0)))
        (resize res (2 * k)) with hnew
      have hnl : new.length = 2 * k := by rw [q1, length_resize]
      have h2lt : mint.ofInt 2 < mint.mod := by rw [mint.ofInt_two]; unfold mint.mod; norm_num
      have hnv : Valid new := by
        apply valid_of_getD
        intro j _
        rw [q2]
        split
        · exact mint.sub_lt (mint.mul_lt h2lt ((hv.resize _).getD_lt _))
            ((v2.resize _).getD_lt _)
        · exact (hv.resize _).getD_lt _
      apply ih (2 * k) new (by omega) (by omega) hnl hnv
      apply newton_step _ (toPS res) _ k hd
      rw [X_pow_dvd_sub_iff]
      intro j hj
      have hFR : toPS f * toPS res ^ 2 = toPS tmp := by rw [p2, p1, sq]
      rw [coeff_toPS, vecK_lt_eq, q2, if_pos ⟨hj, by rw [length_resize]; exact hj⟩,
        mint.cast_sub (mint.mul_lt h2lt ((hv.resize _).getD_lt _)) ((v2.resize _).getD_lt _),
        mint.cast_mul h2lt ((hv.resize _).getD_lt _), mint.ofInt_two, getD_resize, if_pos hj,
        getD_resize, if_pos hj, hFR, two_mul, map_sub, map_add, coeff_toPS, coeff_toPS,
        vecK_lt_eq, vecK_lt_eq]
      push_cast
      ring
    · rw [if_neg hkn]
      exact ⟨res, rfl, by omega, hv, dvd_trans (pow_dvd_pow _ (by omega)) hd⟩

/-- Function `fps_inv(f, n)` for `f[0] != 0`: succeeds, returns `n` canonical entries, and
the first `n` coefficients of `f * fps_inv(f, n)` are `1, 0, ..., 0`. -/
theorem fps_inv_spec (f : List Nat) (hf : Valid f) (h0 : f.getD 0 0 ≠ 0) (n : Nat)
    (hsz : f.length + 2 * n ≤ 2 ^ 23) :
    ∃ r, fps_inv f n = some r ∧ r.length = n ∧ Valid r ∧
      PowerSeries.X ^ n ∣ toPS f * toPS r - 1 := by
  unfold fps_inv
  have hinv := mint.inv_eq (hf.getD_lt 0) h0
  have hilt := mint.inv_lt (hf.getD_lt 0) hinv
  have hic := mint.cast_inv (hf.getD_lt 0) hinv
  rw [hinv]
  simp only [Option.bind_eq_bind, Option.some_bind]
  set i0 := f.getD 0 0 ^ (mint.mod - 2) % mint.mod with hi0
  have hv0 : Valid [i0] := by
    intro x hx
    rw [List.mem_singleton] at hx
    rw [hx]; exact hilt
  have hd0 : PowerSeries.X ^ 1 ∣ toPS f * toPS [i0] - 1 := by
    rw [X_pow_dvd_sub_iff]
    intro j hj
    have : j = 0 := by omega
    subst this
    rw [PowerSeries.coeff_mul]
    simp only [Finset.Nat.antidiagonal_zero, Finset.sum_singleton, coeff_toPS,
      PowerSeries.coeff_one, if_true]
    exact hic
  obtain ⟨r, e, l, v, d⟩ := fps_invLoop_spec f hf n hsz n 1 [i0] le_rfl (by omega) rfl hv0 hd0
  rw [e]
  simp only [Option.some_bind]
  refine ⟨_, rfl, length_resize _ _, v.resize _, ?_⟩
  have e2 : toPS f * toPS (resize r n) - 1 =
      toPS f * (toPS (resize r n) - toPS r) + (toPS f * toPS r - 1) := by ring
  rw [e2]
  exact dvd_add (Dvd.dvd.mul_left (resize_dvd r n) _) d

open atcoder

/-! ## Trailing zeros -/

theorem stripZeros_append (l : List Nat) :
    ∃ k, l = stripZeros l ++ List.replicate k 0 := by
  induction l using List.reverseRecOn with
  | nil => exact ⟨0, rfl⟩
  | append_singleton l x ih =>
    obtain ⟨k, hk⟩ := ih
    unfold stripZeros at hk ⊢
    by_cases hx : x = 0
    · subst hx
      rw [List.rdropWhile_concat_pos _ _ _ (by simp)]
      refine ⟨k + 1, ?_⟩
      rw [List.replicate_succ', ← List.append_assoc, ← hk]
    · rw [List.rdropWhile_concat_neg _ _ _ (by simpa using hx)]
      exact ⟨0, by simp⟩

theorem stripZeros_length_le (l : List Nat) : (stripZeros l).length ≤ l.length := by
  obtain ⟨k, hk⟩ := stripZeros_append l
  conv_rhs => rw [hk]
  simp

theorem stripZeros_getD (l : List Nat) (j : Nat) : (stripZeros l).getD j 0 = l.getD j 0 := by
  obtain ⟨k, hk⟩ := stripZeros_append l
  conv_rhs => rw [hk]
  by_cases hj : j < (stripZeros l).length
  · rw [List.getD_append _ _ _ _ hj]
  · rw [List.getD_append_right _ _ _ _ (by omega), getD_of_le _ _ (by omega)]
    simp only [List.getD_eq_getElem?_getD, List.getElem?_replicate]
    split_ifs <;> rfl

theorem atcoder.Valid.stripZeros {l : List Nat} (hl : Valid l) : Valid (stripZeros l) := by
  apply valid_of_getD
  intro j _
  rw [stripZeros_getD]; exact hl.getD_lt j

theorem toPS_stripZeros (l : List Nat) : toPS (stripZeros l) = toPS l := by
  apply toPS_ext
  intro j
  rw [vecK_lt_eq, vecK_lt_eq, stripZeros_getD]

theorem getD_getLast (l : List Nat) (h : l ≠ []) : l.getD (l.length - 1) 0 = l.getLast h := by
  have hl : 0 < l.length := List.length_pos.2 h
  rw [List.getD_eq_getElem _ _ (by omega), List.getLast_eq_getElem]

theorem stripZeros_last (l : List Nat) (h : stripZeros l ≠ []) :
    (stripZeros l).getD ((stripZeros l).length - 1) 0 ≠ 0 := by
  rw [getD_getLast _ h]
  have := List.rdropWhile_last_not (fun x => x == 0) l h
  simpa using this

theorem stripZeros_eq_self (l : List Nat) (h : l.getD (l.length - 1) 0 ≠ 0) :
    stripZeros l = l := by
  unfold stripZeros
  rw [List.rdropWhile_eq_self_iff]
  intro hl
  rw [← getD_getLast l hl]
  simpa using h

theorem stripZeros_length_le_of (l : List Nat) (d : Nat) (h : ∀ j, d ≤ j → l.getD j 0 = 0) :
    (stripZeros l).length ≤ d := by
  by_contra hc
  have hne : stripZeros l ≠ [] := by
    intro h0; rw [h0] at hc; simp at hc
  have := stripZeros_last l hne
  rw [stripZeros_getD] at this
  exact this (h _ (by omega))

theorem stripZeros_eq_nil_iff (l : List Nat) : stripZeros l = [] ↔ ∀ x ∈ l, x = 0 := by
  unfold stripZeros
  rw [List.rdropWhile_eq_nil_iff]
  simp

/-! ## Reversal -/

theorem getD_reverse (l : List Nat) (j : Nat) (hj : j < l.length) :
    l.reverse.getD j 0 = l.getD (l.length - 1 - j) 0 := by
  rw [List.getD_eq_getElem _ _ (by simpa using hj), List.getD_eq_getElem _ _ (by omega),
    List.getElem_reverse]

theorem atcoder.Valid.reverse {l : List Nat} (hl : Valid l) : Valid l.reverse := by
  intro x hx
  exact hl x (List.mem_reverse.1 hx)

theorem coeff_pol (l : List Nat) (j : Nat) :
    (PowerSeries.trunc l.length (toPS l)).coeff j = vecK l j := by
  rw [PowerSeries.coeff_trunc]
  split
  · exact coeff_toPS l j
  · rw [vecK_of_le l j (by omega)]

/-- The polynomial of the reversed list is the reflection of the polynomial of the list. -/
theorem reflect_pol (l : List Nat) :
    Polynomial.reflect (l.length - 1) (PowerSeries.trunc l.length (toPS l)) =
      PowerSeries.trunc l.reverse.length (toPS l.reverse) := by
  ext i
  rw [Polynomial.coeff_reflect, coeff_pol, coeff_pol]
  by_cases hi : i < l.length
  · rw [Polynomial.revAt_le (by omega), vecK_lt_eq, vecK_lt_eq, getD_reverse l i hi]
  · rw [vecK_of_le l.reverse i (by simp; omega)]
    by_cases hi0 : i ≤ l.length - 1
    · have hl : l.length = 0 := by omega
      rw [Polynomial.revAt_le hi0, vecK_of_le l _ (by omega)]
    · have : (Polynomial.revAt (l.length - 1)) i = i := by
        unfold Polynomial.revAt
        simp only [Function.Embedding.coeFn_mk]
        exact if_neg hi0
      rw [this, vecK_of_le l i (by omega)]

/-- Reversal trick: if the reversed quotient agrees with `rev f / rev g` to `qd + 1` terms,
then `f - g q` has no coefficient of index `>= gd`. -/
theorem rev_div (F G Q : Polynomial (ZMod mint.mod)) (fd gd qd : Nat) (hfd : fd = gd + qd)
    (hF : F.natDegree ≤ fd) (hG : G.natDegree ≤ gd) (hQ : Q.natDegree ≤ qd)
    (hrev : ∀ t, t ≤ qd →
      (Polynomial.reflect fd F - Polynomial.reflect gd G * Polynomial.reflect qd Q).coeff t = 0) :
    ∀ i, gd ≤ i → (F - G * Q).coeff i = 0 := by
  intro i hi
  have hdeg : (F - G * Q).natDegree ≤ fd := by
    apply le_trans (Polynomial.natDegree_sub_le _ _)
    apply max_le hF
    apply le_trans Polynomial.natDegree_mul_le
    omega
  by_cases hif : i ≤ fd
  · have hr : Polynomial.reflect fd (F - G * Q) =
        Polynomial.reflect fd F - Polynomial.reflect gd G * Polynomial.reflect qd Q := by
      rw [Polynomial.reflect_sub, hfd, Polynomial.reflect_mul G Q hG hQ]
    have := hrev (fd - i) (by omega)
    rw [← hr, Polynomial.coeff_reflect, Polynomial.revAt_le (by omega)] at this
    have e : fd - (fd - i) = i := by omega
    rwa [e] at this
  · exact Polynomial.coeff_eq_zero_of_natDegree_lt (by omega)

open atcoder

/-! ## Polynomial division -/

theorem fps.div_none (f g : List Nat) (hg0 : stripZeros g = []) : fps.div f g = none := by
  unfold fps.div
  simp only
  rw [hg0]
  rfl

/-- Operator `/`: for a divisor that is not the zero polynomial the quotient `q` is returned
and `f - g q` has no coefficient of index `>= deg g`. -/
theorem fps.div_spec (f g : List Nat) (hf : Valid f) (hg : Valid g) (hg0 : stripZeros g ≠ [])
    (hsz : 2 * f.length + 2 ≤ 2 ^ 23 + (stripZeros g).length) :
    ∃ q, fps.div f g = some q ∧ Valid q ∧ q.length ≤ f.length ∧
      ((stripZeros f).length < (stripZeros g).length → q = []) ∧
      ((stripZeros g).length ≤ (stripZeros f).length →
        q.length = (stripZeros f).length - (stripZeros g).length + 1) ∧
      ∀ i, (stripZeros g).length - 1 ≤ i →
        PowerSeries.coeff _ i (toPS f - toPS g * toPS q) = 0 := by
  unfold fps.div
  simp only
  have hF := stripZeros_length_le f
  have hG := stripZeros_length_le g
  have hGpos : 0 < (stripZeros g).length := List.length_pos.2 hg0
  rw [if_neg (by omega)]
  by_cases hlt : (stripZeros f).length < (stripZeros g).length
  · rw [if_pos hlt]
    refine ⟨[], rfl, valid_nil, by simp, fun _ => rfl, fun h => by omega, fun i hi => ?_⟩
    rw [toPS_nil, mul_zero, sub_zero, ← toPS_stripZeros f, coeff_toPS]
    exact vecK_of_le _ _ (by omega)
  · rw [if_neg hlt]
    set F := stripZeros f with hFdef
    set G := stripZeros g with hGdef
    have hFv : Valid F := hf.stripZeros
    have hGv : Valid G := hg.stripZeros
    simp only [List.length_reverse]
    set qd := F.length - G.length with hqd
    have hlast : G.reverse.getD 0 0 ≠ 0 := by
      rw [getD_reverse G 0 hGpos]
      exact stripZeros_last g hg0
    obtain ⟨gi, e1, l1, v1, d1⟩ := fps_inv_spec G.reverse hGv.reverse hlast (qd + 1)
      (by rw [List.length_reverse]; omega)
    obtain ⟨qr0, e2, v2, p2, _, _⟩ := fps.mul_spec (resize F.reverse (qd + 1)) gi
      (hFv.reverse.resize _) v1 (by rw [length_resize, l1]; omega)
    rw [e1]
    simp only [Option.bind_eq_bind, Option.some_bind]
    rw [e2]
    simp only [Option.some_bind]
    set qr := resize qr0 (qd + 1) with hqr
    have hqrl : qr.length = qd + 1 := length_resize _ _
    have hqv : Valid qr.reverse := (v2.resize _).reverse
    refine ⟨_, rfl, hqv, by rw [List.length_reverse, hqrl]; omega, fun h => absurd h hlt,
      fun _ => by rw [List.length_reverse, hqrl], ?_⟩
    -- power-series facts about the reversed lists
    have d2 : PowerSeries.X ^ (qd + 1) ∣ toPS qr - toPS (resize F.reverse (qd + 1)) * toPS gi := by
      rw [← p2]; exact resize_dvd qr0 (qd + 1)
    have d3 := resize_dvd F.reverse (qd + 1)
    have dmain : PowerSeries.X ^ (qd + 1) ∣ toPS F.reverse - toPS G.reverse * toPS qr := by
      have e : toPS F.reverse - toPS G.reverse * toPS qr =
          -(toPS (resize F.reverse (qd + 1)) - toPS F.reverse)
          - toPS (resize F.reverse (qd + 1)) * (toPS G.reverse * toPS gi - 1)
          - toPS G.reverse * (toPS qr - toPS (resize F.reverse (qd + 1)) * toPS gi) := by ring
      rw [e]
      exact dvd_sub (dvd_sub ((dvd_neg).2 d3) (Dvd.dvd.mul_left d1 _)) (Dvd.dvd.mul_left d2 _)
    -- the polynomial argument
    have key := rev_div (PowerSeries.trunc F.length (toPS F))
      (PowerSeries.trunc G.length (toPS G))
      (PowerSeries.trunc qr.reverse.length (toPS qr.reverse))
      (F.length - 1) (G.length - 1) qd (by omega)
      (natDegree_trunc_toPS F _) (natDegree_trunc_toPS G _)
      (by
        have := natDegree_trunc_toPS qr.reverse qr.reverse.length
        rw [List.length_reverse, hqrl] at this
        rw [List.length_reverse, hqrl]
        exact this)
      (by
        intro t ht
        have hq : qr.reverse.length - 1 = qd := by rw [List.length_reverse, hqrl]; omega
        have r3 : Polynomial.reflect qd (PowerSeries.trunc qr.reverse.length (toPS qr.reverse)) =
            PowerSeries.trunc qr.reverse.reverse.length (toPS qr.reverse.reverse) := by
          have := reflect_pol qr.reverse
          rwa [hq] at this
        rw [reflect_pol F, reflect_pol G, r3, List.reverse_reverse]
        rw [← Polynomial.coeff_coe, Polynomial.coe_sub, Polynomial.coe_mul,
          coe_trunc_toPS _ _ le_rfl, coe_trunc_toPS _ _ le_rfl, coe_trunc_toPS _ _ le_rfl]
        exact (PowerSeries.X_pow_dvd_iff.1 dmain) t (by omega))
    intro i hi
    have := key i hi
    rw [← Polynomial.coeff_coe, Polynomial.coe_sub, Polynomial.coe_mul,
      coe_trunc_toPS _ _ le_rfl, coe_trunc_toPS _ _ le_rfl, coe_trunc_toPS _ _ le_rfl,
      toPS_stripZeros, toPS_stripZeros] at this
    exact this

theorem divmod_none (f g : List Nat) (hg0 : stripZeros g = []) : divmod f g = none := by
  unfold divmod
  rw [fps.div_none f g hg0]
  rfl

/-- Function `divmod(f, g)` for a divisor that is not the zero polynomial: both assertions
hold, `f = g q + r`, and the remainder is stripped and shorter than the stripped divisor. -/
theorem divmod_spec (f g : List Nat) (hf : Valid f) (hg : Valid g) (hg0 : stripZeros g ≠ [])
    (hsz : 2 * f.length + 2 ≤ 2 ^ 23 + (stripZeros g).length)
    (hsz2 : f.length + g.length ≤ 2 ^ 23 + (stripZeros g).length) :
    ∃ q r, divmod f g = some (q, r) ∧ Valid q ∧ Valid r ∧
      toPS f = toPS g * toPS q + toPS r ∧ r.length < (stripZeros g).length ∧
      stripZeros r = r ∧ q.length ≤ f.length ∧
      ((stripZeros f).length < (stripZeros g).length → q = [] ∧ r = stripZeros f) := by
  obtain ⟨q, e1, v1, l1, hq0, hq1, hc⟩ := fps.div_spec f g hf hg hg0 hsz
  have hFl := stripZeros_length_le f
  have hmul : ∃ gq, fps.mul g q = some gq ∧ Valid gq ∧ toPS gq = toPS g * toPS q := by
    by_cases hlt : (stripZeros f).length < (stripZeros g).length
    · rw [hq0 hlt]
      refine ⟨[], by unfold fps.mul convolution; simp, valid_nil, ?_⟩
      rw [toPS_nil, mul_zero]
    · obtain ⟨gq, e2, v2, p2, _, _⟩ := fps.mul_spec g q hg v1 (by rw [hq1 (by omega)]; omega)
      exact ⟨gq, e2, v2, p2⟩
  obtain ⟨gq, e2, v2, p2⟩ := hmul
  obtain ⟨_, v3, p3⟩ := fps.sub_spec f gq hf v2
  have hGpos : 0 < (stripZeros g).length := List.length_pos.2 hg0
  have hG := stripZeros_length_le g
  have hrl : (stripZeros (fps.sub f gq)).length ≤ (stripZeros g).length - 1 := by
    apply stripZeros_length_le_of
    intro j hj
    have := hc j hj
    rw [← p2, ← p3, coeff_toPS] at this
    exact (mint.cast_eq_zero (v3.getD_lt j)).1 this
  unfold divmod
  rw [e1]
  simp only [Option.bind_eq_bind, Option.some_bind]
  rw [e2]
  simp only [Option.some_bind]
  rw [if_pos (by omega)]
  refine ⟨q, _, rfl, v1, v3.stripZeros, ?_, by omega, ?_, l1, ?_⟩
  · rw [toPS_stripZeros, p3, p2]; ring
  · unfold stripZeros; exact List.rdropWhile_idempotent _ _
  · intro hlt
    have hqe := hq0 hlt
    refine ⟨hqe, ?_⟩
    subst hqe
    have hgq : gq = [] := by
      have : fps.mul g [] = some [] := by
        unfold fps.mul convolution; simp
      rw [this] at e2
      exact (Option.some.inj e2).symm
    subst hgq
    congr 1

theorem fps.mod_none (f g : List Nat) (hg0 : stripZeros g = []) : fps.mod f g = none := by
  unfold fps.mod
  rw [divmod_none f g hg0]
  rfl

/-- Operator `%`. -/
theorem fps.mod_spec (f g : List Nat) (hf : Valid f) (hg : Valid g) (hg0 : stripZeros g ≠ [])
    (hsz : 2 * f.length + 2 ≤ 2 ^ 23 + (stripZeros g).length)
    (hsz2 : f.length + g.length ≤ 2 ^ 23 + (stripZeros g).length) :
    ∃ r, fps.mod f g = some r ∧ Valid r ∧ r.length < (stripZeros g).length ∧
      stripZeros r = r ∧
      ∃ q, Valid q ∧ q.length ≤ f.length ∧ toPS f = toPS g * toPS q + toPS r := by
  obtain ⟨q, r, e, v1, v2, p, l, s1, l2, _⟩ := divmod_spec f g hf hg hg0 hsz hsz2
  unfold fps.mod
  rw [e]
  exact ⟨r, rfl, v2, l, s1, q, v1, l2, p⟩

/-- C6. For canonical `f`, `g` with `g` not the zero polynomial (sizes within the
transform's range), `divmod(f, g)` returns `(q, r)` with `f = g q + r` as polynomials and
`deg r < deg g`, the degree being that of the list with trailing zeros stripped
(`length - 1`). -/
theorem C6_divmod (f g : List Nat) (hf : Valid f) (hg : Valid g) (hg0 : ∃ x ∈ g, x ≠ 0)
    (hsz : 2 * f.length + g.length ≤ 2 ^ 23) :
    ∃ q r, divmod f g = some (q, r) ∧ toPS f = toPS g * toPS q + toPS r ∧
      ((stripZeros r).length : Int) - 1 < ((stripZeros g).length : Int) - 1 := by
  have hne : stripZeros g ≠ [] := by
    intro h
    obtain ⟨x, hx, hx0⟩ := hg0
    exact hx0 ((stripZeros_eq_nil_iff g).1 h x hx)
  have hGp : 0 < (stripZeros g).length := List.length_pos.2 hne
  have hGl := stripZeros_length_le g
  obtain ⟨q, r, e, _, _, p, l, s1, _, _⟩ := divmod_spec f g hf hg hne (by omega) (by omega)
  refine ⟨q, r, e, p, ?_⟩
  rw [s1]
  omega

theorem C6_divmod_witness :
    (Valid [1, 2, 3, 4, 5] ∧ Valid [1, 2, 0] ∧ (∃ x ∈ [1, 2, 0], x ≠ 0) ∧
      2 * [1, 2, 3, 4, 5].length + [1, 2, 0].length ≤ 2 ^ 23) ∧
    ∃ q r, divmod [1, 2, 3, 4, 5] [1, 2, 0] = some (q, r) ∧
      toPS [1, 2, 3, 4, 5] = toPS [1, 2, 0] * toPS q + toPS r ∧
      ((stripZeros r).length : Int) - 1 < ((stripZeros [1, 2, 0]).length : Int) - 1 :=
  ⟨⟨by decide, by decide, by decide, by decide⟩,
    C6_divmod [1, 2, 3, 4, 5] [1, 2, 0] (by decide) (by decide) (by decide) (by decide)⟩

/-- C10. For canonical `f`, `g` (sizes within the transform's range), each of `f / g`,
`f % g` and `divmod(f, g)` aborts if and only if `g` is the zero polynomial (empty, or all
coefficients zero); so the postcondition `r.size() < g.size()` never fails for nonzero `g`. -/
theorem C10_division_abort (f g : List Nat) (hf : Valid f) (hg : Valid g)
    (hsz : 2 * f.length + g.length ≤ 2 ^ 23) :
    (fps.div f g = none ↔ ∀ x ∈ g, x = 0) ∧
    (fps.mod f g = none ↔ ∀ x ∈ g, x = 0) ∧
    (divmod f g = none ↔ ∀ x ∈ g, x = 0) := by
  by_cases h0 : stripZeros g = []
  · have hz := (stripZeros_eq_nil_iff g).1 h0
    exact ⟨⟨fun _ => hz, fun _ => fps.div_none f g h0⟩,
      ⟨fun _ => hz, fun _ => fps.mod_none f g h0⟩,
      ⟨fun _ => hz, fun _ => divmod_none f g h0⟩⟩
  · have hnz : ¬ ∀ x ∈ g, x = 0 := fun h => h0 ((stripZeros_eq_nil_iff g).2 h)
    have hGp : 0 < (stripZeros g).length := List.length_pos.2 h0
    have hGl := stripZeros_length_le g
    obtain ⟨q, e1, _⟩ := fps.div_spec f g hf hg h0 (by omega)
    obtain ⟨r, e2, _⟩ := fps.mod_spec f g hf hg h0 (by omega) (by omega)
    obtain ⟨q', r', e3, _⟩ := divmod_spec f g hf hg h0 (by omega) (by omega)
    refine ⟨⟨fun h => ?_, fun h => absurd h hnz⟩, ⟨fun h => ?_, fun h => absurd h hnz⟩,
      ⟨fun h => ?_, fun h => absurd h hnz⟩⟩
    · rw [e1] at h; cases h
    · rw [e2] at h; cases h
    · rw [e3] at h; cases h

theorem C10_division_abort_witness :
    (Valid [1, 2, 3] ∧ Valid [0, 0] ∧ 2 * [1, 2, 3].length + [0, 0].length ≤ 2 ^ 23) ∧
    ((fps.div [1, 2, 3] [0, 0] = none ↔ ∀ x ∈ [0, 0], x = 0) ∧
    (fps.mod [1, 2, 3] [0, 0] = none ↔ ∀ x ∈ [0, 0], x = 0) ∧
    (divmod [1, 2, 3] [0, 0] = none ↔ ∀ x ∈ [0, 0], x = 0)) :=
  ⟨⟨by decide, by decide, by decide⟩,
    C10_division_abort [1, 2, 3] [0, 0] (by decide) (by decide) (by decide)⟩

open atcoder

/-! ## The series inverse: claim and totality -/

/-- C5. For canonical `f` with `f[0] != 0` (hence non-empty) and sizes within the
transform's range, `fps_inv(f, n)` returns a list of length exactly `n`, and the first `n`
coefficients of `f * fps_inv(f, n)` are `[1, 0, ..., 0]`. -/
theorem C5_fps_inv (f : List Nat) (n : Nat) (hf : Valid f) (h0 : f.getD 0 0 ≠ 0)
    (hsz : f.length + 2 * n ≤ 2 ^ 23) :
    ∃ r, fps_inv f n = some r ∧ r.length = n ∧
      ∃ c, fps.mul f r = some c ∧ ∀ i, i < n → c.getD i 0 = if i = 0 then 1 else 0 := by
  obtain ⟨r, e, l, v, d⟩ := fps_inv_spec f hf h0 n hsz
  obtain ⟨c, e2, v2, p2, _, _⟩ := fps.mul_spec f r hf v (by omega)
  refine ⟨r, e, l, c, e2, fun i hi => ?_⟩
  have hc := (X_pow_dvd_sub_iff n _ _).1 d i hi
  rw [← p2, coeff_toPS, PowerSeries.coeff_one] at hc
  apply mint.cast_inj (v2.getD_lt i) (by split <;> (unfold mint.mod; norm_num))
  rw [← vecK_lt_eq, hc]
  split <;> simp

theorem C5_fps_inv_witness :
    (Valid [2, 1] ∧ [2, 1].getD 0 0 ≠ 0 ∧ [2, 1].length + 2 * 3 ≤ 2 ^ 23) ∧
    ∃ r, fps_inv [2, 1] 3 = some r ∧ r.length = 3 ∧
      ∃ c, fps.mul [2, 1] r = some c ∧ ∀ i, i < 3 → c.getD i 0 = if i = 0 then 1 else 0 :=
  ⟨⟨by decide, by decide, by decide⟩, C5_fps_inv [2, 1] 3 (by decide) (by decide) (by decide)⟩

theorem fps.mul_nil_left (g : List Nat) : fps.mul [] g = some [] := by
  unfold fps.mul convolution; simp

theorem fps.mul_nil_right (f : List Nat) : fps.mul f [] = some [] := by
  unfold fps.mul convolution; simp

open atcoder

/-! ## The lambda `rec`: `x^{-k} mod Q` -/

theorem pol_coe (l : List Nat) :
    ((PowerSeries.trunc l.length (toPS l) : Polynomial (ZMod mint.mod)) :
      PowerSeries (ZMod mint.mod)) = toPS l :=
  coe_trunc_toPS l _ le_rfl

theorem toPS_cons (x : Nat) (l : List Nat) :
    toPS (x :: l) = PowerSeries.C _ (x : ZMod mint.mod) + PowerSeries.X * toPS l := by
  ext n
  cases n with
  | zero =>
    rw [map_add, coeff_toPS, PowerSeries.coeff_zero_X_mul, add_zero,
      PowerSeries.coeff_zero_C]
    rfl
  | succ n =>
    rw [map_add, coeff_toPS, PowerSeries.coeff_succ_X_mul, coeff_toPS, PowerSeries.coeff_C,
      if_neg (Nat.succ_ne_zero n), zero_add]
    rfl

theorem toPS_one : toPS [1] = 1 := by
  rw [toPS_cons, toPS_nil, mul_zero, add_zero, Nat.cast_one, map_one]

theorem valid_cons {x : Nat} {l : List Nat} (hx : x < mint.mod) (hl : Valid l) :
    Valid (x :: l) := by
  intro y hy
  rcases List.mem_cons.1 hy with h | h
  · rw [h]; exact hx
  · exact hl y h

/-- The identity behind the case `k = 1`: with `Q = c + x Q'` and `c A = 1`, the list of the
coefficients of `-Q' A` is an inverse of `x` modulo `Q`. -/
theorem inv_x_identity (q ix : List Nat) (A : ZMod mint.mod) (hA : vecK q 0 * A = 1)
    (hix : ∀ n, vecK ix n = -vecK q (n + 1) * A) :
    PowerSeries.X * toPS ix - 1 =
      toPS q * ((Polynomial.C (-A) : Polynomial (ZMod mint.mod)) :
        PowerSeries (ZMod mint.mod)) := by
  rw [Polynomial.coe_C]
  ext n
  rw [PowerSeries.coeff_mul_C, coeff_toPS, map_sub]
  cases n with
  | zero =>
    rw [PowerSeries.coeff_zero_X_mul, PowerSeries.coeff_one, if_pos rfl, mul_neg, hA, zero_sub]
  | succ n =>
    rw [PowerSeries.coeff_succ_X_mul, PowerSeries.coeff_one, if_neg (Nat.succ_ne_zero n),
      sub_zero, coeff_toPS, hix]
    ring

theorem rec_base (q : List Nat) (d fuel k : Nat) (hk : k ≤ 1) :
    consecutive_terms_of_rational.rec q d fuel k =
      if k = 0 then some (if d > 0 then [mint.ofInt 1] else [])
      else (mint.inv (q.getD 0 0)).bind fun inv_q0 =>
        some (forUp d (fun j ix => ix.set j (mint.mul (mint.neg (q.getD (j + 1) 0)) inv_q0))
          (List.replicate d 0)) := by
  cases fuel with
  | zero =>
    unfold consecutive_terms_of_rational.rec
    by_cases h0 : k = 0
    · rw [if_pos h0, if_pos h0]
    · rw [if_neg h0, if_neg h0, if_pos (by omega)]
      rfl
  | succ fuel =>
    unfold consecutive_terms_of_rational.rec
    by_cases h0 : k = 0
    · rw [if_pos h0, if_pos h0]
    · rw [if_neg h0, if_neg h0, if_pos (by omega)]
      rfl

theorem rec_step (q : List Nat) (d fuel k : Nat) (hk : 2 ≤ k) :
    consecutive_terms_of_rational.rec q d (fuel + 1) k =
      (consecutive_terms_of_rational.rec q d fuel (u64 (k + 1) / 2)).bind fun f =>
        (fps.mul f f).bind fun sq_f =>
          fps.mod (if k % 2 = 1 then 0 :: sq_f else sq_f) q := by
  rw [consecutive_terms_of_rational.rec, if_neg (by omega), if_neg (by omega)]
  rfl

/-- The list written by the loop of the case `k = 1`. -/
theorem rec_one_list (q : List Nat) (hq : Valid q) (d x : Nat) (hx : x < mint.mod)
    (hd : q.length ≤ d + 1) :
    let ix := forUp d (fun j ix => ix.set j (mint.mul (mint.neg (q.getD (j + 1) 0)) x))
      (List.replicate d 0)
    ix.length = d ∧ Valid ix ∧
      ∀ n, vecK ix n = -vecK q (n + 1) * (x : ZMod mint.mod) := by
  intro ix
  have h := forUp_pointwise0 (fun j _ => mint.mul (mint.neg (q.getD (j + 1) 0)) x) d
    (List.replicate d 0)
  beta_reduce at h
  obtain ⟨h1, h2⟩ := h
  rw [List.length_replicate] at h1 h2
  have hl : ix.length = d := h1
  have hg : ∀ j, ix.getD j 0 =
      if j < d ∧ j < d then mint.mul (mint.neg (q.getD (j + 1) 0)) x
      else (List.replicate d 0).getD j 0 := h2
  refine ⟨hl, ?_, ?_⟩
  · apply valid_of_getD
    intro j hj
    rw [hg j, if_pos (by omega)]
    exact mint.mul_lt (mint.neg_lt (hq.getD_lt _)) hx
  · intro n
    unfold vecK
    rw [hg n]
    by_cases hn : n < d
    · rw [if_pos ⟨hn, hn⟩, mint.cast_mul (mint.neg_lt (hq.getD_lt _)) hx,
        mint.cast_neg (hq.getD_lt _)]
    · rw [if_neg (by omega)]
      have : (List.replicate d 0).getD n 0 = 0 := by
        rw [getD_of_le _ _ (by rw [List.length_replicate]; omega)]
      rw [this, getD_of_le _ _ (by omega)]
      simp

/-- The lambda `rec` returns for every `k`, its result has at most `d` entries, and (as long
as `k + 1` does not wrap) it is an inverse of `x^k` modulo `Q`: `x^k F - 1 = Q U` for a
polynomial `U`. -/
theorem rec_spec (q : List Nat) (hq : Valid q) (hq0 : q.getD 0 0 ≠ 0)
    (hql : q.getD (q.length - 1) 0 ≠ 0) (hsz : 3 * q.length ≤ 2 ^ 23) :
    ∀ (fuel k : Nat), fuel ≤ 64 → k ≤ 2 ^ fuel →
      ∃ F, consecutive_terms_of_rational.rec q (q.length - 1) fuel k = some F ∧ Valid F ∧
        F.length ≤ q.length - 1 ∧
        (k + 1 < 2 ^ 64 → ∃ U : Polynomial (ZMod mint.mod),
          PowerSeries.X ^ k * toPS F - 1 = toPS q * (U : PowerSeries (ZMod mint.mod))) := by
  have hqpos : 0 < q.length := by
    by_contra h
    have : q = [] := List.length_eq_zero.1 (by omega)
    subst this
    exact hq0 rfl
  have hinv := mint.inv_eq (hq.getD_lt 0) hq0
  have hilt := mint.inv_lt (hq.getD_lt 0) hinv
  have hic := mint.cast_inv (hq.getD_lt 0) hinv
  set x := q.getD 0 0 ^ (mint.mod - 2) % mint.mod with hx
  have hstrip : stripZeros q = q := stripZeros_eq_self q hql
  have hsne : stripZeros q ≠ [] := by
    rw [hstrip]; intro h; rw [h] at hqpos; exact absurd hqpos (by simp)
  -- the two base cases
  have base : ∀ fuel k, k ≤ 1 →
      ∃ F, consecutive_terms_of_rational.rec q (q.length - 1) fuel k = some F ∧ Valid F ∧
        F.length ≤ q.length - 1 ∧ ∃ U : Polynomial (ZMod mint.mod),
          PowerSeries.X ^ k * toPS F - 1 = toPS q * (U : PowerSeries (ZMod mint.mod)) := by
    intro fuel k hk
    rw [rec_base q _ fuel k hk]
    by_cases h0 : k = 0
    · subst h0
      rw [if_pos rfl]
      by_cases hd : q.length - 1 > 0
      · rw [if_pos hd]
        refine ⟨_, rfl, ?_, ?_, 0, ?_⟩
        · rw [mint.ofInt_one]; exact valid_cons (by unfold mint.mod; norm_num) valid_nil
        · rw [List.length_singleton]; omega
        · rw [mint.ofInt_one, toPS_one, Polynomial.coe_zero]; ring
      · rw [if_neg hd]
        refine ⟨_, rfl, valid_nil, by simp, Polynomial.C (-(x : ZMod mint.mod)), ?_⟩
        have h := inv_x_identity q [] (x : ZMod mint.mod) hic (fun n => by
          rw [vecK_of_le [] n (by simp), vecK_of_le q (n + 1) (by omega)]; ring)
        rw [← h, toPS_nil]; ring
    · rw [if_neg h0, hinv]
      obtain ⟨l1, v1, g1⟩ := rec_one_list q hq (q.length - 1) x hilt (by omega)
      have hk1 : k = 1 := by omega
      subst hk1
      refine ⟨_, rfl, v1, le_of_eq l1, Polynomial.C (-(x : ZMod mint.mod)), ?_⟩
      rw [pow_one]
      exact inv_x_identity q _ _ hic g1
  intro fuel
  induction fuel with
  | zero =>
    intro k _ hk
    obtain ⟨F, e, v, l, U⟩ := base 0 k (by simpa using hk)
    exact ⟨F, e, v, l, fun _ => U⟩
  | succ fuel ih =>
    intro k hf hk
    by_cases hk1 : k ≤ 1
    · obtain ⟨F, e, v, l, U⟩ := base (fuel + 1) k hk1
      exact ⟨F, e, v, l, fun _ => U⟩
    · have hk2 : 2 ≤ k := by omega
      have hp : 2 ^ (fuel + 1) = 2 * 2 ^ fuel := by ring
      have hu : u64 (k + 1) ≤ k + 1 := Nat.mod_le _ _
      obtain ⟨f, e1, v1, l1, U1⟩ := ih (u64 (k + 1) / 2) (by omega) (by omega)
      obtain ⟨sq, e2, v2, p2, l2, _⟩ := fps.mul_spec f f v1 v1 (by omega)
      have v3 : Valid (if k % 2 = 1 then 0 :: sq else sq) := by
        split
        · exact valid_cons mod_pos v2
        · exact v2
      have l3 : (if k % 2 = 1 then 0 :: sq else sq).length ≤ 2 * (q.length - 1) + 1 := by
        split
        · rw [List.length_cons]; omega
        · omega
      obtain ⟨r, e3, v4, l4, _, qq, v5, _, p5⟩ := fps.mod_spec _ q v3 hq hsne
        (by rw [hstrip]; omega) (by rw [hstrip]; omega)
      rw [rec_step q _ fuel k hk2, e1, Option.some_bind, e2, Option.some_bind, e3]
      refine ⟨r, rfl, v4, by rw [hstrip] at l4; omega, fun hw => ?_⟩
      have hu2 : u64 (k + 1) = k + 1 := u64_of_lt hw
      rw [hu2] at U1
      obtain ⟨U, hU⟩ := U1 (by omega)
      refine ⟨U + U + PowerSeries.trunc q.length (toPS q) * U ^ 2
        - Polynomial.X ^ k * PowerSeries.trunc qq.length (toPS qq), ?_⟩
      simp only [Polynomial.coe_add, Polynomial.coe_sub, Polynomial.coe_mul, Polynomial.coe_pow,
        Polynomial.coe_X, pol_coe]
      rcases Nat.even_or_odd' k with ⟨j, hj | hj⟩
      · have hk' : (k + 1) / 2 = j := by omega
        rw [hk'] at hU
        rw [if_neg (by omega)] at p5
        have hpow : (PowerSeries.X : PowerSeries (ZMod mint.mod)) ^ k
            = PowerSeries.X ^ j * PowerSeries.X ^ j := by rw [hj, two_mul, pow_add]
        linear_combination (-(PowerSeries.X ^ k)) * p5 + PowerSeries.X ^ k * p2
          + (toPS f * toPS f) * hpow
          + (PowerSeries.X ^ j * toPS f + 1 + toPS q * (U : PowerSeries (ZMod mint.mod))) * hU
      · have hk' : (k + 1) / 2 = j + 1 := by omega
        rw [hk'] at hU
        rw [if_pos (by omega), toPS_cons, Nat.cast_zero, map_zero, zero_add] at p5
        have hpow : (PowerSeries.X : PowerSeries (ZMod mint.mod)) ^ k * PowerSeries.X
            = PowerSeries.X ^ (j + 1) * PowerSeries.X ^ (j + 1) := by
          rw [hj, ← pow_succ, ← pow_add]; congr 1; omega
        linear_combination (-(PowerSeries.X ^ k)) * p5 + (PowerSeries.X ^ k * PowerSeries.X) * p2
          + (toPS f * toPS f) * hpow
          + (PowerSeries.X ^ (j + 1) * toPS f + 1
            + toPS q * (U : PowerSeries (ZMod mint.mod))) * hU

open atcoder

/-! ## The rational-series extractor -/

/-- If `Q R` has no coefficient of index `>= k + deg Q`, then `R` has none of index `>= k`. -/
theorem cofactor_small (Q R : Polynomial (ZMod mint.mod)) (k : Nat) (hQ : Q ≠ 0)
    (hL : ∀ n, k + Q.natDegree ≤ n → (Q * R).coeff n = 0) : ∀ i, k ≤ i → R.coeff i = 0 := by
  haveI : Fact (Nat.Prime mint.mod) := ⟨prime_mod⟩
  intro i hi
  by_contra h
  have hR : R ≠ 0 := by
    intro h0
    rw [h0] at h
    exact h (Polynomial.coeff_zero i)
  have hle : i ≤ R.natDegree := Polynomial.le_natDegree_of_ne_zero h
  have := hL (Q.natDegree + R.natDegree) (by omega)
  rw [Polynomial.coeff_mul_degree_add_degree] at this
  exact mul_ne_zero (Polynomial.leadingCoeff_ne_zero.2 hQ)
    (Polynomial.leadingCoeff_ne_zero.2 hR) this

/-- A list with a nonzero constant term is a unit as a power series. -/
theorem toPS_unit (q : List Nat) (hq : Valid q) (hq0 : q.getD 0 0 ≠ 0) :
    ∃ V, toPS q * V = 1 := by
  haveI : Fact (Nat.Prime mint.mod) := ⟨prime_mod⟩
  have hc0 : vecK q 0 ≠ 0 := fun h => hq0 ((mint.cast_eq_zero (hq.getD_lt 0)).1 h)
  have : IsUnit (toPS q) := by
    rw [PowerSeries.isUnit_iff_constantCoeff, ← PowerSeries.coeff_zero_eq_constantCoeff_apply,
      coeff_toPS]
    exact IsUnit.mk0 _ hc0
  exact this.exists_right_inv

/-- Function `consecutive_terms_of_rational`: when the preconditions hold no assertion fails,
`m` canonical values are returned, and (for `k + 1` not wrapping) the `i`-th value is the
coefficient of `x^{k+i}` of any series `S` with `Q S = P`. -/
theorem rational_spec (p q : List Nat) (k m : Nat) (hp : Valid p) (hq : Valid q)
    (hq0 : q.getD 0 0 ≠ 0) (hql : q.getD (q.length - 1) 0 ≠ 0) (hpq : p.length < q.length)
    (hk : k < 2 ^ 64) (hsz : 3 * q.length ≤ 2 ^ 23) (hsz2 : q.length + 2 * m ≤ 2 ^ 23) :
    ∃ res, consecutive_terms_of_rational p q k m = some res ∧ res.length = m ∧ Valid res ∧
      (k + 1 < 2 ^ 64 → ∀ S : PowerSeries (ZMod mint.mod), toPS q * S = toPS p →
        ∀ i, i < m → vecK res i = PowerSeries.coeff _ (k + i) S) := by
  have hstrip : stripZeros q = q := stripZeros_eq_self q hql
  have hsne : stripZeros q ≠ [] := by
    rw [hstrip]; intro h; rw [h] at hpq; exact absurd hpq (by simp)
  unfold consecutive_terms_of_rational
  rw [if_neg (not_not.2 ⟨by omega, hq0, hql⟩), if_neg (not_not.2 hpq)]
  obtain ⟨ix, e1, v1, l1, U1⟩ := rec_spec q hq hq0 hql hsz 64 k le_rfl (le_of_lt hk)
  obtain ⟨t, e2, v2, p2, l2, _⟩ := fps.mul_spec ix p v1 hp (by omega)
  obtain ⟨pk, e3, v3, l3, _, qq, v4, _, p4⟩ := fps.mod_spec t q v2 hq hsne
    (by rw [hstrip]; omega) (by rw [hstrip]; omega)
  obtain ⟨qi, e4, l4, v5, d5⟩ := fps_inv_spec q hq hq0 m (by omega)
  rw [hstrip] at l3
  obtain ⟨res, e5, v6, p6, _, _⟩ := fps.mul_spec pk qi v3 v5 (by rw [l4]; omega)
  simp only [Option.bind_eq_bind, e1, Option.some_bind, e2, e3, e4, e5]
  refine ⟨_, rfl, length_resize _ _, v6.resize _, fun hw S hS i hi => ?_⟩
  obtain ⟨U, hU⟩ := U1 hw
  have hR : PowerSeries.X ^ k * toPS pk - toPS p = toPS q *
      ((U * PowerSeries.trunc p.length (toPS p)
        - Polynomial.X ^ k * PowerSeries.trunc qq.length (toPS qq) :
          Polynomial (ZMod mint.mod)) : PowerSeries (ZMod mint.mod)) := by
    simp only [Polynomial.coe_sub, Polynomial.coe_mul, Polynomial.coe_pow, Polynomial.coe_X,
      pol_coe]
    linear_combination (-(PowerSeries.X ^ k)) * p4 + PowerSeries.X ^ k * p2 + toPS p * hU
  set R := U * PowerSeries.trunc p.length (toPS p)
    - Polynomial.X ^ k * PowerSeries.trunc qq.length (toPS qq) with hRdef
  have hpolyeq : Polynomial.X ^ k * PowerSeries.trunc pk.length (toPS pk)
      - PowerSeries.trunc p.length (toPS p) = PowerSeries.trunc q.length (toPS q) * R := by
    rw [← Polynomial.coe_inj]
    simp only [Polynomial.coe_sub, Polynomial.coe_mul, Polynomial.coe_pow, Polynomial.coe_X,
      pol_coe]
    exact hR
  have hqd : vecK q (q.length - 1) ≠ 0 :=
    fun h => hql ((mint.cast_eq_zero (hq.getD_lt _)).1 h)
  have hQne : PowerSeries.trunc q.length (toPS q) ≠ 0 := by
    intro h
    have := coeff_pol q (q.length - 1)
    rw [h, Polynomial.coeff_zero] at this
    exact hqd this.symm
  have hdeg : q.length - 1 ≤ (PowerSeries.trunc q.length (toPS q)).natDegree :=
    Polynomial.le_natDegree_of_ne_zero (by rw [coeff_pol]; exact hqd)
  have hRc : ∀ i, k ≤ i → R.coeff i = 0 := by
    apply cofactor_small _ R k hQne
    intro n hn
    rw [← hpolyeq, Polynomial.coeff_sub, Polynomial.coeff_X_pow_mul', coeff_pol, coeff_pol,
      if_pos (by omega), vecK_of_le pk _ (by omega), vecK_of_le p _ (by omega), sub_zero]
  obtain ⟨V, hV⟩ := toPS_unit q hq hq0
  have hSR : S + (R : PowerSeries (ZMod mint.mod)) = PowerSeries.X ^ k * (V * toPS pk) := by
    have h1 : toPS q * (S + (R : PowerSeries (ZMod mint.mod))) = PowerSeries.X ^ k * toPS pk := by
      rw [mul_add, hS, ← hR]; ring
    calc S + (R : PowerSeries (ZMod mint.mod))
        = V * (toPS q * (S + (R : PowerSeries (ZMod mint.mod)))) := by
          rw [← mul_assoc, mul_comm V, hV, one_mul]
      _ = PowerSeries.X ^ k * (V * toPS pk) := by rw [h1]; ring
  have hc1 : PowerSeries.coeff _ (k + i) S = PowerSeries.coeff _ i (V * toPS pk) := by
    have := congrArg (PowerSeries.coeff _ (i + k)) hSR
    rw [map_add, Polynomial.coeff_coe, hRc _ (by omega), add_zero,
      PowerSeries.coeff_X_pow_mul] at this
    rw [add_comm]
    exact this
  have hc2 : vecK (resize res m) i = PowerSeries.coeff _ i (toPS pk * toPS qi) := by
    have := (X_pow_dvd_sub_iff m _ _).1 (resize_dvd res m) i hi
    rw [coeff_toPS, p6] at this
    exact this
  have hc3 : PowerSeries.coeff _ i (toPS pk * toPS qi) = PowerSeries.coeff _ i (V * toPS pk) := by
    apply (X_pow_dvd_sub_iff m _ _).1 _ i hi
    have : toPS pk * toPS qi - V * toPS pk = toPS pk * V * (toPS q * toPS qi - 1) := by
      linear_combination (-(toPS pk * toPS qi)) * hV
    rw [this]
    exact Dvd.dvd.mul_left d5 _
  rw [hc2, hc3, hc1]

open atcoder

/-- C2. For canonical `p`, `q` with `q[0] != 0`, last coefficient of `q` nonzero and
`size(p) < size(q)` (so `q` is non-empty), every `k < 2^63` and every `m` (sizes within the
transform's range), `consecutive_terms_of_rational(p, q, k, m)` returns exactly `m` values,
and its `i`-th value is the coefficient of `x^{k+i}` of the unique power series `S` with
`Q S = P`. -/
theorem C2_rational (p q : List Nat) (k m : Nat) (hp : Valid p) (hq : Valid q)
    (hq0 : q.getD 0 0 ≠ 0) (hql : q.getD (q.length - 1) 0 ≠ 0) (hpq : p.length < q.length)
    (hk : k < 2 ^ 63) (hsz : 3 * q.length ≤ 2 ^ 23) (hsz2 : q.length + 2 * m ≤ 2 ^ 23) :
    ∃ res, consecutive_terms_of_rational p q k m = some res ∧ res.length = m ∧ Valid res ∧
      ∃ S : PowerSeries (ZMod mint.mod), toPS q * S = toPS p ∧
        (∀ S', toPS q * S' = toPS p → S' = S) ∧
        ∀ i, i < m → vecK res i = PowerSeries.coeff _ (k + i) S := by
  obtain ⟨res, e, l, v, hS⟩ := rational_spec p q k m hp hq hq0 hql hpq (by omega) hsz hsz2
  obtain ⟨V, hV⟩ := toPS_unit q hq hq0
  have hS0 : toPS q * (V * toPS p) = toPS p := by rw [← mul_assoc, hV, one_mul]
  refine ⟨res, e, l, v, V * toPS p, hS0, fun S' h' => ?_, hS (by omega) _ hS0⟩
  calc S' = V * (toPS q * S') := by rw [← mul_assoc, mul_comm V, hV, one_mul]
    _ = V * toPS p := by rw [h']

theorem C2_rational_witness :
    (Valid [1] ∧ Valid [1, 998244352] ∧ [1, 998244352].getD 0 0 ≠ 0 ∧
      [1, 998244352].getD ([1, 998244352].length - 1) 0 ≠ 0 ∧
      [1].length < [1, 998244352].length ∧ 5 < 2 ^ 63 ∧ 3 * [1, 998244352].length ≤ 2 ^ 23 ∧
      [1, 998244352].length + 2 * 3 ≤ 2 ^ 23) ∧
    ∃ res, consecutive_terms_of_rational [1] [1, 998244352] 5 3 = some res ∧ res.length = 3 ∧
      Valid res ∧
      ∃ S : PowerSeries (ZMod mint.mod), toPS [1, 998244352] * S = toPS [1] ∧
        (∀ S', toPS [1, 998244352] * S' = toPS [1] → S' = S) ∧
        ∀ i, i < 3 → vecK res i = PowerSeries.coeff _ (5 + i) S :=
  ⟨⟨by decide, by decide, by decide, by decide, by decide, by decide, by decide, by decide⟩,
    C2_rational [1] [1, 998244352] 5 3 (by decide) (by decide) (by decide) (by decide)
      (by decide) (by decide) (by decide) (by decide)⟩

/-- C9. For canonical `p`, `q`, a 64-bit `k` and sizes within the transform's range,
`consecutive_terms_of_rational(p, q, k, m)` aborts if and only if `q` is empty, or
`q[0] = 0`, or the last coefficient of `q` is `0`, or `size(p) >= size(q)`; otherwise no
assertion inside the call fails and a value is returned. -/
theorem C9_rational_abort (p q : List Nat) (k m : Nat) (hp : Valid p) (hq : Valid q)
    (hk : k < 2 ^ 64) (hsz : 3 * q.length ≤ 2 ^ 23) (hsz2 : q.length + 2 * m ≤ 2 ^ 23) :
    consecutive_terms_of_rational p q k m = none ↔
      (q.length = 0 ∨ q.getD 0 0 = 0 ∨ q.getD (q.length - 1) 0 = 0 ∨ q.length ≤ p.length) := by
  constructor
  · intro h
    by_contra hc
    simp only [not_or, not_le] at hc
    obtain ⟨_, h0, hl, hpq⟩ := hc
    obtain ⟨res, e, _⟩ := rational_spec p q k m hp hq h0 hl hpq hk hsz hsz2
    rw [e] at h
    cases h
  · intro h
    unfold consecutive_terms_of_rational
    by_cases hpre : q.length ≠ 0 ∧ q.getD 0 0 ≠ 0 ∧ q.getD (q.length - 1) 0 ≠ 0
    · rw [if_neg (not_not.2 hpre), if_pos (by omega)]
    · rw [if_pos hpre]

theorem C9_rational_abort_witness :
    (Valid [1] ∧ Valid [1, 998244352] ∧ 2 ^ 64 - 1 < 2 ^ 64 ∧
      3 * [1, 998244352].length ≤ 2 ^ 23 ∧ [1, 998244352].length + 2 * 2 ≤ 2 ^ 23) ∧
    (consecutive_terms_of_rational [1] [1, 998244352] (2 ^ 64 - 1) 2 = none ↔
      ([1, 998244352].length = 0 ∨ [1, 998244352].getD 0 0 = 0 ∨
        [1, 998244352].getD ([1, 998244352].length - 1) 0 = 0 ∨
        [1, 998244352].length ≤ [1].length)) :=
  ⟨⟨by decide, by decide, by decide, by decide, by decide⟩,
    C9_rational_abort [1] [1, 998244352] (2 ^ 64 - 1) 2 (by decide) (by decide) (by decide)
      (by decide) (by decide)⟩

/-! ## The degenerate recurrence `d = 0` -/

theorem rec_degenerate : ∀ (fuel k : Nat), k ≤ 2 ^ fuel →
    consecutive_terms_of_rational.rec [1] 0 fuel k = some [] := by
  have base : ∀ fuel k, k ≤ 1 → consecutive_terms_of_rational.rec [1] 0 fuel k = some [] := by
    intro fuel k hk
    rw [rec_base [1] 0 fuel k hk]
    by_cases h0 : k = 0
    · rw [if_pos h0]; rfl
    · rw [if_neg h0]
      have : mint.inv ([1].getD 0 0) = some 1 := by
        show mint.inv 1 = some 1
        have h1 : 1 < mint.mod := by unfold mint.mod; norm_num
        obtain ⟨x, hx⟩ : ∃ x, mint.inv 1 = some x := ⟨_, mint.inv_eq h1 one_ne_zero⟩
        have hlt := mint.inv_lt h1 hx
        have hm := mint.mul_inv h1 hx
        rw [mint.mul_eq h1 hlt, one_mul, Nat.mod_eq_of_lt hlt] at hm
        rw [hx, hm]
      rw [this]
      rfl
  intro fuel
  induction fuel with
  | zero =>
    intro k hk
    exact base 0 k (by simpa using hk)
  | succ fuel ih =>
    intro k hk
    by_cases hk1 : k ≤ 1
    · exact base _ k hk1
    · have hp : 2 ^ (fuel + 1) = 2 * 2 ^ fuel := by ring
      have hu : u64 (k + 1) ≤ k + 1 := Nat.mod_le _ _
      rw [rec_step [1] 0 fuel k (by omega), ih _ (by omega), Option.some_bind,
        fps.mul_nil_left, Option.some_bind]
      split <;> decide

theorem rational_degenerate (k m : Nat) (hk : k < 2 ^ 64) (hsz : 1 + 2 * m ≤ 2 ^ 23) :
    consecutive_terms_of_rational [] [1] k m = some (List.replicate m 0) := by
  unfold consecutive_terms_of_rational
  rw [if_neg (by decide), if_neg (by decide)]
  have e1 : consecutive_terms_of_rational.rec [1] ([1].length - 1) 64 k = some [] :=
    rec_degenerate 64 k (le_of_lt hk)
  have e3 : fps.mod [] [1] = some [] := by decide
  obtain ⟨qi, e4, _⟩ := fps_inv_spec [1] (by decide) (by decide) m hsz
  simp only [Option.bind_eq_bind, e1, Option.some_bind, fps.mul_nil_left, e3, e4]
  simp [resize]

theorem add_zeros (m : Nat) :
    fps.add (List.replicate m 0) (List.replicate m 0) = List.replicate m 0 := by
  obtain ⟨l, v, p⟩ := fps.add_spec (List.replicate m 0) (List.replicate m 0)
    (valid_replicate_zero m) (valid_replicate_zero m)
  rw [max_self] at l
  apply ext_getD l
  intro i hi
  have h := congrArg (PowerSeries.coeff _ i) p
  rw [toPS_replicate_zero, add_zero, coeff_toPS, map_zero] at h
  rw [(mint.cast_eq_zero (v.getD_lt i)).1 h]
  rw [l, List.length_replicate] at hi
  simp [List.getD_eq_getElem?_getD, hi]

/-- C8. For the degenerate input `a = []`, `c = []` (`d = 0`), every 64-bit `k` and every
`m` within the transform's range (`1 + 2 m <= 2^23`),
`consecutive_terms_of_linear_reccurrent_sequence(a, c, k, m)` fails no assertion and returns
the list of `m` zeros; in particular `[0, 0, 0]` for `m = 3`. -/
theorem C8_degenerate (k m : Nat) (hk : k < 2 ^ 64) (hsz : 1 + 2 * m ≤ 2 ^ 23) :
    consecutive_terms_of_linear_reccurrent_sequence [] [] k m = some (List.replicate m 0) ∧
    consecutive_terms_of_linear_reccurrent_sequence [] [] k 3 = some [0, 0, 0] := by
  have main : ∀ m, 1 + 2 * m ≤ 2 ^ 23 →
      consecutive_terms_of_linear_reccurrent_sequence [] [] k m
        = some (List.replicate m 0) := by
    intro m hm
    unfold consecutive_terms_of_linear_reccurrent_sequence
    have hq : stripZeros (forUp ([] : List Nat).length
        (fun i q => q.set (i + 1) (mint.neg (([] : List Nat).getD i 0)))
        ((List.replicate (([] : List Nat).length + 1) 0).set 0 (mint.ofInt 1))) = [1] := by
      decide
    have hd : divmod (resize [] ([] : List Nat).length) [1] = some ([], []) := by decide
    simp only [Option.bind_eq_bind, hq, fps.mul_nil_left, Option.some_bind, hd,
      rational_degenerate k m hk hm, Option.pure_def]
    simp [resize, add_zeros]
  exact ⟨main m hsz, main 3 (by norm_num)⟩

theorem C8_degenerate_witness :
    (2 ^ 64 - 1 < 2 ^ 64 ∧ 1 + 2 * 5 ≤ 2 ^ 23) ∧
    (consecutive_terms_of_linear_reccurrent_sequence [] [] (2 ^ 64 - 1) 5
      = some (List.replicate 5 0) ∧
    consecutive_terms_of_linear_reccurrent_sequence [] [] (2 ^ 64 - 1) 3 = some [0, 0, 0]) :=
  ⟨⟨by decide, by decide⟩, C8_degenerate (2 ^ 64 - 1) 5 (by decide) (by decide)⟩

open atcoder

/-! ## The recurrence solver -/

theorem linrecTerms_length (a c : List Nat) (n : Nat) : (linrecTerms a c n).length = n := by
  induction n with
  | zero => rfl
  | succ n ih =>
    unfold linrecTerms
    simp only [List.length_append, List.length_singleton, ih]

theorem linrecTerms_getD (a c : List Nat) (n i : Nat) (hi : i < n) :
    (linrecTerms a c n).getD i 0 = linrecTerm a c i := by
  induction n with
  | zero => omega
  | succ n ih =>
    by_cases h : i = n
    · subst h; rfl
    · have hlt : i < n := by omega
      rw [← ih hlt]
      conv_lhs => unfold linrecTerms
      simp only
      rw [List.getD_append _ _ _ _ (by rw [linrecTerms_length]; exact hlt)]

theorem linrecTerm_init (a c : List Nat) (i : Nat) (hi : i < a.length) :
    linrecTerm a c i = a.getD i 0 := by
  unfold linrecTerm linrecTerms
  simp only
  rw [List.getD_append_right _ _ _ _ (by rw [linrecTerms_length]), linrecTerms_length,
    Nat.sub_self, if_pos hi]
  rfl

theorem list_range_sum (f : Nat → Nat) (d : Nat) :
    ((List.range d).map f).sum = ∑ j in Finset.range d, f j := by
  induction d with
  | zero => rfl
  | succ d ih =>
    rw [List.range_succ, List.map_append, List.sum_append, ih, Finset.sum_range_succ]
    simp

theorem linrecTerm_rec (a c : List Nat) (i : Nat) (hi : a.length ≤ i) (hc : c.length ≤ i) :
    linrecTerm a c i =
      (∑ j in Finset.range c.length, c.getD j 0 * linrecTerm a c (i - 1 - j)) % mint.mod := by
  conv_lhs => unfold linrecTerm linrecTerms
  simp only
  rw [List.getD_append_right _ _ _ _ (by rw [linrecTerms_length]), linrecTerms_length,
    Nat.sub_self, if_neg (by omega), list_range_sum]
  show (∑ j in Finset.range c.length, c.getD j 0 * (linrecTerms a c i).getD (i - 1 - j) 0)
    % mint.mod = _
  congr 1
  apply Finset.sum_congr rfl
  intro j hj
  rw [Finset.mem_range] at hj
  rw [linrecTerms_getD a c i _ (by omega)]

theorem linrecTerm_lt (a c : List Nat) (ha : Valid a) (i : Nat) : linrecTerm a c i < mint.mod := by
  unfold linrecTerm linrecTerms
  simp only
  rw [List.getD_append_right _ _ _ _ (by rw [linrecTerms_length]), linrecTerms_length,
    Nat.sub_self]
  show (if i < a.length then a.getD i 0 else _ % mint.mod) < mint.mod
  split
  · exact ha.getD_lt i
  · exact Nat.mod_lt _ mod_pos

theorem getD_replicate_zero (n j : Nat) : (List.replicate n 0).getD j 0 = 0 := by
  by_cases h : j < n
  · simp [List.getD_eq_getElem?_getD, List.getElem?_replicate, h]
  · exact getD_of_le _ _ (by rw [List.length_replicate]; omega)

/-- The denominator built by the solver before its trailing zeros are removed:
`Q = 1 - x C(x)`. -/
theorem solver_q (c : List Nat) (hc : Valid c) :
    let q := forUp c.length (fun i q => q.set (i + 1) (mint.neg (c.getD i 0)))
      ((List.replicate (c.length + 1) 0).set 0 (mint.ofInt 1))
    q.length = c.length + 1 ∧ Valid q ∧ q.getD 0 0 = 1 ∧
      toPS q = 1 - PowerSeries.X * toPS c := by
  intro q
  have h := forUp_pointwise (fun i _ => mint.neg (c.getD i 0)) 1 c.length
    ((List.replicate (c.length + 1) 0).set 0 (mint.ofInt 1))
  beta_reduce at h
  obtain ⟨h1, h2⟩ := h
  have hl : q.length = c.length + 1 := by
    have : q.length = ((List.replicate (c.length + 1) 0).set 0 (mint.ofInt 1)).length := h1
    rw [this, List.length_set, List.length_replicate]
  have hb : ∀ j, ((List.replicate (c.length + 1) 0).set 0 (mint.ofInt 1)).getD j 0
      = if j = 0 then 1 else 0 := by
    intro j
    rw [getD_set, mint.ofInt_one, List.length_replicate, getD_replicate_zero]
    by_cases hj : j = 0
    · subst hj; simp
    · rw [if_neg (by omega), if_neg hj]
  have hg : ∀ j, q.getD j 0 =
      if 1 ≤ j ∧ j < 1 + c.length ∧ j < c.length + 1 then mint.neg (c.getD (j - 1) 0)
      else if j = 0 then 1 else 0 := by
    intro j
    have := h2 j
    rw [hb j, List.length_set, List.length_replicate] at this
    exact this
  refine ⟨hl, valid_of_getD ?_, ?_, ?_⟩
  · intro j _
    rw [hg]
    split
    · exact mint.neg_lt (hc.getD_lt _)
    · split <;> (unfold mint.mod; norm_num)
  · rw [hg, if_neg (by omega), if_pos rfl]
  · ext n
    rw [coeff_toPS]
    unfold vecK
    rw [hg]
    cases n with
    | zero =>
      rw [if_neg (by omega), if_pos rfl, map_sub, PowerSeries.coeff_zero_X_mul,
        PowerSeries.coeff_one, if_pos rfl, sub_zero, Nat.cast_one]
    | succ n =>
      rw [map_sub, PowerSeries.coeff_succ_X_mul, PowerSeries.coeff_one,
        if_neg (Nat.succ_ne_zero n), if_neg (Nat.succ_ne_zero n), zero_sub, coeff_toPS]
      by_cases hn : n < c.length
      · rw [if_pos (by omega), Nat.add_sub_cancel, mint.cast_neg (hc.getD_lt _)]
        rfl
      · rw [if_neg (by omega), vecK_of_le c n (by omega)]
        simp

/-- The generating function `G` of the sequence satisfies `(1 - x C) G = T` for every list
`T` of `d` entries that agrees with `(1 - x C) a` below `x^d`. -/
theorem genfun_eq (a c : List Nat) (hac : a.length = c.length) (T : List Nat)
    (hT : T.length = a.length)
    (hTa : PowerSeries.X ^ a.length ∣ toPS T - (1 - PowerSeries.X * toPS c) * toPS a) :
    (1 - PowerSeries.X * toPS c)
      * PowerSeries.mk (fun i => ((linrecTerm a c i : Nat) : ZMod mint.mod)) = toPS T := by
  set G := PowerSeries.mk (fun i => ((linrecTerm a c i : Nat) : ZMod mint.mod)) with hGdef
  ext n
  by_cases hn : n < a.length
  · have hGa : PowerSeries.X ^ a.length ∣ G - toPS a := by
      rw [X_pow_dvd_sub_iff]
      intro j hj
      rw [hGdef, PowerSeries.coeff_mk, coeff_toPS, linrecTerm_init a c j hj]
      rfl
    have hd : PowerSeries.X ^ a.length ∣ (1 - PowerSeries.X * toPS c) * G - toPS T := by
      have e : (1 - PowerSeries.X * toPS c) * G - toPS T
          = (1 - PowerSeries.X * toPS c) * (G - toPS a)
            - (toPS T - (1 - PowerSeries.X * toPS c) * toPS a) := by ring
      rw [e]
      exact dvd_sub (Dvd.dvd.mul_left hGa _) hTa
    exact (X_pow_dvd_sub_iff _ _ _).1 hd n hn
  · rw [coeff_toPS, vecK_of_le T n (by omega)]
    have e : (1 - PowerSeries.X * toPS c) * G = G - PowerSeries.X * (toPS c * G) := by ring
    have hrec := linrecTerm_rec a c n (by omega) (by omega)
    rw [e, map_sub]
    cases n with
    | zero =>
      have h0 : c.length = 0 := by omega
      rw [h0] at hrec
      rw [PowerSeries.coeff_zero_X_mul, sub_zero, hGdef, PowerSeries.coeff_mk, hrec]
      simp
    | succ n =>
      have hle : c.length ≤ n + 1 := by omega
      have hz : ∀ j ∈ Finset.range (n + 1), j ∉ Finset.range c.length →
          PowerSeries.coeff (ZMod mint.mod) j (toPS c)
            * PowerSeries.coeff (ZMod mint.mod) (n - j) G = 0 := by
        intro j _ hj
        rw [Finset.mem_range] at hj
        rw [coeff_toPS, vecK_of_le c j (by omega), zero_mul]
      rw [PowerSeries.coeff_succ_X_mul, PowerSeries.coeff_mul,
        Finset.Nat.sum_antidiagonal_eq_sum_range_succ_mk,
        ← Finset.sum_subset (Finset.range_subset.2 hle) hz, sub_eq_zero, hGdef,
        PowerSeries.coeff_mk, hrec, ZMod.natCast_mod, Nat.cast_sum]
      apply Finset.sum_congr rfl
      intro j _
      rw [coeff_toPS, PowerSeries.coeff_mk, Nat.cast_mul]
      unfold vecK
      congr 2

open atcoder

theorem valid_drop {l : List Nat} (hl : Valid l) (n : Nat) : Valid (l.drop n) :=
  fun x hx => hl x (List.mem_of_mem_drop hx)

theorem getD_drop_min (l : List Nat) (k i : Nat) :
    (l.drop (min l.length k)).getD i 0 = l.getD (k + i) 0 := by
  by_cases hk : k ≤ l.length
  · rw [min_eq_right hk]
    simp [List.getD_eq_getElem?_getD, List.getElem?_drop]
  · rw [min_eq_left (by omega), getD_of_le _ _ (by simp), getD_of_le _ _ (by omega)]

theorem getD_map_range (f : Nat → Nat) (m i : Nat) (hi : i < m) :
    ((List.range m).map f).getD i 0 = f i := by
  simp [List.getD_eq_getElem?_getD, hi]

/-- The solver returns the window `[A_k, ..., A_{k+m-1}]` of the sequence defined by the
recurrence. -/
theorem solver_spec (a c : List Nat) (k m : Nat) (ha : Valid a) (hc : Valid c)
    (hac : a.length = c.length) (hk : k < 2 ^ 63) (hsz : 3 * (c.length + 1) ≤ 2 ^ 23)
    (hsz2 : c.length + 1 + 2 * m ≤ 2 ^ 23) :
    consecutive_terms_of_linear_reccurrent_sequence a c k m
      = some ((List.range m).map fun i => linrecTerm a c (k + i)) := by
  obtain ⟨ql, qv, q0, qp⟩ := solver_q c hc
  unfold consecutive_terms_of_linear_reccurrent_sequence
  simp only
  set q0l := forUp c.length (fun i q => q.set (i + 1) (mint.neg (c.getD i 0)))
    ((List.replicate (c.length + 1) 0).set 0 (mint.ofInt 1)) with hq0l
  set q := stripZeros q0l with hqdef
  have hqv : Valid q := qv.stripZeros
  have hqp : toPS q = 1 - PowerSeries.X * toPS c := by rw [hqdef, toPS_stripZeros, qp]
  have hq0 : q.getD 0 0 = 1 := by rw [hqdef, stripZeros_getD, q0]
  have hqne : q ≠ [] := by
    intro h
    rw [h] at hq0
    exact absurd hq0 (by decide)
  have hqlen : q.length ≤ c.length + 1 := by
    have h1 : q.length ≤ q0l.length := stripZeros_length_le q0l
    have h2 : q0l.length = c.length + 1 := ql
    omega
  have hqpos : 0 < q.length := List.length_pos.2 hqne
  have hql : q.getD (q.length - 1) 0 ≠ 0 := stripZeros_last q0l hqne
  have hqs : stripZeros q = q := stripZeros_eq_self q hql
  obtain ⟨pp, e1, v1, p1, _, _⟩ := fps.mul_spec a q ha hqv (by omega)
  set T := resize pp a.length with hTdef
  have hTl : T.length = a.length := length_resize _ _
  have hTv : Valid T := v1.resize _
  have hTa : PowerSeries.X ^ a.length ∣ toPS T - (1 - PowerSeries.X * toPS c) * toPS a := by
    have := resize_dvd pp a.length
    rw [p1, hqp, mul_comm] at this
    exact this
  have hG := genfun_eq a c hac T hTl hTa
  rw [← hqp] at hG
  obtain ⟨R, P, e2, vR, vP, p2, lP, _, lR, _⟩ := divmod_spec T q hTv hqv
    (by rw [hqs]; exact hqne) (by rw [hqs, hTl]; omega) (by rw [hqs, hTl]; omega)
  rw [hqs] at lP
  obtain ⟨s, e3, ls, vs, hS⟩ := rational_spec P q k m vP hqv (by rw [hq0]; exact one_ne_zero)
    hql lP (by omega) (by omega) (by omega)
  simp only [Option.bind_eq_bind, e1, Option.some_bind, e2, e3, Option.pure_def]
  congr 1
  have vr : Valid (resize (R.drop (min R.length k)) m) := (valid_drop vR _).resize _
  obtain ⟨la, va, pa⟩ := fps.add_spec _ s vr vs
  rw [length_resize, ls, max_self] at la
  apply ext_getD
  · rw [la, List.length_map, List.length_range]
  · intro i hi
    rw [la] at hi
    rw [getD_map_range _ m i hi]
    apply mint.cast_inj (va.getD_lt i) (linrecTerm_lt a c ha _)
    have hSeq : toPS q * (PowerSeries.mk (fun i => ((linrecTerm a c i : Nat) : ZMod mint.mod))
        - toPS R) = toPS P := by
      linear_combination hG + p2
    have h1 := hS (by omega) _ hSeq i hi
    rw [map_sub, PowerSeries.coeff_mk, coeff_toPS] at h1
    have h2 := congrArg (PowerSeries.coeff _ i) pa
    rw [map_add, coeff_toPS, coeff_toPS, coeff_toPS, h1] at h2
    have h3 : vecK (resize (R.drop (min R.length k)) m) i = vecK R (k + i) := by
      unfold vecK
      rw [getD_resize, if_pos hi, getD_drop_min]
    rw [h3] at h2
    rw [← vecK_lt_eq, h2]
    ring

/-- C1. For canonical lists `a` (initial terms) and `c` (coefficients) of the same length
`d`, every `k < 2^63` and every `m`, with `3 (d + 1) <= 2^23` and `d + 1 + 2 m <= 2^23` (so
that every convolution stays within the transform's range),
`consecutive_terms_of_linear_reccurrent_sequence(a, c, k, m)` returns
`[A_k, ..., A_{k+m-1}]`, where `A_i = a[i]` for `i < d` and
`A_i = (sum_{j<d} c[j] * A_{i-1-j}) mod 998244353` for `i >= d`. -/
theorem C1_linear_recurrence (a c : List Nat) (k m : Nat) (ha : Valid a) (hc : Valid c)
    (hac : a.length = c.length) (hk : k < 2 ^ 63) (hsz : 3 * (c.length + 1) ≤ 2 ^ 23)
    (hsz2 : c.length + 1 + 2 * m ≤ 2 ^ 23) :
    (∀ i, i < c.length → linrecTerm a c i = a.getD i 0) ∧
    (∀ i, c.length ≤ i → linrecTerm a c i =
      (∑ j in Finset.range c.length, c.getD j 0 * linrecTerm a c (i - 1 - j)) % mint.mod) ∧
    consecutive_terms_of_linear_reccurrent_sequence a c k m
      = some ((List.range m).map fun i => linrecTerm a c (k + i)) :=
  ⟨fun i hi => linrecTerm_init a c i (by omega),
    fun i hi => linrecTerm_rec a c i (by omega) hi,
    solver_spec a c k m ha hc hac hk hsz hsz2⟩

theorem C1_linear_recurrence_witness :
    (Valid [0, 1] ∧ Valid [1, 1] ∧ [0, 1].length = [1, 1].length ∧ 0 < 2 ^ 63 ∧
      3 * ([1, 1].length + 1) ≤ 2 ^ 23 ∧ [1, 1].length + 1 + 2 * 10 ≤ 2 ^ 23) ∧
    ((List.range 10).map fun i => linrecTerm [0, 1] [1, 1] (0 + i))
      = [0, 1, 1, 2, 3, 5, 8, 13, 21, 34] ∧
    ((∀ i, i < [1, 1].length → linrecTerm [0, 1] [1, 1] i = [0, 1].getD i 0) ∧
    (∀ i, [1, 1].length ≤ i → linrecTerm [0, 1] [1, 1] i =
      (∑ j in Finset.range [1, 1].length, [1, 1].getD j 0 * linrecTerm [0, 1] [1, 1] (i - 1 - j))
        % mint.mod) ∧
    consecutive_terms_of_linear_reccurrent_sequence [0, 1] [1, 1] 0 10
      = some ((List.range 10).map fun i => linrecTerm [0, 1] [1, 1] (0 + i))) :=
  ⟨⟨by decide, by decide, by decide, by decide, by decide, by decide⟩, by decide,
    C1_linear_recurrence [0, 1] [1, 1] 0 10 (by decide) (by decide) (by decide) (by decide)
      (by decide) (by decide)⟩

open atcoder

/-! ## Failure of the inverses -/

/-- C11. For non-empty canonical `f` and every `n` (also `n = 0`) within the transform's
range (`size(f) + 2 n <= 2^23`), `fps_inv(f, n)` aborts (the assertion of the field inverse
fails) if and only if `f[0] = 0`; in particular it returns no value when `f[0] = 0`. -/
theorem C11_fps_inv_abort (f : List Nat) (n : Nat) (_hne : f ≠ []) (hf : Valid f)
    (hsz : f.length + 2 * n ≤ 2 ^ 23) :
    (fps_inv f n = none ↔ f.getD 0 0 = 0) ∧
    (f.getD 0 0 = 0 → ∀ r, fps_inv f n ≠ some r) := by
  have hback : f.getD 0 0 = 0 → fps_inv f n = none := by
    intro h
    unfold fps_inv
    rw [h, mint.inv_zero]
    rfl
  refine ⟨⟨fun h => ?_, hback⟩, fun h r hr => ?_⟩
  · by_contra h0
    obtain ⟨r, e, _⟩ := fps_inv_spec f hf h0 n hsz
    rw [e] at h
    cases h
  · rw [hback h] at hr
    cases hr

theorem C11_fps_inv_abort_witness :
    ([0, 5] ≠ [] ∧ Valid [0, 5] ∧ [0, 5].length + 2 * 0 ≤ 2 ^ 23) ∧
    ((fps_inv [0, 5] 0 = none ↔ [0, 5].getD 0 0 = 0) ∧
    ([0, 5].getD 0 0 = 0 → ∀ r, fps_inv [0, 5] 0 ≠ some r)) :=
  ⟨⟨by decide, by decide, by decide⟩,
    C11_fps_inv_abort [0, 5] 0 (by decide) (by decide) (by decide)⟩

namespace atcoder

theorem mint.inv_eq_none_iff {a : Nat} (ha : a < mint.mod) : mint.inv a = none ↔ a = 0 := by
  constructor
  · intro h
    by_contra h0
    rw [mint.inv_eq ha h0] at h
    cases h
  · intro h
    rw [h]
    exact mint.inv_zero

theorem dynamic_modint.dyn_inv_eq_none_iff (M b : Nat) (hb : b < M) :
    dynamic_modint.inv (barrett.new M) b = none ↔ Nat.gcd b M ≠ 1 := by
  obtain ⟨h1, _⟩ := inv_gcd_spec (b : Int) (M : Int) (by positivity) (by exact_mod_cast hb)
  unfold dynamic_modint.inv dynamic_modint.mod barrett.umod barrett.new
  simp only
  rw [h1, Int.gcd_natCast_natCast]
  by_cases hg : Nat.gcd b M = 1
  · rw [hg]
    simp
  · rw [if_neg (by exact_mod_cast hg)]
    simp [hg]

/-- C12. Method `inv()` fails exactly on the non-invertible elements: for the modulus
`998244353` if and only if `a = 0`; for the runtime modulus `1 <= M < 2^31` if and only if
`gcd(b, M) != 1`, where `gcd(0, M) = M`. -/
theorem C12_inv_fails (a M b : Nat) (ha : a < mint.mod) (_hM1 : 1 ≤ M) (_hM : M < 2 ^ 31)
    (hb : b < M) :
    (mint.inv a = none ↔ a = 0) ∧
    (dynamic_modint.inv (barrett.new M) b = none ↔ Nat.gcd b M ≠ 1) ∧
    Nat.gcd 0 M = M :=
  ⟨mint.inv_eq_none_iff ha, dynamic_modint.dyn_inv_eq_none_iff M b hb, Nat.gcd_zero_left M⟩

theorem C12_inv_fails_witness :
    (0 < mint.mod ∧ 1 ≤ 12 ∧ 12 < 2 ^ 31 ∧ 8 < 12) ∧
    ((mint.inv 0 = none ↔ 0 = 0) ∧
    (dynamic_modint.inv (barrett.new 12) 8 = none ↔ Nat.gcd 8 12 ≠ 1) ∧
    Nat.gcd 0 12 = 12) :=
  ⟨⟨by decide, by decide, by decide, by decide⟩,
    C12_inv_fails 0 12 8 (by decide) (by decide) (by decide) (by decide)⟩

end atcoder

namespace atcoder

/-! ## The 32-bit implementations of the ring operations -/

theorem natCast_sub_mod (a b M : Nat) (hb : b ≤ M) :
    (((a + M - b) % M : Nat) : Int) = ((a : Int) - (b : Int)) % (M : Int) := by
  rw [Int.natCast_mod, Nat.cast_sub (by omega), Nat.cast_add]
  have : (a : Int) + M - b = (a - b) + M := by ring
  rw [this, Int.add_emod_self]

theorem static_modint.neg_eq_mod (m a : Nat) (hm : m < 2 ^ 31) (ha : a < m) :
    static_modint.neg m a = (0 + m - a) % m := by
  unfold static_modint.neg
  exact static_modint.sub_eq_mod m 0 a hm (by omega) ha

theorem static_modint.inc_eq_mod (m a : Nat) (hm : m < 2 ^ 31) (ha : a < m) :
    static_modint.inc m a = (a + 1) % m := by
  unfold static_modint.inc u32
  have h1 : (a + 1) % 2 ^ 32 = a + 1 := Nat.mod_eq_of_lt (by omega)
  simp only [h1]
  split
  · rename_i h
    rw [h, Nat.mod_self]
  · rename_i h
    exact (Nat.mod_eq_of_lt (by omega)).symm

theorem static_modint.dec_eq_mod (m a : Nat) (hm : m < 2 ^ 31) (ha : a < m) :
    static_modint.dec m a = (a + m - 1) % m := by
  unfold static_modint.dec
  by_cases h0 : a = 0
  · subst h0
    rw [if_pos rfl, sub32_of_le (by omega) (by omega), Nat.zero_add]
    exact (Nat.mod_eq_of_lt (by omega)).symm
  · rw [if_neg h0, sub32_of_le (by omega) (by omega)]
    have : a + m - 1 = (a - 1) + m := by omega
    rw [this, Nat.add_mod_right]
    exact (Nat.mod_eq_of_lt (by omega)).symm

/-- The six operations of `static_modint<m>` on stored values `a, b < m`. -/
theorem static_modint.ops_spec (m a b : Nat) (hm : m < 2 ^ 31) (ha : a < m) (hb : b < m) :
    (static_modint.add m a b = (a + b) % m ∧
      ((static_modint.sub m a b : Nat) : Int) = ((a : Int) - (b : Int)) % (m : Int) ∧
      ((static_modint.neg m a : Nat) : Int) = (-(a : Int)) % (m : Int) ∧
      static_modint.inc m a = (a + 1) % m ∧
      ((static_modint.dec m a : Nat) : Int) = ((a : Int) - 1) % (m : Int) ∧
      static_modint.mul m a b = (a * b) % m) ∧
    (static_modint.add m a b < m ∧ static_modint.sub m a b < m ∧ static_modint.neg m a < m ∧
      static_modint.inc m a < m ∧ static_modint.dec m a < m ∧ static_modint.mul m a b < m) := by
  have hpos : 0 < m := by omega
  have e1 := static_modint.add_eq_mod m a b hm ha hb
  have e2 := static_modint.sub_eq_mod m a b hm ha hb
  have e3 := static_modint.neg_eq_mod m a hm ha
  have e4 := static_modint.inc_eq_mod m a hm ha
  have e5 := static_modint.dec_eq_mod m a hm ha
  have e6 := static_modint.mul_eq_mod m a b hm ha hb
  refine ⟨⟨e1, ?_, ?_, e4, ?_, e6⟩, ?_, ?_, ?_, ?_, ?_, ?_⟩
  · rw [e2]; exact natCast_sub_mod a b m (by omega)
  · rw [e3, natCast_sub_mod 0 a m (by omega)]; simp
  · rw [e5]
    have := natCast_sub_mod a 1 m (by omega)
    rw [this]; simp
  · rw [e1]; exact Nat.mod_lt _ hpos
  · rw [e2]; exact Nat.mod_lt _ hpos
  · rw [e3]; exact Nat.mod_lt _ hpos
  · rw [e4]; exact Nat.mod_lt _ hpos
  · rw [e5]; exact Nat.mod_lt _ hpos
  · rw [e6]; exact Nat.mod_lt _ hpos

theorem dynamic_modint.sub_eq_mod_dyn (M a b : Nat) (hM : M < 2 ^ 31) (ha : a < M) (hb : b < M) :
    dynamic_modint.sub (barrett.new M) a b = (a + M - b) % M := by
  unfold dynamic_modint.sub dynamic_modint.mod barrett.umod barrett.new
  simp only
  rw [sub32_of_le (by omega) (by omega), u32_of_lt (by omega)]
  by_cases hab : b ≤ a
  · rw [if_pos (by omega), sub32_of_le (by omega) (by omega)]
    have : a + M - b = (a - b) + M := by omega
    rw [this, Nat.add_mod_right, Nat.mod_eq_of_lt (by omega)]
    omega
  · rw [if_neg (by omega), Nat.mod_eq_of_lt (by omega)]
    omega

/-- The six operations of `dynamic_modint` with modulus `M` on stored values `a, b < M`. -/
theorem dynamic_modint.ops_spec_dyn (M a b : Nat) (hM1 : 1 ≤ M) (hM : M < 2 ^ 31) (ha : a < M)
    (hb : b < M) :
    (dynamic_modint.add (barrett.new M) a b = (a + b) % M ∧
      ((dynamic_modint.sub (barrett.new M) a b : Nat) : Int)
        = ((a : Int) - (b : Int)) % (M : Int) ∧
      ((dynamic_modint.neg (barrett.new M) a : Nat) : Int) = (-(a : Int)) % (M : Int) ∧
      dynamic_modint.inc (barrett.new M) a = (a + 1) % M ∧
      ((dynamic_modint.dec (barrett.new M) a : Nat) : Int) = ((a : Int) - 1) % (M : Int) ∧
      dynamic_modint.mul (barrett.new M) a b = (a * b) % M) ∧
    (dynamic_modint.add (barrett.new M) a b < M ∧ dynamic_modint.sub (barrett.new M) a b < M ∧
      dynamic_modint.neg (barrett.new M) a < M ∧ dynamic_modint.inc (barrett.new M) a < M ∧
      dynamic_modint.dec (barrett.new M) a < M ∧ dynamic_modint.mul (barrett.new M) a b < M) := by
  obtain ⟨⟨s1, _, _, s4, s5, _⟩, t1, _, _, t4, t5, _⟩ := static_modint.ops_spec M a b hM ha hb
  have e2 := dynamic_modint.sub_eq_mod_dyn M a b hM ha hb
  have e3 : dynamic_modint.neg (barrett.new M) a = (0 + M - a) % M :=
    dynamic_modint.sub_eq_mod_dyn M 0 a hM (by omega) ha
  have e6 : dynamic_modint.mul (barrett.new M) a b = (a * b) % M :=
    barrett.mul_eq_barrett M a b hM1 hM ha hb
  have hpos : 0 < M := by omega
  refine ⟨⟨s1, ?_, ?_, s4, s5, e6⟩, t1, ?_, ?_, t4, t5, ?_⟩
  · rw [e2]; exact natCast_sub_mod a b M (by omega)
  · rw [e3, natCast_sub_mod 0 a M (by omega)]; simp
  · rw [e2]; exact Nat.mod_lt _ hpos
  · rw [e3]; exact Nat.mod_lt _ hpos
  · rw [e6]; exact Nat.mod_lt _ hpos

end atcoder

namespace atcoder

/-- C13. For the modulus `998244353`, and for the runtime modulus `1 <= M < 2^31`, the
32-bit implementations of `a + b`, `a - b`, `-a`, `++a`, `--a` and `a * b` on stored values
in `[0, M)` return a value in `[0, M)` equal to `(a + b) mod M`, `(a - b) mod M`,
`(-a) mod M`, `(a + 1) mod M`, `(a - 1) mod M` and `(a * b) mod M` (the differences being
taken in the integers). -/
theorem C13_modint_ops (a b M c d : Nat) (ha : a < mint.mod) (hb : b < mint.mod)
    (hM1 : 1 ≤ M) (hM : M < 2 ^ 31) (hc : c < M) (hd : d < M) :
    ((mint.add a b = (a + b) % mint.mod ∧
      ((mint.sub a b : Nat) : Int) = ((a : Int) - (b : Int)) % (mint.mod : Int) ∧
      ((mint.neg a : Nat) : Int) = (-(a : Int)) % (mint.mod : Int) ∧
      static_modint.inc mint.mod a = (a + 1) % mint.mod ∧
      ((static_modint.dec mint.mod a : Nat) : Int) = ((a : Int) - 1) % (mint.mod : Int) ∧
      mint.mul a b = (a * b) % mint.mod) ∧
    (mint.add a b < mint.mod ∧ mint.sub a b < mint.mod ∧ mint.neg a < mint.mod ∧
      static_modint.inc mint.mod a < mint.mod ∧ static_modint.dec mint.mod a < mint.mod ∧
      mint.mul a b < mint.mod)) ∧
    ((dynamic_modint.add (barrett.new M) c d = (c + d) % M ∧
      ((dynamic_modint.sub (barrett.new M) c d : Nat) : Int)
        = ((c : Int) - (d : Int)) % (M : Int) ∧
      ((dynamic_modint.neg (barrett.new M) c : Nat) : Int) = (-(c : Int)) % (M : Int) ∧
      dynamic_modint.inc (barrett.new M) c = (c + 1) % M ∧
      ((dynamic_modint.dec (barrett.new M) c : Nat) : Int) = ((c : Int) - 1) % (M : Int) ∧
      dynamic_modint.mul (barrett.new M) c d = (c * d) % M) ∧
    (dynamic_modint.add (barrett.new M) c d < M ∧ dynamic_modint.sub (barrett.new M) c d < M ∧
      dynamic_modint.neg (barrett.new M) c < M ∧ dynamic_modint.inc (barrett.new M) c < M ∧
      dynamic_modint.dec (barrett.new M) c < M ∧ dynamic_modint.mul (barrett.new M) c d < M)) :=
  ⟨static_modint.ops_spec mint.mod a b mint.mod_lt ha hb,
    dynamic_modint.ops_spec_dyn M c d hM1 hM hc hd⟩

theorem C13_modint_ops_witness :
    (2 < mint.mod ∧ 998244352 < mint.mod ∧ 1 ≤ 10 ∧ 10 < 2 ^ 31 ∧ 3 < 10 ∧ 8 < 10) ∧
    (((mint.add 2 998244352 = (2 + 998244352) % mint.mod ∧
      ((mint.sub 2 998244352 : Nat) : Int)
        = (((2 : Nat) : Int) - ((998244352 : Nat) : Int)) % (mint.mod : Int) ∧
      ((mint.neg 2 : Nat) : Int) = (-((2 : Nat) : Int)) % (mint.mod : Int) ∧
      static_modint.inc mint.mod 2 = (2 + 1) % mint.mod ∧
      ((static_modint.dec mint.mod 2 : Nat) : Int) = (((2 : Nat) : Int) - 1) % (mint.mod : Int) ∧
      mint.mul 2 998244352 = (2 * 998244352) % mint.mod) ∧
    (mint.add 2 998244352 < mint.mod ∧ mint.sub 2 998244352 < mint.mod ∧
      mint.neg 2 < mint.mod ∧
      static_modint.inc mint.mod 2 < mint.mod ∧ static_modint.dec mint.mod 2 < mint.mod ∧
      mint.mul 2 998244352 < mint.mod)) ∧
    ((dynamic_modint.add (barrett.new 10) 3 8 = (3 + 8) % 10 ∧
      ((dynamic_modint.sub (barrett.new 10) 3 8 : Nat) : Int)
        = (((3 : Nat) : Int) - ((8 : Nat) : Int)) % ((10 : Nat) : Int) ∧
      ((dynamic_modint.neg (barrett.new 10) 3 : Nat) : Int)
        = (-((3 : Nat) : Int)) % ((10 : Nat) : Int) ∧
      dynamic_modint.inc (barrett.new 10) 3 = (3 + 1) % 10 ∧
      ((dynamic_modint.dec (barrett.new 10) 3 : Nat) : Int)
        = (((3 : Nat) : Int) - 1) % ((10 : Nat) : Int) ∧
      dynamic_modint.mul (barrett.new 10) 3 8 = (3 * 8) % 10) ∧
    (dynamic_modint.add (barrett.new 10) 3 8 < 10 ∧ dynamic_modint.sub (barrett.new 10) 3 8 < 10 ∧
      dynamic_modint.neg (barrett.new 10) 3 < 10 ∧ dynamic_modint.inc (barrett.new 10) 3 < 10 ∧
      dynamic_modint.dec (barrett.new 10) 3 < 10 ∧
      dynamic_modint.mul (barrett.new 10) 3 8 < 10))) :=
  ⟨⟨by decide, by decide, by decide, by decide, by decide, by decide⟩,
    C13_modint_ops 2 998244352 10 3 8 (by decide) (by decide) (by decide) (by decide)
      (by decide) (by decide)⟩

/-- C14. For `1 <= m < 2^31` and `0 <= a, b < m`, `barrett(m)` stores
`im = (floor((2^64 - 1) / m) + 1) mod 2^64`, and `barrett(m).mul(a, b)` -- the high 64 bits
of the 128-bit product `z * im`, then `z - x * m` truncated to 32 bits and corrected by `+ m`
on wraparound -- equals `(a * b) mod m`. -/
theorem C14_barrett_mul (m a b : Nat) (hm1 : 1 ≤ m) (hm : m < 2 ^ 31) (ha : a < m)
    (hb : b < m) :
    (barrett.new m).im = ((2 ^ 64 - 1) / m + 1) % 2 ^ 64 ∧ (barrett.new m).umod = m ∧
    (barrett.new m).mul a b = (a * b) % m :=
  ⟨rfl, rfl, barrett.mul_eq_barrett m a b hm1 hm ha hb⟩

theorem C14_barrett_mul_witness :
    (1 ≤ 1000000007 ∧ 1000000007 < 2 ^ 31 ∧ 1000000006 < 1000000007 ∧
      999999999 < 1000000007) ∧
    ((barrett.new 1000000007).im = ((2 ^ 64 - 1) / 1000000007 + 1) % 2 ^ 64 ∧
    (barrett.new 1000000007).umod = 1000000007 ∧
    (barrett.new 1000000007).mul 1000000006 999999999 = (1000000006 * 999999999) % 1000000007) :=
  ⟨⟨by decide, by decide, by decide, by decide⟩,
    C14_barrett_mul 1000000007 1000000006 999999999 (by decide) (by decide) (by decide)
      (by decide)⟩

end atcoder

namespace atcoder

/-! ## `pow`, and the modulus `1` -/

theorem static_modint.ofInt_natCast_gen (m z : Nat) :
    static_modint.ofInt m (z : Int) = z % m := by
  unfold static_modint.ofInt
  have h1 : Int.tmod (z : Int) (m : Int) = ((z % m : Nat) : Int) := by
    rw [Int.tmod_eq_emod (by positivity) (by positivity)]; simp
  simp only [h1]
  rw [if_neg (by omega)]
  exact Int.toNat_ofNat _

theorem dynamic_modint.ofInt_natCast_dyn (M z : Nat) :
    dynamic_modint.ofInt (barrett.new M) (z : Int) = z % M :=
  static_modint.ofInt_natCast_gen M z

theorem dynamic_modint.powLoop_eq_dyn (M : Nat) (hM1 : 1 ≤ M) (hM : M < 2 ^ 31) :
    ∀ (fuel x r n : Nat), n ≤ fuel → x < M → r < M →
      dynamic_modint.powLoop (barrett.new M) fuel x r n = (r * x ^ n) % M := by
  have hmul : ∀ u v, u < M → v < M → dynamic_modint.mul (barrett.new M) u v = (u * v) % M :=
    fun u v hu hv => barrett.mul_eq_barrett M u v hM1 hM hu hv
  intro fuel
  induction fuel with
  | zero =>
    intro x r n hn hx hr
    have : n = 0 := by omega
    subst this
    simp [dynamic_modint.powLoop, Nat.mod_eq_of_lt hr]
  | succ fuel ih =>
    intro x r n hn hx hr
    unfold dynamic_modint.powLoop
    by_cases h0 : n = 0
    · simp [h0, Nat.mod_eq_of_lt hr]
    · rw [if_neg h0]
      have hpos : 0 < M := by omega
      have hxx : dynamic_modint.mul (barrett.new M) x x < M := by
        rw [hmul x x hx hx]; exact Nat.mod_lt _ hpos
      have hrx : dynamic_modint.mul (barrett.new M) r x < M := by
        rw [hmul r x hr hx]; exact Nat.mod_lt _ hpos
      by_cases hodd : n % 2 = 1
      · simp only [hodd, if_true]
        rw [ih _ _ _ (by omega) hxx hrx, hmul x x hx hx, hmul r x hr hx]
        conv_rhs => rw [← Nat.div_add_mod n 2, hodd]
        have h : Nat.ModEq M (r * x % M * (x * x % M) ^ (n / 2)) (r * x * (x * x) ^ (n / 2)) :=
          (Nat.mod_modEq _ _).mul ((Nat.mod_modEq _ _).pow _)
        have e : r * x * (x * x) ^ (n / 2) = r * x ^ (2 * (n / 2) + 1) := by
          rw [pow_succ, pow_mul]; ring
        rw [← e]; exact h
      · have heven : n % 2 = 0 := by omega
        simp only [hodd, if_false]
        rw [ih _ _ _ (by omega) hxx hr, hmul x x hx hx]
        conv_rhs => rw [← Nat.div_add_mod n 2, heven]
        have h : Nat.ModEq M (r * (x * x % M) ^ (n / 2)) (r * (x * x) ^ (n / 2)) :=
          (Nat.ModEq.refl r).mul ((Nat.mod_modEq _ _).pow _)
        have e : r * (x * x) ^ (n / 2) = r * x ^ (2 * (n / 2) + 0) := by
          rw [Nat.add_zero, pow_mul]; ring
        rw [← e]; exact h

theorem dynamic_modint.pow_eq_dyn (M b n : Nat) (hM1 : 1 ≤ M) (hM : M < 2 ^ 31) (hb : b < M) :
    dynamic_modint.pow (barrett.new M) b (n : Int) = some (b ^ n % M) := by
  unfold dynamic_modint.pow
  rw [if_pos (by positivity), Int.toNat_ofNat]
  have h1 : dynamic_modint.ofInt (barrett.new M) 1 = 1 % M :=
    dynamic_modint.ofInt_natCast_dyn M 1
  rw [h1, dynamic_modint.powLoop_eq_dyn M hM1 hM n b (1 % M) n le_rfl hb
    (Nat.mod_lt _ (by omega))]
  congr 1
  exact ((Nat.mod_modEq 1 M).mul (Nat.ModEq.refl (b ^ n))).trans (by rw [one_mul])

/-- C15. Method `pow`: for a stored value `a` and every exponent `n >= 0`, `a.pow(n)` returns
`a^n mod M` (so `a.pow(0)` is `1 mod M`), for the modulus `998244353` and for the runtime
modulus `1 <= M < 2^31`; for every negative exponent the assertion fails and nothing is
returned. -/
theorem C15_pow (a n M b : Nat) (z : Int) (ha : a < mint.mod) (hM1 : 1 ≤ M)
    (hM : M < 2 ^ 31) (hb : b < M) (hz : z < 0) :
    (mint.pow a (n : Int) = some (a ^ n % mint.mod) ∧ mint.pow a 0 = some (1 % mint.mod) ∧
      mint.pow a z = none) ∧
    (dynamic_modint.pow (barrett.new M) b (n : Int) = some (b ^ n % M) ∧
      dynamic_modint.pow (barrett.new M) b 0 = some (1 % M) ∧
      dynamic_modint.pow (barrett.new M) b z = none) := by
  refine ⟨⟨mint.pow_eq ha n, ?_, ?_⟩, dynamic_modint.pow_eq_dyn M b n hM1 hM hb, ?_, ?_⟩
  · have := mint.pow_eq ha 0
    rwa [pow_zero] at this
  · unfold mint.pow static_modint.pow
    rw [if_neg (by omega)]
  · have := dynamic_modint.pow_eq_dyn M b 0 hM1 hM hb
    rwa [pow_zero] at this
  · unfold dynamic_modint.pow
    rw [if_neg (by omega)]

theorem C15_pow_witness :
    (3 < mint.mod ∧ 1 ≤ 10 ∧ 10 < 2 ^ 31 ∧ 7 < 10 ∧ (-1 : Int) < 0) ∧
    ((mint.pow 3 ((5 : Nat) : Int) = some (3 ^ 5 % mint.mod) ∧
      mint.pow 3 0 = some (1 % mint.mod) ∧ mint.pow 3 (-1) = none) ∧
    (dynamic_modint.pow (barrett.new 10) 7 ((5 : Nat) : Int) = some (7 ^ 5 % 10) ∧
      dynamic_modint.pow (barrett.new 10) 7 0 = some (1 % 10) ∧
      dynamic_modint.pow (barrett.new 10) 7 (-1) = none)) :=
  ⟨⟨by decide, by decide, by decide, by decide, by decide⟩,
    C15_pow 3 5 10 7 (-1) (by decide) (by decide) (by decide) (by decide) (by decide)⟩

theorem static_modint.powLoop_one : ∀ (fuel n : Nat),
    static_modint.powLoop 1 fuel 0 0 n = 0 := by
  intro fuel
  induction fuel with
  | zero => intro n; rfl
  | succ fuel ih =>
    intro n
    unfold static_modint.powLoop
    by_cases h0 : n = 0
    · rw [if_pos h0]
    · rw [if_neg h0]
      have hm : static_modint.mul 1 0 0 = 0 := by decide
      simp only [hm, ite_self]
      exact ih _

theorem dynamic_modint.powLoop_one_dyn : ∀ (fuel n : Nat),
    dynamic_modint.powLoop (barrett.new 1) fuel 0 0 n = 0 := by
  intro fuel
  induction fuel with
  | zero => intro n; rfl
  | succ fuel ih =>
    intro n
    unfold dynamic_modint.powLoop
    by_cases h0 : n = 0
    · rw [if_pos h0]
    · rw [if_neg h0]
      have hm : dynamic_modint.mul (barrett.new 1) 0 0 = 0 := by decide
      simp only [hm, ite_self]
      exact ih _

/-- C16. With the modulus `1` (`static_modint<1>`, or the runtime modulus after
`set_mod(1)`): every element constructed from an integer has value `0`; `+`, `-`, unary `-`,
`*` and `pow` return the value `0`; and `inv()` returns `0` with no assertion failure. -/
theorem C16_modulus_one (v : Int) (w n : Nat) :
    (static_modint.ofInt 1 v = 0 ∧ static_modint.ofNat 1 w = 0 ∧
      static_modint.add 1 0 0 = 0 ∧ static_modint.sub 1 0 0 = 0 ∧ static_modint.neg 1 0 = 0 ∧
      static_modint.mul 1 0 0 = 0 ∧ static_modint.pow 1 0 (n : Int) = some 0 ∧
      static_modint.inv 1 0 = some 0) ∧
    (dynamic_modint.ofInt (barrett.new 1) v = 0 ∧ dynamic_modint.ofNat (barrett.new 1) w = 0 ∧
      dynamic_modint.add (barrett.new 1) 0 0 = 0 ∧ dynamic_modint.sub (barrett.new 1) 0 0 = 0 ∧
      dynamic_modint.neg (barrett.new 1) 0 = 0 ∧ dynamic_modint.mul (barrett.new 1) 0 0 = 0 ∧
      dynamic_modint.pow (barrett.new 1) 0 (n : Int) = some 0 ∧
      dynamic_modint.inv (barrett.new 1) 0 = some 0) := by
  have hv : static_modint.ofInt 1 v = 0 := by
    unfold static_modint.ofInt
    simp [Int.tmod_one]
  have hw : static_modint.ofNat 1 w = 0 := Nat.mod_one w
  have hp : static_modint.pow 1 0 (n : Int) = some 0 := by
    unfold static_modint.pow
    rw [if_pos (by positivity), Int.toNat_ofNat]
    have : static_modint.ofInt 1 1 = 0 := by decide
    rw [this, static_modint.powLoop_one]
  have hp2 : dynamic_modint.pow (barrett.new 1) 0 (n : Int) = some 0 := by
    unfold dynamic_modint.pow
    rw [if_pos (by positivity), Int.toNat_ofNat]
    have : dynamic_modint.ofInt (barrett.new 1) 1 = 0 := by decide
    rw [this, dynamic_modint.powLoop_one_dyn]
  have hw2 : dynamic_modint.ofNat (barrett.new 1) w = 0 := by
    unfold dynamic_modint.ofNat dynamic_modint.mod barrett.umod barrett.new
    simp only [Nat.mod_one]
    rfl
  exact ⟨⟨hv, hw, by decide, by decide, by decide, by decide, hp, by decide⟩,
    hv, hw2, by decide, by decide, by decide, by decide, hp2, by decide⟩

end atcoder

open atcoder

/-! ## Round trip of the transform; sum and difference of series -/

/-- C17. For `0 <= h <= 23` and a canonical `a` of length `2^h`, `butterfly` followed by
`butterfly_inv` returns the list whose `i`-th entry is `2^h * a[i] mod 998244353`. -/
theorem C17_butterfly_roundtrip (h : Nat) (a : List Nat) (hh : h ≤ 23)
    (hlen : a.length = 2 ^ h) (hv : Valid a) :
    ∃ b c, butterfly a = some b ∧ butterfly_inv b = some c ∧ c.length = 2 ^ h ∧
      ∀ i, i < 2 ^ h → c.getD i 0 = (2 ^ h * a.getD i 0) % mint.mod := by
  obtain ⟨b, e1, l1, v1, hx⟩ := butterfly_spec h hh a hlen hv
  obtain ⟨c, e2, l2, v2, hy⟩ := butterfly_inv_spec h hh (vecK a) b l1 v1 hx
  refine ⟨b, c, e1, e2, l2, fun i hi => ?_⟩
  apply mint.cast_inj (v2.getD_lt i) (Nat.mod_lt _ mod_pos)
  rw [← vecK_lt_eq, hy i hi, ZMod.natCast_mod, Nat.cast_mul, Nat.cast_pow, Nat.cast_ofNat]
  rfl

theorem C17_butterfly_roundtrip_witness :
    (2 ≤ 23 ∧ [1, 2, 3, 4].length = 2 ^ 2 ∧ Valid [1, 2, 3, 4]) ∧
    ∃ b c, butterfly [1, 2, 3, 4] = some b ∧ butterfly_inv b = some c ∧ c.length = 2 ^ 2 ∧
      ∀ i, i < 2 ^ 2 → c.getD i 0 = (2 ^ 2 * [1, 2, 3, 4].getD i 0) % mint.mod :=
  ⟨⟨by decide, by decide, by decide⟩,
    C17_butterfly_roundtrip 2 [1, 2, 3, 4] (by decide) (by decide) (by decide)⟩

/-- C18. For canonical `f`, `g`: `f + g` and `f - g` have length `max(len f, len g)`, and
their `i`-th coefficients are `(f_i + g_i) mod M` and `(f_i - g_i) mod M`, a coefficient past
the end of an operand being `0`. -/
theorem C18_add_sub (f g : List Nat) (hf : Valid f) (hg : Valid g) :
    (fps.add f g).length = max f.length g.length ∧
    (fps.sub f g).length = max f.length g.length ∧
    ∀ i, (fps.add f g).getD i 0 = (f.getD i 0 + g.getD i 0) % mint.mod ∧
      (((fps.sub f g).getD i 0 : Nat) : Int)
        = ((f.getD i 0 : Int) - (g.getD i 0 : Int)) % (mint.mod : Int) := by
  obtain ⟨la, va, pa⟩ := fps.add_spec f g hf hg
  obtain ⟨ls, vs, ps⟩ := fps.sub_spec f g hf hg
  refine ⟨la, ls, fun i => ⟨?_, ?_⟩⟩
  · apply mint.cast_inj (va.getD_lt i) (Nat.mod_lt _ mod_pos)
    have h := congrArg (PowerSeries.coeff _ i) pa
    rw [map_add, coeff_toPS, coeff_toPS, coeff_toPS] at h
    rw [← vecK_lt_eq, h, ZMod.natCast_mod, Nat.cast_add]
    rfl
  · have hgi := hg.getD_lt i
    have e : (fps.sub f g).getD i 0 = (f.getD i 0 + mint.mod - g.getD i 0) % mint.mod := by
      apply mint.cast_inj (vs.getD_lt i) (Nat.mod_lt _ mod_pos)
      have h := congrArg (PowerSeries.coeff _ i) ps
      rw [map_sub, coeff_toPS, coeff_toPS, coeff_toPS] at h
      rw [← vecK_lt_eq, h, ZMod.natCast_mod, Nat.cast_sub (by omega), Nat.cast_add,
        ZMod.natCast_self, add_zero]
      rfl
    rw [e]
    exact natCast_sub_mod _ _ _ (le_of_lt hgi)

theorem C18_add_sub_witness :
    (Valid [1, 2, 3] ∧ Valid [998244352, 5]) ∧
    ((fps.add [1, 2, 3] [998244352, 5]).length = max [1, 2, 3].length [998244352, 5].length ∧
    (fps.sub [1, 2, 3] [998244352, 5]).length = max [1, 2, 3].length [998244352, 5].length ∧
    ∀ i, (fps.add [1, 2, 3] [998244352, 5]).getD i 0
        = ([1, 2, 3].getD i 0 + [998244352, 5].getD i 0) % mint.mod ∧
      (((fps.sub [1, 2, 3] [998244352, 5]).getD i 0 : Nat) : Int)
        = (((([1, 2, 3] : List Nat).getD i 0 : Nat) : Int)
          - ((([998244352, 5] : List Nat).getD i 0 : Nat) : Int)) % (mint.mod : Int)) :=
  ⟨⟨by decide, by decide⟩, C18_add_sub [1, 2, 3] [998244352, 5] (by decide) (by decide)⟩

/-! ## The lambda `rec` -/

/-- C19. For canonical `q` with `q[0] != 0` and last coefficient nonzero (so `q` is
non-empty; `d = size(q) - 1`), sizes within the transform's range and every `k < 2^63`,
`rec(k)` returns a polynomial `F_k` of at most `d` coefficients with `Q | x^k F_k - 1` in
the polynomial ring; for `d = 0` it is the empty list. -/
theorem C19_rec_inverse (q : List Nat) (k : Nat) (hq : Valid q) (hq0 : q.getD 0 0 ≠ 0)
    (hql : q.getD (q.length - 1) 0 ≠ 0) (hk : k < 2 ^ 63) (hsz : 3 * q.length ≤ 2 ^ 23) :
    ∃ F, consecutive_terms_of_rational.rec q (q.length - 1) 64 k = some F ∧ Valid F ∧
      F.length ≤ q.length - 1 ∧
      (PowerSeries.trunc q.length (toPS q) ∣
        Polynomial.X ^ k * PowerSeries.trunc F.length (toPS F) - 1) ∧
      (q.length - 1 = 0 → F = []) := by
  obtain ⟨F, e, v, l, hU⟩ := rec_spec q hq hq0 hql hsz 64 k le_rfl (by omega)
  obtain ⟨U, hU⟩ := hU (by omega)
  refine ⟨F, e, v, l, ⟨U, ?_⟩, fun h0 => List.length_eq_zero.1 (by omega)⟩
  rw [← Polynomial.coe_inj]
  simp only [Polynomial.coe_sub, Polynomial.coe_mul, Polynomial.coe_pow, Polynomial.coe_X,
    Polynomial.coe_one, pol_coe]
  exact hU

theorem C19_rec_inverse_witness :
    (Valid [1, 998244351, 3] ∧ [1, 998244351, 3].getD 0 0 ≠ 0 ∧
      [1, 998244351, 3].getD ([1, 998244351, 3].length - 1) 0 ≠ 0 ∧ 1000 < 2 ^ 63 ∧
      3 * [1, 998244351, 3].length ≤ 2 ^ 23) ∧
    ∃ F, consecutive_terms_of_rational.rec [1, 998244351, 3]
        ([1, 998244351, 3].length - 1) 64 1000 = some F ∧ Valid F ∧
      F.length ≤ [1, 998244351, 3].length - 1 ∧
      (PowerSeries.trunc [1, 998244351, 3].length (toPS [1, 998244351, 3]) ∣
        Polynomial.X ^ 1000 * PowerSeries.trunc F.length (toPS F) - 1) ∧
      ([1, 998244351, 3].length - 1 = 0 → F = []) :=
  ⟨⟨by decide, by decide, by decide, by decide, by decide⟩,
    C19_rec_inverse [1, 998244351, 3] 1000 (by decide) (by decide) (by decide) (by decide)
      (by decide)⟩

open atcoder

/-! ## The argument of the recursive call of `rec` -/

theorem ceil_half (k : Nat) : ⌈(k : ℚ) / 2⌉₊ = (k + 1) / 2 := by
  rcases Nat.even_or_odd' k with ⟨j, rfl | rfl⟩
  · have h : ((2 * j : Nat) : ℚ) / 2 = (j : ℚ) := by push_cast; ring
    rw [h, Nat.ceil_natCast]
    omega
  · have h : (2 * j + 1 + 1) / 2 = j + 1 := by omega
    rw [h, Nat.ceil_eq_iff (Nat.succ_ne_zero j)]
    constructor
    · rw [Nat.succ_sub_one]
      push_cast
      linarith
    · push_cast
      linarith

/-- As long as `k + 1` does not wrap, the argument `(k + 1) / 2` of the recursive call,
evaluated in 64-bit unsigned arithmetic, is `ceil(k / 2)`. -/
theorem rec_arg_ceil (k : Nat) (hk : k + 1 < 2 ^ 64) : u64 (k + 1) / 2 = ⌈(k : ℚ) / 2⌉₊ := by
  rw [u64_of_lt hk, ceil_half]

theorem rec_arg_ceil_step (q : List Nat) (d fuel k : Nat) (h2 : 2 ≤ k) (hk : k + 1 < 2 ^ 64) :
    consecutive_terms_of_rational.rec q d (fuel + 1) k =
      (consecutive_terms_of_rational.rec q d fuel ⌈(k : ℚ) / 2⌉₊).bind fun f =>
        (fps.mul f f).bind fun sq_f =>
          fps.mod (if k % 2 = 1 then 0 :: sq_f else sq_f) q := by
  rw [rec_step q d fuel k h2, rec_arg_ceil k hk]

theorem pow_mod_loop (a e : Nat) (ha : a < mint.mod) :
    a ^ e % mint.mod = static_modint.powLoop mint.mod e a 1 e := by
  rw [static_modint.powLoop_eq mint.mod (by unfold mint.mod; norm_num)
    (by unfold mint.mod; norm_num) e a 1 e le_rfl ha (by unfold mint.mod; norm_num), one_mul]

/-- The coefficients of the series `S` with `(1 - 2 x) S = 1` are the powers of `2`. -/
theorem geom_coeff (S : PowerSeries (ZMod mint.mod))
    (hS : toPS [1, 998244351] * S = toPS [1]) (n : Nat) :
    PowerSeries.coeff _ n S
      = ((static_modint.powLoop mint.mod n 2 1 n : Nat) : ZMod mint.mod) := by
  have hq : toPS [1, 998244351] = 1 - PowerSeries.X * PowerSeries.C _ (2 : ZMod mint.mod) := by
    rw [toPS_cons, toPS_cons, toPS_nil, mul_zero, add_zero, Nat.cast_one, map_one]
    have : ((998244351 : Nat) : ZMod mint.mod) = -2 := by
      have h : ((998244351 : Nat) : ZMod mint.mod) + 2 = 0 := by
        have : ((998244353 : Nat) : ZMod mint.mod) = 0 := ZMod.natCast_self _
        rw [← this]; norm_num
      exact eq_neg_of_add_eq_zero_left h
    rw [this, map_neg]
    ring
  have hrec : S = 1 + PowerSeries.X * (PowerSeries.C _ (2 : ZMod mint.mod) * S) := by
    rw [hq, toPS_one] at hS
    linear_combination hS
  have hpow : ∀ n, PowerSeries.coeff (ZMod mint.mod) n S = (2 : ZMod mint.mod) ^ n := by
    intro n
    induction n with
    | zero =>
      rw [hrec, map_add, PowerSeries.coeff_zero_X_mul, PowerSeries.coeff_one, if_pos rfl,
        add_zero, pow_zero]
    | succ n ih =>
      rw [hrec, map_add, PowerSeries.coeff_succ_X_mul, PowerSeries.coeff_one,
        if_neg (Nat.succ_ne_zero n), zero_add, PowerSeries.coeff_C_mul, ih, pow_succ]
      ring
  rw [hpow, ← pow_mod_loop 2 n (by unfold mint.mod; norm_num), ZMod.natCast_mod, Nat.cast_pow,
    Nat.cast_ofNat]

theorem pow2_top :
    static_modint.powLoop mint.mod (2 ^ 64 - 1) 2 1 (2 ^ 64 - 1) = 609147327 := by decide!

/-- C20. At `k = 2^64 - 1` the argument `(k + 1) / 2` of the recursive call of `rec` wraps
to `0`, whereas `ceil(k / 2) = 2^63`. With `P = 1`, `Q = 1 - 2 x` the lambda then returns
`x mod Q = [499122177]` and `consecutive_terms_of_rational` returns `[499122177, 1]`, while
the coefficient of `x^k` of `P / Q` is `2^k mod 998244353 = 609147327`. -/
theorem C20_rec_argument_wraps :
    u64 ((2 ^ 64 - 1) + 1) / 2 = 0 ∧ ⌈(((2 ^ 64 - 1 : Nat) : ℚ)) / 2⌉₊ = 2 ^ 63 ∧
    consecutive_terms_of_rational.rec [1, 998244351] 1 64 (2 ^ 64 - 1) = some [499122177] ∧
    consecutive_terms_of_rational [1] [1, 998244351] (2 ^ 64 - 1) 2 = some [499122177, 1] ∧
    (∀ S : PowerSeries (ZMod mint.mod), toPS [1, 998244351] * S = toPS [1] →
      PowerSeries.coeff _ (2 ^ 64 - 1) S = ((609147327 : Nat) : ZMod mint.mod)) ∧
    ((499122177 : Nat) : ZMod mint.mod) ≠ ((609147327 : Nat) : ZMod mint.mod) := by
  refine ⟨by decide, ?_, by decide!, by decide!, fun S hS => ?_, fun h => ?_⟩
  · rw [ceil_half]
    decide
  · rw [geom_coeff S hS, pow2_top]
  · have := mint.cast_inj (by unfold mint.mod; norm_num) (by unfold mint.mod; norm_num) h
    omega

open atcoder

/-! ## Details of the extractor and of the solver -/

/-- C21, as the claim states it, fails: for `Q` of degree `2` the base case `k = 0` of `rec`
returns the one-element list `[1]`, whose length is `1` and not `deg Q = 2`. -/
theorem C21_base_case_counterexample :
    consecutive_terms_of_rational.rec [1, 2, 3] ([1, 2, 3].length - 1) 64 0 = some [1] ∧
    ([1] : List Nat).length ≠ [1, 2, 3].length - 1 := by
  decide

/-- C21 (amended). In the base case `k = 0` the lambda `rec` returns the polynomial `1` as
the one-element list `[1]` when `deg Q > 0` (length `1`, at most `deg Q`), and the empty list
when `deg Q = 0`. -/
theorem C21_base_case (q : List Nat) (d fuel : Nat) :
    consecutive_terms_of_rational.rec q d fuel 0 = some (if 0 < d then [1] else []) ∧
    toPS [1] = 1 ∧ (0 < d → ([1] : List Nat).length ≤ d) := by
  refine ⟨?_, toPS_one, fun h => h⟩
  rw [rec_base q d fuel 0 (by omega), if_pos rfl, mint.ofInt_one]

/-- C22. For canonical `p`, `q` satisfying the preconditions of the extractor (`d = size(q)
- 1`), every 64-bit `k` and sizes within the transform's range: `rec(k)` returns a list of at
most `d` coefficients, and the numerator `P_k = (x^{-k} P) mod Q` computed from it has at most
`d` coefficients as well. -/
theorem C22_degree_bound (p q : List Nat) (k : Nat) (hp : Valid p) (hq : Valid q)
    (hq0 : q.getD 0 0 ≠ 0) (hql : q.getD (q.length - 1) 0 ≠ 0) (hpq : p.length < q.length)
    (hk : k < 2 ^ 64) (hsz : 3 * q.length ≤ 2 ^ 23) :
    ∃ F t pk, consecutive_terms_of_rational.rec q (q.length - 1) 64 k = some F ∧
      F.length ≤ q.length - 1 ∧ fps.mul F p = some t ∧ fps.mod t q = some pk ∧
      pk.length ≤ q.length - 1 := by
  have hstrip : stripZeros q = q := stripZeros_eq_self q hql
  have hsne : stripZeros q ≠ [] := by
    rw [hstrip]; intro h; rw [h] at hpq; exact absurd hpq (by simp)
  obtain ⟨F, e1, v1, l1, _⟩ := rec_spec q hq hq0 hql hsz 64 k le_rfl (le_of_lt hk)
  obtain ⟨t, e2, v2, _, l2, _⟩ := fps.mul_spec F p v1 hp (by omega)
  obtain ⟨pk, e3, _, l3, _⟩ := fps.mod_spec t q v2 hq hsne
    (by rw [hstrip]; omega) (by rw [hstrip]; omega)
  rw [hstrip] at l3
  exact ⟨F, t, pk, e1, l1, e2, e3, by omega⟩

theorem C22_degree_bound_witness :
    (Valid [5, 7] ∧ Valid [1, 998244351, 3] ∧ [1, 998244351, 3].getD 0 0 ≠ 0 ∧
      [1, 998244351, 3].getD ([1, 998244351, 3].length - 1) 0 ≠ 0 ∧
      [5, 7].length < [1, 998244351, 3].length ∧ 2 ^ 64 - 1 < 2 ^ 64 ∧
      3 * [1, 998244351, 3].length ≤ 2 ^ 23) ∧
    ∃ F t pk, consecutive_terms_of_rational.rec [1, 998244351, 3]
        ([1, 998244351, 3].length - 1) 64 (2 ^ 64 - 1) = some F ∧
      F.length ≤ [1, 998244351, 3].length - 1 ∧ fps.mul F [5, 7] = some t ∧
      fps.mod t [1, 998244351, 3] = some pk ∧ pk.length ≤ [1, 998244351, 3].length - 1 :=
  ⟨⟨by decide, by decide, by decide, by decide, by decide, by decide, by decide⟩,
    C22_degree_bound [5, 7] [1, 998244351, 3] (2 ^ 64 - 1) (by decide) (by decide) (by decide)
      (by decide) (by decide) (by decide) (by decide)⟩

theorem fps.sub_nil (f : List Nat) : fps.sub f [] = f := by
  unfold fps.sub
  simp only [List.length_nil]
  rw [if_neg (Nat.not_lt_zero _)]
  rfl

/-- C23. For all `f` and every `g` with a nonzero coefficient such that `deg f < deg g`
(degrees of the lists with trailing zeros stripped, `length - 1`), `divmod(f, g)` returns
the empty quotient and the remainder `f` with its trailing zeros stripped. -/
theorem C23_divmod_small (f g : List Nat) (hg : ∃ x ∈ g, x ≠ 0)
    (hdeg : ((stripZeros f).length : Int) - 1 < ((stripZeros g).length : Int) - 1) :
    divmod f g = some ([], stripZeros f) := by
  have hlt : (stripZeros f).length < (stripZeros g).length := by omega
  have hne : stripZeros g ≠ [] := by
    intro h
    obtain ⟨x, hx, hx0⟩ := hg
    exact hx0 ((stripZeros_eq_nil_iff g).1 h x hx)
  have hG := stripZeros_length_le g
  have hdiv : fps.div f g = some [] := by
    unfold fps.div
    simp only
    rw [if_neg (by omega), if_pos hlt]
  unfold divmod
  rw [hdiv]
  simp only [Option.bind_eq_bind, Option.some_bind, fps.mul_nil_right, fps.sub_nil]
  rw [if_pos (by omega)]

theorem C23_divmod_small_witness :
    ((∃ x ∈ [0, 0, 5, 0], x ≠ 0) ∧
      ((stripZeros [1, 2, 0, 0]).length : Int) - 1 < ((stripZeros [0, 0, 5, 0]).length : Int) - 1) ∧
    divmod [1, 2, 0, 0] [0, 0, 5, 0] = some ([], stripZeros [1, 2, 0, 0]) :=
  ⟨⟨by decide, by decide⟩, C23_divmod_small [1, 2, 0, 0] [0, 0, 5, 0] (by decide) (by decide)⟩

/-- C24. The solver adds to the extractor's result the window of the polynomial part `R`
(the quotient of `divmod`): `R` with its first `min(len R, k)` entries erased, resized to
`m`. That list has length `m`, its `i`-th entry is `R[k+i]` when `k + i < len R` and `0`
otherwise, and it is all zeros when `k >= len R`. -/
theorem C24_polynomial_part_window (a c R : List Nat) (k m : Nat) :
    consecutive_terms_of_linear_reccurrent_sequence a c k m =
      ((fps.mul a (stripZeros (forUp c.length
          (fun i q => q.set (i + 1) (mint.neg (c.getD i 0)))
          ((List.replicate (c.length + 1) 0).set 0 (mint.ofInt 1))))).bind fun p =>
        (divmod (resize p a.length) (stripZeros (forUp c.length
          (fun i q => q.set (i + 1) (mint.neg (c.getD i 0)))
          ((List.replicate (c.length + 1) 0).set 0 (mint.ofInt 1))))).bind fun rp =>
          (consecutive_terms_of_rational rp.2 (stripZeros (forUp c.length
            (fun i q => q.set (i + 1) (mint.neg (c.getD i 0)))
            ((List.replicate (c.length + 1) 0).set 0 (mint.ofInt 1)))) k m).bind fun s =>
            some (fps.add (resize (rp.1.drop (min rp.1.length k)) m) s)) ∧
    (resize (R.drop (min R.length k)) m).length = m ∧
    (∀ i, i < m → (resize (R.drop (min R.length k)) m).getD i 0
      = if k + i < R.length then R.getD (k + i) 0 else 0) ∧
    (R.length ≤ k → resize (R.drop (min R.length k)) m = List.replicate m 0) := by
  refine ⟨rfl, length_resize _ _, fun i hi => ?_, fun hk => ?_⟩
  · rw [getD_resize, if_pos hi, getD_drop_min]
    split
    · rfl
    · exact getD_of_le _ _ (by omega)
  · apply ext_getD
    · rw [length_resize, List.length_replicate]
    · intro i hi
      rw [length_resize] at hi
      rw [getD_resize, if_pos hi, getD_drop_min, getD_of_le _ _ (by omega),
        getD_replicate_zero]

namespace atcoder

/-! ## `safe_mod` and `inv_gcd` on arbitrary arguments -/

theorem tmod_neg_bounds (x b : Int) (hb : 0 < b) : -b < Int.tmod x b := by
  lift b to ℕ using le_of_lt hb
  have hb' : 0 < b := by exact_mod_cast hb
  cases x with
  | ofNat n =>
    have : 0 ≤ Int.tmod (Int.ofNat n) (b : Int) := Int.tmod_nonneg _ (Int.ofNat_nonneg n)
    omega
  | negSucc n =>
    have e : Int.tmod (Int.negSucc n) (b : Int) = -(((n + 1) % b : Nat) : Int) := rfl
    rw [e]
    have := Nat.mod_lt (n + 1) hb'
    omega

/-- Function `safe_mod(x, m)` is the non-negative remainder for `m >= 1`. -/
theorem safe_mod_eq_emod (x m : Int) (hm : 0 < m) : safe_mod x m = x % m := by
  unfold safe_mod
  have h1 := tmod_neg_bounds x m hm
  have h2 := Int.tmod_lt_of_pos x hm
  have h3 := Int.tmod_add_tdiv x m
  have key : x % m = Int.tmod x m % m := by
    conv_lhs => rw [← h3]
    exact Int.add_mul_emod_self_left _ _ _
  simp only
  split
  · rw [key, ← Int.add_emod_self, Int.emod_eq_of_lt (by omega) (by omega)]
  · rw [key, Int.emod_eq_of_lt (by omega) h2]

theorem inv_gcd_reduce (a b : Int) (hb : 0 < b) : inv_gcd a b = inv_gcd (a % b) b := by
  unfold inv_gcd
  rw [safe_mod_eq_emod a b hb, safe_mod_eq_emod (a % b) b hb, Int.emod_emod]

/-- C25. For `b >= 1` and every integer `a` (in particular every 64-bit signed one),
`inv_gcd(a, b)` returns `(g, x)` with `g = gcd(a mod b, b)` (where `gcd(0, b) = b`),
`x a ≡ g (mod b)` and `0 <= x < b / g`. -/
theorem C25_inv_gcd (a b : Int) (hb : 1 ≤ b) :
    (inv_gcd a b).1 = Int.gcd (a % b) b ∧ ((Int.gcd 0 b : Nat) : Int) = b ∧
    b ∣ (inv_gcd a b).2 * a - (inv_gcd a b).1 ∧
    0 ≤ (inv_gcd a b).2 ∧ (inv_gcd a b).2 < b / (inv_gcd a b).1 := by
  have hb0 : 0 < b := by omega
  obtain ⟨h1, h2, h3, h4⟩ := inv_gcd_spec (a % b) b (Int.emod_nonneg a (by omega))
    (Int.emod_lt_of_pos a hb0)
  rw [← inv_gcd_reduce a b hb0] at h1 h2 h3 h4
  refine ⟨h1, ?_, ?_, h3, h4⟩
  · rw [Int.gcd_zero_left, Int.natCast_natAbs, abs_of_pos hb0]
  · have e : (inv_gcd a b).2 * a - (inv_gcd a b).1
        = ((inv_gcd a b).2 * (a % b) - (inv_gcd a b).1) + b * ((inv_gcd a b).2 * (a / b)) := by
      have := Int.emod_add_ediv a b
      linear_combination (-(inv_gcd a b).2) * this
    rw [e]
    exact dvd_add h2 (Dvd.intro _ rfl)

theorem C25_inv_gcd_witness :
    (1 : Int) ≤ 10 ∧
    ((inv_gcd (-7) 10).1 = Int.gcd ((-7) % 10) 10 ∧ ((Int.gcd 0 10 : Nat) : Int) = 10 ∧
    (10 : Int) ∣ (inv_gcd (-7) 10).2 * (-7) - (inv_gcd (-7) 10).1 ∧
    0 ≤ (inv_gcd (-7) 10).2 ∧ (inv_gcd (-7) 10).2 < 10 / (inv_gcd (-7) 10).1) :=
  ⟨by decide, C25_inv_gcd (-7) 10 (by decide)⟩

/-! ## The tables of roots of unity -/

theorem rootK_pow : ∀ (j i : Nat), i ≤ 23 → j ≤ i → rootK i ^ 2 ^ j = rootK (i - j) := by
  intro j
  induction j with
  | zero => intro i _ _; rw [pow_zero, pow_one, Nat.sub_zero]
  | succ j ih =>
    intro i hi hj
    rw [pow_succ, pow_mul, ih i hi (by omega)]
    have e : i - j = (i - (j + 1)) + 1 := by omega
    rw [e, rootK_sq (by omega)]

theorem rootK_one_ne : rootK 1 ≠ 1 := by
  intro h
  have h1 : ((infoTables.root.getD 1 0 : Nat) : ZMod mint.mod) = ((1 : Nat) : ZMod mint.mod) := by
    rw [Nat.cast_one]; exact h
  have := mint.cast_inj (tables_valid.1.getD_lt 1) (by unfold mint.mod; norm_num) h1
  rw [root_zero_one.2] at this
  exact absurd this (by decide)

theorem rootK_primitive (i : Nat) (hi : i ≤ 23) : IsPrimitiveRoot (rootK i) (2 ^ i) := by
  cases i with
  | zero =>
    rw [rootK_zero, pow_zero]
    exact IsPrimitiveRoot.one
  | succ i =>
    haveI : Fact (Nat.Prime 2) := ⟨Nat.prime_two⟩
    have hnot : ¬ rootK (i + 1) ^ 2 ^ i = 1 := by
      rw [rootK_pow i (i + 1) hi (by omega), Nat.add_sub_cancel_left]
      exact rootK_one_ne
    have hfin : rootK (i + 1) ^ 2 ^ (i + 1) = 1 := by
      rw [rootK_pow (i + 1) (i + 1) hi le_rfl, Nat.sub_self, rootK_zero]
    rw [← orderOf_eq_prime_pow hnot hfin]
    exact IsPrimitiveRoot.orderOf _

/-- C26. For the modulus `998244353`: `rank2 = 23`, the primitive root is `3`, the
constructor `fft_info()` fails no assertion, and its tables `root`, `iroot` have `24`
canonical entries with, for every `i` in `0..23`, `root[i]^(2^i) == 1`,
`root[i] * iroot[i] == 1` and, for `i >= 1`, `root[i]^(2^(i-1)) == -1`; so `root[i]` is a
primitive `2^i`-th root of unity. -/
theorem C26_root_tables :
    rank2 = 23 ∧ g = 3 ∧
    ∃ info, fft_info.new = some info ∧ info.root.length = 24 ∧ info.iroot.length = 24 ∧
      Valid info.root ∧ Valid info.iroot ∧
      ∀ i, i ≤ 23 →
        ((info.root.getD i 0 : Nat) : ZMod mint.mod) ^ 2 ^ i = 1 ∧
        mint.mul (info.root.getD i 0) (info.iroot.getD i 0) = 1 ∧
        (1 ≤ i → ((info.root.getD i 0 : Nat) : ZMod mint.mod) ^ 2 ^ (i - 1) = -1) ∧
        IsPrimitiveRoot ((info.root.getD i 0 : Nat) : ZMod mint.mod) (2 ^ i) := by
  refine ⟨rank2_eq, by decide, infoTables, fft_info_new_eq, tables_length.1, tables_length.2.1,
    tables_valid.1, tables_valid.2.1, fun i hi => ⟨?_, root_iroot i (by omega), fun h1 => ?_,
      rootK_primitive i hi⟩⟩
  · have := rootK_pow i i hi le_rfl
    rw [Nat.sub_self, rootK_zero] at this
    exact this
  · have := rootK_pow (i - 1) i hi (by omega)
    have e : i - (i - 1) = 1 := by omega
    rw [e, rootK_one] at this
    exact this

end atcoder

open atcoder

/-! ## The solver fails no assertion; the window inside the initial terms -/

/-- C27. For canonical lists `a`, `c` of the same length `d`, every 64-bit `k` and every
`m` (sizes within the transform's range), the solver fails no assertion: the `Q` it builds
is non-empty with constant term `1` and nonzero last coefficient, `divmod` succeeds and its
remainder `P` is shorter than `Q`, so the preconditions asserted by
`consecutive_terms_of_rational` hold, and `m` values are returned. -/
theorem C27_solver_no_abort (a c : List Nat) (k m : Nat) (ha : Valid a) (hc : Valid c)
    (hac : a.length = c.length) (hk : k < 2 ^ 64) (hsz : 3 * (c.length + 1) ≤ 2 ^ 23)
    (hsz2 : c.length + 1 + 2 * m ≤ 2 ^ 23) :
    ∃ q pp R P s res,
      q = stripZeros (forUp c.length (fun i q => q.set (i + 1) (mint.neg (c.getD i 0)))
        ((List.replicate (c.length + 1) 0).set 0 (mint.ofInt 1))) ∧
      q ≠ [] ∧ q.getD 0 0 = 1 ∧ q.getD (q.length - 1) 0 ≠ 0 ∧
      fps.mul a q = some pp ∧ divmod (resize pp a.length) q = some (R, P) ∧
      P.length < q.length ∧ consecutive_terms_of_rational P q k m = some s ∧
      consecutive_terms_of_linear_reccurrent_sequence a c k m = some res ∧ res.length = m := by
  obtain ⟨ql, qv, q0, qp⟩ := solver_q c hc
  unfold consecutive_terms_of_linear_reccurrent_sequence
  simp only
  set q0l := forUp c.length (fun i q => q.set (i + 1) (mint.neg (c.getD i 0)))
    ((List.replicate (c.length + 1) 0).set 0 (mint.ofInt 1)) with hq0l
  set q := stripZeros q0l with hqdef
  have hqv : Valid q := qv.stripZeros
  have hq0 : q.getD 0 0 = 1 := by rw [hqdef, stripZeros_getD, q0]
  have hqne : q ≠ [] := by
    intro h
    rw [h] at hq0
    exact absurd hq0 (by decide)
  have hqlen : q.length ≤ c.length + 1 := by
    have h1 : q.length ≤ q0l.length := stripZeros_length_le q0l
    have h2 : q0l.length = c.length + 1 := ql
    omega
  have hqpos : 0 < q.length := List.length_pos.2 hqne
  have hql : q.getD (q.length - 1) 0 ≠ 0 := stripZeros_last q0l hqne
  have hqs : stripZeros q = q := stripZeros_eq_self q hql
  obtain ⟨pp, e1, v1, _, _, _⟩ := fps.mul_spec a q ha hqv (by omega)
  have hTl : (resize pp a.length).length = a.length := length_resize _ _
  have hTv : Valid (resize pp a.length) := v1.resize _
  obtain ⟨R, P, e2, vR, vP, _, lP, _, _, _⟩ := divmod_spec (resize pp a.length) q hTv hqv
    (by rw [hqs]; exact hqne) (by rw [hqs, hTl]; omega) (by rw [hqs, hTl]; omega)
  rw [hqs] at lP
  obtain ⟨s, e3, ls, vs, _⟩ := rational_spec P q k m vP hqv (by rw [hq0]; exact one_ne_zero)
    hql lP hk (by omega) (by omega)
  have vr : Valid (resize (R.drop (min R.length k)) m) := (valid_drop vR _).resize _
  obtain ⟨la, _, _⟩ := fps.add_spec _ s vr vs
  rw [length_resize, ls, max_self] at la
  refine ⟨q, pp, R, P, s, _, rfl, hqne, hq0, hql, e1, e2, lP, e3, ?_, la⟩
  simp only [Option.bind_eq_bind, e1, Option.some_bind, e2, e3, Option.pure_def]

theorem C27_solver_no_abort_witness :
    (Valid [3, 1, 4] ∧ Valid [1, 0, 0] ∧ [3, 1, 4].length = [1, 0, 0].length ∧
      2 ^ 64 - 1 < 2 ^ 64 ∧ 3 * ([1, 0, 0].length + 1) ≤ 2 ^ 23 ∧
      [1, 0, 0].length + 1 + 2 * 5 ≤ 2 ^ 23) ∧
    ∃ q pp R P s res,
      q = stripZeros (forUp [1, 0, 0].length
        (fun i q => q.set (i + 1) (mint.neg ([1, 0, 0].getD i 0)))
        ((List.replicate ([1, 0, 0].length + 1) 0).set 0 (mint.ofInt 1))) ∧
      q ≠ [] ∧ q.getD 0 0 = 1 ∧ q.getD (q.length - 1) 0 ≠ 0 ∧
      fps.mul [3, 1, 4] q = some pp ∧ divmod (resize pp [3, 1, 4].length) q = some (R, P) ∧
      P.length < q.length ∧ consecutive_terms_of_rational P q (2 ^ 64 - 1) 5 = some s ∧
      consecutive_terms_of_linear_reccurrent_sequence [3, 1, 4] [1, 0, 0] (2 ^ 64 - 1) 5
        = some res ∧ res.length = 5 :=
  ⟨⟨by decide, by decide, by decide, by decide, by decide, by decide⟩,
    C27_solver_no_abort [3, 1, 4] [1, 0, 0] (2 ^ 64 - 1) 5 (by decide) (by decide) (by decide)
      (by decide) (by decide) (by decide)⟩

theorem getD_take (l : List Nat) (m i : Nat) (hi : i < m) :
    (l.take m).getD i 0 = l.getD i 0 := by
  simp [List.getD_eq_getElem?_getD, List.getElem?_take, hi]

/-- C28. For canonical lists `a`, `c` of the same length `d` (with `3 (d + 1) <= 2^23`) and
every `m <= d`, the solver called with `k = 0` returns exactly the first `m` initial terms
`a[0..m)`, whatever the coefficients `c` are. -/
theorem C28_initial_window (a c : List Nat) (m : Nat) (ha : Valid a) (hc : Valid c)
    (hac : a.length = c.length) (hm : m ≤ c.length) (hsz : 3 * (c.length + 1) ≤ 2 ^ 23) :
    consecutive_terms_of_linear_reccurrent_sequence a c 0 m = some (a.take m) := by
  rw [solver_spec a c 0 m ha hc hac (by norm_num) hsz (by omega)]
  congr 1
  apply ext_getD
  · rw [List.length_map, List.length_range, List.length_take]
    omega
  · intro i hi
    rw [List.length_map, List.length_range] at hi
    rw [getD_map_range _ m i hi, getD_take a m i hi, Nat.zero_add,
      linrecTerm_init a c i (by omega)]

theorem C28_initial_window_witness :
    (Valid [3, 1, 4] ∧ Valid [1, 0, 0] ∧ [3, 1, 4].length = [1, 0, 0].length ∧
      2 ≤ [1, 0, 0].length ∧ 3 * ([1, 0, 0].length + 1) ≤ 2 ^ 23) ∧
    consecutive_terms_of_linear_reccurrent_sequence [3, 1, 4] [1, 0, 0] 0 2
      = some ([3, 1, 4].take 2) :=
  ⟨⟨by decide, by decide, by decide, by decide, by decide⟩,
    C28_initial_window [3, 1, 4] [1, 0, 0] 2 (by decide) (by decide) (by decide) (by decide)
      (by decide)⟩

open atcoder

/-! ## `bitrev30` -/

theorem bitrev30_loop (x : Nat) : ∀ n : Nat,
    (forUp n (fun _ (st : Nat × Nat) => ((st.1 <<< 1) ||| (st.2 &&& 1), st.2 >>> 1))
      (0, x)).2 = x >>> n ∧
    ∀ i, (forUp n (fun _ (st : Nat × Nat) => ((st.1 <<< 1) ||| (st.2 &&& 1), st.2 >>> 1))
      (0, x)).1.testBit i = (decide (i < n) && x.testBit (n - 1 - i)) := by
  intro n
  induction n with
  | zero =>
    refine ⟨rfl, fun i => ?_⟩
    show Nat.testBit 0 i = _
    simp
  | succ n ih =>
    obtain ⟨h2, h1⟩ := ih
    constructor
    · show (forUp n _ (0, x)).2 >>> 1 = _
      rw [h2, ← Nat.shiftRight_add]
    · intro i
      show ((forUp n _ (0, x)).1 <<< 1 ||| (forUp n _ (0, x)).2 &&& 1).testBit i = _
      rw [h2, Nat.testBit_lor, Nat.testBit_shiftLeft, Nat.testBit_and, Nat.testBit_shiftRight,
        h1]
      cases i with
      | zero => simp
      | succ j =>
        have e1 : (1 : Nat).testBit (j + 1) = false := by
          rw [← Bool.not_eq_true, Nat.testBit_one_eq_true_iff_self_eq_zero]
          omega
        have e2 : n + 1 - 1 - (j + 1) = n - 1 - j := by omega
        rw [e1, e2]
        simp

theorem bitrev30_testBit (x i : Nat) :
    (bitrev30 x).testBit i = (decide (i < 30) && x.testBit (29 - i)) :=
  (bitrev30_loop x 30).2 i

/-- C29. For `0 <= x < 2^30`: `bitrev30(x)` lies in `[0, 2^30)`, bit `i` of `bitrev30(x)` is
bit `29 - i` of `x` for `i = 0..29`, and `bitrev30(bitrev30(x)) = x`. -/
theorem C29_bitrev30 (x : Nat) (hx : x < 2 ^ 30) :
    bitrev30 x < 2 ^ 30 ∧ (∀ i, i < 30 → (bitrev30 x).testBit i = x.testBit (29 - i)) ∧
    bitrev30 (bitrev30 x) = x := by
  refine ⟨?_, fun i hi => ?_, ?_⟩
  · apply Nat.lt_pow_two_of_testBit
    intro i hi
    rw [bitrev30_testBit, decide_eq_false (by omega), Bool.false_and]
  · rw [bitrev30_testBit, decide_eq_true hi, Bool.true_and]
  · apply Nat.eq_of_testBit_eq
    intro i
    rw [bitrev30_testBit, bitrev30_testBit]
    by_cases hi : i < 30
    · have e : 29 - (29 - i) = i := by omega
      rw [decide_eq_true hi, decide_eq_true (by omega : 29 - i < 30), e]
      simp
    · rw [decide_eq_false hi, Bool.false_and]
      have : x < 2 ^ i := lt_of_lt_of_le hx (Nat.pow_le_pow_right (by norm_num) (by omega))
      exact (Nat.testBit_lt_two_pow this).symm

theorem C29_bitrev30_witness :
    5 < 2 ^ 30 ∧
    (bitrev30 5 < 2 ^ 30 ∧ (∀ i, i < 30 → (bitrev30 5).testBit i = (5 : Nat).testBit (29 - i)) ∧
    bitrev30 (bitrev30 5) = 5) :=
  ⟨by decide, C29_bitrev30 5 (by decide)⟩

namespace atcoder

/-! ## The 64-bit intermediates of the butterfly steps -/

/-- Radix-4 step of `butterfly`: with `a1 = x1 rot`, `a2 = x2 rot2`, `a3 = x3 rot3` and
`t = a1na3imag`, no sum or product reaches `2^64`, no subtraction underflows, and the four
stored values are the exact expressions reduced modulo `M`. -/
theorem fwd4_nowrap (x0 x1 x2 x3 rot imag a1 a2 a3 t : Nat) (h0 : x0 < mint.mod)
    (h1 : x1 < mint.mod) (h2 : x2 < mint.mod) (h3 : x3 < mint.mod) (hrot : rot < mint.mod)
    (himag : imag < mint.mod) (ha1 : a1 = x1 * rot) (ha2 : a2 = x2 * mint.mul rot rot)
    (ha3 : a3 = x3 * mint.mul (mint.mul rot rot) rot)
    (ht : t = (a1 + mint.mod * mint.mod - a3) % mint.mod * imag) :
    (mint.mod * mint.mod < 2 ^ 64 ∧ a1 < 2 ^ 64 ∧ a2 < 2 ^ 64 ∧ a3 < 2 ^ 64 ∧
      a1 + mint.mod * mint.mod < 2 ^ 64 ∧ a3 ≤ a1 + mint.mod * mint.mod ∧ t < 2 ^ 64 ∧
      a2 ≤ mint.mod * mint.mod ∧ x0 + a2 + a1 + a3 < 2 ^ 64 ∧
      2 * (mint.mod * mint.mod) < 2 ^ 64 ∧ a1 + a3 ≤ 2 * (mint.mod * mint.mod) ∧
      x0 + a2 + (2 * (mint.mod * mint.mod) - (a1 + a3)) < 2 ^ 64 ∧
      x0 + (mint.mod * mint.mod - a2) + t < 2 ^ 64 ∧ t ≤ mint.mod * mint.mod ∧
      x0 + (mint.mod * mint.mod - a2) + (mint.mod * mint.mod - t) < 2 ^ 64) ∧
    (W_fwd4 imag rot [x0, x1, x2, x3] 0 = (x0 + a2 + a1 + a3) % mint.mod ∧
      W_fwd4 imag rot [x0, x1, x2, x3] 1
        = (x0 + a2 + (2 * (mint.mod * mint.mod) - (a1 + a3))) % mint.mod ∧
      W_fwd4 imag rot [x0, x1, x2, x3] 2
        = (x0 + (mint.mod * mint.mod - a2) + t) % mint.mod ∧
      W_fwd4 imag rot [x0, x1, x2, x3] 3
        = (x0 + (mint.mod * mint.mod - a2) + (mint.mod * mint.mod - t)) % mint.mod) := by
  have hr2 := mint.mul_lt hrot hrot
  have hr3 := mint.mul_lt hr2 hrot
  have b1 := mul_lt_mod2 h1 hrot
  have b2 := mul_lt_mod2 h2 hr2
  have b3 := mul_lt_mod2 h3 hr3
  rw [← ha1] at b1
  rw [← ha2] at b2
  rw [← ha3] at b3
  have hT : (a1 + mint.mod * mint.mod - a3) % mint.mod < mint.mod := Nat.mod_lt _ mod_pos
  have bT := mul_lt_mod2 hT himag
  rw [← ht] at bT
  have hM2 : mint.mod * mint.mod = 996491788296388609 := by decide
  have hx0 : x0 < 998244353 := h0
  have e0 : (998244352 : Nat) * 998244352 = 996491786299899904 := by norm_num
  rw [e0] at b1 b2 b3 bT
  have w : ∀ u, W_fwd4 imag rot [x0, x1, x2, x3] u =
      if u = 0 then (x0 + a2 + a1 + a3) % mint.mod
      else if u = 1 then (x0 + a2 + (2 * (mint.mod * mint.mod) - (a1 + a3))) % mint.mod
      else if u = 2 then (x0 + (mint.mod * mint.mod - a2) + t) % mint.mod
      else (x0 + (mint.mod * mint.mod - a2) + (mint.mod * mint.mod - t)) % mint.mod := by
    intro u
    simp only [W_fwd4, List.getD_cons_zero, List.getD_cons_succ, mint.ofNat,
      static_modint.ofNat, ← ha1, ← ha2, ← ha3]
    rw [u64_of_lt (by rw [hM2]; norm_num : mint.mod * mint.mod < 2 ^ 64),
      u64_of_lt (by omega : a1 < 2 ^ 64), u64_of_lt (by omega : a2 < 2 ^ 64),
      u64_of_lt (by omega : a3 < 2 ^ 64),
      u64_of_lt (by rw [hM2]; omega : a1 + mint.mod * mint.mod < 2 ^ 64),
      sub64_of_le (by rw [hM2]; omega : a3 ≤ a1 + mint.mod * mint.mod) (by rw [hM2]; omega),
      ← ht, u64_of_lt (by omega : t < 2 ^ 64),
      sub64_of_le (by rw [hM2]; omega : a2 ≤ mint.mod * mint.mod) (by rw [hM2]; norm_num),
      sub64_of_le (by rw [hM2]; omega : t ≤ mint.mod * mint.mod) (by rw [hM2]; norm_num),
      u64_of_lt (by rw [hM2]; norm_num : 2 * (mint.mod * mint.mod) < 2 ^ 64),
      u64_of_lt (by omega : a1 + a3 < 2 ^ 64),
      sub64_of_le (by rw [hM2]; omega : a1 + a3 ≤ 2 * (mint.mod * mint.mod))
        (by rw [hM2]; norm_num),
      u64_of_lt (by omega : x0 + a2 < 2 ^ 64), u64_of_lt (by omega : x0 + a2 + a1 < 2 ^ 64),
      u64_of_lt (by omega : x0 + a2 + a1 + a3 < 2 ^ 64),
      u64_of_lt (by rw [hM2]; omega :
        x0 + a2 + (2 * (mint.mod * mint.mod) - (a1 + a3)) < 2 ^ 64),
      u64_of_lt (by rw [hM2]; omega : x0 + (mint.mod * mint.mod - a2) < 2 ^ 64),
      u64_of_lt (by rw [hM2]; omega : x0 + (mint.mod * mint.mod - a2) + t < 2 ^ 64),
      u64_of_lt (by rw [hM2]; omega :
        x0 + (mint.mod * mint.mod - a2) + (mint.mod * mint.mod - t) < 2 ^ 64)]
  refine ⟨?_, ?_⟩
  · rw [hM2]
    refine ⟨by norm_num, ?_, ?_, ?_, ?_, ?_, ?_, ?_, ?_, by norm_num, ?_, ?_, ?_, ?_, ?_⟩ <;>
      omega
  · exact ⟨w 0, w 1, w 2, w 3⟩

/-- Radix-2 step of `butterfly`, written with the operators of `mint`: the 64-bit product
inside `operator*` stays below `2^64`, the sum inside `operator+` below `2^32`, and both
stored values are exact modulo `M`. -/
theorem fwd2_exact (x0 x1 rot r : Nat) (h0 : x0 < mint.mod) (h1 : x1 < mint.mod)
    (hrot : rot < mint.mod) (hr : r = x1 * rot % mint.mod) :
    x1 * rot < 2 ^ 64 ∧ mint.mul x1 rot = r ∧ x0 + r < 2 ^ 32 ∧
    W_fwd2 rot [x0, x1] 0 = (x0 + r) % mint.mod ∧
    W_fwd2 rot [x0, x1] 1 = (x0 + mint.mod - r) % mint.mod := by
  have b := mul_lt_mod2 h1 hrot
  have e0 : (998244352 : Nat) * 998244352 = 996491786299899904 := by norm_num
  rw [e0] at b
  have hmul : mint.mul x1 rot = r := by
    rw [hr]; exact static_modint.mul_eq_mod mint.mod x1 rot (by decide) h1 hrot
  have hrlt : r < mint.mod := by rw [hr]; exact Nat.mod_lt _ mod_pos
  have hM : mint.mod = 998244353 := rfl
  rw [hM] at hrlt h0
  refine ⟨by omega, hmul, by omega, ?_, ?_⟩
  · simp only [W_fwd2, List.getD_cons_zero, List.getD_cons_succ, if_true, hmul]
    exact static_modint.add_eq_mod mint.mod x0 r (by decide) h0 hrlt
  · simp only [W_fwd2, List.getD_cons_zero, List.getD_cons_succ, one_ne_zero, if_false, hmul]
    exact static_modint.sub_eq_mod mint.mod x0 r (by decide) h0 hrlt

/-- Radix-2 step of `butterfly_inv`: `mod + l` fits 32 bits, `mod + l - r` does not
underflow, its product with `irot` stays below `2^64`, and both stored values are exact
modulo `M`. -/
theorem inv2_nowrap (x0 x1 irot : Nat) (h0 : x0 < mint.mod) (h1 : x1 < mint.mod)
    (hrot : irot < mint.mod) :
    x0 + x1 < 2 ^ 32 ∧ mint.mod + x0 < 2 ^ 32 ∧ x1 ≤ mint.mod + x0 ∧
    (mint.mod + x0 - x1) * irot < 2 ^ 64 ∧
    W_inv2 irot [x0, x1] 0 = (x0 + x1) % mint.mod ∧
    W_inv2 irot [x0, x1] 1 = (mint.mod + x0 - x1) * irot % mint.mod := by
  have hM : mint.mod = 998244353 := rfl
  have hx0 : x0 < 998244353 := h0
  have hx1 : x1 < 998244353 := h1
  have b := mul_le_of_lt (by omega : 998244353 + x0 - x1 ≤ 1996488706) hrot
  have e0 : (1996488706 : Nat) * 998244352 = 1992983574596288512 := by norm_num
  rw [e0] at b
  refine ⟨by omega, by omega, by omega, by rw [hM]; omega, ?_, ?_⟩
  · simp only [W_inv2, List.getD_cons_zero, List.getD_cons_succ, if_true]
    exact static_modint.add_eq_mod mint.mod x0 x1 (by decide) h0 h1
  · simp only [W_inv2, List.getD_cons_zero, List.getD_cons_succ, one_ne_zero, if_false,
      mint.ofNat, static_modint.ofNat]
    rw [u32_of_lt (by omega : mint.mod + x0 < 2 ^ 32),
      sub32_of_le (by omega : x1 ≤ mint.mod + x0) (by omega),
      u64_of_lt (by rw [hM]; omega : (mint.mod + x0 - x1) * irot < 2 ^ 64)]

/-- Radix-4 step of `butterfly_inv`: with `s = a2na3iimag`, no sum or product reaches
`2^64`, no subtraction underflows, and the four stored values are the exact expressions
reduced modulo `M`. -/
theorem inv4_nowrap (x0 x1 x2 x3 irot iimag s : Nat) (h0 : x0 < mint.mod)
    (h1 : x1 < mint.mod) (h2 : x2 < mint.mod) (h3 : x3 < mint.mod) (hrot : irot < mint.mod)
    (himag : iimag < mint.mod) (hs : s = (mint.mod + x2 - x3) * iimag % mint.mod) :
    (mint.mod + x2 < 2 ^ 64 ∧ x3 ≤ mint.mod + x2 ∧ (mint.mod + x2 - x3) * iimag < 2 ^ 64 ∧
      x0 + x1 + x2 + x3 < 2 ^ 64 ∧ x1 ≤ mint.mod ∧ x2 ≤ mint.mod ∧ x3 ≤ mint.mod ∧
      s ≤ mint.mod ∧ (x0 + (mint.mod - x1) + s) * irot < 2 ^ 64 ∧
      (x0 + x1 + (mint.mod - x2) + (mint.mod - x3)) * mint.mul irot irot < 2 ^ 64 ∧
      (x0 + (mint.mod - x1) + (mint.mod - s)) * mint.mul (mint.mul irot irot) irot < 2 ^ 64) ∧
    (W_inv4 iimag irot [x0, x1, x2, x3] 0 = (x0 + x1 + x2 + x3) % mint.mod ∧
      W_inv4 iimag irot [x0, x1, x2, x3] 1 = (x0 + (mint.mod - x1) + s) * irot % mint.mod ∧
      W_inv4 iimag irot [x0, x1, x2, x3] 2
        = (x0 + x1 + (mint.mod - x2) + (mint.mod - x3)) * mint.mul irot irot % mint.mod ∧
      W_inv4 iimag irot [x0, x1, x2, x3] 3
        = (x0 + (mint.mod - x1) + (mint.mod - s)) * mint.mul (mint.mul irot irot) irot
          % mint.mod) := by
  have hr2 := mint.mul_lt hrot hrot
  have hr3 := mint.mul_lt hr2 hrot
  have hM : mint.mod = 998244353 := rfl
  have hx0 : x0 < 998244353 := h0
  have hx1 : x1 < 998244353 := h1
  have hx2 : x2 < 998244353 := h2
  have hx3 : x3 < 998244353 := h3
  have hS : s < 998244353 := by rw [hs]; exact Nat.mod_lt _ mod_pos
  have bQ := mul_le_of_lt (by omega : 998244353 + x2 - x3 ≤ 1996488706) himag
  have bP1 := mul_le_of_lt (by omega : x0 + (998244353 - x1) + s ≤ 2994733059) hrot
  have bP2 := mul_le_of_lt
    (by omega : x0 + x1 + (998244353 - x2) + (998244353 - x3) ≤ 3992977412) hr2
  have bP3 := mul_le_of_lt
    (by omega : x0 + (998244353 - x1) + (998244353 - s) ≤ 2994733059) hr3
  have e1 : (1996488706 : Nat) * 998244352 = 1992983574596288512 := by norm_num
  have e2 : (2994733059 : Nat) * 998244352 = 2989475361894432768 := by norm_num
  have e3 : (3992977412 : Nat) * 998244352 = 3985967149192577024 := by norm_num
  rw [e1] at bQ
  rw [e2] at bP1 bP3
  rw [e3] at bP2
  have w : ∀ u, W_inv4 iimag irot [x0, x1, x2, x3] u =
      if u = 0 then (x0 + x1 + x2 + x3) % mint.mod
      else if u = 1 then (x0 + (mint.mod - x1) + s) * irot % mint.mod
      else if u = 2 then
        (x0 + x1 + (mint.mod - x2) + (mint.mod - x3)) * mint.mul irot irot % mint.mod
      else (x0 + (mint.mod - x1) + (mint.mod - s)) * mint.mul (mint.mul irot irot) irot
        % mint.mod := by
    intro u
    simp only [W_inv4, List.getD_cons_zero, List.getD_cons_succ, mint.ofNat,
      static_modint.ofNat]
    rw [u64_of_lt (by rw [hM]; omega : mint.mod + x2 < 2 ^ 64),
      sub64_of_le (by rw [hM]; omega : x3 ≤ mint.mod + x2) (by rw [hM]; omega),
      u64_of_lt (by rw [hM]; omega : (mint.mod + x2 - x3) * iimag < 2 ^ 64), ← hs,
      sub64_of_le (by rw [hM]; omega : x1 ≤ mint.mod) (by rw [hM]; norm_num),
      sub64_of_le (by rw [hM]; omega : x2 ≤ mint.mod) (by rw [hM]; norm_num),
      sub64_of_le (by rw [hM]; omega : x3 ≤ mint.mod) (by rw [hM]; norm_num),
      sub64_of_le (by rw [hM]; omega : s ≤ mint.mod) (by rw [hM]; norm_num),
      u64_of_lt (by omega : x0 + x1 < 2 ^ 64), u64_of_lt (by omega : x0 + x1 + x2 < 2 ^ 64),
      u64_of_lt (by omega : x0 + x1 + x2 + x3 < 2 ^ 64),
      u64_of_lt (by rw [hM]; omega : x0 + (mint.mod - x1) < 2 ^ 64),
      u64_of_lt (by rw [hM]; omega : x0 + (mint.mod - x1) + s < 2 ^ 64),
      u64_of_lt (by rw [hM]; omega : x0 + x1 + (mint.mod - x2) < 2 ^ 64),
      u64_of_lt (by rw [hM]; omega : x0 + x1 + (mint.mod - x2) + (mint.mod - x3) < 2 ^ 64),
      u64_of_lt (by rw [hM]; omega : x0 + (mint.mod - x1) + (mint.mod - s) < 2 ^ 64),
      u64_of_lt (by rw [hM]; omega : (x0 + (mint.mod - x1) + s) * irot < 2 ^ 64),
      u64_of_lt (by rw [hM]; omega :
        (x0 + x1 + (mint.mod - x2) + (mint.mod - x3)) * mint.mul irot irot < 2 ^ 64),
      u64_of_lt (by rw [hM]; omega :
        (x0 + (mint.mod - x1) + (mint.mod - s)) * mint.mul (mint.mul irot irot) irot
          < 2 ^ 64)]
  refine ⟨?_, w 0, w 1, w 2, w 3⟩
  rw [hM]
  refine ⟨?_, ?_, ?_, ?_, ?_, ?_, ?_, ?_, ?_, ?_, ?_⟩ <;> omega

/-- C30. For `M = 998244353`, entries `x0 .. x3` in `[0, M)` and twiddle values `rot`,
`imag` in `[0, M)` (standing for `rot`/`irot` and `imag`/`iimag`): in the radix-4 step of
`butterfly` (with `a1`, `a2`, `a3`, `t = a1na3imag` the 64-bit products), in the radix-2 step of
`butterfly_inv` and in the radix-4 step of `butterfly_inv` (with `s = a2na3iimag`) every sum
and product is below `2^64` (below `2^32` for the 32-bit ones), no subtraction underflows,
and every stored value is the exact integer expression reduced modulo `M`. The radix-2 step
of `butterfly` is written with the operators of `mint`: its 64-bit product is below `2^64` and
it stores `(l + r) mod M` and `(l + M - r) mod M` with `r = x1 rot mod M`. -/
theorem C30_butterfly_steps_exact (x0 x1 x2 x3 rot imag a1 a2 a3 t r s : Nat)
    (h0 : x0 < mint.mod) (h1 : x1 < mint.mod)
    (h2 : x2 < mint.mod) (h3 : x3 < mint.mod) (hrot : rot < mint.mod)
    (himag : imag < mint.mod) (ha1 : a1 = x1 * rot) (ha2 : a2 = x2 * mint.mul rot rot)
    (ha3 : a3 = x3 * mint.mul (mint.mul rot rot) rot)
    (ht : t = (a1 + mint.mod * mint.mod - a3) % mint.mod * imag)
    (hr : r = x1 * rot % mint.mod)
    (hs : s = (mint.mod + x2 - x3) * imag % mint.mod) :
    ((mint.mod * mint.mod < 2 ^ 64 ∧ a1 < 2 ^ 64 ∧ a2 < 2 ^ 64 ∧ a3 < 2 ^ 64 ∧
        a1 + mint.mod * mint.mod < 2 ^ 64 ∧ a3 ≤ a1 + mint.mod * mint.mod ∧ t < 2 ^ 64 ∧
        a2 ≤ mint.mod * mint.mod ∧ x0 + a2 + a1 + a3 < 2 ^ 64 ∧
        2 * (mint.mod * mint.mod) < 2 ^ 64 ∧ a1 + a3 ≤ 2 * (mint.mod * mint.mod) ∧
        x0 + a2 + (2 * (mint.mod * mint.mod) - (a1 + a3)) < 2 ^ 64 ∧
        x0 + (mint.mod * mint.mod - a2) + t < 2 ^ 64 ∧ t ≤ mint.mod * mint.mod ∧
        x0 + (mint.mod * mint.mod - a2) + (mint.mod * mint.mod - t) < 2 ^ 64) ∧
      (W_fwd4 imag rot [x0, x1, x2, x3] 0 = (x0 + a2 + a1 + a3) % mint.mod ∧
        W_fwd4 imag rot [x0, x1, x2, x3] 1
          = (x0 + a2 + (2 * (mint.mod * mint.mod) - (a1 + a3))) % mint.mod ∧
        W_fwd4 imag rot [x0, x1, x2, x3] 2
          = (x0 + (mint.mod * mint.mod - a2) + t) % mint.mod ∧
        W_fwd4 imag rot [x0, x1, x2, x3] 3
          = (x0 + (mint.mod * mint.mod - a2) + (mint.mod * mint.mod - t)) % mint.mod)) ∧
    (x1 * rot < 2 ^ 64 ∧ mint.mul x1 rot = r ∧ x0 + r < 2 ^ 32 ∧
      W_fwd2 rot [x0, x1] 0 = (x0 + r) % mint.mod ∧
      W_fwd2 rot [x0, x1] 1 = (x0 + mint.mod - r) % mint.mod) ∧
    (x0 + x1 < 2 ^ 32 ∧ mint.mod + x0 < 2 ^ 32 ∧ x1 ≤ mint.mod + x0 ∧
      (mint.mod + x0 - x1) * rot < 2 ^ 64 ∧
      W_inv2 rot [x0, x1] 0 = (x0 + x1) % mint.mod ∧
      W_inv2 rot [x0, x1] 1 = (mint.mod + x0 - x1) * rot % mint.mod) ∧
    ((mint.mod + x2 < 2 ^ 64 ∧ x3 ≤ mint.mod + x2 ∧ (mint.mod + x2 - x3) * imag < 2 ^ 64 ∧
        x0 + x1 + x2 + x3 < 2 ^ 64 ∧ x1 ≤ mint.mod ∧ x2 ≤ mint.mod ∧ x3 ≤ mint.mod ∧
        s ≤ mint.mod ∧ (x0 + (mint.mod - x1) + s) * rot < 2 ^ 64 ∧
        (x0 + x1 + (mint.mod - x2) + (mint.mod - x3)) * mint.mul rot rot < 2 ^ 64 ∧
        (x0 + (mint.mod - x1) + (mint.mod - s)) * mint.mul (mint.mul rot rot) rot
          < 2 ^ 64) ∧
      (W_inv4 imag rot [x0, x1, x2, x3] 0 = (x0 + x1 + x2 + x3) % mint.mod ∧
        W_inv4 imag rot [x0, x1, x2, x3] 1 = (x0 + (mint.mod - x1) + s) * rot % mint.mod ∧
        W_inv4 imag rot [x0, x1, x2, x3] 2
          = (x0 + x1 + (mint.mod - x2) + (mint.mod - x3)) * mint.mul rot rot % mint.mod ∧
        W_inv4 imag rot [x0, x1, x2, x3] 3
          = (x0 + (mint.mod - x1) + (mint.mod - s)) * mint.mul (mint.mul rot rot) rot
            % mint.mod)) :=
  ⟨fwd4_nowrap x0 x1 x2 x3 rot imag a1 a2 a3 t h0 h1 h2 h3 hrot himag ha1 ha2 ha3 ht,
    fwd2_exact x0 x1 rot r h0 h1 hrot hr, inv2_nowrap x0 x1 rot h0 h1 hrot,
    inv4_nowrap x0 x1 x2 x3 rot imag s h0 h1 h2 h3 hrot himag hs⟩

theorem C30_butterfly_steps_exact_witness :
    ((1 : Nat) < mint.mod ∧ (2 : Nat) < mint.mod ∧ (3 : Nat) < mint.mod ∧
      (998244352 : Nat) < mint.mod ∧ (5 : Nat) < mint.mod ∧ (7 : Nat) < mint.mod ∧
      (10 : Nat) = 2 * 5 ∧ (75 : Nat) = 3 * mint.mul 5 5 ∧
      (124780544000 : Nat) = 998244352 * mint.mul (mint.mul 5 5) 5 ∧
      (945 : Nat) = (10 + mint.mod * mint.mod - 124780544000) % mint.mod * 7 ∧
      (10 : Nat) = 2 * 5 % mint.mod ∧ (28 : Nat) = (mint.mod + 3 - 998244352) * 7 % mint.mod) ∧
    (((mint.mod * mint.mod < 2 ^ 64 ∧ 10 < 2 ^ 64 ∧ 75 < 2 ^ 64 ∧ 124780544000 < 2 ^ 64 ∧
        10 + mint.mod * mint.mod < 2 ^ 64 ∧ 124780544000 ≤ 10 + mint.mod * mint.mod ∧
        945 < 2 ^ 64 ∧
        75 ≤ mint.mod * mint.mod ∧ 1 + 75 + 10 + 124780544000 < 2 ^ 64 ∧
        2 * (mint.mod * mint.mod) < 2 ^ 64 ∧ 10 + 124780544000 ≤ 2 * (mint.mod * mint.mod) ∧
        1 + 75 + (2 * (mint.mod * mint.mod) - (10 + 124780544000)) < 2 ^ 64 ∧
        1 + (mint.mod * mint.mod - 75) + 945 < 2 ^ 64 ∧ 945 ≤ mint.mod * mint.mod ∧
        1 + (mint.mod * mint.mod - 75) + (mint.mod * mint.mod - 945) < 2 ^ 64) ∧
      (W_fwd4 7 5 [1, 2, 3, 998244352] 0 = (1 + 75 + 10 + 124780544000) % mint.mod ∧
        W_fwd4 7 5 [1, 2, 3, 998244352] 1
          = (1 + 75 + (2 * (mint.mod * mint.mod) - (10 + 124780544000))) % mint.mod ∧
        W_fwd4 7 5 [1, 2, 3, 998244352] 2
          = (1 + (mint.mod * mint.mod - 75) + 945) % mint.mod ∧
        W_fwd4 7 5 [1, 2, 3, 998244352] 3
          = (1 + (mint.mod * mint.mod - 75) + (mint.mod * mint.mod - 945)) % mint.mod)) ∧
    (2 * 5 < 2 ^ 64 ∧ mint.mul 2 5 = 10 ∧ 1 + 10 < 2 ^ 32 ∧
      W_fwd2 5 [1, 2] 0 = (1 + 10) % mint.mod ∧
      W_fwd2 5 [1, 2] 1 = (1 + mint.mod - 10) % mint.mod) ∧
    (1 + 2 < 2 ^ 32 ∧ mint.mod + 1 < 2 ^ 32 ∧ 2 ≤ mint.mod + 1 ∧
      (mint.mod + 1 - 2) * 5 < 2 ^ 64 ∧
      W_inv2 5 [1, 2] 0 = (1 + 2) % mint.mod ∧
      W_inv2 5 [1, 2] 1 = (mint.mod + 1 - 2) * 5 % mint.mod) ∧
    ((mint.mod + 3 < 2 ^ 64 ∧ 998244352 ≤ mint.mod + 3 ∧
        (mint.mod + 3 - 998244352) * 7 < 2 ^ 64 ∧
        1 + 2 + 3 + 998244352 < 2 ^ 64 ∧ 2 ≤ mint.mod ∧ 3 ≤ mint.mod ∧
        998244352 ≤ mint.mod ∧
        28 ≤ mint.mod ∧ (1 + (mint.mod - 2) + 28) * 5 < 2 ^ 64 ∧
        (1 + 2 + (mint.mod - 3) + (mint.mod - 998244352)) * mint.mul 5 5 < 2 ^ 64 ∧
        (1 + (mint.mod - 2) + (mint.mod - 28)) * mint.mul (mint.mul 5 5) 5
          < 2 ^ 64) ∧
      (W_inv4 7 5 [1, 2, 3, 998244352] 0 = (1 + 2 + 3 + 998244352) % mint.mod ∧
        W_inv4 7 5 [1, 2, 3, 998244352] 1 = (1 + (mint.mod - 2) + 28) * 5 % mint.mod ∧
        W_inv4 7 5 [1, 2, 3, 998244352] 2
          = (1 + 2 + (mint.mod - 3) + (mint.mod - 998244352)) * mint.mul 5 5 % mint.mod ∧
        W_inv4 7 5 [1, 2, 3, 998244352] 3
          = (1 + (mint.mod - 2) + (mint.mod - 28)) * mint.mul (mint.mul 5 5) 5
            % mint.mod))) :=
  ⟨⟨by decide, by decide, by decide, by decide, by decide, by decide, by decide, by decide,
      by decide, by decide, by decide, by decide⟩,
    C30_butterfly_steps_exact 1 2 3 998244352 5 7 10 75 124780544000 945 10 28 (by decide)
      (by decide) (by decide) (by decide) (by decide) (by decide) (by decide) (by decide)
      (by decide) (by decide) (by decide) (by decide)⟩

end atcoder

namespace atcoder

/-! ## Element accesses of the butterfly passes -/

theorem readAt_of_lt {a : List Nat} {i : Nat} (h : i < a.length) :
    readAt a i = some (a.getD i 0) := if_pos h

theorem writeAt_of_lt {a : List Nat} {i : Nat} (v : Nat) (h : i < a.length) :
    writeAt a i v = some (a.set i v) := if_pos h

/-- A fallible loop whose body succeeds on every state satisfying an invariant returns what
the loop over the total body returns. -/
theorem forUpM_eq_some {σ : Type} (P : σ → Prop) (f : Nat → σ → Option σ)
    (g : Nat → σ → σ) (s : σ) (n : Nat) (hs : P s)
    (hstep : ∀ i, i < n → ∀ st, P st → f i st = some (g i st) ∧ P (g i st)) :
    forUpM n f s = some (forUp n g s) ∧ P (forUp n g s) := by
  induction n with
  | zero => exact ⟨rfl, hs⟩
  | succ n ih =>
    obtain ⟨e, p⟩ := ih (fun i hi => hstep i (by omega))
    obtain ⟨e2, p2⟩ := hstep n (by omega) _ p
    refine ⟨?_, p2⟩
    show (forUpM n f s).bind (f n) = some (g n (forUp n g s))
    rw [e, Option.some_bind, e2]

/-- The index `bsf(~s)` is the number of trailing one-bits of `s`: below `N` as soon as
`s + 1 < 2^N`. -/
theorem bsf_not32_lt (N s : Nat) (hN : N ≤ 32) (hs : s + 1 < 2 ^ N) : bsf (not32 s) < N := by
  have hpow : 2 ^ N ≤ 2 ^ 32 := Nat.pow_le_pow_right (by norm_num) hN
  have hnot : bsf (not32 s) = bsfLoop 32 0 (2 ^ 32 - 1 - s) := by
    unfold bsf not32; rw [Nat.mod_eq_of_lt (by omega)]
  rw [hnot]
  exact (bitProd_succ (fun _ => 1) (fun _ => 1) 32 N 0 s hs hN (fun _ _ _ => one_mul 1)).1

/-- Last index touched in block `s` of a radix-4 pass over `S` blocks of `4 P` entries. -/
theorem block4_index_lt (P S i s : Nat) (hi : i < P) (hs : s < S) :
    i + s * (4 * P) + 3 * P < S * (4 * P) := by
  have h1 : (s + 1) * (4 * P) ≤ S * (4 * P) := Nat.mul_le_mul_right _ hs
  rw [Nat.add_mul, Nat.one_mul] at h1
  generalize s * (4 * P) = X at h1 ⊢
  generalize S * (4 * P) = Y at h1 ⊢
  omega

/-- A checked butterfly pass over `S` blocks returns what the unchecked pass returns, when
the accesses of the inner loop are in range on lists of `n` entries and the twiddle index
`bsf(~s)` is in range whenever the table is read. -/
theorem pass_checked (n S p : Nat) (rate : List Nat)
    (inner : Nat → List Nat × Nat → Nat → List Nat → Option (List Nat))
    (innerT : Nat → List Nat × Nat → Nat → List Nat → List Nat) (a : List Nat)
    (ha : a.length = n)
    (hinner : ∀ s, s < S → ∀ st i, i < p → ∀ b, b.length = n →
      inner s st i b = some (innerT s st i b) ∧ (innerT s st i b).length = n)
    (hrate : ∀ s, s < S → s + 1 ≠ S → bsf (not32 s) < rate.length) :
    (forUpM S
      (fun s (st : List Nat × Nat) =>
        (forUpM p (inner s st) st.1).bind fun a =>
        (if s + 1 ≠ S then (readAt rate (bsf (not32 s))).bind fun x => some (mint.mul st.2 x)
        else some st.2).bind fun rot =>
        some (a, rot))
      (a, mint.ofInt 1)).map Prod.fst
    = some (forUp S
      (fun s (st : List Nat × Nat) =>
        (forUp p (innerT s st) st.1,
          if s + 1 ≠ S then mint.mul st.2 (rate.getD (bsf (not32 s)) 0) else st.2))
      (a, mint.ofInt 1)).1 ∧
    (forUp S
      (fun s (st : List Nat × Nat) =>
        (forUp p (innerT s st) st.1,
          if s + 1 ≠ S then mint.mul st.2 (rate.getD (bsf (not32 s)) 0) else st.2))
      (a, mint.ofInt 1)).1.length = n := by
  obtain ⟨e, hp⟩ := forUpM_eq_some (fun st : List Nat × Nat => st.1.length = n)
    (fun s (st : List Nat × Nat) =>
      (forUpM p (inner s st) st.1).bind fun a =>
      (if s + 1 ≠ S then (readAt rate (bsf (not32 s))).bind fun x => some (mint.mul st.2 x)
      else some st.2).bind fun rot =>
      some (a, rot))
    (fun s (st : List Nat × Nat) =>
      (forUp p (innerT s st) st.1,
        if s + 1 ≠ S then mint.mul st.2 (rate.getD (bsf (not32 s)) 0) else st.2))
    (a, mint.ofInt 1) S ha
    (by
      intro s hs st hst
      obtain ⟨e1, p1⟩ := forUpM_eq_some (fun b : List Nat => b.length = n) (inner s st)
        (innerT s st) st.1 p hst (fun i hi b hb => hinner s hs st i hi b hb)
      refine ⟨?_, p1⟩
      show (forUpM p (inner s st) st.1).bind _ = _
      rw [e1, Option.some_bind]
      dsimp only
      by_cases hc : s + 1 ≠ S
      · rw [if_pos hc, if_pos hc, readAt_of_lt (hrate s hs hc)]
        rfl
      · rw [if_neg hc, if_neg hc]
        rfl)
  rw [e]
  exact ⟨rfl, hp⟩

theorem butterfly_radix2_checked_eq (info : fft_info) (h len : Nat) (a : List Nat)
    (hr : info.rate2.length = 22) (h1 : h - len = 1) (hh : h ≤ 23) (ha : a.length = 2 ^ h) :
    butterfly_radix2_checked info h len a = some (butterfly_radix2 info h len a) ∧
    (butterfly_radix2 info h len a).length = 2 ^ h := by
  have hlen : h = len + 1 := by omega
  subst hlen
  have e1 : len + 1 - len = 1 := by omega
  unfold butterfly_radix2_checked butterfly_radix2
  simp only [e1, Nat.sub_self, pow_zero, pow_one]
  refine pass_checked (2 ^ (len + 1)) (2 ^ len) 1 info.rate2 _ _ a ha ?_ ?_
  · intro s hs st i hi b hb
    have hb1 : i + s * 2 < b.length := by rw [hb, pow_succ]; omega
    have hb2 : i + s * 2 + 1 < b.length := by rw [hb, pow_succ]; omega
    simp only [readAt_of_lt hb1, readAt_of_lt hb2, Option.some_bind, writeAt, List.length_set,
      if_pos hb1, if_pos hb2, and_self, true_and]
    rw [hb]
  · intro s hs hne
    rw [hr]
    have : bsf (not32 s) < len := bsf_not32_lt len s (by omega) (by omega)
    omega

theorem butterfly_radix4_checked_eq (info : fft_info) (h len : Nat) (a : List Nat)
    (hroot : info.root.length = 24) (hr : info.rate3.length = 21) (hlen : len < h)
    (h1 : h - len ≠ 1) (hh : h ≤ 23) (ha : a.length = 2 ^ h) :
    butterfly_radix4_checked info h len a = some (butterfly_radix4 info h len a) ∧
    (butterfly_radix4 info h len a).length = 2 ^ h := by
  have e1 : 2 ^ (h - len) = 4 * 2 ^ (h - len - 2) := by
    have : h - len = h - len - 2 + 2 := by omega
    conv_lhs => rw [this, pow_add]
    ring
  have e2 : 2 ^ h = 2 ^ len * (4 * 2 ^ (h - len - 2)) := by
    rw [← e1, ← pow_add]; congr 1; omega
  unfold butterfly_radix4_checked butterfly_radix4
  rw [e2] at ha ⊢
  simp only [e1, readAt_of_lt (by omega : 2 < info.root.length), Option.some_bind]
  generalize 2 ^ (h - len - 2) = P at ha ⊢
  refine pass_checked (2 ^ len * (4 * P)) (2 ^ len) P info.rate3 _ _ a ha ?_ ?_
  · intro s hs st i hi b hb
    have hidx := block4_index_lt P (2 ^ len) i s hi hs
    generalize hX : s * (4 * P) = X at hidx
    have hb0 : i + X < b.length := by omega
    have hb1 : i + X + P < b.length := by omega
    have hb1a : i + X + 1 * P < b.length := by omega
    have hb2 : i + X + 2 * P < b.length := by omega
    have hb3 : i + X + 3 * P < b.length := by omega
    simp only [readAt_of_lt hb0, readAt_of_lt hb1, readAt_of_lt hb2, readAt_of_lt hb3,
      Option.some_bind, writeAt, List.length_set, if_pos hb0, if_pos hb1a, if_pos hb2,
      if_pos hb3, and_self, true_and]
    rw [hb]
  · intro s hs hne
    rw [hr]
    have : bsf (not32 s) < len := bsf_not32_lt len s (by omega) (by omega)
    omega

theorem butterfly_inv_radix2_checked_eq (info : fft_info) (h len : Nat) (a : List Nat)
    (hlen : len = 1) (hle : len ≤ h) (ha : a.length = 2 ^ h) :
    butterfly_inv_radix2_checked info h len a = some (butterfly_inv_radix2 info h len a) ∧
    (butterfly_inv_radix2 info h len a).length = 2 ^ h := by
  subst hlen
  have e1 : 2 ^ (h - 1 + 1) = 2 * 2 ^ (h - 1) := by rw [pow_succ]; ring
  have e2 : 2 ^ h = 2 * 2 ^ (h - 1) := by
    rw [← e1]; congr 1; omega
  unfold butterfly_inv_radix2_checked butterfly_inv_radix2
  rw [e2] at ha ⊢
  simp only [e1, Nat.sub_self, pow_zero]
  generalize 2 ^ (h - 1) = P at ha ⊢
  refine pass_checked (2 * P) 1 P info.irate2 _ _ a ha ?_ ?_
  · intro s hs st i hi b hb
    have hs0 : s = 0 := by omega
    subst hs0
    have hb0 : i + 0 * (2 * P) < b.length := by omega
    have hb1 : i + 0 * (2 * P) + P < b.length := by omega
    simp only [readAt_of_lt hb0, readAt_of_lt hb1, Option.some_bind, writeAt, List.length_set,
      if_pos hb0, if_pos hb1, and_self, true_and]
    rw [hb]
  · intro s hs hne
    omega

theorem butterfly_inv_radix4_checked_eq (info : fft_info) (h len : Nat) (a : List Nat)
    (hroot : info.iroot.length = 24) (hr : info.irate3.length = 21) (hlen : 2 ≤ len)
    (hle : len ≤ h) (hh : h ≤ 23) (ha : a.length = 2 ^ h) :
    butterfly_inv_radix4_checked info h len a = some (butterfly_inv_radix4 info h len a) ∧
    (butterfly_inv_radix4 info h len a).length = 2 ^ h := by
  have e1 : 2 ^ (h - len + 2) = 4 * 2 ^ (h - len) := by rw [pow_add]; ring
  have e2 : 2 ^ h = 2 ^ (len - 2) * (4 * 2 ^ (h - len)) := by
    rw [← e1, ← pow_add]; congr 1; omega
  unfold butterfly_inv_radix4_checked butterfly_inv_radix4
  rw [e2] at ha ⊢
  simp only [e1, readAt_of_lt (by omega : 2 < info.iroot.length), Option.some_bind]
  generalize 2 ^ (h - len) = P at ha ⊢
  refine pass_checked (2 ^ (len - 2) * (4 * P)) (2 ^ (len - 2)) P info.irate3 _ _ a ha ?_ ?_
  · intro s hs st i hi b hb
    have hidx := block4_index_lt P (2 ^ (len - 2)) i s hi hs
    generalize hX : s * (4 * P) = X at hidx
    have hb0 : i + X < b.length := by omega
    have hb0a : i + X + 0 * P < b.length := by omega
    have hb1 : i + X + 1 * P < b.length := by omega
    have hb2 : i + X + 2 * P < b.length := by omega
    have hb3 : i + X + 3 * P < b.length := by omega
    simp only [readAt_of_lt hb0a, readAt_of_lt hb1, readAt_of_lt hb2, readAt_of_lt hb3,
      Option.some_bind, writeAt, List.length_set, if_pos hb0, if_pos hb1, if_pos hb2,
      if_pos hb3, and_self, true_and]
    rw [hb]
  · intro s hs hne
    rw [hr]
    have : bsf (not32 s) < len - 2 := bsf_not32_lt (len - 2) s (by omega) (by omega)
    omega

theorem butterflyLoop_checked_eq (info : fft_info) (h : Nat) (hroot : info.root.length = 24)
    (hr2 : info.rate2.length = 22) (hr3 : info.rate3.length = 21) (hh : h ≤ 23) :
    ∀ (fuel len : Nat) (a : List Nat), a.length = 2 ^ h →
      butterflyLoop_checked info h fuel len a = some (butterflyLoop info h fuel len a) ∧
      (butterflyLoop info h fuel len a).length = 2 ^ h := by
  intro fuel
  induction fuel with
  | zero => intro len a ha; exact ⟨rfl, ha⟩
  | succ fuel ih =>
    intro len a ha
    unfold butterflyLoop_checked butterflyLoop
    by_cases hlen : len < h
    · rw [if_pos hlen, if_pos hlen]
      by_cases h1 : h - len = 1
      · rw [if_pos h1, if_pos h1]
        obtain ⟨e, l⟩ := butterfly_radix2_checked_eq info h len a hr2 h1 hh ha
        rw [e, Option.some_bind]
        exact ih _ _ l
      · rw [if_neg h1, if_neg h1]
        obtain ⟨e, l⟩ := butterfly_radix4_checked_eq info h len a hroot hr3 hlen h1 hh ha
        rw [e, Option.some_bind]
        exact ih _ _ l
    · rw [if_neg hlen, if_neg hlen]
      exact ⟨rfl, ha⟩

theorem butterfly_invLoop_checked_eq (info : fft_info) (h : Nat)
    (hroot : info.iroot.length = 24) (hr3 : info.irate3.length = 21) (hh : h ≤ 23) :
    ∀ (fuel len : Nat) (a : List Nat), len ≤ h → a.length = 2 ^ h →
      butterfly_invLoop_checked info h fuel len a
        = some (butterfly_invLoop info h fuel len a) ∧
      (butterfly_invLoop info h fuel len a).length = 2 ^ h := by
  intro fuel
  induction fuel with
  | zero => intro len a _ ha; exact ⟨rfl, ha⟩
  | succ fuel ih =>
    intro len a hle ha
    unfold butterfly_invLoop_checked butterfly_invLoop
    by_cases hlen : len ≠ 0
    · rw [if_pos hlen, if_pos hlen]
      by_cases h1 : len = 1
      · rw [if_pos h1, if_pos h1]
        obtain ⟨e, l⟩ := butterfly_inv_radix2_checked_eq info h len a h1 hle ha
        rw [e, Option.some_bind]
        exact ih _ _ (by omega) l
      · rw [if_neg h1, if_neg h1]
        obtain ⟨e, l⟩ := butterfly_inv_radix4_checked_eq info h len a hroot hr3 (by omega)
          hle hh ha
        rw [e, Option.some_bind]
        exact ih _ _ (by omega) l
    · rw [if_neg hlen, if_neg hlen]
      exact ⟨rfl, ha⟩

/-- C31. For every list `a` of `2^h` entries with `h <= 23 = rank2`: `ceil_pow2` returns `h`;
the tables `root`, `iroot` have `rank2 + 1` entries, `rate2`, `irate2` have `rank2 - 1` and
`rate3`, `irate3` have `rank2 - 2`; `butterfly` and `butterfly_inv` run with every element
access checked return the same result as without checks, so no access is out of range; in
every block `s` where a twiddle table is read, the index `bsf(~s)` is at most `rank2 - 2` in
the radix-2 passes (`irate2` is in fact never read, its guard never holds) and at most
`rank2 - 3` in the radix-4 passes; and every index `i + offset + j p` into `a` is below
`2^h`. -/
theorem C31_accesses_in_bounds (a : List Nat) (h : Nat) (ha : a.length = 2 ^ h)
    (hh : h ≤ 23) :
    ceil_pow2 a.length = h ∧
    (rank2 = 23 ∧ ∃ info, fft_info.new = some info ∧ info.root.length = rank2 + 1 ∧
      info.iroot.length = rank2 + 1 ∧ info.rate2.length = rank2 - 2 + 1 ∧
      info.irate2.length = rank2 - 2 + 1 ∧ info.rate3.length = rank2 - 3 + 1 ∧
      info.irate3.length = rank2 - 3 + 1) ∧
    (∃ res, butterfly_checked a = some res ∧ butterfly a = some res) ∧
    (∃ res, butterfly_inv_checked a = some res ∧ butterfly_inv a = some res) ∧
    (∀ len s, len < h → h - len = 1 → s < 2 ^ len → s + 1 ≠ 2 ^ len →
      bsf (not32 s) ≤ rank2 - 2) ∧
    (∀ len s, len < h → h - len ≠ 1 → s < 2 ^ len → s + 1 ≠ 2 ^ len →
      bsf (not32 s) ≤ rank2 - 3) ∧
    (∀ len s, len ≤ h → len = 1 → s < 2 ^ (len - 1) → s + 1 ≠ 2 ^ (len - 1) →
      bsf (not32 s) ≤ rank2 - 2) ∧
    (∀ len s, len = 1 → s < 2 ^ (len - 1) → s + 1 = 2 ^ (len - 1)) ∧
    (∀ len s, len ≤ h → len ≠ 0 → len ≠ 1 → s < 2 ^ (len - 2) → s + 1 ≠ 2 ^ (len - 2) →
      bsf (not32 s) ≤ rank2 - 3) ∧
    (∀ len s i j, len < h → h - len = 1 → s < 2 ^ len → i < 2 ^ (h - len - 1) → j ≤ 1 →
      i + s * 2 ^ (h - len) + j * 2 ^ (h - len - 1) < 2 ^ h) ∧
    (∀ len s i j, len < h → h - len ≠ 1 → s < 2 ^ len → i < 2 ^ (h - len - 2) → j ≤ 3 →
      i + s * 2 ^ (h - len) + j * 2 ^ (h - len - 2) < 2 ^ h) ∧
    (∀ len s i j, len ≤ h → len = 1 → s < 2 ^ (len - 1) → i < 2 ^ (h - len) → j ≤ 1 →
      i + s * 2 ^ (h - len + 1) + j * 2 ^ (h - len) < 2 ^ h) ∧
    (∀ len s i j, len ≤ h → len ≠ 0 → len ≠ 1 → s < 2 ^ (len - 2) → i < 2 ^ (h - len) →
      j ≤ 3 → i + s * 2 ^ (h - len + 2) + j * 2 ^ (h - len) < 2 ^ h) := by
  obtain ⟨t1, t2, t3, _, t5, t6⟩ := tables_length
  have hc : ceil_pow2 a.length = h := by rw [ha]; exact ceil_pow2_pow h (by omega)
  have hrk := rank2_eq
  refine ⟨hc, ⟨hrk, infoTables, fft_info_new_eq, ?_⟩, ?_, ?_, ?_, ?_, ?_, ?_, ?_, ?_, ?_, ?_,
    ?_⟩
  · rw [hrk]
    exact tables_length
  · refine ⟨butterflyLoop infoTables h h 0 a, ?_, ?_⟩
    · unfold butterfly_checked
      rw [fft_info_new_eq, Option.some_bind, hc]
      exact (butterflyLoop_checked_eq infoTables h t1 t3 t5 hh h 0 a ha).1
    · unfold butterfly
      rw [fft_info_new_eq, hc]
      rfl
  · refine ⟨butterfly_invLoop infoTables h h h a, ?_, ?_⟩
    · unfold butterfly_inv_checked
      rw [fft_info_new_eq, Option.some_bind, hc]
      exact (butterfly_invLoop_checked_eq infoTables h t2 t6 hh h h a le_rfl ha).1
    · unfold butterfly_inv
      rw [fft_info_new_eq, hc]
      rfl
  · intro len s hlen h1 hs hne
    have := bsf_not32_lt len s (by omega) (by omega)
    rw [hrk]; omega
  · intro len s hlen h1 hs hne
    have := bsf_not32_lt len s (by omega) (by omega)
    rw [hrk]; omega
  · intro len s _ h1 hs hne
    subst h1
    simp at hs hne
    omega
  · intro len s h1 hs
    subst h1
    simp at hs ⊢
    omega
  · intro len s hle h0 h1 hs hne
    have := bsf_not32_lt (len - 2) s (by omega) (by omega)
    rw [hrk]; omega
  · intro len s i j hlen h1 hs hi hj
    have e : h = len + 1 := by omega
    subst e
    have e1 : len + 1 - len = 1 := by omega
    rw [e1] at hi ⊢
    simp only [Nat.sub_self, pow_zero, pow_one, pow_succ] at hi ⊢
    have : j * 1 ≤ 1 := by omega
    omega
  · intro len s i j hlen h1 hs hi hj
    have e1 : 2 ^ (h - len) = 4 * 2 ^ (h - len - 2) := by
      have : h - len = h - len - 2 + 2 := by omega
      conv_lhs => rw [this, pow_add]
      ring
    have e2 : 2 ^ h = 2 ^ len * (4 * 2 ^ (h - len - 2)) := by
      rw [← e1, ← pow_add]; congr 1; omega
    rw [e1, e2]
    generalize 2 ^ (h - len - 2) = P at hi ⊢
    have hidx := block4_index_lt P (2 ^ len) i s hi hs
    have hj : j * P ≤ 3 * P := Nat.mul_le_mul_right _ hj
    omega
  · intro len s i j hle h1 hs hi hj
    subst h1
    have e1 : 2 ^ (h - 1 + 1) = 2 * 2 ^ (h - 1) := by rw [pow_succ]; ring
    have e2 : 2 ^ h = 2 * 2 ^ (h - 1) := by
      rw [← e1]; congr 1; omega
    rw [e1, e2]
    simp only [Nat.sub_self, pow_zero] at hs
    have hs0 : s = 0 := by omega
    subst hs0
    generalize 2 ^ (h - 1) = P at hi ⊢
    have hj : j * P ≤ 1 * P := Nat.mul_le_mul_right _ hj
    omega
  · intro len s i j hle h0 h1 hs hi hj
    have e1 : 2 ^ (h - len + 2) = 4 * 2 ^ (h - len) := by rw [pow_add]; ring
    have e2 : 2 ^ h = 2 ^ (len - 2) * (4 * 2 ^ (h - len)) := by
      rw [← e1, ← pow_add]; congr 1; omega
    rw [e1, e2]
    generalize 2 ^ (h - len) = P at hi ⊢
    have hidx := block4_index_lt P (2 ^ (len - 2)) i s hi hs
    have hj : j * P ≤ 3 * P := Nat.mul_le_mul_right _ hj
    omega

theorem C31_accesses_in_bounds_witness :
    (([1, 2, 3, 4, 5, 6, 7, 8] : List Nat).length = 2 ^ 3 ∧ 3 ≤ 23) ∧
    (ceil_pow2 ([1, 2, 3, 4, 5, 6, 7, 8] : List Nat).length = 3 ∧
    (rank2 = 23 ∧ ∃ info, fft_info.new = some info ∧ info.root.length = rank2 + 1 ∧
      info.iroot.length = rank2 + 1 ∧ info.rate2.length = rank2 - 2 + 1 ∧
      info.irate2.length = rank2 - 2 + 1 ∧ info.rate3.length = rank2 - 3 + 1 ∧
      info.irate3.length = rank2 - 3 + 1) ∧
    (∃ res, butterfly_checked ([1, 2, 3, 4, 5, 6, 7, 8] : List Nat) = some res ∧
      butterfly ([1, 2, 3, 4, 5, 6, 7, 8] : List Nat) = some res) ∧
    (∃ res, butterfly_inv_checked ([1, 2, 3, 4, 5, 6, 7, 8] : List Nat) = some res ∧
      butterfly_inv ([1, 2, 3, 4, 5, 6, 7, 8] : List Nat) = some res) ∧
    (∀ len s, len < 3 → 3 - len = 1 → s < 2 ^ len → s + 1 ≠ 2 ^ len →
      bsf (not32 s) ≤ rank2 - 2) ∧
    (∀ len s, len < 3 → 3 - len ≠ 1 → s < 2 ^ len → s + 1 ≠ 2 ^ len →
      bsf (not32 s) ≤ rank2 - 3) ∧
    (∀ len s, len ≤ 3 → len = 1 → s < 2 ^ (len - 1) → s + 1 ≠ 2 ^ (len - 1) →
      bsf (not32 s) ≤ rank2 - 2) ∧
    (∀ len s, len = 1 → s < 2 ^ (len - 1) → s + 1 = 2 ^ (len - 1)) ∧
    (∀ len s, len ≤ 3 → len ≠ 0 → len ≠ 1 → s < 2 ^ (len - 2) → s + 1 ≠ 2 ^ (len - 2) →
      bsf (not32 s) ≤ rank2 - 3) ∧
    (∀ len s i j, len < 3 → 3 - len = 1 → s < 2 ^ len → i < 2 ^ (3 - len - 1) → j ≤ 1 →
      i + s * 2 ^ (3 - len) + j * 2 ^ (3 - len - 1) < 2 ^ 3) ∧
    (∀ len s i j, len < 3 → 3 - len ≠ 1 → s < 2 ^ len → i < 2 ^ (3 - len - 2) → j ≤ 3 →
      i + s * 2 ^ (3 - len) + j * 2 ^ (3 - len - 2) < 2 ^ 3) ∧
    (∀ len s i j, len ≤ 3 → len = 1 → s < 2 ^ (len - 1) → i < 2 ^ (3 - len) → j ≤ 1 →
      i + s * 2 ^ (3 - len + 1) + j * 2 ^ (3 - len) < 2 ^ 3) ∧
    (∀ len s i j, len ≤ 3 → len ≠ 0 → len ≠ 1 → s < 2 ^ (len - 2) → i < 2 ^ (3 - len) →
      j ≤ 3 → i + s * 2 ^ (3 - len + 2) + j * 2 ^ (3 - len) < 2 ^ 3)) :=
  ⟨⟨by decide, by decide⟩, C31_accesses_in_bounds [1, 2, 3, 4, 5, 6, 7, 8] 3 (by decide)
    (by decide)⟩

end atcoder
